import Mathlib

/-!
# se-clavier/back-end : slot distribution by minimum-cost maximum-flow

Shallow embedding of `src/cpp/mcmf.h` (namespace `mcmf`) and of
`src/cpp/distribute.h` (`distribution::init`, `distribution::solve`,
`distribute`).

Conventions of the embedding.

* The module-scope variables of `mcmf` are the fields of `mcmf.State`; every
  function takes the state and returns the new one.
* `std::vector` is a `List`; `v[i]` outside `0 .. size-1` is undefined behaviour
  in the source and is `none` here (`rd`, `wr`).  Every operation therefore
  returns an `Option`.
* `while` loops and the adjacency walk take a `fuel : Nat`; running out of fuel
  is `none` as well.
* `int` values of `mcmf` are `Int`, and `int` is 32 bits wide.  These `int` results
  are reduced to 32 bits: the arena position `e.size() - 1`, a `size_t` that `add`
  narrows into `head[u]` (`toInt32`); the accumulators `maxflow`, `cost`, `a0`, `a1`;
  and what `addEdge`, `addE`, `ADD` and the imbalance loop of `solve` compute from
  their arguments, the capacity `d - l`, the cost `-c`, the imbalances `a[v] + l`,
  `a[u] - l` and the capacity `-a[i]` (`wrap32`).  The remaining `int` arithmetic is
  exact: the node numbers `n + 1`, `n + 2`, the labels `d[u] + e[i].c` and the
  residual capacities `e[i].w - incf[T]`, `e[i ^ 1].w + incf[T]`.  On the networks of
  `distribution::solve` a label is at most `INF + 100`, a residual capacity at most
  `INF` and the node numbers are bounded with the input; the theorems on arbitrary
  networks bound the costs, the labels and the capacities in their hypotheses.
* Node numbers that `distribute.h` computes in `size_t`/`uint64_t` are taken modulo
  `2^64` and truncated to `int32_t` when they are passed to `mcmf` (`toInt32`); a
  signed value stored as `uint64_t` is reduced modulo `2^64` (`toUInt64`).  A
  vector's size is below `2^63`, so its conversion to `int64_t` is the size itself.
-/

/-- Read `xs[i]` for a C++ index `i`; `none` when out of range. -/
def rd {α : Type} (xs : List α) (i : Int) : Option α :=
  if i < 0 then none else xs[i.toNat]?

/-- Write `xs[i] = x` for a C++ index `i`; `none` when out of range. -/
def wr {α : Type} (xs : List α) (i : Int) (x : α) : Option (List α) :=
  if 0 ≤ i ∧ i.toNat < xs.length then some (xs.set i.toNat x) else none

/-- The `std::vector::resize(k, x)` of the source: keep the first `k` elements, pad with `x`. -/
def resize {α : Type} (xs : List α) (k : Nat) (x : α) : List α :=
  xs.take k ++ List.replicate (k - xs.length) x

/-- Conversion of an unsigned value to `int32_t` (two's complement truncation). -/
def toInt32 (x : Nat) : Int :=
  if x % 2 ^ 32 < 2 ^ 31 then ((x % 2 ^ 32 : Nat) : Int) else ((x % 2 ^ 32 : Nat) : Int) - 2 ^ 32

/-- An `int` result whose exact value is `x`, kept in 32 bits (two's complement). -/
def wrap32 (x : Int) : Int :=
  toInt32 (x % 2 ^ 32).toNat

/-- Conversion of a signed value to `uint64_t` / `size_t` (reduction modulo `2^64`). -/
def toUInt64 (x : Int) : Nat :=
  (x % 2 ^ 64).toNat

namespace mcmf

/-- The constant `INF = 0x3f3f3f3f`. -/
def INF : Int := 0x3f3f3f3f

/-- The arena entry `struct E { int u, next, v, w, c; }`. -/
structure E where
  u : Int
  next : Int
  v : Int
  w : Int
  c : Int
deriving DecidableEq, Repr

/-- The module-scope variables of namespace `mcmf` (`in_` is the variable `in`). -/
structure State where
  n : Int
  m : Int
  s : Int
  t : Int
  maxflow : Int
  cost : Int
  in_ : Int
  S : Int
  T : Int
  a0 : Int
  a1 : Int
  d : List Int
  incf : List Int
  pre : List Int
  head : List Int
  a : List Int
  vis : List Int
  e : List E
  q : List Int
deriving DecidableEq, Repr

/-- The expression `i ^ 1` on an `int`: toggle the lowest bit. -/
def xor1 (i : Int) : Int :=
  if i % 2 = 0 then i + 1 else i - 1

/-- The function `add(u, v, w, c)`: push `{u, head[u], v, w, c}`, then `head[u] = e.size() - 1`,
the `size_t` value `e.size() - 1` narrowed to `int`. -/
def add (st : State) (u v w c : Int) : Option State := do
  let hu ← rd st.head u
  let e1 := st.e ++ [{ u := u, next := hu, v := v, w := w, c := c }]
  let head1 ← wr st.head u (toInt32 ((e1.length - 1) % 2 ^ 64))
  pure { st with e := e1, head := head1 }

/-- The function `addE(u, v, w, c)`: the forward entry, then the backward entry `(v, u, 0, -c)`,
the cost `-c` being an `int`. -/
def addE (st : State) (u v w c : Int) : Option State := do
  let st1 ← add st u v w c
  add st1 v u 0 (wrap32 (-c))

/-- The function `addEdge(u, v, l, d, c)`: `a[v] += l, a[u] -= l; addE(u, v, d - l, c)`, in
`int` arithmetic. -/
def addEdge (st : State) (u v l d c : Int) : Option State := do
  let av ← rd st.a v
  let a1 ← wr st.a v (wrap32 (av + l))
  let au ← rd a1 u
  let a2 ← wr a1 u (wrap32 (au - l))
  addE { st with a := a2 } u v (wrap32 (d - l)) c

/-- The function `ADD(u, v, w, c)`. -/
def ADD (st : State) (u v w c : Int) : Option State :=
  if c ≥ 0 then addEdge st u v 0 w c
  else do
    let av ← rd st.a v
    let a1 ← wr st.a v (wrap32 (av + w))
    let au ← rd a1 u
    let a2 ← wr a1 u (wrap32 (au - w))
    let st1 ← addEdge { st with a := a2 } v u 0 w (wrap32 (-c))
    pure { st1 with a1 := wrap32 (st1.a1 + c * w) }

/-- Body of the relaxation test of `spfa` for the arena entry `i` leaving `u`. -/
def relax (st : State) (u i : Int) : Option State := do
  let ei ← rd st.e i
  let v := ei.v
  if ei.w ≠ 0 then do
    let du ← rd st.d u
    let dv ← rd st.d v
    if du + ei.c < dv then do
      let d1 ← wr st.d v (du + ei.c)
      let pre1 ← wr st.pre v i
      let iu ← rd st.incf u
      let incf1 ← wr st.incf v (min iu ei.w)
      let visv ← rd st.vis v
      if visv = 0 then do
        let vis1 ← wr st.vis v 1
        pure { st with d := d1, pre := pre1, incf := incf1, q := st.q ++ [v], vis := vis1 }
      else
        pure { st with d := d1, pre := pre1, incf := incf1 }
    else
      pure st
  else
    pure st

/-- The loop `for (int i = head[u]; i; i = e[i].next)` of `spfa`, from entry `i` on. -/
def spfa_for : Nat → State → Int → Int → Option State
  | 0, _, _, _ => none
  | fuel + 1, st, u, i =>
    if i = 0 then some st
    else do
      let st1 ← relax st u i
      let ei ← rd st1.e i
      spfa_for fuel st1 u ei.next

/-- The loop `while (q.size())` of `spfa`. -/
def spfa_while : Nat → State → Option State
  | 0, _ => none
  | fuel + 1, st =>
    match st.q with
    | [] => some st
    | u :: rest => do
      let vis1 ← wr st.vis u 0
      let st1 : State := { st with q := rest, vis := vis1 }
      let hu ← rd st1.head u
      let st2 ← spfa_for (fuel + 1) st1 u hu
      spfa_while fuel st2

/-- The function `spfa()`: the labelling pass and its return value `d[T] != INF`. -/
def spfa (fuel : Nat) (st : State) : Option (Bool × State) := do
  let vis0 := List.replicate st.vis.length (0 : Int)
  let d0 := List.replicate st.d.length INF
  let q1 := st.q ++ [st.S]
  let d1 ← wr d0 st.S 0
  let incf1 ← wr st.incf st.S 2000000000
  let st1 : State := { st with vis := vis0, d := d1, incf := incf1, q := q1 }
  let st2 ← spfa_while fuel st1
  let dT ← rd st2.d st2.T
  pure (decide (dT ≠ INF), st2)

/-- The loop `while (x != S)` of `update`, from node `x` on. -/
def update_while : Nat → State → Int → Option State
  | 0, _, _ => none
  | fuel + 1, st, x =>
    if x = st.S then some st
    else do
      let i ← rd st.pre x
      let fT ← rd st.incf st.T
      let ei ← rd st.e i
      let e1 ← wr st.e i { ei with w := ei.w - fT }
      let fT1 ← rd st.incf st.T
      let ej ← rd e1 (xor1 i)
      let e2 ← wr e1 (xor1 i) { ej with w := ej.w + fT1 }
      let ek ← rd e2 (xor1 i)
      update_while fuel { st with e := e2 } ek.v

/-- The function `update()`; `maxflow` and `cost` are accumulated in 32 bits. -/
def update (fuel : Nat) (st : State) : Option State := do
  let st1 ← update_while fuel st st.T
  let fT ← rd st1.incf st1.T
  let st2 : State := { st1 with maxflow := wrap32 (st1.maxflow + fT) }
  let dT ← rd st2.d st2.T
  let fT1 ← rd st2.incf st2.T
  pure { st2 with cost := wrap32 (st2.cost + dT * fT1) }

/-- The function `work()`: `while (spfa()) update();`. -/
def work : Nat → State → Option State
  | 0, _ => none
  | fuel + 1, st => do
    let (found, st1) ← spfa (fuel + 1) st
    if found then do
      let st2 ← update (fuel + 1) st1
      work fuel st2
    else
      pure st1

/-- Body of the loop `for (int i = 1; i <= n; i++)` of `solve`. -/
def solve_imbalance (st : State) (i : Int) : Option State := do
  let ai ← rd st.a i
  if ai = 0 then pure st
  else if ai > 0 then addEdge st st.S i 0 ai 0
  else do
    let ai1 ← rd st.a i
    addEdge st i st.T 0 (wrap32 (-ai1)) 0

/-- Feasibility phase of `solve()` (lines 81-89): the super source and sink, the imbalance
edges, the plumbing edge and the first `work()`. -/
def solve_feasibility (fuel : Nat) (st : State) : Option State := do
  let st1 : State := { st with S := st.n + 1, T := st.n + 2 }
  let st2 ← (List.range st1.n.toNat).foldlM (fun acc (k : Nat) => solve_imbalance acc ((k : Int) + 1)) st1
  let st3 ← addEdge st2 st2.T st2.S 0 INF 0
  work fuel st3

/-- Start of the optimization phase of `solve()` (lines 90-94): the real source and sink become
the endpoints, the cost of the first phase is booked, the plumbing pair is closed. -/
def optimize_init (st4 : State) : Option State := do
  let st5 : State := { st4 with S := st4.s, T := st4.t }
  let st6 : State := { st5 with a1 := wrap32 (st5.a1 + st5.cost) }
  let st7 : State := { st6 with cost := 0, maxflow := 0 }
  let el ← rd st7.e ((st7.e.length : Int) - 1)
  let e1 ← wr st7.e ((st7.e.length : Int) - 1) { el with w := 0 }
  let el2 ← rd e1 ((e1.length : Int) - 2)
  let e2 ← wr e1 ((e1.length : Int) - 2) { el2 with w := 0 }
  pure { st7 with e := e2 }

/-- Optimization phase of `solve()` (lines 90-96). -/
def solve_optimize (fuel : Nat) (st4 : State) : Option State := do
  let st7 ← optimize_init st4
  let st8 ← work fuel st7
  pure { st8 with a0 := wrap32 (st8.a0 + st8.maxflow), a1 := wrap32 (st8.a1 + st8.cost) }

/-- The function `solve()`. -/
def solve (fuel : Nat) (st : State) : Option State := do
  let st4 ← solve_feasibility fuel st
  solve_optimize fuel st4

/-- The loop `while (q.size()) q.pop();` of `init`. -/
def drain : List Int → List Int
  | [] => []
  | _ :: rest => drain rest

/-- The function `init()`: every scalar is set to `0`, every vector is cleared, the queue is
emptied and the arena receives its two dummy entries. -/
def init (st : State) : State :=
  let st1 : State := { st with n := 0, m := 0, s := 0, t := 0, maxflow := 0, cost := 0, in_ := 0,
                               S := 0, T := 0, a0 := 0, a1 := 0 }
  let st2 : State := { st1 with d := [], incf := [], pre := [], head := [], a := [], vis := [],
                                e := [] }
  let st3 : State := { st2 with q := drain st2.q }
  { st3 with e := (st3.e ++ [⟨0, 0, 0, 0, 0⟩]) ++ [⟨0, 0, 0, 0, 0⟩] }

/-- The function `set_n(n)`: every per-node array is resized to `n + 3` entries, padded with `0`.
A negative `n + 3` converts to a size no vector can have (`std::length_error`). -/
def set_n (st : State) (n : Int) : Option State :=
  if n + 3 < 0 then none
  else
    let k := (n + 3).toNat
    some { st with d := resize st.d k 0, incf := resize st.incf k 0, pre := resize st.pre k 0,
                   head := resize st.head k 0, a := resize st.a k 0, vis := resize st.vis k 0 }

end mcmf

/-- The record `struct User { uint64_t id; vector<uint64_t> stamps; }`. -/
structure User where
  id : Nat
  stamps : List Nat
deriving DecidableEq, Repr

/-- The record `struct Spare { uint64_t stamp, day; }`. -/
structure Spare where
  stamp : Nat
  day : Nat
deriving DecidableEq, Repr

/-- The members of `struct distribution`. -/
structure distribution where
  user : List User
  spare : List Spare
deriving DecidableEq, Repr

/-- The loop `for (i = 0; i < k; i++) dst[i] = src[i]`, with `k` iterations left from index `i`. -/
def copy_loop {α : Type} (src : List α) : Nat → Nat → List α → Option (List α)
  | 0, _, dst => some dst
  | k + 1, i, dst => do
    let x ← src[i]?
    let dst1 ← wr dst (i : Int) x
    copy_loop src k (i + 1) dst1

namespace distribution

/-- The method `distribution::init(users, spares, spare_size)`; `Except.error` is the
`runtime_error` thrown by the size check. -/
def init (_self : distribution) (users : List User) (spares : List Spare) (spare_size : Int) :
    Except String distribution :=
  if spare_size ≠ (spares.length : Int) then
    Except.error "spare_size != spares.size()"
  else
    let user0 := resize ([] : List User) users.length ⟨0, []⟩
    let spare0 := resize ([] : List Spare) spare_size.toNat ⟨0, 0⟩
    match copy_loop spares spare_size.toNat 0 spare0 with
    | none => Except.error "out of range"
    | some spare1 =>
      match copy_loop users users.length 0 user0 with
      | none => Except.error "out of range"
      | some user1 => Except.ok { user := user1, spare := spare1 }

/-- First loop of `solve`: the three source edges of participant `i`. -/
def build_source (s : Int) (st : mcmf.State) (i : Nat) : Option mcmf.State := do
  let st1 ← mcmf.addEdge st s (toInt32 ((i + 2) % 2 ^ 64)) 0 1 20
  let st2 ← mcmf.addEdge st1 s (toInt32 ((i + 2) % 2 ^ 64)) 0 1 50
  mcmf.addEdge st2 s (toInt32 ((i + 2) % 2 ^ 64)) 0 1 100

/-- Second loop of `solve`: the edge from the base node of participant `j` to its layer `i`. -/
def build_day (P : Nat) (i : Nat) (st : mcmf.State) (j : Nat) : Option mcmf.State :=
  mcmf.addEdge st (toInt32 ((j + 2) % 2 ^ 64)) (toInt32 ((j + 2 + i * P) % 2 ^ 64)) 0 1 0

/-- Third loop of `solve`: the edge of participant `i` for the preference entry `p`. -/
def build_pref (self : distribution) (n : Int) (i : Nat) (st : mcmf.State) (p : Nat) :
    Option mcmf.State := do
  let P := self.user.length
  let S := self.spare.length
  let sp ← self.spare[p]?
  let sp1 ← self.spare[p]?
  mcmf.addEdge st (toInt32 ((i + 2 + (sp.day + 1) * P) % 2 ^ 64))
    (toInt32 ((toUInt64 n + 2 ^ 64 - S % 2 ^ 64 + sp1.stamp) % 2 ^ 64)) 0 1 0

/-- Fourth loop of `solve`: the edge from slot node `i` to the sink. -/
def build_sink (self : distribution) (n t : Int) (st : mcmf.State) (i : Nat) : Option mcmf.State :=
  mcmf.addEdge st (toInt32 ((toUInt64 n + 2 ^ 64 - self.spare.length % 2 ^ 64 + i) % 2 ^ 64)) t 0 1 0

/-- The network construction of `solve` (lines 40-65), on the solver state left by earlier calls. -/
def build (self : distribution) (st : mcmf.State) : Option mcmf.State := do
  let st0 := mcmf.init st
  let P := self.user.length
  let S := self.spare.length
  let s : Int := 1
  let n : Int := toInt32 ((P * 8 + S + 2) % 2 ^ 64)
  let t : Int := n
  let st1 ← mcmf.set_n { st0 with s := s, t := t, n := n } n
  let st2 ← (List.range P).foldlM (build_source s) st1
  let st3 ← (List.range 7).foldlM
    (fun acc i => (List.range P).foldlM (build_day P (i + 1)) acc) st2
  let st4 ← (List.range P).foldlM
    (fun acc i => do
      let ui ← self.user[i]?
      ui.stamps.foldlM (build_pref self n i) acc) st3
  (List.range S).foldlM (build_sink self n t) st4

/-- Body of the extraction loop of `solve` (lines 71-75) for the arena position `i`. -/
def extract_step (a0 a1 a2 : Int) (e : List mcmf.E) (res : List User) (i : Nat) :
    Option (List User) := do
  let ei ← e[i]?
  if ei.u ≤ a1 ∧ ei.u > a0 ∧ ei.v ≤ a2 ∧ ei.v > a1 then do
    let r ← rd res (ei.u - a0 - 1)
    wr res (ei.u - a0 - 1) { r with stamps := r.stamps ++ [toUInt64 (ei.v - a2 - 1)] }
  else
    pure res

/-- Body of the last loop of `solve` (lines 76-79): copy the identifier, sort the slots. -/
def finish_step (self : distribution) (res : List User) (i : Nat) : Option (List User) := do
  let ui ← self.user[i]?
  let r ← res[i]?
  let r1 : User := { r with id := ui.id }
  wr res (i : Int) { r1 with stamps := r1.stamps.insertionSort (fun x y => x ≤ y) }

/-- The result extraction of `solve` (lines 67-80) from the solved network. -/
def extract (self : distribution) (st : mcmf.State) : Option (List User) := do
  let P := self.user.length
  let a0 : Int := 1 + (P : Int)
  let a1 : Int := 1 + (P : Int) * 8
  let a2 : Int := st.n - 1
  let res0 : List User := List.replicate P ⟨0, []⟩
  let res1 ← (List.range (st.e.length - 2)).foldlM
    (fun acc k => extract_step a0 a1 a2 st.e acc (k + 2)) res0
  (List.range P).foldlM (finish_step self) res1

/-- The method `distribution::solve()`: the result list and the solver state it leaves. -/
def solve (self : distribution) (fuel : Nat) (st : mcmf.State) :
    Option (List User × mcmf.State) := do
  let st1 ← build self st
  let st2 ← mcmf.solve fuel st1
  let res ← extract self st2
  pure (res, st2)

end distribution

/-- The function `distribute(users, spares)`, run on the solver state `st` left by earlier calls.
`Except.error` is a thrown exception, `Except.ok none` undefined behaviour or missing fuel. -/
def distribute (fuel : Nat) (st : mcmf.State) (users : List User) (spares : List Spare) :
    Except String (Option (List User)) :=
  match distribution.init ⟨[], []⟩ users spares (spares.length : Int) with
  | Except.error msg => Except.error msg
  | Except.ok sol => Except.ok ((sol.solve fuel st).map Prod.fst)

deriving instance DecidableEq for Except

/-! ## Definitions used to state the properties -/

namespace mcmf

/-- The module-scope variables at program start: zero scalars, empty vectors. -/
def start : State :=
  { n := 0, m := 0, s := 0, t := 0, maxflow := 0, cost := 0, in_ := 0, S := 0, T := 0,
    a0 := 0, a1 := 0, d := [], incf := [], pre := [], head := [], a := [], vis := [],
    e := [], q := [] }

/-- An edge with bounds as `addEdge(u, v, l, d, c)` receives it. -/
structure BoundedEdge where
  u : Int
  v : Int
  l : Int
  d : Int
  c : Int
deriving DecidableEq, Repr

/-- A caller that sets `n`, `s`, `t`, sizes the arrays and inserts the edges `es` with `addEdge`. -/
def network (n s t : Int) (es : List BoundedEdge) : Option State := do
  let st1 ← set_n { init start with n := n, s := s, t := t } n
  es.foldlM (fun acc b => addEdge acc b.u b.v b.l b.d b.c) st1

/-- Net flow leaving node `x` when edge `k` of `es` carries `f[k]`. -/
def net_out (es : List BoundedEdge) (f : List Int) (x : Int) : Int :=
  ((es.zip f).map (fun p => if p.1.u = x then p.2 else 0)).sum
    - ((es.zip f).map (fun p => if p.1.v = x then p.2 else 0)).sum

/-- The flow `f` respects every edge's bounds `[l, d]` and is conserved at every node other than
the source `s` and the sink `t`. -/
def respects_bounds (s t : Int) (es : List BoundedEdge) (f : List Int) : Prop :=
  f.length = es.length ∧
  (∀ p ∈ es.zip f, p.1.l ≤ p.2 ∧ p.2 ≤ p.1.d) ∧
  (∀ b ∈ es, (b.u = s ∨ b.u = t ∨ net_out es f b.u = 0) ∧ (b.v = s ∨ b.v = t ∨ net_out es f b.v = 0))

instance (s t : Int) (es : List BoundedEdge) (f : List Int) : Decidable (respects_bounds s t es f) := by
  unfold respects_bounds
  infer_instance

end mcmf

/-- Number of grants of an assignment that lists, for every participant, the granted slots. -/
def grants (g : List (List Nat)) : Nat :=
  (g.map List.length).sum

/-- An assignment of slot indices to participants that the rules allow: one list per participant,
only preferred slots, every slot granted at most once, at most three slots per participant and
at most one per day. -/
def valid_assignment (users : List User) (spares : List Spare) (g : List (List Nat)) : Prop :=
  g.length = users.length ∧
  (∀ i k, k ∈ g.getD i [] → k < spares.length ∧ k ∈ (users.getD i ⟨0, []⟩).stamps) ∧
  g.flatten.Nodup ∧
  (∀ l ∈ g, l.length ≤ 3 ∧ (l.map (fun k => (spares.getD k ⟨0, 0⟩).day)).Nodup)


/-! ## Reading the solver state: accessors and structural invariants -/

namespace mcmf

/-- Entry `i` of a per-node array (`0` outside the array). -/
def get (xs : List Int) (i : Int) : Int :=
  xs.getD i.toNat 0

/-- Arena entry `i` (the dummy entry outside the arena). -/
def edge (es : List E) (i : Int) : E :=
  es.getD i.toNat ⟨0, 0, 0, 0, 0⟩

/-- Arena position `i` belongs to the adjacency chain that starts at position `h`
(`h`, `e[h].next`, `e[e[h].next].next`, ... up to the terminating `0`), within `k` links. -/
def in_chain (es : List E) : Nat → Int → Int → Prop
  | 0, _, _ => False
  | k + 1, h, i => h ≠ 0 ∧ (h = i ∨ in_chain es k (edge es h).next i)

/-- Structural invariant of the solver state: array sizes, endpoints in range, adjacency
chains made of earlier entries of the same tail node and listing every entry, paired entries
reversed. -/
structure Wf (st : State) : Prop where
  len_incf : st.incf.length = st.d.length
  len_pre : st.pre.length = st.d.length
  len_head : st.head.length = st.d.length
  len_vis : st.vis.length = st.d.length
  S_range : 0 ≤ st.S ∧ st.S < st.d.length
  T_range : 0 ≤ st.T ∧ st.T < st.d.length
  two_le : 2 ≤ st.e.length
  even : st.e.length % 2 = 0
  e_range : ∀ i : Int, 2 ≤ i → i < st.e.length →
    0 ≤ (edge st.e i).u ∧ (edge st.e i).u < st.d.length ∧
    0 ≤ (edge st.e i).v ∧ (edge st.e i).v < st.d.length
  next_ok : ∀ i : Int, 2 ≤ i → i < st.e.length →
    (edge st.e i).next = 0 ∨
      (2 ≤ (edge st.e i).next ∧ (edge st.e i).next < i ∧
        (edge st.e (edge st.e i).next).u = (edge st.e i).u)
  head_ok : ∀ u : Int, 0 ≤ u → u < st.d.length →
    get st.head u = 0 ∨
      (2 ≤ get st.head u ∧ get st.head u < st.e.length ∧ (edge st.e (get st.head u)).u = u)
  pair : ∀ i : Int, 2 ≤ i → i < st.e.length →
    (edge st.e (xor1 i)).u = (edge st.e i).v ∧ (edge st.e (xor1 i)).v = (edge st.e i).u ∧
    (edge st.e (xor1 i)).c = -(edge st.e i).c
  complete : ∀ i : Int, 2 ≤ i → i < st.e.length →
    in_chain st.e st.e.length (get st.head (edge st.e i).u) i

/-- The state after the body of the relaxation test for entry `i` leaving `u`. -/
def relaxed (st : State) (u i : Int) : State :=
  if (edge st.e i).w ≠ 0 ∧ get st.d u + (edge st.e i).c < get st.d (edge st.e i).v then
    { st with
      d := st.d.set (edge st.e i).v.toNat (get st.d u + (edge st.e i).c),
      pre := st.pre.set (edge st.e i).v.toNat i,
      incf := st.incf.set (edge st.e i).v.toNat (min (get st.incf u) (edge st.e i).w),
      q := if get st.vis (edge st.e i).v = 0 then st.q ++ [(edge st.e i).v] else st.q,
      vis := if get st.vis (edge st.e i).v = 0 then st.vis.set (edge st.e i).v.toNat 1 else st.vis }
  else st


/-- Cost shape of a network seen from the current source `S`: entries leaving `S` cost between
`0` and `100`, entries leaving another node cost at most `0`, entries that do not touch `S`
cost `0`, and no entry is a loop. -/
structure CostShape (st : State) : Prop where
  out_S : ∀ i : Int, 2 ≤ i → i < st.e.length → (edge st.e i).u = st.S →
    0 ≤ (edge st.e i).c ∧ (edge st.e i).c ≤ 100
  not_S : ∀ i : Int, 2 ≤ i → i < st.e.length → (edge st.e i).u ≠ st.S → (edge st.e i).c ≤ 0
  inner : ∀ i : Int, 2 ≤ i → i < st.e.length → (edge st.e i).u ≠ st.S → (edge st.e i).v ≠ st.S →
    (edge st.e i).c = 0
  no_loop : ∀ i : Int, 2 ≤ i → i < st.e.length → (edge st.e i).u ≠ (edge st.e i).v

/-- The residual capacities are not negative and `p` is a potential for the residual graph:
every entry with residual capacity has a non-negative reduced cost; `p` is `0` at the source
and nowhere negative. -/
structure Res (st : State) (p : Int → Int) : Prop where
  w_nonneg : ∀ i : Int, 2 ≤ i → i < st.e.length → 0 ≤ (edge st.e i).w
  reduced : ∀ i : Int, 2 ≤ i → i < st.e.length → (edge st.e i).w ≠ 0 →
    0 ≤ (edge st.e i).c + p (edge st.e i).u - p (edge st.e i).v
  pot_S : p st.S = 0
  pot_nonneg : ∀ x : Int, 0 ≤ p x

/-- The predecessor entries lead from node `x` back to the source `S` in `k` steps. -/
def chain (es : List E) (pre : List Int) (S : Int) : Nat → Int → Prop
  | 0, x => x = S
  | k + 1, x => x ≠ S ∧ chain es pre S k (edge es (get pre x)).u

/-- Invariant of the labelling pass `spfa`, relative to a potential `p`; `pend` holds of the
entries of the node being processed that the adjacency walk has not reached yet. -/
structure SpfaInv (st : State) (p : Int → Int) (pend : Int → Prop) : Prop where
  dS : get st.d st.S = 0
  fS : get st.incf st.S = 2000000000
  d_bound : ∀ x : Int, 0 ≤ x → x < st.d.length →
    get st.d x = INF ∨ (p x ≤ get st.d x ∧ get st.d x ≤ 100)
  q_ok : ∀ x ∈ st.q, 0 ≤ x ∧ x < st.d.length ∧ get st.d x ≠ INF
  vis_q : ∀ x : Int, 0 ≤ x → x < st.d.length → get st.vis x ≠ 0 → x ∈ st.q
  pre_ok : ∀ x : Int, 0 ≤ x → x < st.d.length → x ≠ st.S → get st.d x ≠ INF →
    2 ≤ get st.pre x ∧ get st.pre x < st.e.length ∧ (edge st.e (get st.pre x)).v = x ∧
    (edge st.e (get st.pre x)).w ≠ 0 ∧ get st.d (edge st.e (get st.pre x)).u ≠ INF ∧
    get st.d (edge st.e (get st.pre x)).u + (edge st.e (get st.pre x)).c ≤ get st.d x ∧
    (get st.d (edge st.e (get st.pre x)).u + (edge st.e (get st.pre x)).c = get st.d x →
      get st.incf x = min (get st.incf (edge st.e (get st.pre x)).u) (edge st.e (get st.pre x)).w)
  chain_ok : ∀ x : Int, 0 ≤ x → x < st.d.length → get st.d x ≠ INF → ∃ k, chain st.e st.pre st.S k x
  relaxed_ok : ∀ i : Int, 2 ≤ i → i < st.e.length → (edge st.e i).w ≠ 0 →
    get st.d (edge st.e i).u ≠ INF → (edge st.e i).u ∉ st.q → ¬ pend i →
    get st.d (edge st.e i).v ≤ get st.d (edge st.e i).u + (edge st.e i).c


/-- The labelling pass changes only `d`, `incf`, `pre`, `vis` and the queue. -/
def spfa_frame (st st' : State) : Prop :=
  st' = { st with d := st'.d, incf := st'.incf, pre := st'.pre, vis := st'.vis, q := st'.q }

/-- Entries of node `u` that the adjacency walk standing at position `h` has still to treat. -/
def pending (es : List E) (u h : Int) (j : Int) : Prop :=
  (edge es j).u = u ∧ ∃ k, in_chain es k h j

/-- Termination measure of the labelling pass: the sum of the labels plus the queue length. -/
def spfa_measure (st : State) : Nat :=
  (st.d.map Int.toNat).sum + st.q.length


/-- Fuel that lets one labelling pass finish on the state `st`. -/
def spfa_fuel (st : State) : Nat :=
  st.d.length * 1061109567 + st.e.length + 2


/-- The predecessor entries met on the walk of `update` from node `x` back to the source
(at most `k` of them). -/
def path (es : List E) (pre : List Int) (S : Int) : Nat → Int → List Int
  | 0, _ => []
  | k + 1, x => if x = S then [] else get pre x :: path es pre S k (edge es (get pre x)).u

/-- The walk of `update` from node `x` reaches the source in `k` steps through predecessor
entries that lie in the arena and enter the node they are recorded for. -/
def path_ok (es : List E) (pre : List Int) (S : Int) (N : Nat) : Nat → Int → Prop
  | 0, x => x = S
  | k + 1, x => x ≠ S ∧ 0 ≤ x ∧ x < N ∧ 2 ≤ get pre x ∧ get pre x < es.length ∧
      (edge es (get pre x)).v = x ∧ path_ok es pre S N k (edge es (get pre x)).u

/-- One step of `update`: `e[i].w -= f, e[i ^ 1].w += f`. -/
def push (f : Int) (es : List E) (i : Int) : List E :=
  (es.set i.toNat { edge es i with w := (edge es i).w - f }).set (xor1 i).toNat
    { edge (es.set i.toNat { edge es i with w := (edge es i).w - f }) (xor1 i) with
      w := (edge (es.set i.toNat { edge es i with w := (edge es i).w - f }) (xor1 i)).w + f }

/-- Two arenas with the same entries up to the residual capacities. -/
def same_arcs (es es' : List E) : Prop :=
  es'.length = es.length ∧
  ∀ j : Int, (edge es' j).u = (edge es j).u ∧ (edge es' j).v = (edge es j).v ∧
    (edge es' j).next = (edge es j).next ∧ (edge es' j).c = (edge es j).c


/-- The state after `update()` when the predecessor walk from the sink takes `k` steps. -/
def augmented (st : State) (k : Nat) : State :=
  { st with e := (path st.e st.pre st.S k st.T).foldl (push (get st.incf st.T)) st.e,
            maxflow := wrap32 (st.maxflow + get st.incf st.T),
            cost := wrap32 (st.cost + get st.d st.T * get st.incf st.T) }

/-- The potential after an augmentation: the label of a labelled node, the old potential
raised by `200` elsewhere. -/
def new_pot (st : State) (p : Int → Int) (x : Int) : Int :=
  if 0 ≤ x ∧ x < st.d.length ∧ get st.d x ≠ INF then get st.d x else p x + 200

/-- Every saturated entry that leaves the source costs at most the potential of the sink. -/
def Fair (st : State) (p : Int → Int) : Prop :=
  ∀ i : Int, 2 ≤ i → i < st.e.length → (edge st.e i).u = st.S → (edge st.e i).w = 0 →
    (edge st.e i).c ≤ p st.T

/-- Residual capacity left on the entries that leave the source. -/
def source_cap (st : State) : Nat :=
  ((List.range (st.e.length - 2)).map
    (fun j : Nat => if (edge st.e ((j : Int) + 2)).u = st.S
      then (edge st.e ((j : Int) + 2)).w.toNat else 0)).sum


/-- One iteration of `work()`: a labelling pass that reaches the sink, then the augmentation. -/
def aug_step (st st' : State) : Prop :=
  ∃ fuel st1, spfa fuel st = some (true, st1) ∧ update fuel st1 = some st'

/-- The states at the head of the loop of `work()` started on `st`. -/
def reached (st st' : State) : Prop :=
  Relation.ReflTransGen aug_step st st'

/-- What every state at the head of the loop of `work()` satisfies. -/
structure WorkInv (st : State) : Prop where
  wf : Wf st
  shape : CostShape st
  pot : ∃ p, Res st p ∧ Fair st p
  q_nil : st.q = []
  T_ne_S : st.T ≠ st.S


/-- The state after `addEdge(u, v, l, d, c)` when `u` and `v` lie inside the arrays; the arena
positions stored in `head` are narrowed to `int`, and the imbalances, the capacity `d - l` and
the cost `-c` are `int` results. -/
def added (st : State) (u v l d c : Int) : State :=
  { st with
    a := (st.a.set v.toNat (wrap32 (get st.a v + l))).set u.toNat
      (wrap32 (get (st.a.set v.toNat (wrap32 (get st.a v + l))) u - l)),
    e := (st.e ++ [{ u := u, next := get st.head u, v := v, w := wrap32 (d - l), c := c }]) ++
      [{ u := v, next := get (st.head.set u.toNat (toInt32 (st.e.length % 2 ^ 64))) v, v := u,
         w := 0, c := wrap32 (-c) }],
    head := (st.head.set u.toNat (toInt32 (st.e.length % 2 ^ 64))).set v.toNat
      (toInt32 ((st.e.length + 1) % 2 ^ 64)) }

end mcmf

/-- Input that the network construction is specified for: the node count fits `int32_t`, every
preference is an index into the slot list, and every slot has a day in `0..6` and a stamp below
the number of slots. -/
def well_formed (users : List User) (spares : List Spare) : Prop :=
  users.length * 8 + spares.length + 5 < 2 ^ 31 ∧
  (∀ u ∈ users, ∀ p ∈ u.stamps, p < spares.length) ∧
  (∀ sp ∈ spares, sp.day ≤ 6 ∧ sp.stamp < spares.length)

namespace mcmf

/-- Shape of a forward entry of the network that `distribution::solve` builds on `n` nodes:
capacity `1`; it leaves the source `1` with a cost between `0` and `100`, or it joins two
different nodes other than the source at cost `0`. -/
def arc_ok (n : Int) (e : E) : Prop :=
  ((e.u = 1 ∧ 0 ≤ e.c ∧ e.c ≤ 100) ∨ (2 ≤ e.u ∧ e.u ≠ e.v ∧ e.c = 0)) ∧
  2 ≤ e.v ∧ e.v ≤ n ∧ 1 ≤ e.u ∧ e.u ≤ n ∧ e.w = 1

/-- Invariant of the network construction of `distribution::solve` on `n` nodes.  The state is
well-formed as long as the arena positions fit `int` (at most `2^31` entries); the sizes of
the arrays and of the arena do not depend on that. -/
structure NetInv (st : State) (n : Int) : Prop where
  wf : st.e.length ≤ 2 ^ 31 → Wf st
  len_a : st.a.length = st.d.length
  a_zero : ∀ x : Int, 0 ≤ x → get st.a x = 0
  N_eq : (st.d.length : Int) = n + 3
  n_ge : 2 ≤ n
  q_nil : st.q = []
  fwd : ∀ i : Int, 2 ≤ i → i < st.e.length → i % 2 = 0 →
    arc_ok n (edge st.e i) ∧ (edge st.e (i + 1)).w = 0
  head_hi : get st.head (n + 1) = 0 ∧ get st.head (n + 2) = 0
  scal : st.n = n ∧ st.s = 1 ∧ st.t = n ∧ st.maxflow = 0 ∧ st.cost = 0 ∧ st.a0 = 0 ∧ st.a1 = 0
  lens : st.incf.length = st.d.length ∧ st.pre.length = st.d.length ∧
    st.head.length = st.d.length ∧ st.vis.length = st.d.length
  arena : 2 ≤ st.e.length ∧ st.e.length % 2 = 0

/-- The first `k` participants have their three source entries at the arena positions
`2 + 6a`, `4 + 6a`, `6 + 6a`, from the source `1` to the base node `a + 2`, with the costs
`20`, `50` and `100`. -/
def src_arcs (es : List E) (k : Nat) : Prop :=
  2 + 6 * k ≤ es.length ∧
  ∀ a : Nat, a < k →
    ((edge es (2 + 6 * (a : Int))).u = 1 ∧ (edge es (2 + 6 * (a : Int))).v = (a : Int) + 2 ∧
      (edge es (2 + 6 * (a : Int))).c = 20) ∧
    ((edge es (4 + 6 * (a : Int))).u = 1 ∧ (edge es (4 + 6 * (a : Int))).v = (a : Int) + 2 ∧
      (edge es (4 + 6 * (a : Int))).c = 50) ∧
    ((edge es (6 + 6 * (a : Int))).u = 1 ∧ (edge es (6 + 6 * (a : Int))).v = (a : Int) + 2 ∧
      (edge es (6 + 6 * (a : Int))).c = 100)

/-- Every forward entry behind the source entries of the `k` participants leaves a node other
than the source `1`. -/
def inner_arcs (es : List E) (k : Nat) : Prop :=
  ∀ i : Int, 2 + 6 * (k : Int) ≤ i → i < es.length → i % 2 = 0 → 2 ≤ (edge es i).u


/-- The state that the feasibility phase of `solve()` leaves on a network without imbalance:
the plumbing pair is appended and one labelling pass has run from the super source. -/
def after_feasibility (st : State) : State :=
  { added { st with S := st.n + 1, T := st.n + 2 } (st.n + 2) (st.n + 1) 0 INF 0 with
    vis := (List.replicate st.vis.length (0 : Int)).set (st.n + 1).toNat 0,
    d := (List.replicate st.d.length INF).set (st.n + 1).toNat 0,
    incf := st.incf.set (st.n + 1).toNat 2000000000,
    q := [] }

/-- The state at the start of the second `work()` of `solve()`. -/
def optimize_start (st4 : State) : State :=
  { st4 with
    S := st4.s, T := st4.t, a1 := wrap32 (st4.a1 + st4.cost), cost := 0, maxflow := 0,
    e := (st4.e.set ((st4.e.length : Int) - 1).toNat
        { edge st4.e ((st4.e.length : Int) - 1) with w := 0 }).set ((st4.e.length : Int) - 2).toNat
      { edge (st4.e.set ((st4.e.length : Int) - 1).toNat
          { edge st4.e ((st4.e.length : Int) - 1) with w := 0 }) ((st4.e.length : Int) - 2) with
        w := 0 } }


/-- What the state at the start of the second `work()` looks like on a network built on `n`
nodes whose arena had the entries `es` before `solve()`. -/
structure OptStart (es : List E) (st7 : State) (n : Int) : Prop where
  inv : WorkInv st7
  S_eq : st7.S = 1
  T_eq : st7.T = n
  len : st7.e.length = es.length + 2
  old : ∀ j : Int, 0 ≤ j → j < es.length → edge st7.e j = edge es j
  fwd : ∀ i : Int, 2 ≤ i → i < es.length → i % 2 = 0 →
    arc_ok n (edge es i) ∧ (edge es (i + 1)).w = 0
  plumb : (edge st7.e es.length).w = 0 ∧ (edge st7.e ((es.length : Int) + 1)).w = 0 ∧
    (edge st7.e es.length).u = n + 2 ∧ (edge st7.e es.length).v = n + 1 ∧
    (edge st7.e es.length).c = 0
  scal : st7.maxflow = 0 ∧ st7.cost = 0 ∧ st7.a0 = 0 ∧ st7.a1 = 0 ∧ st7.s = 1 ∧ st7.t = n ∧
    (st7.d.length : Int) = n + 3 ∧ 2 ≤ n

end mcmf

instance (users : List User) (spares : List Spare) : Decidable (well_formed users spares) := by
  unfold well_formed
  infer_instance

namespace mcmf

/-- A path of entries with residual capacity from node `x` to node `y` that never touches the
source `S`: what is left of an augmenting path after its first entry. -/
inductive res_path (es : List E) (S : Int) : Int → Int → Prop
  | nil (x : Int) : res_path es S x x
  | cons (i : Int) (y : Int) : 2 ≤ i → i < es.length → (edge es i).w ≠ 0 →
      (edge es i).u ≠ S → (edge es i).v ≠ S → res_path es S (edge es i).v y →
      res_path es S (edge es i).u y

/-- The order of the tiers as the specification words it: whenever some participant's
cost-50 (cost-100) source entry is saturated, every participant's cost-20 (cost-50) source
entry is saturated. -/
def claimed_order (es : List E) (P : Nat) : Prop :=
  ∀ a b : Nat, a < P → b < P →
    ((edge es (4 + 6 * (a : Int))).w = 0 → (edge es (2 + 6 * (b : Int))).w = 0) ∧
    ((edge es (6 + 6 * (a : Int))).w = 0 → (edge es (4 + 6 * (b : Int))).w = 0)

/-- The order of the tiers that the solver keeps: a participant's own source entries are
saturated in the order 20, 50, 100; and whenever participant `a` has its cost-50 (cost-100)
entry saturated while participant `b` has its cost-20 (cost-50) entry free, no path with
residual capacity that avoids the source `1` leads from the base node `b + 2` to the sink `n`:
no augmenting path starts with the free entry of `b`. -/
def tier_order (es : List E) (P : Nat) (n : Int) : Prop :=
  ∀ a b : Nat, a < P → b < P →
    ((edge es (4 + 6 * (a : Int))).w = 0 → (edge es (2 + 6 * (a : Int))).w = 0) ∧
    ((edge es (6 + 6 * (a : Int))).w = 0 → (edge es (4 + 6 * (a : Int))).w = 0) ∧
    ((edge es (4 + 6 * (a : Int))).w = 0 → (edge es (2 + 6 * (b : Int))).w ≠ 0 →
      ¬ res_path es 1 ((b : Int) + 2) n) ∧
    ((edge es (6 + 6 * (a : Int))).w = 0 → (edge es (4 + 6 * (b : Int))).w ≠ 0 →
      ¬ res_path es 1 ((b : Int) + 2) n)

/-- What links a state of the second `work()` to the state `st0` it started from: the same
entries up to the residual capacities, the same endpoints, and the same total residual
capacity on every pair of entries. -/
def linked (st0 st : State) : Prop :=
  same_arcs st0.e st.e ∧ st.S = st0.S ∧ st.T = st0.T ∧
  ∀ i : Int, 2 ≤ i → i < st0.e.length → i % 2 = 0 →
    (edge st.e i).w + (edge st.e (i + 1)).w = (edge st0.e i).w + (edge st0.e (i + 1)).w


/-- Number of forward entries of the arena (the entries at the even positions from `2` on). -/
def arcs (es : List E) : Nat :=
  (es.length - 2) / 2

/-- The `k`-th forward entry of the arena. -/
def arc (es : List E) (k : Nat) : E :=
  edge es (2 * (k : Int) + 2)

/-- The flow that the arena carries on its `k`-th forward entry: the residual capacity of the
paired backward entry. -/
def flow (es : List E) (k : Nat) : Int :=
  (edge es (2 * (k : Int) + 3)).w

/-- Net amount that leaves node `x` when the `k`-th forward entry carries `g k`. -/
def outflow (es : List E) (g : Nat → Int) (x : Int) : Int :=
  Finset.sum (Finset.range (arcs es)) (fun k => if (arc es k).u = x then g k else 0)
    - Finset.sum (Finset.range (arcs es)) (fun k => if (arc es k).v = x then g k else 0)

/-- Total cost of the amounts `g`. -/
def flow_cost (es : List E) (g : Nat → Int) : Int :=
  Finset.sum (Finset.range (arcs es)) (fun k => (arc es k).c * g k)

/-- The amounts `g` form a flow from `s` to `t` on the network whose forward entries carry
their capacity in `w`: every amount lies between `0` and the capacity, and every node other
than `s` and `t` among the `N` nodes is balanced. -/
def feasible (es : List E) (s t : Int) (N : Nat) (g : Nat → Int) : Prop :=
  (∀ k : Nat, k < arcs es → 0 ≤ g k ∧ g k ≤ (arc es k).w) ∧
  ∀ x : Nat, x < N → (x : Int) ≠ s → (x : Int) ≠ t → outflow es g x = 0

/-- How often the list `P` of arena positions uses the `k`-th pair forwards, minus how often
it uses it backwards. -/
def path_use (P : List Int) (k : Nat) : Int :=
  (P.count (2 * (k : Int) + 2) : Int) - (P.count (2 * (k : Int) + 3) : Int)


/-- Flow bookkeeping of the second `work()`, relative to the state `st0` it started from: the
state is linked to `st0`, the flow it carries is balanced at every node other than the source
and the sink, `maxflow` is the amount that leaves the source and `cost` is the cost of the
flow, both kept in 32 bits, the cost is at most `100` per unit, and the totals `a0`, `a1` are
untouched. -/
structure FlowInv (st0 st : State) : Prop where
  link : linked st0 st
  balance : ∀ x : Nat, x < st0.d.length → (x : Int) ≠ st0.S → (x : Int) ≠ st0.T →
    outflow st0.e (flow st.e) x = 0
  value : st.maxflow = wrap32 (outflow st0.e (flow st.e) st0.S)
  cost : st.cost = wrap32 (flow_cost st0.e (flow st.e))
  bound : 0 ≤ flow_cost st0.e (flow st.e) ∧
    flow_cost st0.e (flow st.e) ≤ 100 * outflow st0.e (flow st.e) st0.S
  totals : st.a0 = st0.a0 ∧ st.a1 = st0.a1


/-- Sum of the costs `20`, `50`, `100` of the saturated source entries of the `P`
participants. -/
def tier_cost (es : List E) (P : Nat) : Int :=
  Finset.sum (Finset.range P) (fun a =>
    (if (edge es (2 + 6 * (a : Int))).w = 0 then 20 else 0) +
    (if (edge es (4 + 6 * (a : Int))).w = 0 then 50 else 0) +
    (if (edge es (6 + 6 * (a : Int))).w = 0 then 100 else 0))

/-- The amounts `g` on the pairs of the arena `es`, and nothing on the pairs behind them. -/
def restrict (es : List E) (g : Nat → Int) (k : Nat) : Int :=
  if k < arcs es then g k else 0


/-- The part of the feasibility phase of `solve()` that precedes the first `work()`
(lines 81-88): the super source and sink, the imbalance edges and the plumbing edge. -/
def feasibility_init (st : State) : Option State := do
  let st1 : State := { st with S := st.n + 1, T := st.n + 2 }
  let st2 ← (List.range st1.n.toNat).foldlM
    (fun acc (k : Nat) => solve_imbalance acc ((k : Int) + 1)) st1
  addEdge st2 st2.T st2.S 0 INF 0


/-- A walk from node `x` to node `y` along arena entries with positive residual capacity, of
total cost `c`. -/
inductive res_walk (es : List E) : Int → Int → Int → Prop
  | nil (x : Int) : res_walk es x x 0
  | cons (i : Int) (y c : Int) : 2 ≤ i → i < es.length → 0 < (edge es i).w →
      res_walk es (edge es i).v y c → res_walk es (edge es i).u y ((edge es i).c + c)

end mcmf

/-- A forward edge of the network as the construction is specified: endpoints, capacity and
cost. -/
structure Arc where
  u : Int
  v : Int
  cap : Int
  cost : Int
deriving DecidableEq, Repr

namespace mcmf

/-- The forward entries of the arena (positions `2`, `4`, ...), in the order of insertion. -/
def forward_arcs (es : List E) : List Arc :=
  (List.range (arcs es)).map
    (fun k => ⟨(arc es k).u, (arc es k).v, (arc es k).w, (arc es k).c⟩)

/-- The arena has an even length of at least two. -/
def even_arena (st : State) : Prop :=
  2 ≤ st.e.length ∧ st.e.length % 2 = 0

end mcmf

/-- The edges of the network for `P` participants and `S` slots, when the node of the slot
with index `p` is `slot_node p`: three source edges per participant with the costs 20, 50,
100; one base-to-layer edge per day and participant; one layer-to-slot edge per preference,
from the layer of the preferred slot's own day; one slot-to-sink edge per slot. -/
def arcs_with (slot_node : Nat → Int) (users : List User) (spares : List Spare) : List Arc :=
  (List.range users.length).flatMap
      (fun i => [⟨1, (i : Int) + 2, 1, 20⟩, ⟨1, (i : Int) + 2, 1, 50⟩, ⟨1, (i : Int) + 2, 1, 100⟩]) ++
    (List.range 7).flatMap
      (fun d => (List.range users.length).map
        (fun j => ⟨(j : Int) + 2, (j : Int) + 2 + ((d : Int) + 1) * users.length, 1, 0⟩)) ++
    (List.range users.length).flatMap
      (fun i => (users.getD i ⟨0, []⟩).stamps.map
        (fun p => ⟨(i : Int) + 2 + (((spares.getD p ⟨0, 0⟩).day : Int) + 1) * users.length,
          slot_node p, 1, 0⟩)) ++
    (List.range spares.length).map
      (fun k => ⟨8 * (users.length : Int) + 2 + k,
        8 * (users.length : Int) + (spares.length : Int) + 2, 1, 0⟩)

/-- The edges as the specification lists them: a preference edge enters the node that carries
the slot-to-sink edge of the preferred slot, the node `8P + 2 + p` of the slot with index
`p`. -/
def claimed_arcs (users : List User) (spares : List Spare) : List Arc :=
  arcs_with (fun p => 8 * (users.length : Int) + 2 + p) users spares

/-- The edges with the preference edges entering the node `8P + 2 + stamp` given by the
identifier of the preferred slot. -/
def stamp_arcs (users : List User) (spares : List Spare) : List Arc :=
  arcs_with (fun p => 8 * (users.length : Int) + 2 + (spares.getD p ⟨0, 0⟩).stamp) users spares

/-- The categories of nodes of the network. -/
inductive Category where
  | source
  | base
  | layer
  | slot
  | sink
  | super_source
  | super_sink
deriving DecidableEq, Repr

/-- The index range of a category for `P` participants and `S` slots, with `n = 8P + S + 2`:
source `{1}`, participant base `[2, P + 1]`, participant-day layers `[P + 2, 8P + 1]`, slots
`[8P + 2, n - 1]`, sink `{n}`, super source `{n + 1}`, super sink `{n + 2}`. -/
def in_category (P S : Nat) : Category → Int → Prop
  | Category.source, x => x = 1
  | Category.base, x => 2 ≤ x ∧ x ≤ (P : Int) + 1
  | Category.layer, x => (P : Int) + 2 ≤ x ∧ x ≤ 8 * (P : Int) + 1
  | Category.slot, x => 8 * (P : Int) + 2 ≤ x ∧ x ≤ 8 * (P : Int) + (S : Int) + 2 - 1
  | Category.sink, x => x = 8 * (P : Int) + (S : Int) + 2
  | Category.super_source, x => x = 8 * (P : Int) + (S : Int) + 2 + 1
  | Category.super_sink, x => x = 8 * (P : Int) + (S : Int) + 2 + 2

/-- An edge that joins two categories the construction connects: source to base, base to
layer, layer to slot, slot to sink. -/
def joins_categories (P S : Nat) (a : Arc) : Prop :=
  (in_category P S Category.source a.u ∧ in_category P S Category.base a.v) ∨
  (in_category P S Category.base a.u ∧ in_category P S Category.layer a.v) ∨
  (in_category P S Category.layer a.u ∧ in_category P S Category.slot a.v) ∨
  (in_category P S Category.slot a.u ∧ in_category P S Category.sink a.v)

/-- The arena that `distribution::solve` and `mcmf::solve` fill for this input has at most
`2^31` entries, so that every position `e.size() - 1` that `add` stores in `head` fits `int`:
twenty entries per participant, two per preference and two per slot, the two dummy entries and
the plumbing pair of the feasibility phase. -/
def arena_fits (users : List User) (spares : List Spare) : Prop :=
  20 * users.length + 2 * (users.map (fun u => u.stamps.length)).sum + 2 * spares.length + 4
    ≤ 2 ^ 31

instance (users : List User) (spares : List Spare) : Decidable (arena_fits users spares) := by
  unfold arena_fits
  infer_instance

namespace mcmf

/-- Labels `D` that no entry with residual capacity can improve: for every such entry whose
tail is labelled, the label of the head is at most the label of the tail plus the cost. -/
def settled (es : List E) (D : Int → Int) : Prop :=
  ∀ i : Int, 2 ≤ i → i < es.length → (edge es i).w ≠ 0 → D (edge es i).u ≠ INF →
    D (edge es i).v ≤ D (edge es i).u + (edge es i).c

/-- Invariant of the labelling pass `spfa` on an arbitrary arena; `pend` holds of the entries
of the node being processed that the adjacency walk has not reached yet, and `D` stands for
labels that the pass may end with. -/
structure Lab (st : State) (D : Int → Int) (pend : Int → Prop) : Prop where
  d_le : ∀ x : Int, 0 ≤ x → x < st.d.length → get st.d x ≤ INF
  q_ok : ∀ x ∈ st.q, 0 ≤ x ∧ x < st.d.length ∧ get st.d x ≠ INF
  vis_q : ∀ x : Int, 0 ≤ x → x < st.d.length → get st.vis x ≠ 0 → x ∈ st.q
  pre_ok : ∀ x : Int, 0 ≤ x → x < st.d.length → x ≠ st.S → get st.d x ≠ INF →
    2 ≤ get st.pre x ∧ get st.pre x < st.e.length ∧ (edge st.e (get st.pre x)).v = x ∧
    (edge st.e (get st.pre x)).w ≠ 0 ∧ get st.d (edge st.e (get st.pre x)).u ≠ INF ∧
    get st.d (edge st.e (get st.pre x)).u + (edge st.e (get st.pre x)).c ≤ get st.d x ∧
    (get st.d (edge st.e (get st.pre x)).u + (edge st.e (get st.pre x)).c = get st.d x →
      get st.incf x = min (get st.incf (edge st.e (get st.pre x)).u) (edge st.e (get st.pre x)).w)
  inc_pos : (∀ i : Int, 2 ≤ i → i < st.e.length → 0 ≤ (edge st.e i).w) →
    ∀ x : Int, 0 ≤ x → x < st.d.length → get st.d x ≠ INF → 0 < get st.incf x
  chain_ok : (∀ x : Int, 0 ≤ x → x < st.d.length → D x ≤ get st.d x) →
    ∀ x : Int, 0 ≤ x → x < st.d.length → get st.d x ≠ INF → ∃ k, chain st.e st.pre st.S k x
  src_ok : (∀ x : Int, 0 ≤ x → x < st.d.length → D x ≤ get st.d x) →
    get st.d st.S = 0 ∧ get st.incf st.S = 2000000000
  relaxed_ok : ∀ i : Int, 2 ≤ i → i < st.e.length → (edge st.e i).w ≠ 0 →
    get st.d (edge st.e i).u ≠ INF → (edge st.e i).u ∉ st.q → ¬ pend i →
    get st.d (edge st.e i).v ≤ get st.d (edge st.e i).u + (edge st.e i).c


/-- What a finished labelling pass leaves: a well-formed state with an empty queue whose labels
satisfy the invariant of the pass relative to themselves. -/
def Labelled (st : State) : Prop :=
  Wf st ∧ st.q = [] ∧ Lab st (get st.d) (fun _ => False)


/-- Example state: what `network 2 1 2` leaves after `addEdge(1, 2, 0, 5, 3)`, with `S = s` and
`T = t` as in the optimization phase of `solve()`. -/
def one_edge_net : State :=
  { n := 2, m := 0, s := 1, t := 2, maxflow := 0, cost := 0, in_ := 0, S := 1, T := 2,
    a0 := 0, a1 := 0, d := [0, 0, 0, 0, 0], incf := [0, 0, 0, 0, 0], pre := [0, 0, 0, 0, 0],
    head := [0, 2, 3, 0, 0], a := [0, 0, 0, 0, 0], vis := [0, 0, 0, 0, 0],
    e := [⟨0, 0, 0, 0, 0⟩, ⟨0, 0, 0, 0, 0⟩, ⟨1, 0, 2, 5, 3⟩, ⟨2, 0, 1, 0, -3⟩], q := [] }

/-- Example state: `one_edge_net` after its labelling pass. -/
def one_edge_labelled : State :=
  { one_edge_net with d := [1061109567, 0, 3, 1061109567, 1061109567],
                      incf := [0, 2000000000, 5, 0, 0], pre := [0, 0, 2, 0, 0] }


/-- The pairing property of the arena: an even number of entries, the two dummy entries in
front (their fields other than the residual capacity are `0`), and behind them every odd
position holding the reverse of the entry before it, with the cost negated as an `int`. -/
def Paired (es : List E) : Prop :=
  2 ≤ es.length ∧ es.length % 2 = 0 ∧
  (∀ p : Int, 0 ≤ p → p < 2 → (edge es p).u = 0 ∧ (edge es p).next = 0 ∧ (edge es p).v = 0 ∧
    (edge es p).c = 0) ∧
  ∀ p : Int, 2 ≤ p → p < es.length → p % 2 = 0 →
    (edge es (p + 1)).u = (edge es p).v ∧ (edge es (p + 1)).v = (edge es p).u ∧
    (edge es (p + 1)).c = wrap32 (-(edge es p).c)

/-- A call of one of the functions that a client of `mcmf` uses after sizing the arrays;
`solve` carries the fuel of its loops. -/
inductive Call where
  | addEdge (u v l d c : Int)
  | ADD (u v w c : Int)
  | solve (fuel : Nat)

/-- The effect of one call. -/
def call (st : State) : Call → Option State
  | Call.addEdge u v l d c => addEdge st u v l d c
  | Call.ADD u v w c => ADD st u v w c
  | Call.solve fuel => solve fuel st

/-- The effect of a sequence of calls. -/
def calls (st : State) (cs : List Call) : Option State :=
  cs.foldlM call st


/-- No entry of the arena has a negative residual capacity. -/
def nonneg (es : List E) : Prop :=
  ∀ e ∈ es, 0 ≤ e.w

/-- Invariant of the solver state between two calls: the node arrays have one size, the queue
is empty, the arena holds the dummy entries, and the state is well-formed whichever nodes
inside the arrays are taken as `S` and `T`. -/
structure Sound (st : State) : Prop where
  len_head : st.head.length = st.d.length
  q_nil : st.q = []
  two_le : 2 ≤ st.e.length
  wf : ∀ S T : Int, 0 ≤ S → S < st.d.length → 0 ≤ T → T < st.d.length →
    Wf { st with S := S, T := T }

/-- Every imbalance lies strictly between `-2^31` and `2^31`. -/
def imbalances_fit (a : List Int) : Prop :=
  ∀ x ∈ a, -2 ^ 31 < x ∧ x < 2 ^ 31

instance (a : List Int) : Decidable (imbalances_fit a) := by
  unfold imbalances_fit
  infer_instance

/-- The states at the head of the loop of `work()` during a `solve()` started on `st0`, in the
feasibility phase or in the optimization phase. -/
def in_solve (st0 st : State) : Prop :=
  (∃ st3, feasibility_init st0 = some st3 ∧ reached st3 st) ∨
  (∃ fuel st3 st4 st7, feasibility_init st0 = some st3 ∧ work fuel st3 = some st4 ∧
    optimize_init st4 = some st7 ∧ reached st7 st)


/-- Example state: what `network 2 1 2` leaves after `addEdge(1, 2, 2, 5, 3)` and
`addEdge(2, 1, 0, 4, 1)`. -/
def two_edge_net : State :=
  { n := 2, m := 0, s := 1, t := 2, maxflow := 0, cost := 0, in_ := 0, S := 0, T := 0,
    a0 := 0, a1 := 0, d := [0, 0, 0, 0, 0], incf := [0, 0, 0, 0, 0], pre := [0, 0, 0, 0, 0],
    head := [0, 5, 4, 0, 0], a := [0, -2, 2, 0, 0], vis := [0, 0, 0, 0, 0],
    e := [⟨0, 0, 0, 0, 0⟩, ⟨0, 0, 0, 0, 0⟩, ⟨1, 0, 2, 3, 3⟩, ⟨2, 0, 1, 0, -3⟩,
          ⟨2, 3, 1, 4, 1⟩, ⟨1, 2, 2, 0, -1⟩],
    q := [] }

/-- Example state: `two_edge_net` at the head of the loop of `work()` in the feasibility phase
of `solve()`, before the first labelling pass. -/
def two_edge_ready : State :=
  { two_edge_net with
    S := 3
    T := 4
    head := [0, 6, 9, 11, 10]
    e := [⟨0, 0, 0, 0, 0⟩, ⟨0, 0, 0, 0, 0⟩, ⟨1, 0, 2, 3, 3⟩, ⟨2, 0, 1, 0, -3⟩,
          ⟨2, 3, 1, 4, 1⟩, ⟨1, 2, 2, 0, -1⟩, ⟨1, 5, 4, 2, 0⟩, ⟨4, 0, 1, 0, 0⟩,
          ⟨3, 0, 2, 2, 0⟩, ⟨2, 4, 3, 0, 0⟩, ⟨4, 7, 3, 1061109567, 0⟩, ⟨3, 8, 4, 0, 0⟩] }


end mcmf

/-! # Theorems -/

/-! ## Fuel: a loop that finished keeps its result when given more fuel -/

namespace mcmf

theorem spfa_for_mono : ∀ (f f' : Nat) (st : State) (u i : Int) (r : State),
    f ≤ f' → spfa_for f st u i = some r → spfa_for f' st u i = some r
  | 0, _, _, _, _, _, _, h => by simp [spfa_for] at h
  | f + 1, 0, _, _, _, _, hle, _ => by omega
  | f + 1, f' + 1, st, u, i, r, hle, h => by
    simp only [spfa_for] at h ⊢
    split_ifs at h ⊢ with hi
    · exact h
    · simp only [Option.bind_eq_bind, Option.bind_eq_some] at h ⊢
      obtain ⟨st1, h1, ei, h2, h3⟩ := h
      exact ⟨st1, h1, ei, h2, spfa_for_mono f f' _ _ _ _ (by omega) h3⟩

theorem spfa_while_mono : ∀ (f f' : Nat) (st : State) (r : State),
    f ≤ f' → spfa_while f st = some r → spfa_while f' st = some r
  | 0, _, _, _, _, h => by simp [spfa_while] at h
  | f + 1, 0, _, _, hle, _ => by omega
  | f + 1, f' + 1, st, r, hle, h => by
    simp only [spfa_while] at h ⊢
    split at h
    · rename_i hq
      simpa [hq] using h
    · rename_i u rest hq
      simp only [Option.bind_eq_bind, Option.bind_eq_some] at h ⊢
      obtain ⟨vis1, h1, hu, h2, st2, h3, h4⟩ := h
      exact ⟨vis1, h1, hu, h2, st2, spfa_for_mono _ _ _ _ _ _ (by omega) h3,
        spfa_while_mono f f' _ _ (by omega) h4⟩

theorem spfa_mono (f f' : Nat) (st : State) (r : Bool × State)
    (hle : f ≤ f') (h : spfa f st = some r) : spfa f' st = some r := by
  simp only [spfa, Option.bind_eq_bind, Option.bind_eq_some] at h ⊢
  obtain ⟨d1, h1, incf1, h2, st2, h3, h4⟩ := h
  exact ⟨d1, h1, incf1, h2, st2, spfa_while_mono _ _ _ _ hle h3, h4⟩

theorem update_while_mono : ∀ (f f' : Nat) (st : State) (x : Int) (r : State),
    f ≤ f' → update_while f st x = some r → update_while f' st x = some r
  | 0, _, _, _, _, _, h => by simp [update_while] at h
  | f + 1, 0, _, _, _, hle, _ => by omega
  | f + 1, f' + 1, st, x, r, hle, h => by
    simp only [update_while] at h ⊢
    split_ifs at h ⊢ with hx
    · exact h
    · simp only [Option.bind_eq_bind, Option.bind_eq_some] at h ⊢
      obtain ⟨i, h1, fT, h2, ei, h3, e1, h4, fT1, h5, ej, h6, e2, h7, ek, h8, h9⟩ := h
      exact ⟨i, h1, fT, h2, ei, h3, e1, h4, fT1, h5, ej, h6, e2, h7, ek, h8,
        update_while_mono f f' _ _ _ (by omega) h9⟩

theorem update_mono (f f' : Nat) (st : State) (r : State)
    (hle : f ≤ f') (h : update f st = some r) : update f' st = some r := by
  simp only [update, Option.bind_eq_bind, Option.bind_eq_some] at h ⊢
  obtain ⟨st1, h1, h2⟩ := h
  exact ⟨st1, update_while_mono _ _ _ _ _ hle h1, h2⟩

theorem work_mono : ∀ (f f' : Nat) (st : State) (r : State),
    f ≤ f' → work f st = some r → work f' st = some r
  | 0, _, _, _, _, h => by simp [work] at h
  | f + 1, 0, _, _, hle, _ => by omega
  | f + 1, f' + 1, st, r, hle, h => by
    simp only [work, Option.bind_eq_bind, Option.bind_eq_some] at h ⊢
    obtain ⟨⟨found, st1⟩, h1, h2⟩ := h
    refine ⟨(found, st1), spfa_mono _ _ _ _ (by omega) h1, ?_⟩
    cases found with
    | true =>
      simp only [if_true, Option.bind_eq_bind, Option.bind_eq_some] at h2 ⊢
      obtain ⟨st2, h3, h4⟩ := h2
      exact ⟨st2, update_mono _ _ _ _ (by omega) h3, work_mono f f' _ _ (by omega) h4⟩
    | false => simpa using h2

theorem solve_feasibility_mono (f f' : Nat) (st : State) (r : State)
    (hle : f ≤ f') (h : solve_feasibility f st = some r) : solve_feasibility f' st = some r := by
  simp only [solve_feasibility, Option.bind_eq_bind, Option.bind_eq_some] at h ⊢
  obtain ⟨st2, h1, st3, h2, h3⟩ := h
  exact ⟨st2, h1, st3, h2, work_mono _ _ _ _ hle h3⟩

theorem solve_optimize_mono (f f' : Nat) (st : State) (r : State)
    (hle : f ≤ f') (h : solve_optimize f st = some r) : solve_optimize f' st = some r := by
  simp only [solve_optimize, Option.bind_eq_bind, Option.bind_eq_some] at h ⊢
  obtain ⟨st7, h1, st8, h5, h6⟩ := h
  exact ⟨st7, h1, st8, work_mono _ _ _ _ hle h5, h6⟩

theorem solve_mono (f f' : Nat) (st : State) (r : State)
    (hle : f ≤ f') (h : solve f st = some r) : solve f' st = some r := by
  simp only [solve, Option.bind_eq_bind, Option.bind_eq_some] at h ⊢
  obtain ⟨st4, h1, h2⟩ := h
  exact ⟨st4, solve_feasibility_mono _ _ _ _ hle h1, solve_optimize_mono _ _ _ _ hle h2⟩

/-- Two runs of `solve` on the same state that both finish give the same state. -/
theorem solve_fuel_unique (f f' : Nat) (st r r' : State)
    (h : solve f st = some r) (h' : solve f' st = some r') : r = r' := by
  rcases Nat.le_total f f' with hle | hle
  · have := solve_mono _ _ _ _ hle h
    rw [h'] at this
    exact (Option.some.inj this).symm
  · have := solve_mono _ _ _ _ hle h'
    rw [h] at this
    exact Option.some.inj this

end mcmf

/-! ## The solver state is reset by every solve -/

namespace mcmf

theorem drain_eq_nil (q : List Int) : drain q = [] := by
  induction q with
  | nil => rfl
  | cons x rest ih => simpa [drain] using ih

theorem init_eq_start (st : State) : init st = init start := by
  simp [init, drain_eq_nil]

end mcmf

theorem build_state_indep (self : distribution) (st st' : mcmf.State) :
    self.build st = self.build st' := by
  unfold distribution.build
  rw [mcmf.init_eq_start st, mcmf.init_eq_start st']

theorem solve_state_indep (self : distribution) (fuel : Nat) (st st' : mcmf.State) :
    self.solve fuel st = self.solve fuel st' := by
  unfold distribution.solve
  rw [build_state_indep self st st']

theorem distribute_state_indep (fuel : Nat) (st st' : mcmf.State) (users : List User)
    (spares : List Spare) : distribute fuel st users spares = distribute fuel st' users spares := by
  unfold distribute
  split
  · rfl
  · rw [solve_state_indep _ fuel st st']

/-! ## `distribution::init` -/

theorem copy_loop_spec {α : Type} (src : List α) :
    ∀ (k i : Nat) (dst : List α), i + k = src.length → dst.length = src.length →
      dst.take i = src.take i → copy_loop src k i dst = some src
  | 0, i, dst, hk, hlen, htake => by
    have hi : i = src.length := by omega
    rw [hi, List.take_length] at htake
    rw [← hlen, List.take_length] at htake
    simp [copy_loop, htake]
  | k + 1, i, dst, hk, hlen, htake => by
    have hi : i < src.length := by omega
    simp only [copy_loop, Option.bind_eq_bind]
    rw [List.getElem?_eq_getElem hi]
    have hw : wr dst (i : Int) src[i] = some (dst.set i src[i]) := by
      simp [wr, hlen, hi]
    simp only [Option.some_bind, hw]
    apply copy_loop_spec src k (i + 1) _ (by omega) (by simpa using hlen)
    have hset : (dst.set i src[i]).take i = dst.take i := by
      rw [List.set_take]
      exact List.set_eq_of_length_le (by simp)
    rw [List.take_succ, List.take_succ, hset]
    simp [htake, hlen, hi]


/-- C5: `distribution::init(users, spares, spare_size)` raises exactly when `spare_size` differs
from the number of elements of `spares`; otherwise the stored participant list is `users` and
the stored slot list is `spares`, element for element. -/
theorem init_checks_size_and_copies (self : distribution) (users : List User)
    (spares : List Spare) (spare_size : Int) :
    distribution.init self users spares spare_size =
      if spare_size ≠ (spares.length : Int) then Except.error "spare_size != spares.size()"
      else Except.ok { user := users, spare := spares } := by
  unfold distribution.init
  split_ifs with h
  · rfl
  · have hs : spare_size.toNat = spares.length := by simp at h; omega
    have h1 : copy_loop spares spare_size.toNat 0
        (resize ([] : List Spare) spare_size.toNat ⟨0, 0⟩) = some spares := by
      rw [hs]
      exact copy_loop_spec spares _ 0 _ (by simp) (by simp [resize]) (by simp)
    have h2 : copy_loop users users.length 0
        (resize ([] : List User) users.length ⟨0, []⟩) = some users :=
      copy_loop_spec users _ 0 _ (by simp) (by simp [resize]) (by simp)
    simp only [h1, h2]

/-- C1, evaluated on three participants who all prefer the same single slot (identifier `0`):
the code returns a non-empty list for each of the three, and the entry is `2^64 - 1`, not the
slot's identifier. -/
theorem distribute_three_same_slot (st : mcmf.State) :
    distribute 100 st [⟨1, [0]⟩, ⟨2, [0]⟩, ⟨3, [0]⟩] [⟨0, 0⟩] =
      Except.ok (some [⟨1, [18446744073709551615]⟩, ⟨2, [18446744073709551615]⟩,
        ⟨3, [18446744073709551615]⟩]) := by
  rw [distribute_state_indep 100 st mcmf.start]
  decide!

/-- C2, evaluated on one participant with four preferred slots that all lie on day `0`: the
code returns four entries for the participant. -/
theorem distribute_four_same_day (st : mcmf.State) :
    distribute 100 st [⟨7, [0, 1, 2, 3]⟩] [⟨0, 0⟩, ⟨1, 0⟩, ⟨2, 0⟩, ⟨3, 0⟩] =
      Except.ok (some [⟨7, [18446744073709551612, 18446744073709551613, 18446744073709551614,
        18446744073709551615]⟩]) := by
  rw [distribute_state_indep 100 st mcmf.start]
  decide!

theorem grants_eq_length_flatten (g : List (List Nat)) : grants g = g.flatten.length := by
  simp [grants, List.length_flatten]

/-- C3, evaluated on two participants who both prefer the only slot: the result lists hold two
entries in total, while no assignment that the rules allow grants more than one. -/
theorem distribute_total_exceeds_maximum (st : mcmf.State) :
    (distribute 100 st [⟨1, [0]⟩, ⟨2, [0]⟩] [⟨0, 0⟩]).map
        (Option.map (fun res => grants (res.map User.stamps))) = Except.ok (some 2)
    ∧ ∀ g, valid_assignment [⟨1, [0]⟩, ⟨2, [0]⟩] [⟨0, 0⟩] g → grants g ≤ 1 := by
  constructor
  · rw [distribute_state_indep 100 st mcmf.start]
    decide!
  · intro g hg
    obtain ⟨hlen, hpref, hnodup, -⟩ := hg
    rw [grants_eq_length_flatten]
    have hsub : g.flatten ⊆ [0] := by
      intro k hk
      obtain ⟨l, hl, hkl⟩ := List.mem_flatten.mp hk
      obtain ⟨i, hi, rfl⟩ := List.getElem_of_mem hl
      have := (hpref i k (by simpa [List.getD, hi] using hkl)).1
      simp at this
      simp [this]
    simpa using (List.subperm_of_subset hnodup hsub).length_le

/-- C6, evaluated on one participant who prefers one slot of day `1`: whatever the fuel, the
code returns no list, because the extraction writes `res[1]` in a result vector of size `1`. -/
theorem distribute_day_one_out_of_range (fuel : Nat) (st : mcmf.State) :
    distribute fuel st [⟨5, [0]⟩] [⟨0, 1⟩] = Except.ok none := by
  rw [distribute_state_indep fuel st mcmf.start]
  have hinit : distribution.init ⟨[], []⟩ [⟨5, [0]⟩] [⟨0, 1⟩] (([⟨0, 1⟩] : List Spare).length : Int)
      = Except.ok ⟨[⟨5, [0]⟩], [⟨0, 1⟩]⟩ := by decide!
  have hrun : ((distribution.build ⟨[⟨5, [0]⟩], [⟨0, 1⟩]⟩ mcmf.start).bind (mcmf.solve 100)).map
      (distribution.extract ⟨[⟨5, [0]⟩], [⟨0, 1⟩]⟩) = some none := by decide!
  unfold distribute
  rw [hinit]
  simp only [Except.ok.injEq, Option.map_eq_none']
  cases hres : distribution.solve ⟨[⟨5, [0]⟩], [⟨0, 1⟩]⟩ fuel mcmf.start with
  | none => rfl
  | some r =>
    exfalso
    simp only [distribution.solve, Option.bind_eq_bind, Option.bind_eq_some] at hres
    obtain ⟨st1, h1, st2, h2, res, h3, -⟩ := hres
    rw [h1] at hrun
    simp only [Option.some_bind, Option.map_eq_some'] at hrun
    obtain ⟨st3, h4, h5⟩ := hrun
    have := mcmf.solve_fuel_unique _ _ _ _ _ h2 h4
    subst this
    rw [h3] at h5
    exact absurd h5 (by simp)

/-- C9, evaluated on two participants and one slot of day `2` that the first participant
prefers: `mcmf::init()` does bring the solver to its fixed state and the solver returns, from
whatever state earlier solves left behind; the extraction then decodes the preference edge to
the index `0 + 2 * 2 = 4` and writes `res[4]` in a result vector of size `2`. The write is out
of range, so the run has no defined result lists, whatever the fuel and the earlier state. -/
theorem solve_result_undefined_on_later_day (fuel : Nat) (st : mcmf.State) :
    mcmf.init st =
      { n := 0, m := 0, s := 0, t := 0, maxflow := 0, cost := 0, in_ := 0, S := 0, T := 0,
        a0 := 0, a1 := 0, d := [], incf := [], pre := [], head := [], a := [], vis := [],
        e := [⟨0, 0, 0, 0, 0⟩, ⟨0, 0, 0, 0, 0⟩], q := [] } ∧
    (∃ st2, (distribution.build ⟨[⟨3, [0]⟩, ⟨4, []⟩], [⟨0, 2⟩]⟩ st).bind (mcmf.solve 100)
        = some st2 ∧
      distribution.extract ⟨[⟨3, [0]⟩, ⟨4, []⟩], [⟨0, 2⟩]⟩ st2 = none) ∧
    distribution.solve ⟨[⟨3, [0]⟩, ⟨4, []⟩], [⟨0, 2⟩]⟩ fuel st = none := by
  have hrun : ((distribution.build ⟨[⟨3, [0]⟩, ⟨4, []⟩], [⟨0, 2⟩]⟩ mcmf.start).bind
      (mcmf.solve 100)).map (distribution.extract ⟨[⟨3, [0]⟩, ⟨4, []⟩], [⟨0, 2⟩]⟩)
      = some none := by decide!
  rw [build_state_indep _ st mcmf.start, solve_state_indep _ fuel st mcmf.start]
  refine ⟨by simp [mcmf.init, mcmf.drain_eq_nil], ?_, ?_⟩
  · simp only [Option.map_eq_some'] at hrun
    exact hrun
  · cases hres : distribution.solve ⟨[⟨3, [0]⟩, ⟨4, []⟩], [⟨0, 2⟩]⟩ fuel mcmf.start with
    | none => rfl
    | some r =>
      exfalso
      simp only [distribution.solve, Option.bind_eq_bind, Option.bind_eq_some] at hres
      obtain ⟨st1, h1, st2, h2, res, h3, -⟩ := hres
      rw [h1] at hrun
      simp only [Option.some_bind, Option.map_eq_some'] at hrun
      obtain ⟨st3, h4, h5⟩ := hrun
      have := mcmf.solve_fuel_unique _ _ _ _ _ h2 h4
      subst this
      rw [h3] at h5
      exact absurd h5 (by simp)

/-- C8, evaluated on the network with `n = 2`, `s = 1`, `t = 2` and the single edge
`addEdge(1, 2, 1, 1, 0)`: one unit on the edge respects its bounds `[1, 1]`, yet after the
feasibility phase the super-source edge `3 → 2` (arena position `6`) still has residual
capacity `1`, and the plumbing edge (position `8`) runs from the super sink `4` to the super
source `3`. -/
theorem feasibility_leaves_super_source_edge (fuel : Nat) (h : 100 ≤ fuel) :
    mcmf.respects_bounds 1 2 [⟨1, 2, 1, 1, 0⟩] [1] ∧
    ((mcmf.network 2 1 2 [⟨1, 2, 1, 1, 0⟩]).bind (mcmf.solve_feasibility fuel)).map
        (fun st => (st.e[6]?, st.e[8]?)) =
      some (some ⟨3, 0, 2, 1, 0⟩, some ⟨4, 5, 3, 1061109567, 0⟩) := by
  have h100 : ((mcmf.network 2 1 2 [⟨1, 2, 1, 1, 0⟩]).bind (mcmf.solve_feasibility 100)).map
        (fun st => (st.e[6]?, st.e[8]?)) =
      some (some ⟨3, 0, 2, 1, 0⟩, some ⟨4, 5, 3, 1061109567, 0⟩) := by decide!
  refine ⟨by decide, ?_⟩
  cases hn : mcmf.network 2 1 2 [⟨1, 2, 1, 1, 0⟩] with
  | none => simp [hn] at h100
  | some net =>
    rw [hn] at h100
    simp only [Option.some_bind] at h100 ⊢
    cases hs : mcmf.solve_feasibility 100 net with
    | none => simp [hs] at h100
    | some r =>
      rw [mcmf.solve_feasibility_mono 100 fuel net r h hs]
      rw [hs] at h100
      exact h100

/-- Witness of `feasibility_leaves_super_source_edge` at fuel `100`. -/
theorem feasibility_leaves_super_source_edge_witness :
    100 ≤ 100 ∧ (mcmf.respects_bounds 1 2 [⟨1, 2, 1, 1, 0⟩] [1] ∧
    ((mcmf.network 2 1 2 [⟨1, 2, 1, 1, 0⟩]).bind (mcmf.solve_feasibility 100)).map
        (fun st => (st.e[6]?, st.e[8]?)) =
      some (some ⟨3, 0, 2, 1, 0⟩, some ⟨4, 5, 3, 1061109567, 0⟩)) :=
  ⟨le_refl 100, feasibility_leaves_super_source_edge 100 (le_refl 100)⟩


/-- C10, evaluated on two participants who both prefer the only slot: after `mcmf::solve` the
preference edge of the first participant (arena position `42`, from node `4` to node `18`)
still has residual capacity `1`, and the extraction loop appends an entry to the first
participant's result all the same. -/
theorem extraction_ignores_residual_capacity (st : mcmf.State) :
    (distribution.solve ⟨[⟨1, [0]⟩, ⟨2, [0]⟩], [⟨0, 0⟩]⟩ 100 st).map
        (fun p => (p.2.e[42]?, p.1[0]?)) =
      some (some ⟨4, 15, 18, 1, 0⟩, some ⟨1, [18446744073709551615]⟩) := by
  rw [solve_state_indep _ 100 st mcmf.start]
  decide!


/-! ## Array accesses inside their bounds -/

theorem rd_eq_getD {α : Type} (xs : List α) (i : Int) (x0 : α) (h0 : 0 ≤ i)
    (h1 : i < xs.length) : rd xs i = some (xs.getD i.toNat x0) := by
  have h2 : i.toNat < xs.length := by omega
  simp [rd, not_lt.mpr h0, List.getD_eq_getElem?_getD, List.getElem?_eq_getElem h2]

theorem wr_eq_set {α : Type} (xs : List α) (i : Int) (x : α) (h0 : 0 ≤ i)
    (h1 : i < xs.length) : wr xs i x = some (xs.set i.toNat x) := by
  have h2 : i.toNat < xs.length := by omega
  simp [wr, h0, h2]

theorem getD_set {α : Type} (xs : List α) (i j : Nat) (x x0 : α) (h1 : i < xs.length) :
    (xs.set i x).getD j x0 = if j = i then x else xs.getD j x0 := by
  simp only [List.getD_eq_getElem?_getD, List.getElem?_set]
  split_ifs with h2 h3 h4
  · simp
  · omega
  · omega
  · rfl

namespace mcmf

theorem rd_eq (xs : List Int) (i : Int) (h0 : 0 ≤ i) (h1 : i < xs.length) :
    rd xs i = some (get xs i) :=
  rd_eq_getD xs i 0 h0 h1

theorem rd_edge (es : List E) (i : Int) (h0 : 0 ≤ i) (h1 : i < es.length) :
    rd es i = some (edge es i) :=
  rd_eq_getD es i _ h0 h1

theorem get_set (xs : List Int) (i j x : Int) (h0 : 0 ≤ i) (h1 : i < xs.length)
    (hj : 0 ≤ j) : get (xs.set i.toNat x) j = if j = i then x else get xs j := by
  have h2 : i.toNat < xs.length := by omega
  unfold get
  rw [getD_set _ _ _ _ _ h2]
  have : (j.toNat = i.toNat) ↔ j = i := by omega
  simp only [this]

theorem relax_eq (st : State) (u i : Int) (hw : Wf st) (hu0 : 0 ≤ u) (hu1 : u < st.d.length)
    (hi0 : 2 ≤ i) (hi1 : i < st.e.length) : relax st u i = some (relaxed st u i) := by
  obtain ⟨-, -, hv0, hv1⟩ := hw.e_range i hi0 hi1
  have hl1 := hw.len_incf
  have hl2 := hw.len_pre
  have hl3 := hw.len_vis
  have e1 : ∀ x, wr st.d (edge st.e i).v x = some (st.d.set (edge st.e i).v.toNat x) :=
    fun x => wr_eq_set st.d _ x hv0 hv1
  have e2 : ∀ x, wr st.pre (edge st.e i).v x = some (st.pre.set (edge st.e i).v.toNat x) :=
    fun x => wr_eq_set st.pre _ x hv0 (by omega)
  have e3 : ∀ x, wr st.incf (edge st.e i).v x = some (st.incf.set (edge st.e i).v.toNat x) :=
    fun x => wr_eq_set st.incf _ x hv0 (by omega)
  have e4 : ∀ x, wr st.vis (edge st.e i).v x = some (st.vis.set (edge st.e i).v.toNat x) :=
    fun x => wr_eq_set st.vis _ x hv0 (by omega)
  unfold relax relaxed
  simp only [rd_edge st.e i (by omega) hi1, rd_eq st.d u hu0 hu1, rd_eq st.d _ hv0 hv1,
    rd_eq st.incf u hu0 (by omega), rd_eq st.vis _ hv0 (by omega), e1, e2, e3, e4,
    Option.bind_eq_bind, Option.some_bind, Option.pure_def]
  by_cases h1 : (edge st.e i).w ≠ 0
  · by_cases h2 : get st.d u + (edge st.e i).c < get st.d (edge st.e i).v
    · by_cases h3 : get st.vis (edge st.e i).v = 0
      · simp [h1, h2, h3]
      · simp [h1, h2, h3]
    · simp [h1, h2]
  · simp [h1]

end mcmf

/-! ## One relaxation keeps the invariant of the labelling pass -/

namespace mcmf

theorem relaxed_noop (st : State) (u i : Int)
    (h : ¬ ((edge st.e i).w ≠ 0 ∧ get st.d u + (edge st.e i).c < get st.d (edge st.e i).v)) :
    relaxed st u i = st := by
  unfold relaxed
  rw [if_neg h]

theorem relaxed_e (st : State) (u i : Int) : (relaxed st u i).e = st.e := by
  unfold relaxed
  split_ifs <;> rfl

theorem relaxed_S (st : State) (u i : Int) : (relaxed st u i).S = st.S := by
  unfold relaxed
  split_ifs <;> rfl

theorem relaxed_T (st : State) (u i : Int) : (relaxed st u i).T = st.T := by
  unfold relaxed
  split_ifs <;> rfl

theorem relaxed_head (st : State) (u i : Int) : (relaxed st u i).head = st.head := by
  unfold relaxed
  split_ifs <;> rfl

theorem relaxed_d_length (st : State) (u i : Int) :
    (relaxed st u i).d.length = st.d.length := by
  unfold relaxed
  split_ifs <;> simp

theorem relaxed_Wf (st : State) (u i : Int) (hw : Wf st) : Wf (relaxed st u i) := by
  unfold relaxed
  split_ifs with h1 h2
  · exact ⟨by simpa using hw.len_incf, by simpa using hw.len_pre, by simpa using hw.len_head,
      by simpa using hw.len_vis, by simpa using hw.S_range, by simpa using hw.T_range,
      hw.two_le, hw.even, by simpa using hw.e_range, hw.next_ok,
      by simpa using hw.head_ok, hw.pair, hw.complete⟩
  · exact ⟨by simpa using hw.len_incf, by simpa using hw.len_pre, by simpa using hw.len_head,
      by simpa using hw.len_vis, by simpa using hw.S_range, by simpa using hw.T_range,
      hw.two_le, hw.even, by simpa using hw.e_range, hw.next_ok,
      by simpa using hw.head_ok, hw.pair, hw.complete⟩
  · exact hw


theorem INF_val : INF = 1061109567 := rfl

/-- Along a predecessor chain the reduced label `d - p` does not increase, so a chain that
starts below the reduced label of `v` never meets `v` and survives a change of `pre[v]`. -/
theorem chain_avoid (st : State) (p : Int → Int) (P : Int → Prop) (hw : Wf st) (hr : Res st p)
    (hI : SpfaInv st p P) (v i b : Int) (hv0 : 0 ≤ v) (hv1 : v < st.d.length)
    (hb : b ≤ get st.d v - p v) :
    ∀ (k : Nat) (x : Int), 0 ≤ x → x < st.d.length → get st.d x ≠ INF →
      get st.d x - p x < b → chain st.e st.pre st.S k x →
      chain st.e (st.pre.set v.toNat i) st.S k x
  | 0, x, _, _, _, _, h => h
  | k + 1, x, hx0, hx1, hdx, hlt, h => by
    obtain ⟨hxS, hch⟩ := h
    have hxv : x ≠ v := by
      rintro rfl
      omega
    obtain ⟨hp0, hp1, hpv, hpw, hpd, hple, -⟩ := hI.pre_ok x hx0 hx1 hxS hdx
    obtain ⟨hu0, hu1, -, -⟩ := hw.e_range _ hp0 hp1
    have hred := hr.reduced _ hp0 hp1 hpw
    rw [hpv] at hred
    refine ⟨hxS, ?_⟩
    rw [get_set st.pre v x i hv0 (by rw [hw.len_pre]; exact hv1) hx0, if_neg hxv]
    exact chain_avoid st p P hw hr hI v i b hv0 hv1 hb k _ hu0 hu1 hpd (by omega) hch

/-- Every chain of the old predecessor entries can be rerouted once `v` has a chain under the
new entry `pre[v] = i`. -/
theorem chain_reroute (st : State) (p : Int → Int) (P : Int → Prop) (hw : Wf st)
    (hI : SpfaInv st p P) (v i : Int) (hv0 : 0 ≤ v) (hv1 : v < st.d.length)
    (hv : ∃ kv, chain st.e (st.pre.set v.toNat i) st.S kv v) :
    ∀ (k : Nat) (x : Int), 0 ≤ x → x < st.d.length → get st.d x ≠ INF →
      chain st.e st.pre st.S k x →
      ∃ k', chain st.e (st.pre.set v.toNat i) st.S k' x
  | 0, x, _, _, _, h => ⟨0, h⟩
  | k + 1, x, hx0, hx1, hdx, h => by
    obtain ⟨hxS, hch⟩ := h
    by_cases hxv : x = v
    · rw [hxv]
      exact hv
    · obtain ⟨hp0, hp1, -, -, hpd, -, -⟩ := hI.pre_ok x hx0 hx1 hxS hdx
      obtain ⟨hu0, hu1, -, -⟩ := hw.e_range _ hp0 hp1
      obtain ⟨k', hk'⟩ := chain_reroute st p P hw hI v i hv0 hv1 hv k _ hu0 hu1 hpd hch
      refine ⟨k' + 1, hxS, ?_⟩
      rw [get_set st.pre v x i hv0 (by rw [hw.len_pre]; exact hv1) hx0, if_neg hxv]
      exact hk'


theorem relaxed_d (st : State) (u i : Int)
    (h : (edge st.e i).w ≠ 0 ∧ get st.d u + (edge st.e i).c < get st.d (edge st.e i).v) :
    (relaxed st u i).d = st.d.set (edge st.e i).v.toNat (get st.d u + (edge st.e i).c) := by
  unfold relaxed
  rw [if_pos h]

theorem relaxed_pre (st : State) (u i : Int)
    (h : (edge st.e i).w ≠ 0 ∧ get st.d u + (edge st.e i).c < get st.d (edge st.e i).v) :
    (relaxed st u i).pre = st.pre.set (edge st.e i).v.toNat i := by
  unfold relaxed
  rw [if_pos h]

theorem relaxed_incf (st : State) (u i : Int)
    (h : (edge st.e i).w ≠ 0 ∧ get st.d u + (edge st.e i).c < get st.d (edge st.e i).v) :
    (relaxed st u i).incf =
      st.incf.set (edge st.e i).v.toNat (min (get st.incf u) (edge st.e i).w) := by
  unfold relaxed
  rw [if_pos h]

theorem relaxed_q (st : State) (u i : Int)
    (h : (edge st.e i).w ≠ 0 ∧ get st.d u + (edge st.e i).c < get st.d (edge st.e i).v) :
    (relaxed st u i).q =
      if get st.vis (edge st.e i).v = 0 then st.q ++ [(edge st.e i).v] else st.q := by
  unfold relaxed
  rw [if_pos h]

theorem relaxed_vis (st : State) (u i : Int)
    (h : (edge st.e i).w ≠ 0 ∧ get st.d u + (edge st.e i).c < get st.d (edge st.e i).v) :
    (relaxed st u i).vis =
      if get st.vis (edge st.e i).v = 0 then st.vis.set (edge st.e i).v.toNat 1 else st.vis := by
  unfold relaxed
  rw [if_pos h]

theorem relaxed_q_sub (st : State) (u i : Int) : ∀ x ∈ st.q, x ∈ (relaxed st u i).q := by
  intro x hx
  unfold relaxed
  split_ifs <;> simp [hx]

/-- One relaxation keeps the invariant of the labelling pass; the entry `i` just treated
leaves the pending set. -/
theorem relaxed_inv (st : State) (p : Int → Int) (P P' : Int → Prop) (u i : Int)
    (hw : Wf st) (hc : CostShape st) (hr : Res st p) (hI : SpfaInv st p P)
    (hu0 : 0 ≤ u) (hu1 : u < st.d.length) (hi0 : 2 ≤ i) (hi1 : i < st.e.length)
    (hiu : (edge st.e i).u = u) (hdu : get st.d u ≠ INF)
    (hP : ∀ j, P j → P' j ∨ j = i) :
    SpfaInv (relaxed st u i) p P' := by
  by_cases h : (edge st.e i).w ≠ 0 ∧ get st.d u + (edge st.e i).c < get st.d (edge st.e i).v
  swap
  · rw [relaxed_noop st u i h]
    refine ⟨hI.dS, hI.fS, hI.d_bound, hI.q_ok, hI.vis_q, hI.pre_ok, hI.chain_ok, ?_⟩
    intro j hj0 hj1 hjw hjd hjq hjP
    by_cases hPj : P j
    · rcases hP j hPj with h' | rfl
      · exact absurd h' hjP
      · rw [hiu]
        by_contra hcon
        exact h ⟨hjw, by omega⟩
    · exact hI.relaxed_ok j hj0 hj1 hjw hjd hjq hPj
  · have hINF := INF_val
    obtain ⟨-, -, hv0, hv1⟩ := hw.e_range i hi0 hi1
    have hred := hr.reduced i hi0 hi1 h.1
    rw [hiu] at hred
    have hdub : p u ≤ get st.d u ∧ get st.d u ≤ 100 := by
      rcases hI.d_bound u hu0 hu1 with h' | h'
      · exact absurd h' hdu
      · exact h'
    have hpv := hr.pot_nonneg (edge st.e i).v
    have hvu : (edge st.e i).v ≠ u := by
      have := hc.no_loop i hi0 hi1
      rw [hiu] at this
      exact fun h' => this h'.symm
    have hvS : (edge st.e i).v ≠ st.S := by
      intro hvS
      have h2 := h.2
      rw [hvS, hI.dS] at h2
      rw [hvS, hr.pot_S] at hred
      omega
    have hcle : get st.d u + (edge st.e i).c ≤ 100 := by
      by_cases huS : u = st.S
      · have := hc.out_S i hi0 hi1 (by rw [hiu]; exact huS)
        rw [huS, hI.dS]
        omega
      · have := hc.not_S i hi0 hi1 (by rw [hiu]; exact huS)
        omega
    have hd : ∀ x : Int, 0 ≤ x → get (relaxed st u i).d x =
        if x = (edge st.e i).v then get st.d u + (edge st.e i).c else get st.d x := by
      intro x hx
      rw [relaxed_d st u i h, get_set _ _ _ _ hv0 hv1 hx]
    have hpre : ∀ x : Int, 0 ≤ x → get (relaxed st u i).pre x =
        if x = (edge st.e i).v then i else get st.pre x := by
      intro x hx
      rw [relaxed_pre st u i h, get_set _ _ _ _ hv0 (by rw [hw.len_pre]; exact hv1) hx]
    have hincf : ∀ x : Int, 0 ≤ x → get (relaxed st u i).incf x =
        if x = (edge st.e i).v then min (get st.incf u) (edge st.e i).w else get st.incf x := by
      intro x hx
      rw [relaxed_incf st u i h, get_set _ _ _ _ hv0 (by rw [hw.len_incf]; exact hv1) hx]
    have hvq : (edge st.e i).v ∈ (relaxed st u i).q := by
      rw [relaxed_q st u i h]
      split_ifs with h3
      · simp
      · exact hI.vis_q _ hv0 hv1 h3
    have hqsub := relaxed_q_sub st u i
    have hqcases : ∀ x ∈ (relaxed st u i).q, x ∈ st.q ∨ x = (edge st.e i).v := by
      intro x hx
      rw [relaxed_q st u i h] at hx
      split_ifs at hx with h3
      · simpa using hx
      · exact Or.inl hx
    have hlen := relaxed_d_length st u i
    have he := relaxed_e st u i
    have hS := relaxed_S st u i
    have hdle : ∀ x : Int, 0 ≤ x → get (relaxed st u i).d x ≤ get st.d x := by
      intro x hx
      rw [hd x hx]
      split_ifs with hxv
      · rw [hxv]
        omega
      · exact le_refl _
    have hdne : ∀ x : Int, 0 ≤ x → x < st.d.length → get st.d x ≠ INF →
        get (relaxed st u i).d x ≠ INF := by
      intro x hx hx1 hne
      rw [hd x hx]
      split_ifs with hxv
      · omega
      · exact hne
    have hchv : ∃ kv, chain st.e (st.pre.set (edge st.e i).v.toNat i) st.S kv (edge st.e i).v := by
      obtain ⟨ku, hku⟩ := hI.chain_ok u hu0 hu1 hdu
      refine ⟨ku + 1, hvS, ?_⟩
      rw [get_set _ _ _ _ hv0 (by rw [hw.len_pre]; exact hv1) hv0, if_pos rfl, hiu]
      exact chain_avoid st p P hw hr hI _ i (get st.d (edge st.e i).v - p (edge st.e i).v)
        hv0 hv1 (le_refl _) ku u hu0 hu1 hdu (by omega) hku
    refine ⟨?_, ?_, ?_, ?_, ?_, ?_, ?_, ?_⟩
    · rw [hS, hd _ hw.S_range.1, if_neg (Ne.symm hvS)]
      exact hI.dS
    · rw [hS, hincf _ hw.S_range.1, if_neg (Ne.symm hvS)]
      exact hI.fS
    · intro x hx0 hx1
      rw [hlen] at hx1
      rw [hd x hx0]
      split_ifs with hxv
      · right
        rw [hxv]
        omega
      · exact hI.d_bound x hx0 hx1
    · intro x hx
      rw [hlen]
      rcases hqcases x hx with hx' | rfl
      · obtain ⟨a, b, c⟩ := hI.q_ok x hx'
        exact ⟨a, b, hdne x a b c⟩
      · refine ⟨hv0, hv1, ?_⟩
        rw [hd _ hv0, if_pos rfl]
        omega
    · intro x hx0 hx1 hvis
      rw [hlen] at hx1
      by_cases hxv : x = (edge st.e i).v
      · rw [hxv]
        exact hvq
      · apply hqsub
        apply hI.vis_q x hx0 hx1
        rw [relaxed_vis st u i h] at hvis
        split_ifs at hvis with h3
        · rwa [get_set _ _ _ _ hv0 (by rw [hw.len_vis]; exact hv1) hx0, if_neg hxv] at hvis
        · exact hvis
    · intro x hx0 hx1 hxS hdx
      rw [hlen] at hx1
      rw [hS] at hxS
      rw [he, hpre x hx0]
      by_cases hxv : x = (edge st.e i).v
      · rw [if_pos hxv, hiu, hd u hu0, if_neg (Ne.symm hvu), hd x hx0, if_pos hxv,
          hincf x hx0, if_pos hxv, hincf u hu0, if_neg (Ne.symm hvu)]
        exact ⟨hi0, hi1, hxv.symm, h.1, hdu, le_refl _, fun _ => rfl⟩
      · rw [if_neg hxv]
        rw [hd x hx0, if_neg hxv] at hdx
        obtain ⟨a1, a2, a3, a4, a5, a6, a7⟩ := hI.pre_ok x hx0 hx1 hxS hdx
        obtain ⟨b0, b1, -, -⟩ := hw.e_range _ a1 a2
        refine ⟨a1, a2, a3, a4, hdne _ b0 b1 a5, ?_, ?_⟩
        · rw [hd x hx0, if_neg hxv]
          have := hdle _ b0
          omega
        · rw [hd x hx0, if_neg hxv, hincf x hx0, if_neg hxv, hd _ b0, hincf _ b0]
          split_ifs with hpv'
          · intro heq
            rw [hpv'] at a6
            omega
          · exact a7
    · intro x hx0 hx1 hdx
      rw [hlen] at hx1
      rw [he, hS, relaxed_pre st u i h]
      by_cases hxv : x = (edge st.e i).v
      · rw [hxv]
        exact hchv
      · rw [hd x hx0, if_neg hxv] at hdx
        obtain ⟨k, hk⟩ := hI.chain_ok x hx0 hx1 hdx
        exact chain_reroute st p P hw hI _ i hv0 hv1 hchv k x hx0 hx1 hdx hk
    · intro j hj0 hj1 hjw hjd hjq hjP
      rw [he] at hj1 hjw hjd hjq ⊢
      obtain ⟨b0, b1, b2, b3⟩ := hw.e_range j hj0 hj1
      have hjv : (edge st.e j).u ≠ (edge st.e i).v := by
        intro hjv
        rw [hjv] at hjq
        exact hjq hvq
      rw [hd _ b0, if_neg hjv] at hjd ⊢
      have hjq' : (edge st.e j).u ∉ st.q := fun hq => hjq (hqsub _ hq)
      by_cases hPj : P j
      · rcases hP j hPj with h' | rfl
        · exact absurd h' hjP
        · rw [hd _ hv0, if_pos rfl, hiu]
      · have := hI.relaxed_ok j hj0 hj1 hjw hjd hjq' hPj
        have := hdle _ b2
        omega

end mcmf

theorem sum_set_add (l : List Nat) : ∀ (k : Nat) (y : Nat) (h : k < l.length),
    (l.set k y).sum + l[k] = l.sum + y := by
  induction l with
  | nil => intro k y h; simp at h
  | cons a t ih =>
    intro k y h
    cases k with
    | zero => simp; omega
    | succ k =>
      simp only [List.set_cons_succ, List.sum_cons, List.getElem_cons_succ]
      have := ih k y (by simpa using h)
      omega

namespace mcmf

theorem spfa_frame_refl (st : State) : spfa_frame st st := rfl

theorem spfa_frame_trans (a b c : State) (h1 : spfa_frame a b) (h2 : spfa_frame b c) :
    spfa_frame a c := by
  unfold spfa_frame at *
  rw [h2, h1]

theorem spfa_frame_relaxed (st : State) (u i : Int) : spfa_frame st (relaxed st u i) := by
  unfold spfa_frame relaxed
  split_ifs <;> rfl

theorem spfa_frame_e (st st' : State) (h : spfa_frame st st') : st'.e = st.e := by
  rw [h]

theorem spfa_frame_S (st st' : State) (h : spfa_frame st st') : st'.S = st.S := by
  rw [h]

theorem spfa_frame_T (st st' : State) (h : spfa_frame st st') : st'.T = st.T := by
  rw [h]

theorem CostShape_congr (st st' : State) (he : st'.e = st.e) (hS : st'.S = st.S)
    (h : CostShape st) : CostShape st' := by
  obtain ⟨a, b, c, d⟩ := h
  constructor
  · rw [he, hS]; exact a
  · rw [he, hS]; exact b
  · rw [he, hS]; exact c
  · rw [he]; exact d

theorem Res_congr (st st' : State) (p : Int → Int) (he : st'.e = st.e) (hS : st'.S = st.S)
    (h : Res st p) : Res st' p := by
  obtain ⟨a, b, c, d⟩ := h
  constructor
  · rw [he]; exact a
  · rw [he]; exact b
  · rw [hS]; exact c
  · exact d

theorem get_toNat_sum (xs : List Int) (v y : Int) (hv0 : 0 ≤ v) (hv1 : v < xs.length)
    (hy : 0 ≤ y) (hlt : y < get xs v) :
    ((xs.set v.toNat y).map Int.toNat).sum < (xs.map Int.toNat).sum := by
  have hk : v.toNat < (xs.map Int.toNat).length := by simp; omega
  have h := sum_set_add (xs.map Int.toNat) v.toNat y.toNat hk
  rw [List.map_set]
  have hg : (xs.map Int.toNat)[v.toNat] = (get xs v).toNat := by
    simp [get, List.getD_eq_getElem?_getD, List.getElem?_eq_getElem (by omega : v.toNat < xs.length)]
  rw [hg] at h
  omega

theorem relaxed_measure (st : State) (p : Int → Int) (P : Int → Prop) (u i : Int)
    (hw : Wf st) (hr : Res st p) (hI : SpfaInv st p P)
    (hu0 : 0 ≤ u) (hu1 : u < st.d.length) (hi0 : 2 ≤ i) (hi1 : i < st.e.length)
    (hiu : (edge st.e i).u = u) (hdu : get st.d u ≠ INF) :
    spfa_measure (relaxed st u i) ≤ spfa_measure st := by
  by_cases h : (edge st.e i).w ≠ 0 ∧ get st.d u + (edge st.e i).c < get st.d (edge st.e i).v
  swap
  · rw [relaxed_noop st u i h]
  · obtain ⟨-, -, hv0, hv1⟩ := hw.e_range i hi0 hi1
    have hred := hr.reduced i hi0 hi1 h.1
    rw [hiu] at hred
    have hdub : p u ≤ get st.d u ∧ get st.d u ≤ 100 := by
      rcases hI.d_bound u hu0 hu1 with h' | h'
      · exact absurd h' hdu
      · exact h'
    have hpv := hr.pot_nonneg (edge st.e i).v
    have hsum := get_toNat_sum st.d (edge st.e i).v (get st.d u + (edge st.e i).c) hv0 hv1
      (by omega) h.2
    unfold spfa_measure
    rw [relaxed_d st u i h, relaxed_q st u i h]
    split_ifs
    · simp only [List.length_append, List.length_singleton]
      omega
    · omega

theorem pending_step (es : List E) (u h j : Int) (hp : pending es u h j) :
    pending es u (edge es h).next j ∨ j = h := by
  obtain ⟨hu, k, hk⟩ := hp
  cases k with
  | zero => exact absurd hk (by simp [in_chain])
  | succ k =>
    obtain ⟨-, h1 | h1⟩ := hk
    · exact Or.inr h1.symm
    · exact Or.inl ⟨hu, k, h1⟩

theorem pending_zero (es : List E) (u j : Int) : ¬ pending es u 0 j := by
  rintro ⟨-, k, hk⟩
  cases k with
  | zero => exact hk
  | succ k => exact hk.1 rfl

theorem SpfaInv_mono (st : State) (p : Int → Int) (P P' : Int → Prop)
    (h : ∀ j, ¬ P' j → ¬ P j) (hI : SpfaInv st p P) : SpfaInv st p P' :=
  ⟨hI.dS, hI.fS, hI.d_bound, hI.q_ok, hI.vis_q, hI.pre_ok, hI.chain_ok,
    fun j a b c d e f => hI.relaxed_ok j a b c d e (h j f)⟩

/-- The adjacency walk of `spfa` from position `h` on finishes, keeps the invariant and leaves
no entry of `u` pending. -/
theorem spfa_for_spec (p : Int → Int) (u : Int) :
    ∀ (fuel : Nat) (st : State) (h : Int), Wf st → CostShape st → Res st p →
      SpfaInv st p (pending st.e u h) → 0 ≤ u → u < st.d.length → get st.d u ≠ INF →
      (h = 0 ∨ (2 ≤ h ∧ h < st.e.length ∧ (edge st.e h).u = u)) → h.toNat < fuel →
      ∃ st', spfa_for fuel st u h = some st' ∧ Wf st' ∧ SpfaInv st' p (fun _ => False) ∧
        spfa_frame st st' ∧ st'.d.length = st.d.length ∧ spfa_measure st' ≤ spfa_measure st
  | 0, _, _, _, _, _, _, _, _, _, _, hf => by omega
  | fuel + 1, st, h, hw, hc, hr, hI, hu0, hu1, hdu, hh, hf => by
    rcases hh with rfl | ⟨h0, h1, hhu⟩
    · refine ⟨st, by simp [spfa_for], hw, ?_, spfa_frame_refl st, rfl, le_refl _⟩
      exact SpfaInv_mono st p _ _ (fun j _ => pending_zero st.e u j) hI
    · have hne : h ≠ 0 := by omega
      have hI1 := relaxed_inv st p _ (pending st.e u (edge st.e h).next) u h hw hc hr hI hu0 hu1
        h0 h1 hhu hdu (fun j hj => pending_step st.e u h j hj)
      have he := relaxed_e st u h
      have hlen := relaxed_d_length st u h
      rw [← he] at hI1
      have hnext : (edge (relaxed st u h).e h).next = 0 ∨
          (2 ≤ (edge (relaxed st u h).e h).next ∧
            (edge (relaxed st u h).e h).next < (relaxed st u h).e.length ∧
            (edge (relaxed st u h).e (edge (relaxed st u h).e h).next).u = u) := by
        rw [he]
        rcases hw.next_ok h h0 h1 with hn | ⟨a, b, c⟩
        · exact Or.inl hn
        · exact Or.inr ⟨a, by omega, by rw [c, hhu]⟩
      have hdu' : get (relaxed st u h).d u ≠ INF := by
        have := (hI1.d_bound u hu0 (by rw [hlen]; exact hu1))
        intro hcon
        have hq := hI.d_bound u hu0 hu1
        by_cases hc' : (edge st.e h).w ≠ 0 ∧
            get st.d u + (edge st.e h).c < get st.d (edge st.e h).v
        · rw [relaxed_d st u h hc', get_set _ _ _ _ (hw.e_range h h0 h1).2.2.1
            (hw.e_range h h0 h1).2.2.2 hu0] at hcon
          have hvu := hc.no_loop h h0 h1
          rw [hhu] at hvu
          rw [if_neg hvu] at hcon
          exact hdu hcon
        · rw [relaxed_noop st u h hc'] at hcon
          exact hdu hcon
      have hlt : (edge (relaxed st u h).e h).next.toNat < fuel := by
        rw [he]
        rcases hw.next_ok h h0 h1 with hn | ⟨a, b, c⟩
        · rw [hn]; simp; omega
        · omega
      obtain ⟨st', hs, hw', hI', hfr, hl', hm'⟩ := spfa_for_spec p u fuel (relaxed st u h)
        (edge (relaxed st u h).e h).next (relaxed_Wf st u h hw)
        (CostShape_congr st _ he (relaxed_S st u h) hc)
        (Res_congr st _ p he (relaxed_S st u h) hr) hI1 hu0 (by rw [hlen]; exact hu1) hdu'
        hnext hlt
      refine ⟨st', ?_, hw', hI', spfa_frame_trans _ _ _ (spfa_frame_relaxed st u h) hfr,
        by rw [hl', hlen], le_trans hm' (relaxed_measure st p _ u h hw hr hI hu0 hu1 h0 h1 hhu hdu)⟩
      simp only [spfa_for, if_neg hne, relax_eq st u h hw hu0 hu1 h0 h1, Option.bind_eq_bind,
        Option.some_bind]
      rw [rd_edge _ h (by omega) (by rw [he]; exact h1)]
      simpa using hs


theorem get_replicate (n : Nat) (a x : Int) (h0 : 0 ≤ x) (h1 : x < n) :
    get (List.replicate n a) x = a := by
  unfold get
  rw [List.getD_eq_getElem?_getD, List.getElem?_replicate]
  have : x.toNat < n := by omega
  simp [this]

theorem sum_toNat_replicate (n : Nat) (a : Int) :
    ((List.replicate n a).map Int.toNat).sum = n * a.toNat := by
  simp

theorem sum_toNat_set_le (xs : List Int) (k : Nat) :
    ((xs.set k 0).map Int.toNat).sum ≤ (xs.map Int.toNat).sum := by
  by_cases h : k < xs.length
  · have hk : k < (xs.map Int.toNat).length := by simpa using h
    have := sum_set_add (xs.map Int.toNat) k 0 hk
    rw [List.map_set]
    simp only [Int.toNat_zero] at this ⊢
    omega
  · rw [List.set_eq_of_length_le (by omega)]

/-- The queue loop of `spfa` finishes with an empty queue and keeps the invariant. -/
theorem spfa_while_spec (p : Int → Int) :
    ∀ (fuel : Nat) (st : State), Wf st → CostShape st → Res st p →
      SpfaInv st p (fun _ => False) → spfa_measure st + st.e.length < fuel →
      ∃ st', spfa_while fuel st = some st' ∧ Wf st' ∧ SpfaInv st' p (fun _ => False) ∧
        st'.q = [] ∧ spfa_frame st st' ∧ st'.d.length = st.d.length
  | 0, _, _, _, _, _, hf => by omega
  | fuel + 1, st, hw, hc, hr, hI, hf => by
    cases hq : st.q with
    | nil =>
      exact ⟨st, by simp [spfa_while, hq], hw, hI, hq, spfa_frame_refl st, rfl⟩
    | cons x rest =>
      obtain ⟨hx0, hx1, hdx⟩ := hI.q_ok x (by simp [hq])
      have hxv : x < st.vis.length := by rw [hw.len_vis]; exact hx1
      have hxh : x < st.head.length := by rw [hw.len_head]; exact hx1
      have hw1 : Wf { st with q := rest, vis := st.vis.set x.toNat 0 } :=
        ⟨hw.len_incf, hw.len_pre, hw.len_head, by simpa using hw.len_vis, hw.S_range,
          hw.T_range, hw.two_le, hw.even, hw.e_range, hw.next_ok, hw.head_ok, hw.pair,
          hw.complete⟩
      have hI1 : SpfaInv { st with q := rest, vis := st.vis.set x.toNat 0 } p
          (pending st.e x (get st.head x)) := by
        refine ⟨hI.dS, hI.fS, hI.d_bound, ?_, ?_, hI.pre_ok, hI.chain_ok, ?_⟩
        · intro y hy
          exact hI.q_ok y (by rw [hq]; exact List.mem_cons_of_mem _ hy)
        · intro y hy0 hy1 hvis
          simp only at hvis ⊢
          rw [get_set _ _ _ _ hx0 hxv hy0] at hvis
          split_ifs at hvis with hyx
          · exact absurd rfl hvis
          · have := hI.vis_q y hy0 hy1 hvis
            rw [hq] at this
            rcases List.mem_cons.mp this with h' | h'
            · exact absurd h' hyx
            · exact h'
        · intro j hj0 hj1 hjw hjd hjq hjP
          simp only at hjq
          by_cases hjx : (edge st.e j).u = x
          · exact absurd ⟨hjx, st.e.length, by rw [← hjx]; exact hw.complete j hj0 hj1⟩ hjP
          · apply hI.relaxed_ok j hj0 hj1 hjw hjd _ (fun h => h)
            rw [hq]
            intro hmem
            rcases List.mem_cons.mp hmem with h' | h'
            · exact hjx h'
            · exact hjq h'
      have hm1 : spfa_measure { st with q := rest, vis := st.vis.set x.toNat 0 } + 1
          = spfa_measure st := by
        simp [spfa_measure, hq]
        omega
      have hhead : get st.head x = 0 ∨ (2 ≤ get st.head x ∧ get st.head x < st.e.length ∧
          (edge st.e (get st.head x)).u = x) := hw.head_ok x hx0 hx1
      have hlt : (get st.head x).toNat < fuel + 1 := by
        rcases hhead with h0 | ⟨a, b, -⟩
        · rw [h0]; simp
        · omega
      obtain ⟨st2, hs2, hw2, hI2, hfr2, hl2, hm2⟩ := spfa_for_spec p x (fuel + 1)
        { st with q := rest, vis := st.vis.set x.toNat 0 } (get st.head x) hw1
        (CostShape_congr st _ rfl rfl hc) (Res_congr st _ p rfl rfl hr) hI1 hx0 hx1 hdx
        hhead hlt
      have he2 : st2.e = st.e := spfa_frame_e _ _ hfr2
      have hS2 : st2.S = st.S := spfa_frame_S _ _ hfr2
      obtain ⟨st', hs', hw', hI', hq', hfr', hl'⟩ := spfa_while_spec p fuel st2 hw2
        (CostShape_congr st _ he2 hS2 hc) (Res_congr st _ p he2 hS2 hr) hI2
        (by rw [he2]; omega)
      refine ⟨st', ?_, hw', hI', hq', ?_, by rw [hl', hl2]⟩
      · simp only [spfa_while, hq, wr_eq_set st.vis x 0 hx0 hxv, rd_eq st.head x hx0 hxh,
          Option.bind_eq_bind, Option.some_bind]
        rw [hs2]
        exact hs'
      · refine spfa_frame_trans _ _ _ ?_ hfr'
        refine spfa_frame_trans _ _ _ ?_ hfr2
        rfl

/-- The labelling pass `spfa()` finishes when the queue is empty at entry: it returns whether
the sink was labelled and leaves a state that satisfies the invariant with an empty queue. -/
theorem spfa_spec (p : Int → Int) (fuel : Nat) (st : State) (hw : Wf st) (hc : CostShape st)
    (hr : Res st p) (hq : st.q = []) (hf : spfa_fuel st ≤ fuel) :
    ∃ st', spfa fuel st = some (decide (get st'.d st'.T ≠ INF), st') ∧ Wf st' ∧
      SpfaInv st' p (fun _ => False) ∧ st'.q = [] ∧ spfa_frame st st' ∧
      st'.d.length = st.d.length := by
  have hINF := INF_val
  obtain ⟨hS0, hS1⟩ := hw.S_range
  have hSi : st.S < st.incf.length := by rw [hw.len_incf]; exact hS1
  have hSr : st.S < (List.replicate st.d.length INF).length := by simpa using hS1
  have hget : ∀ x : Int, 0 ≤ x → x < st.d.length →
      get ((List.replicate st.d.length INF).set st.S.toNat 0) x = if x = st.S then 0 else INF := by
    intro x hx0 hx1
    rw [get_set _ _ _ _ hS0 hSr hx0]
    split_ifs
    · rfl
    · exact get_replicate _ _ _ hx0 hx1
  have hw1 : Wf { st with vis := List.replicate st.vis.length (0 : Int),
                          d := (List.replicate st.d.length INF).set st.S.toNat 0,
                          incf := st.incf.set st.S.toNat 2000000000, q := st.q ++ [st.S] } :=
    ⟨by simpa using hw.len_incf, by simpa using hw.len_pre, by simpa using hw.len_head,
      by simpa using hw.len_vis, by simpa using hw.S_range, by simpa using hw.T_range,
      hw.two_le, hw.even, by simpa using hw.e_range, hw.next_ok, by simpa using hw.head_ok,
      hw.pair, hw.complete⟩
  have hI1 : SpfaInv { st with vis := List.replicate st.vis.length (0 : Int),
                               d := (List.replicate st.d.length INF).set st.S.toNat 0,
                               incf := st.incf.set st.S.toNat 2000000000,
                               q := st.q ++ [st.S] } p
      (fun _ => False) := by
    refine ⟨?_, ?_, ?_, ?_, ?_, ?_, ?_, ?_⟩
    · simp only
      rw [hget _ hS0 hS1, if_pos rfl]
    · simp only
      rw [get_set _ _ _ _ hS0 hSi hS0, if_pos rfl]
    · intro x hx0 hx1
      simp only [List.length_set, List.length_replicate] at hx1 ⊢
      rw [hget x hx0 hx1]
      split_ifs with hxS
      · right
        rw [hxS, hr.pot_S]
        omega
      · left; rfl
    · intro x hx
      simp only [hq, List.nil_append, List.mem_singleton] at hx
      simp only [List.length_set, List.length_replicate]
      rw [hx, hget _ hS0 hS1, if_pos rfl]
      exact ⟨hS0, hS1, by omega⟩
    · intro x hx0 hx1 hvis
      simp only [List.length_set, List.length_replicate] at hx1 hvis
      rw [get_replicate _ _ _ hx0 (by rw [hw.len_vis]; exact hx1)] at hvis
      exact absurd rfl hvis
    · intro x hx0 hx1 hxS hdx
      simp only [List.length_set, List.length_replicate] at hx1 hdx hxS
      rw [hget x hx0 hx1, if_neg hxS] at hdx
      exact absurd rfl hdx
    · intro x hx0 hx1 hdx
      simp only [List.length_set, List.length_replicate] at hx1 hdx ⊢
      rw [hget x hx0 hx1] at hdx
      split_ifs at hdx with hxS
      · exact ⟨0, hxS⟩
      · exact absurd rfl hdx
    · intro j hj0 hj1 hjw hjd hjq _
      simp only [hq, List.nil_append, List.mem_singleton] at hj1 hjw hjd hjq
      obtain ⟨a, b, -, -⟩ := hw.e_range j hj0 hj1
      rw [hget _ a b, if_neg hjq] at hjd
      exact absurd rfl hjd
  have hm : spfa_measure { st with vis := List.replicate st.vis.length (0 : Int),
                                    d := (List.replicate st.d.length INF).set st.S.toNat 0,
                                    incf := st.incf.set st.S.toNat 2000000000,
                                    q := st.q ++ [st.S] }
      ≤ st.d.length * 1061109567 + 1 := by
    have h1 := sum_toNat_set_le (List.replicate st.d.length INF) st.S.toNat
    rw [sum_toNat_replicate] at h1
    simp only [spfa_measure, hq, List.nil_append, List.length_singleton]
    have : INF.toNat = 1061109567 := rfl
    rw [this] at h1
    omega
  obtain ⟨st', hs', hw', hI', hq', hfr', hl'⟩ := spfa_while_spec p fuel _ hw1
    (CostShape_congr st _ rfl rfl hc) (Res_congr st _ p rfl rfl hr) hI1
    (by unfold spfa_fuel at hf; simp only at hm ⊢; omega)
  obtain ⟨hT0, hT1⟩ := hw'.T_range
  refine ⟨st', ?_, hw', hI', hq', ?_, by rw [hl']; simp⟩
  · simp only [spfa, wr_eq_set _ st.S 0 hS0 hSr, wr_eq_set _ st.S 2000000000 hS0 hSi,
      Option.bind_eq_bind, Option.some_bind]
    rw [hs']
    simp only [Option.some_bind, rd_eq st'.d st'.T hT0 hT1, Option.pure_def]
  · refine spfa_frame_trans _ _ _ ?_ hfr'
    rfl

end mcmf

/-! ## The augmentation step `update` -/

namespace mcmf

theorem xor1_range (i : Int) (L : Nat) (hL : L % 2 = 0) (h0 : 2 ≤ i) (h1 : i < L) :
    2 ≤ xor1 i ∧ xor1 i < L ∧ xor1 i ≠ i ∧ xor1 (xor1 i) = i := by
  unfold xor1
  split_ifs with h2 h3 h4 <;> omega

theorem edge_set (es : List E) (i j : Int) (x : E) (h0 : 0 ≤ i) (h1 : i < es.length)
    (hj : 0 ≤ j) : edge (es.set i.toNat x) j = if j = i then x else edge es j := by
  have h2 : i.toNat < es.length := by omega
  unfold edge
  rw [getD_set _ _ _ _ _ h2]
  have : (j.toNat = i.toNat) ↔ j = i := by omega
  simp only [this]

theorem edge_push (f : Int) (es : List E) (i j : Int) (L : Nat) (hL : es.length = L)
    (hev : L % 2 = 0) (h0 : 2 ≤ i) (h1 : i < L) (hj : 0 ≤ j) :
    edge (push f es i) j =
      if j = xor1 i then { edge es j with w := (edge es j).w + f }
      else if j = i then { edge es j with w := (edge es j).w - f }
      else edge es j := by
  obtain ⟨a, b, c, -⟩ := xor1_range i L hev h0 h1
  unfold push
  rw [edge_set _ _ _ _ (by omega) (by simp; omega) hj]
  split_ifs with h2 h3
  · rw [edge_set _ _ _ _ (by omega) (by omega) (by omega), if_neg c, h2]
  · rw [edge_set _ _ _ _ (by omega) (by omega) hj, if_pos h3, h3]
  · rw [edge_set _ _ _ _ (by omega) (by omega) hj, if_neg h3]

theorem length_push (f : Int) (es : List E) (i : Int) : (push f es i).length = es.length := by
  simp [push]

theorem edge_neg (es : List E) (j : Int) (hj : j < 0) : edge es j = edge es 0 := by
  unfold edge
  have : j.toNat = 0 := by omega
  rw [this]
  rfl

theorem same_arcs_refl (es : List E) : same_arcs es es :=
  ⟨rfl, fun _ => ⟨rfl, rfl, rfl, rfl⟩⟩

theorem same_arcs_trans (a b c : List E) (h1 : same_arcs a b) (h2 : same_arcs b c) :
    same_arcs a c := by
  refine ⟨by rw [h2.1, h1.1], fun j => ?_⟩
  obtain ⟨x1, x2, x3, x4⟩ := h1.2 j
  obtain ⟨y1, y2, y3, y4⟩ := h2.2 j
  exact ⟨by rw [y1, x1], by rw [y2, x2], by rw [y3, x3], by rw [y4, x4]⟩

theorem same_arcs_push (f : Int) (es : List E) (i : Int) (hev : es.length % 2 = 0)
    (h0 : 2 ≤ i) (h1 : i < es.length) : same_arcs es (push f es i) := by
  refine ⟨length_push f es i, fun j => ?_⟩
  by_cases hj : 0 ≤ j
  · rw [edge_push f es i j es.length rfl hev h0 h1 hj]
    split_ifs <;> exact ⟨rfl, rfl, rfl, rfl⟩
  · rw [edge_neg _ j (by omega), edge_neg es j (by omega),
      edge_push f es i 0 es.length rfl hev h0 h1 (le_refl _)]
    split_ifs <;> exact ⟨rfl, rfl, rfl, rfl⟩

theorem path_congr (es es' : List E) (pre : List Int) (S : Int) (h : same_arcs es es') :
    ∀ (k : Nat) (x : Int), path es' pre S k x = path es pre S k x
  | 0, _ => rfl
  | k + 1, x => by
    simp only [path]
    rw [(h.2 (get pre x)).1, path_congr es es' pre S h k]

theorem path_ok_congr (es es' : List E) (pre : List Int) (S : Int) (N : Nat)
    (h : same_arcs es es') :
    ∀ (k : Nat) (x : Int), path_ok es pre S N k x → path_ok es' pre S N k x
  | 0, _, hp => hp
  | k + 1, x, hp => by
    obtain ⟨a, b, c, d, e, f, g⟩ := hp
    refine ⟨a, b, c, d, by rw [h.1]; exact e, by rw [(h.2 _).2.1]; exact f, ?_⟩
    rw [(h.2 _).1]
    exact path_ok_congr es es' pre S N h k _ g

/-- The walk of `update` along a well-formed predecessor chain finishes; it pushes
`incf[T]` along every entry of the path and changes nothing else. -/
theorem update_while_spec :
    ∀ (k fuel : Nat) (st : State) (x : Int), k < fuel → st.e.length % 2 = 0 →
      st.pre.length = st.d.length → st.incf.length = st.d.length →
      0 ≤ st.T → st.T < st.d.length →
      (∀ i : Int, 2 ≤ i → i < st.e.length → (edge st.e (xor1 i)).v = (edge st.e i).u) →
      path_ok st.e st.pre st.S st.d.length k x →
      update_while fuel st x =
        some { st with e := (path st.e st.pre st.S k x).foldl (push (get st.incf st.T)) st.e }
  | _, 0, _, _, hf, _, _, _, _, _, _, _ => by omega
  | 0, fuel + 1, st, x, _, _, _, _, _, _, _, hp => by
    have hx : x = st.S := hp
    simp [update_while, hx, path]
  | k + 1, fuel + 1, st, x, hf, hev, hlp, hli, hT0, hT1, hpair, hp => by
    obtain ⟨hxS, hx0, hx1, hi0, hi1, hiv, hrest⟩ := hp
    obtain ⟨a, b, c, -⟩ := xor1_range (get st.pre x) st.e.length hev hi0 hi1
    have hsame := same_arcs_push (get st.incf st.T) st.e (get st.pre x) hev hi0 hi1
    have hlen := length_push (get st.incf st.T) st.e (get st.pre x)
    have hnext := update_while_spec k fuel
      { st with e := push (get st.incf st.T) st.e (get st.pre x) }
      (edge st.e (get st.pre x)).u (by omega) (by simpa [hlen] using hev) hlp hli hT0 hT1
      (by
        intro i h0 h1
        simp only at h1 ⊢
        rw [hlen] at h1
        rw [(hsame.2 _).2.1, (hsame.2 _).1]
        exact hpair i h0 h1)
      (path_ok_congr _ _ _ _ _ hsame k _ hrest)
    simp only [path_congr _ _ _ _ hsame] at hnext
    simp only [update_while, if_neg hxS, rd_eq st.pre x hx0 (by omega),
      rd_eq st.incf st.T hT0 (by omega), rd_edge st.e _ (by omega) hi1,
      wr_eq_set st.e _ _ (by omega : (0:Int) ≤ get st.pre x) hi1,
      Option.bind_eq_bind, Option.some_bind]
    rw [rd_edge _ (xor1 (get st.pre x)) (by omega) (by simp; omega)]
    simp only [Option.some_bind]
    rw [wr_eq_set _ (xor1 (get st.pre x)) _ (by omega) (by simp; omega)]
    simp only [Option.some_bind]
    rw [rd_edge _ (xor1 (get st.pre x)) (by omega) (by simp; omega)]
    simp only [Option.some_bind]
    have hv : (edge ((st.e.set (get st.pre x).toNat
        { edge st.e (get st.pre x) with
          w := (edge st.e (get st.pre x)).w - get st.incf st.T }).set (xor1 (get st.pre x)).toNat
        { edge (st.e.set (get st.pre x).toNat { edge st.e (get st.pre x) with
            w := (edge st.e (get st.pre x)).w - get st.incf st.T }) (xor1 (get st.pre x)) with
          w := (edge (st.e.set (get st.pre x).toNat { edge st.e (get st.pre x) with
            w := (edge st.e (get st.pre x)).w - get st.incf st.T }) (xor1 (get st.pre x))).w
              + get st.incf st.T }) (xor1 (get st.pre x))).v = (edge st.e (get st.pre x)).u := by
      have := (hsame.2 (xor1 (get st.pre x))).2.1
      unfold push at this
      rw [this]
      exact hpair _ hi0 hi1
    rw [hv]
    simp only [path, if_neg hxS, List.foldl_cons]
    exact hnext


theorem xor1_eq_iff (i j : Int) : j = xor1 i ↔ i = xor1 j := by
  unfold xor1
  split_ifs <;> omega

/-- Residual capacities after pushing `f` along every entry of the list `P`. -/
theorem edge_pushes (f : Int) (L : Nat) (hev : L % 2 = 0) :
    ∀ (P : List Int) (es : List E), es.length = L → (∀ i ∈ P, 2 ≤ i ∧ i < L) →
      same_arcs es (P.foldl (push f) es) ∧
      ∀ j : Int, 2 ≤ j → j < L →
        (edge (P.foldl (push f) es) j).w =
          (edge es j).w - f * (P.count j) + f * (P.count (xor1 j))
  | [], es, _, _ => ⟨same_arcs_refl es, fun j _ _ => by simp⟩
  | i :: P, es, hlen, hP => by
    obtain ⟨hi0, hi1⟩ := hP i (by simp)
    have hsame := same_arcs_push f es i (by rw [hlen]; exact hev) hi0 (by rw [hlen]; exact hi1)
    obtain ⟨ih1, ih2⟩ := edge_pushes f L hev P (push f es i) (by rw [length_push, hlen])
      (fun i' hi' => hP i' (List.mem_cons_of_mem _ hi'))
    refine ⟨same_arcs_trans _ _ _ hsame ih1, fun j hj0 hj1 => ?_⟩
    simp only [List.foldl_cons]
    rw [ih2 j hj0 hj1, edge_push f es i j L hlen hev hi0 hi1 (by omega)]
    obtain ⟨a, b, c, -⟩ := xor1_range i L hev hi0 hi1
    have hiff := xor1_eq_iff i j
    rw [List.count_cons, List.count_cons]
    by_cases h1 : j = xor1 i
    · have h2 : i = xor1 j := hiff.mp h1
      have h3 : ¬ (i = j) := by
        intro h
        rw [h] at h1
        have := (xor1_range j L hev hj0 hj1).2.2.1
        exact this h1.symm
      rw [if_pos h1]
      simp only [beq_iff_eq, h2, h3, if_true, if_false]
      have : ¬ (xor1 j = j) := (xor1_range j L hev hj0 hj1).2.2.1
      simp only [this, if_false]
      push_cast
      ring
    · have h2 : ¬ (i = xor1 j) := fun h => h1 (hiff.mpr h)
      rw [if_neg h1]
      by_cases h3 : j = i
      · rw [if_pos h3]
        simp only [beq_iff_eq, h3, h2, if_true, if_false]
        have : ¬ (i = xor1 i) := fun h => c h.symm
        simp only [Ne.symm c, if_false]
        push_cast
        ring
      · rw [if_neg h3]
        have h4 : ¬ (i = j) := fun h => h3 h.symm
        simp only [beq_iff_eq, h4, h2, if_false]
        push_cast
        ring

theorem chain_unique (es : List E) (pre : List Int) (S : Int) :
    ∀ (k k' : Nat) (x : Int), chain es pre S k x → chain es pre S k' x → k = k'
  | 0, 0, _, _, _ => rfl
  | 0, k' + 1, _, h, h' => absurd h h'.1
  | k + 1, 0, _, h, h' => absurd h' h.1
  | k + 1, k' + 1, _, h, h' => by
    rw [chain_unique es pre S k k' _ h.2 h'.2]

/-- What the finished labelling pass guarantees along the predecessor chain of a labelled
node `x`. -/
theorem path_facts (st : State) (p : Int → Int) (hw : Wf st) (hc : CostShape st)
    (hr : Res st p) (hI : SpfaInv st p (fun _ => False)) (hq : st.q = []) :
    ∀ (k : Nat) (x : Int), 0 ≤ x → x < st.d.length → get st.d x ≠ INF →
      chain st.e st.pre st.S k x →
      path_ok st.e st.pre st.S st.d.length k x ∧ 1 ≤ get st.incf x ∧
      (∀ j ∈ path st.e st.pre st.S k x, 2 ≤ j ∧ j < st.e.length ∧
        get st.incf x ≤ (edge st.e j).w ∧
        get st.d (edge st.e j).v = get st.d (edge st.e j).u + (edge st.e j).c ∧
        get st.d (edge st.e j).u ≠ INF ∧ get st.d (edge st.e j).v ≠ INF ∧
        (edge st.e j).v ≠ st.S ∧ ∃ m, m < k ∧ chain st.e st.pre st.S (m + 1) (edge st.e j).v) ∧
      (∀ j ∈ path st.e st.pre st.S k x, (edge st.e j).u = st.S → get st.d x = (edge st.e j).c)
  | 0, x, _, _, _, h => by
    have hx : x = st.S := h
    refine ⟨h, ?_, by simp [path], by simp [path]⟩
    rw [hx, hI.fS]
    omega
  | k + 1, x, hx0, hx1, hdx, h => by
    obtain ⟨hxS, hch⟩ := h
    obtain ⟨a1, a2, a3, a4, a5, a6, a7⟩ := hI.pre_ok x hx0 hx1 hxS hdx
    obtain ⟨b0, b1, -, -⟩ := hw.e_range _ a1 a2
    obtain ⟨ih1, ih2, ih3, ih4⟩ := path_facts st p hw hc hr hI hq k _ b0 b1 a5 hch
    have hrel := hI.relaxed_ok _ a1 a2 a4 a5 (by rw [hq]; simp) (fun h => h)
    rw [a3] at hrel
    have heq : get st.d (edge st.e (get st.pre x)).u + (edge st.e (get st.pre x)).c
        = get st.d x := by omega
    have hinc := a7 heq
    have hwpos := hr.w_nonneg _ a1 a2
    refine ⟨⟨hxS, hx0, hx1, a1, a2, a3, ih1⟩, ?_, ?_, ?_⟩
    · rw [hinc]
      exact le_min ih2 (by omega)
    · intro j hj
      simp only [path, if_neg hxS, List.mem_cons] at hj
      rcases hj with rfl | hj
      · refine ⟨a1, a2, ?_, ?_, a5, ?_, ?_, k, by omega, ?_⟩
        · rw [hinc]; exact min_le_right _ _
        · rw [a3]; exact heq.symm
        · rw [a3]; exact hdx
        · rw [a3]; exact hxS
        · rw [a3]; exact ⟨hxS, hch⟩
      · obtain ⟨c1, c2, c3, c4, c5, c6, c7, m, hm, c8⟩ := ih3 j hj
        refine ⟨c1, c2, ?_, c4, c5, c6, c7, m, by omega, c8⟩
        rw [hinc]
        exact le_trans (min_le_left _ _) c3
    · intro j hj hjS
      simp only [path, if_neg hxS, List.mem_cons] at hj
      rcases hj with rfl | hj
      · rw [← heq, hjS, hI.dS]
        omega
      · have hne : (edge st.e (get st.pre x)).u ≠ st.S := by
          intro hS
          cases k with
          | zero => simp [path] at hj
          | succ k => simp [path, hS] at hj
        have hc0 := hc.inner _ a1 a2 hne (by rw [a3]; exact hxS)
        rw [← heq, hc0, ih4 j hj hjS]
        omega

theorem path_nodup (st : State) (p : Int → Int) (hw : Wf st) (hc : CostShape st)
    (hr : Res st p) (hI : SpfaInv st p (fun _ => False)) (hq : st.q = []) :
    ∀ (k : Nat) (x : Int), 0 ≤ x → x < st.d.length → get st.d x ≠ INF →
      chain st.e st.pre st.S k x → (path st.e st.pre st.S k x).Nodup
  | 0, _, _, _, _, _ => by simp [path]
  | k + 1, x, hx0, hx1, hdx, h => by
    obtain ⟨hxS, hch⟩ := h
    obtain ⟨a1, a2, a3, a4, a5, a6, a7⟩ := hI.pre_ok x hx0 hx1 hxS hdx
    obtain ⟨b0, b1, -, -⟩ := hw.e_range _ a1 a2
    have ih := path_nodup st p hw hc hr hI hq k _ b0 b1 a5 hch
    obtain ⟨-, -, hf, -⟩ := path_facts st p hw hc hr hI hq k _ b0 b1 a5 hch
    simp only [path, if_neg hxS, List.nodup_cons]
    refine ⟨fun hmem => ?_, ih⟩
    obtain ⟨-, -, -, -, -, -, -, m, hm, hcm⟩ := hf _ hmem
    rw [a3] at hcm
    have := chain_unique _ _ _ _ _ _ hcm (show chain st.e st.pre st.S (k + 1) x from ⟨hxS, hch⟩)
    omega


theorem in_chain_congr (es es' : List E) (h : same_arcs es es') :
    ∀ (k : Nat) (a i : Int), in_chain es k a i → in_chain es' k a i
  | 0, _, _, hc => hc
  | k + 1, a, i, hc => by
    obtain ⟨h1, h2⟩ := hc
    refine ⟨h1, ?_⟩
    rcases h2 with h2 | h2
    · exact Or.inl h2
    · right
      rw [(h.2 a).2.2.1]
      exact in_chain_congr es es' h k _ _ h2

theorem Wf_same_arcs (st st' : State) (h : same_arcs st.e st'.e) (hd : st'.d = st.d)
    (hincf : st'.incf = st.incf) (hpre : st'.pre = st.pre) (hhead : st'.head = st.head)
    (hvis : st'.vis = st.vis) (hS : st'.S = st.S) (hT : st'.T = st.T) (hw : Wf st) :
    Wf st' := by
  obtain ⟨hlen, harc⟩ := h
  constructor
  · rw [hincf, hd]; exact hw.len_incf
  · rw [hpre, hd]; exact hw.len_pre
  · rw [hhead, hd]; exact hw.len_head
  · rw [hvis, hd]; exact hw.len_vis
  · rw [hS, hd]; exact hw.S_range
  · rw [hT, hd]; exact hw.T_range
  · rw [hlen]; exact hw.two_le
  · rw [hlen]; exact hw.even
  · intro i h0 h1
    rw [hlen] at h1
    rw [(harc i).1, (harc i).2.1, hd]
    exact hw.e_range i h0 h1
  · intro i h0 h1
    rw [hlen] at h1
    rw [(harc i).2.2.1, (harc _).1, (harc i).1]
    exact hw.next_ok i h0 h1
  · intro u h0 h1
    rw [hd] at h1
    rw [hhead, hlen, (harc _).1]
    exact hw.head_ok u h0 h1
  · intro i h0 h1
    rw [hlen] at h1
    rw [(harc (xor1 i)).1, (harc (xor1 i)).2.1, (harc (xor1 i)).2.2.2, (harc i).1, (harc i).2.1,
      (harc i).2.2.2]
    exact hw.pair i h0 h1
  · intro i h0 h1
    rw [hlen] at h1 ⊢
    rw [hhead, (harc i).1]
    exact in_chain_congr _ _ ⟨hlen, harc⟩ _ _ _ (hw.complete i h0 h1)

theorem CostShape_same_arcs (st st' : State) (h : same_arcs st.e st'.e) (hS : st'.S = st.S)
    (hc : CostShape st) : CostShape st' := by
  obtain ⟨hlen, harc⟩ := h
  constructor
  · intro i h0 h1
    rw [hlen] at h1
    rw [(harc i).1, (harc i).2.2.2, hS]
    exact hc.out_S i h0 h1
  · intro i h0 h1
    rw [hlen] at h1
    rw [(harc i).1, (harc i).2.2.2, hS]
    exact hc.not_S i h0 h1
  · intro i h0 h1
    rw [hlen] at h1
    rw [(harc i).1, (harc i).2.1, (harc i).2.2.2, hS]
    exact hc.inner i h0 h1
  · intro i h0 h1
    rw [hlen] at h1
    rw [(harc i).1, (harc i).2.1]
    exact hc.no_loop i h0 h1

theorem cost_ge (st : State) (hw : Wf st) (hc : CostShape st) (i : Int) (h0 : 2 ≤ i)
    (h1 : i < st.e.length) : -100 ≤ (edge st.e i).c ∧ (edge st.e i).c ≤ 100 := by
  obtain ⟨a, b, -, -⟩ := xor1_range i st.e.length hw.even h0 h1
  obtain ⟨-, -, hp⟩ := hw.pair i h0 h1
  constructor
  · by_cases hS : (edge st.e (xor1 i)).u = st.S
    · have := hc.out_S _ a b hS
      omega
    · have := hc.not_S _ a b hS
      omega
  · by_cases hS : (edge st.e i).u = st.S
    · exact (hc.out_S _ h0 h1 hS).2
    · have := hc.not_S _ h0 h1 hS
      omega

theorem path_ok_last (es : List E) (pre : List Int) (S : Int) (N : Nat) :
    ∀ (k : Nat) (x : Int), x ≠ S → path_ok es pre S N k x →
      ∃ j ∈ path es pre S k x, (edge es j).u = S
  | 0, _, hx, h => absurd h hx
  | k + 1, x, hx, h => by
    obtain ⟨-, -, -, -, -, -, hrest⟩ := h
    by_cases hS : (edge es (get pre x)).u = S
    · exact ⟨get pre x, by simp [path, hx], hS⟩
    · obtain ⟨j, hj, hju⟩ := path_ok_last es pre S N k _ hS hrest
      exact ⟨j, by simp [path, hx, hj], hju⟩

/-- The function `update()` finishes on a finished labelling pass that reached the sink. -/
theorem update_eq (st : State) (k fuel : Nat) (hw : Wf st) (hf : k < fuel)
    (hp : path_ok st.e st.pre st.S st.d.length k st.T) :
    update fuel st = some (augmented st k) := by
  obtain ⟨hT0, hT1⟩ := hw.T_range
  have h := update_while_spec k fuel st st.T hf hw.even hw.len_pre hw.len_incf hT0 hT1
    (fun i h0 h1 => (hw.pair i h0 h1).2.1) hp
  simp only [update, h, Option.bind_eq_bind, Option.some_bind,
    rd_eq st.incf st.T hT0 (by rw [hw.len_incf]; exact hT1), rd_eq st.d st.T hT0 hT1]
  rfl

end mcmf

theorem sum_range_lt (n : Nat) (f g : Nat → Nat) (h1 : ∀ j, j < n → f j ≤ g j)
    (h2 : ∃ j, j < n ∧ f j < g j) :
    ((List.range n).map f).sum < ((List.range n).map g).sum := by
  apply List.sum_lt_sum
  · intro j hj
    exact h1 j (List.mem_range.mp hj)
  · obtain ⟨j, hj, hlt⟩ := h2
    exact ⟨j, List.mem_range.mpr hj, hlt⟩

namespace mcmf

theorem new_pot_labelled (st : State) (p : Int → Int) (x : Int) (h0 : 0 ≤ x)
    (h1 : x < st.d.length) (hd : get st.d x ≠ INF) : new_pot st p x = get st.d x := by
  unfold new_pot
  rw [if_pos ⟨h0, h1, hd⟩]

theorem new_pot_unlabelled (st : State) (p : Int → Int) (x : Int)
    (hd : get st.d x = INF) : new_pot st p x = p x + 200 := by
  unfold new_pot
  rw [if_neg (fun h => h.2.2 hd)]

/-- After an augmentation along the predecessor chain of the sink, the residual capacities are
still non-negative, the labels give a potential for the new residual graph, every saturated
entry leaving the source costs at most the new potential of the sink, and the capacity left
on the entries leaving the source has decreased. -/
theorem augmented_spec (st : State) (p : Int → Int) (k : Nat) (hw : Wf st) (hc : CostShape st)
    (hr : Res st p) (hF : Fair st p) (hI : SpfaInv st p (fun _ => False)) (hq : st.q = [])
    (hT : get st.d st.T ≠ INF) (hST : st.T ≠ st.S) (hk : chain st.e st.pre st.S k st.T) :
    same_arcs st.e (augmented st k).e ∧ Res (augmented st k) (new_pot st p) ∧
    Fair (augmented st k) (new_pot st p) ∧ source_cap (augmented st k) < source_cap st := by
  have hINF := INF_val
  obtain ⟨hT0, hT1⟩ := hw.T_range
  obtain ⟨hS0, hS1⟩ := hw.S_range
  obtain ⟨hok, hf1, hP, hcost⟩ := path_facts st p hw hc hr hI hq k st.T hT0 hT1 hT hk
  have hnd := path_nodup st p hw hc hr hI hq k st.T hT0 hT1 hT hk
  obtain ⟨hsame, hwf⟩ := edge_pushes (get st.incf st.T) st.e.length hw.even
    (path st.e st.pre st.S k st.T) st.e rfl (fun i hi => ⟨(hP i hi).1, (hP i hi).2.1⟩)
  have hE : (augmented st k).e =
      (path st.e st.pre st.S k st.T).foldl (push (get st.incf st.T)) st.e := rfl
  have hSa : (augmented st k).S = st.S := rfl
  have hTa : (augmented st k).T = st.T := rfl
  rw [← hE] at hsame hwf
  obtain ⟨hlen, harc⟩ := hsame
  -- the count of an entry on the path is `0` or `1`
  have hcnt : ∀ j : Int, (path st.e st.pre st.S k st.T).count j = 0 ∨
      ((path st.e st.pre st.S k st.T).count j = 1 ∧ j ∈ path st.e st.pre st.S k st.T) := by
    intro j
    by_cases hj : j ∈ path st.e st.pre st.S k st.T
    · exact Or.inr ⟨List.count_eq_one_of_mem hnd hj, hj⟩
    · exact Or.inl (List.count_eq_zero_of_not_mem hj)
  have hwn : ∀ j : Int, 2 ≤ j → j < st.e.length → 0 ≤ (edge (augmented st k).e j).w := by
    intro j h0 h1
    rw [hwf j h0 h1]
    have h2 : 0 ≤ get st.incf st.T * ((path st.e st.pre st.S k st.T).count (xor1 j) : Int) :=
      mul_nonneg (by omega) (Int.natCast_nonneg _)
    have h3 := hr.w_nonneg j h0 h1
    rcases hcnt j with h4 | ⟨h4, h5⟩
    · rw [h4]
      simp only [Nat.cast_zero, mul_zero, sub_zero]
      omega
    · rw [h4]
      have := (hP j h5).2.2.1
      simp only [Nat.cast_one, mul_one]
      omega
  have hsrc : ∀ j : Int, 2 ≤ j → j < st.e.length → (edge st.e j).u = st.S →
      (path st.e st.pre st.S k st.T).count (xor1 j) = 0 := by
    intro j h0 h1 hu
    rcases hcnt (xor1 j) with h4 | ⟨-, h5⟩
    · exact h4
    · exfalso
      have := (hP _ h5).2.2.2.2.2.2.1
      rw [(hw.pair j h0 h1).2.1] at this
      exact this hu
  refine ⟨⟨hlen, harc⟩, ⟨?_, ?_, ?_, ?_⟩, ?_, ?_⟩
  · intro j h0 h1
    rw [hlen] at h1
    exact hwn j h0 h1
  · intro j h0 h1 hwj
    rw [hlen] at h1
    rw [(harc j).1, (harc j).2.1, (harc j).2.2.2]
    obtain ⟨b0, b1, b2, b3⟩ := hw.e_range j h0 h1
    by_cases hx : xor1 j ∈ path st.e st.pre st.S k st.T
    · obtain ⟨-, -, -, c4, c5, c6, -, -⟩ := hP _ hx
      obtain ⟨d1, d2, d3⟩ := hw.pair j h0 h1
      rw [d1, d2, d3] at c4
      rw [d1] at c5
      rw [d2] at c6
      rw [new_pot_labelled st p _ b0 b1 c6, new_pot_labelled st p _ b2 b3 c5]
      omega
    · have hc0 : (path st.e st.pre st.S k st.T).count (xor1 j) = 0 :=
        List.count_eq_zero_of_not_mem hx
      have hwj' : (edge st.e j).w ≠ 0 := by
        intro hz
        apply hwj
        have h5 := hwn j h0 h1
        have h6 := hwf j h0 h1
        rw [hc0, hz] at h6
        have h7 : 0 ≤ get st.incf st.T * ((path st.e st.pre st.S k st.T).count j : Int) :=
          mul_nonneg (by omega) (Int.natCast_nonneg _)
        simp only [Nat.cast_zero, mul_zero, add_zero, zero_sub] at h6
        omega
      have hcb := cost_ge st hw hc j h0 h1
      by_cases hdu : get st.d (edge st.e j).u = INF
      · rw [new_pot_unlabelled st p _ hdu]
        by_cases hdv : get st.d (edge st.e j).v = INF
        · rw [new_pot_unlabelled st p _ hdv]
          have := hr.reduced j h0 h1 hwj'
          omega
        · rw [new_pot_labelled st p _ b2 b3 hdv]
          have h8 := hr.pot_nonneg (edge st.e j).u
          rcases hI.d_bound _ b2 b3 with h9 | h9
          · exact absurd h9 hdv
          · omega
      · have hrel := hI.relaxed_ok j h0 h1 hwj' hdu (by rw [hq]; simp) (fun h => h)
        have hdv : get st.d (edge st.e j).v ≠ INF := by
          rcases hI.d_bound _ b0 b1 with h9 | h9
          · exact absurd h9 hdu
          · omega
        rw [new_pot_labelled st p _ b0 b1 hdu, new_pot_labelled st p _ b2 b3 hdv]
        omega
  · rw [hSa, new_pot_labelled st p _ hS0 hS1 (by rw [hI.dS]; omega)]
    exact hI.dS
  · intro x
    unfold new_pot
    split_ifs with h
    · rcases hI.d_bound x h.1 h.2.1 with h9 | h9
      · exact absurd h9 h.2.2
      · have := hr.pot_nonneg x
        omega
    · have := hr.pot_nonneg x
      omega
  · intro i h0 h1 hu hwi
    rw [hlen] at h1
    rw [(harc i).1, hSa] at hu
    rw [(harc i).2.2.2, hTa, new_pot_labelled st p _ hT0 hT1 hT]
    have h6 := hwf i h0 h1
    rw [hsrc i h0 h1 hu, hwi] at h6
    rcases hcnt i with h4 | ⟨h4, h5⟩
    · rw [h4] at h6
      simp only [Nat.cast_zero, mul_zero, sub_zero, add_zero] at h6
      have := hF i h0 h1 hu h6.symm
      rcases hI.d_bound _ hT0 hT1 with h9 | h9
      · exact absurd h9 hT
      · omega
    · rw [hcost i h5 hu]
  · unfold source_cap
    rw [hlen, hSa]
    apply sum_range_lt
    · intro j hj'
      have h0 : (2 : Int) ≤ (j : Int) + 2 := by omega
      have h1 : (j : Int) + 2 < st.e.length := by omega
      rw [(harc _).1]
      split_ifs with hu
      · have h6 := hwf _ h0 h1
        rw [hsrc _ h0 h1 hu] at h6
        have h7 : 0 ≤ get st.incf st.T *
            ((path st.e st.pre st.S k st.T).count ((j : Int) + 2) : Int) :=
          mul_nonneg (by omega) (Int.natCast_nonneg _)
        simp only [Nat.cast_zero, mul_zero, add_zero] at h6
        omega
      · exact le_refl _
    · obtain ⟨i, hi, hiu⟩ := path_ok_last _ _ _ _ k st.T hST hok
      obtain ⟨c1, c2, c3, -⟩ := hP i hi
      refine ⟨(i - 2).toNat, by omega, ?_⟩
      have hcast : (((i - 2).toNat : Nat) : Int) + 2 = i := by omega
      rw [hcast, (harc i).1, if_pos hiu, if_pos hiu]
      have h6 := hwf i c1 c2
      rw [hsrc i c1 c2 hiu, List.count_eq_one_of_mem hnd hi] at h6
      simp only [Nat.cast_zero, mul_zero, add_zero, Nat.cast_one, mul_one] at h6
      omega

end mcmf

/-! ## The loop `work()` -/

namespace mcmf

theorem source_cap_congr (st st' : State) (he : st'.e = st.e) (hS : st'.S = st.S) :
    source_cap st' = source_cap st := by
  unfold source_cap
  rw [he, hS]

/-- One iteration of `work()` from a state that satisfies the loop invariant: either the
labelling pass does not reach the sink, or the augmentation leads to a state that satisfies
the invariant again, with less capacity left at the source. -/
theorem work_step (st : State) (hinv : WorkInv st) :
    ∃ st1, (∀ fuel, spfa_fuel st ≤ fuel →
        spfa fuel st = some (decide (get st1.d st1.T ≠ INF), st1)) ∧
      spfa_frame st st1 ∧ Wf st1 ∧ st1.q = [] ∧ CostShape st1 ∧
      (∃ p, Res st1 p ∧ Fair st1 p ∧ SpfaInv st1 p (fun _ => False)) ∧
      (get st1.d st1.T ≠ INF → ∃ k, chain st1.e st1.pre st1.S k st1.T ∧
        (∀ fuel, k < fuel → update fuel st1 = some (augmented st1 k)) ∧
        WorkInv (augmented st1 k) ∧ source_cap (augmented st1 k) < source_cap st) := by
  obtain ⟨hw, hc, ⟨p, hr, hF⟩, hq, hTS⟩ := hinv
  obtain ⟨st1, hs, hw1, hI1, hq1, hfr1, hl1⟩ := spfa_spec p (spfa_fuel st) st hw hc hr hq
    (le_refl _)
  have he1 := spfa_frame_e _ _ hfr1
  have hS1 := spfa_frame_S _ _ hfr1
  have hT1 := spfa_frame_T _ _ hfr1
  have hc1 := CostShape_congr st st1 he1 hS1 hc
  have hr1 := Res_congr st st1 p he1 hS1 hr
  have hF1 : Fair st1 p := by
    intro i h0 h1 hu hwi
    rw [he1] at h1 hu hwi ⊢
    rw [hS1] at hu
    rw [hT1]
    exact hF i h0 h1 hu hwi
  refine ⟨st1, fun fuel hf => spfa_mono _ _ _ _ hf hs, hfr1, hw1, hq1, hc1, ⟨p, hr1, hF1, hI1⟩,
    ?_⟩
  intro hT
  obtain ⟨k, hk⟩ := hI1.chain_ok st1.T hw1.T_range.1 hw1.T_range.2 hT
  have hTS1 : st1.T ≠ st1.S := by rw [hT1, hS1]; exact hTS
  obtain ⟨hok, -, -, -⟩ := path_facts st1 p hw1 hc1 hr1 hI1 hq1 k st1.T hw1.T_range.1
    hw1.T_range.2 hT hk
  obtain ⟨hsame, hr2, hF2, hcap⟩ := augmented_spec st1 p k hw1 hc1 hr1 hF1 hI1 hq1 hT hTS1 hk
  refine ⟨k, hk, fun fuel hf => update_eq st1 k fuel hw1 hf hok, ?_, ?_⟩
  · exact ⟨Wf_same_arcs st1 _ hsame rfl rfl rfl rfl rfl rfl rfl hw1,
      CostShape_same_arcs st1 _ hsame rfl hc1, ⟨_, hr2, hF2⟩, hq1, hTS1⟩
  · rw [← source_cap_congr st st1 he1 hS1]
    exact hcap

/-- The loop `work()` finishes from every state that satisfies the loop invariant: it ends
with a labelling pass that does not reach the sink, run on a state reached by augmentations. -/
theorem work_spec : ∀ (m : Nat) (st : State), WorkInv st → source_cap st ≤ m →
    ∃ fuel0 stA st', reached st stA ∧ WorkInv stA ∧
      (∀ fuel, fuel0 ≤ fuel → work fuel st = some st') ∧
      (∀ fuel, spfa_fuel stA ≤ fuel → spfa fuel stA = some (false, st')) ∧
      spfa_frame stA st' ∧ Wf st' ∧ st'.q = [] ∧ get st'.d st'.T = INF ∧
      (∃ p, Res st' p ∧ Fair st' p ∧ SpfaInv st' p (fun _ => False))
  | m, st, hinv, hm => by
    obtain ⟨st1, hs, hfr1, hw1, hq1, -, hp1, haug⟩ := work_step st hinv
    by_cases hT : get st1.d st1.T ≠ INF
    · obtain ⟨k, -, hu, hinv2, hcap⟩ := haug hT
      cases m with
      | zero => omega
      | succ m =>
        obtain ⟨fuel1, stA, st', hre, hiA, hwk, hsp, hfr, hw', hq', hd', hp'⟩ :=
          work_spec m (augmented st1 k) hinv2 (by omega)
        refine ⟨max (spfa_fuel st) (max (k + 1) fuel1) + 1, stA, st', ?_, hiA, ?_, hsp, hfr, hw',
          hq', hd', hp'⟩
        · refine Relation.ReflTransGen.head ?_ hre
          refine ⟨max (spfa_fuel st) (k + 1), st1, ?_, hu _ (by omega)⟩
          have := hs (max (spfa_fuel st) (k + 1)) (le_max_left _ _)
          simpa [hT] using this
        · intro fuel hf
          obtain ⟨f, rfl⟩ : ∃ f, fuel = f + 1 := ⟨fuel - 1, by omega⟩
          have h1 := hs (f + 1) (by omega)
          have hdec : decide (get st1.d st1.T ≠ INF) = true := by simpa using hT
          rw [hdec] at h1
          simp only [work, h1, Option.bind_eq_bind, Option.some_bind, if_true,
            hu (f + 1) (by omega)]
          exact hwk f (by omega)
    · have hT' : get st1.d st1.T = INF := not_not.mp hT
      refine ⟨spfa_fuel st + 1, st, st1, Relation.ReflTransGen.refl, hinv, ?_, ?_, hfr1, hw1, hq1,
        hT', hp1⟩
      · intro fuel hf
        obtain ⟨f, rfl⟩ : ∃ f, fuel = f + 1 := ⟨fuel - 1, by omega⟩
        have h1 := hs (f + 1) (by omega)
        simp only [hT', ne_eq, not_true_eq_false, decide_False] at h1
        simp [work, h1]
      · intro fuel hf
        have h1 := hs fuel hf
        simpa [hT'] using h1

/-- Induction over the states at the head of the loop of `work()`: a property that holds at
the start and survives every labelling pass followed by its augmentation holds of every state
reached. -/
theorem reached_ind (I : State → Prop) (st0 : State) (hinv : WorkInv st0) (h0 : I st0)
    (hstep : ∀ (st st1 : State) (p : Int → Int) (k : Nat), WorkInv st → I st →
      spfa_frame st st1 → Wf st1 → CostShape st1 → Res st1 p → Fair st1 p →
      SpfaInv st1 p (fun _ => False) → st1.q = [] → get st1.d st1.T ≠ INF →
      chain st1.e st1.pre st1.S k st1.T → WorkInv (augmented st1 k) → I (augmented st1 k)) :
    ∀ st', reached st0 st' → WorkInv st' ∧ I st' := by
  intro st' h
  induction h with
  | refl => exact ⟨hinv, h0⟩
  | @tail b c _ hstep' ih =>
    obtain ⟨fuel, s1, hsp, hup⟩ := hstep'
    obtain ⟨st1, hs, hfr, hw1, hq1, hc1, ⟨p, hr1, hF1, hI1⟩, haug⟩ := work_step b ih.1
    have h1 := hs (max fuel (spfa_fuel b)) (le_max_right _ _)
    have h2 := spfa_mono _ _ _ _ (le_max_left fuel (spfa_fuel b)) hsp
    rw [h1] at h2
    obtain ⟨hb, rfl⟩ := Prod.mk.inj (Option.some.inj h2)
    have hT : get st1.d st1.T ≠ INF := by simpa using hb
    obtain ⟨k, hk, hu, hinv2, -⟩ := haug hT
    have h3 := hu (max fuel (k + 1)) (by omega)
    have h4 := update_mono _ _ _ _ (le_max_left fuel (k + 1)) hup
    rw [h3] at h4
    rw [← Option.some.inj h4]
    exact ⟨hinv2, hstep b st1 p k ih.1 ih.2 hfr hw1 hc1 hr1 hF1 hI1 hq1 hT hk hinv2⟩

/-- Every state at the head of the loop of `work()` satisfies the loop invariant. -/
theorem reached_inv (st st' : State) (hinv : WorkInv st) (h : reached st st') : WorkInv st' :=
  (reached_ind (fun _ => True) st hinv trivial
    (fun _ _ _ _ _ _ _ _ _ _ _ _ _ _ _ _ => trivial) st' h).1

end mcmf

/-! ## Inserting edges -/

theorem toInt32_of_lt (x : Nat) (h : x < 2 ^ 31) : toInt32 x = (x : Int) := by
  unfold toInt32
  have h1 : x % 2 ^ 32 = x := Nat.mod_eq_of_lt (by omega)
  rw [h1, if_pos h]

/-- A `size_t` value below `2^31` is itself as an `int`. -/
theorem conv_small (x : Nat) (h : x < 2 ^ 31) : toInt32 (x % 2 ^ 64) = (x : Int) := by
  have h31 : (2 : Nat) ^ 31 = 2147483648 := by norm_num
  have h64 : (2 : Nat) ^ 64 = 18446744073709551616 := by norm_num
  rw [Nat.mod_eq_of_lt (by omega), toInt32_of_lt _ h]

namespace mcmf

/-- A 32-bit result is congruent to its exact value modulo `2 ^ 32`. -/
theorem wrap32_emod (a : Int) : wrap32 a % 2 ^ 32 = a % 2 ^ 32 := by
  unfold wrap32 toInt32
  have h := Int.emod_nonneg a (by norm_num : (2 : Int) ^ 32 ≠ 0)
  have h2 := Int.emod_lt_of_pos a (by norm_num : (0 : Int) < 2 ^ 32)
  split_ifs <;> omega

theorem wrap32_congr (a b : Int) (h : a % 2 ^ 32 = b % 2 ^ 32) : wrap32 a = wrap32 b := by
  unfold wrap32
  rw [h]

/-- Adding to a wrapped value and wrapping again is wrapping the exact sum. -/
theorem wrap32_add_left (a b : Int) : wrap32 (wrap32 a + b) = wrap32 (a + b) :=
  wrap32_congr _ _ (by rw [Int.add_emod, wrap32_emod, ← Int.add_emod])

/-- A value that fits in 32 bits is kept. -/
theorem wrap32_of_range (a : Int) (h0 : -2 ^ 31 ≤ a) (h1 : a < 2 ^ 31) : wrap32 a = a := by
  unfold wrap32 toInt32
  split_ifs <;> omega

@[simp]
theorem wrap32_zero : wrap32 0 = 0 := by decide

@[simp]
theorem wrap32_one : wrap32 1 = 1 := by decide

theorem wrap32_neg_zero : wrap32 (-0) = 0 := by decide

theorem wrap32_one_sub : wrap32 (1 - 0) = 1 := by decide

theorem wrap32_INF_sub : wrap32 (INF - 0) = INF := by decide

theorem wrap32_INF : wrap32 INF = INF := by decide

theorem addEdge_eq (st : State) (u v l d c : Int) (hu0 : 0 ≤ u) (hu1 : u < st.head.length)
    (hv0 : 0 ≤ v) (hv1 : v < st.head.length) (hla : st.a.length = st.head.length) :
    addEdge st u v l d c = some (added st u v l d c) := by
  have e1 : rd st.a v = some (get st.a v) := rd_eq st.a v hv0 (by omega)
  have e2 : ∀ x, wr st.a v x = some (st.a.set v.toNat x) := fun x => wr_eq_set _ _ _ hv0 (by omega)
  have e3 : ∀ x, rd (st.a.set v.toNat x) u = some (get (st.a.set v.toNat x) u) :=
    fun x => rd_eq _ u hu0 (by simp; omega)
  have e4 : ∀ x y, wr (st.a.set v.toNat x) u y = some ((st.a.set v.toNat x).set u.toNat y) :=
    fun x y => wr_eq_set _ _ _ hu0 (by simp; omega)
  have e5 : rd st.head u = some (get st.head u) := rd_eq _ u hu0 hu1
  have e6 : ∀ x, wr st.head u x = some (st.head.set u.toNat x) :=
    fun x => wr_eq_set _ _ _ hu0 hu1
  have e7 : ∀ x, rd (st.head.set u.toNat x) v = some (get (st.head.set u.toNat x) v) :=
    fun x => rd_eq _ v hv0 (by simp; omega)
  have e8 : ∀ x y, wr (st.head.set u.toNat x) v y = some ((st.head.set u.toNat x).set v.toNat y) :=
    fun x y => wr_eq_set _ _ _ hv0 (by simp; omega)
  simp only [addEdge, addE, add, added, e1, e2, e3, e4, e5, e6, e7, e8, Option.bind_eq_bind,
    Option.some_bind, Option.pure_def, List.length_append, List.length_singleton,
    Nat.add_sub_cancel]

theorem edge_append_left (es xs : List E) (j : Int) (h0 : 0 ≤ j) (h1 : j < es.length) :
    edge (es ++ xs) j = edge es j := by
  unfold edge
  have : j.toNat < es.length := by omega
  simp [List.getD_eq_getElem?_getD, List.getElem?_append_left this]

theorem edge_append_right (es xs : List E) (j : Int) (h1 : (es.length : Int) ≤ j) :
    edge (es ++ xs) j = edge xs (j - es.length) := by
  unfold edge
  have h2 : es.length ≤ j.toNat := by omega
  have h3 : (j - es.length).toNat = j.toNat - es.length := by omega
  simp [List.getD_eq_getElem?_getD, List.getElem?_append_right h2, h3]

theorem in_chain_mono (es : List E) : ∀ (k k' : Nat) (h i : Int), k ≤ k' →
    in_chain es k h i → in_chain es k' h i
  | 0, _, _, _, _, hc => absurd hc (by simp [in_chain])
  | k + 1, 0, _, _, hle, _ => by omega
  | k + 1, k' + 1, h, i, hle, hc => by
    obtain ⟨h1, h2⟩ := hc
    refine ⟨h1, ?_⟩
    rcases h2 with h2 | h2
    · exact Or.inl h2
    · exact Or.inr (in_chain_mono es k k' _ _ (by omega) h2)

/-- Entries appended to the arena do not disturb the adjacency chains already there. -/
theorem in_chain_append (es xs : List E)
    (hnext : ∀ i : Int, 2 ≤ i → i < es.length →
      (edge es i).next = 0 ∨ (2 ≤ (edge es i).next ∧ (edge es i).next < i)) :
    ∀ (k : Nat) (h i : Int), (h = 0 ∨ (2 ≤ h ∧ h < es.length)) → in_chain es k h i →
      in_chain (es ++ xs) k h i
  | 0, _, _, _, hc => hc
  | k + 1, h, i, hh, hc => by
    obtain ⟨h1, h2⟩ := hc
    rcases hh with hh | ⟨hh0, hh1⟩
    · exact absurd hh h1
    · refine ⟨h1, ?_⟩
      rcases h2 with h2 | h2
      · exact Or.inl h2
      · right
        rw [edge_append_left es xs h (by omega) hh1]
        apply in_chain_append es xs hnext k _ _ _ h2
        rcases hnext h hh0 hh1 with hn | ⟨hn0, hn1⟩
        · exact Or.inl hn
        · exact Or.inr ⟨hn0, by omega⟩


theorem added_e (st : State) (u v l d c : Int) :
    (added st u v l d c).e =
      (st.e ++ [{ u := u, next := get st.head u, v := v, w := wrap32 (d - l), c := c }])
      ++ [{ u := v, next := get (st.head.set u.toNat (toInt32 (st.e.length % 2 ^ 64))) v, v := u,
            w := 0, c := wrap32 (-c) }] := rfl

theorem added_length (st : State) (u v l d c : Int) :
    (added st u v l d c).e.length = st.e.length + 2 := by
  simp [added]

theorem added_old (st : State) (u v l d c : Int) (j : Int) (h0 : 0 ≤ j) (h1 : j < st.e.length) :
    edge (added st u v l d c).e j = edge st.e j := by
  rw [added_e, edge_append_left _ _ j h0 (by simp; omega), edge_append_left _ _ j h0 h1]

theorem added_fst (st : State) (u v l d c : Int) :
    edge (added st u v l d c).e st.e.length =
      { u := u, next := get st.head u, v := v, w := wrap32 (d - l), c := c } := by
  rw [added_e, edge_append_left _ _ _ (by omega) (by simp), edge_append_right _ _ _ (le_refl _)]
  simp [edge]

/-- The backward entry that `addEdge` appends; its `next` field is the arena position that
`head[v]` held, which is the forward entry's position narrowed to `int` when `v = u`. -/
theorem added_snd_raw (st : State) (u v l d c : Int) :
    edge (added st u v l d c).e ((st.e.length : Int) + 1) =
      { u := v, next := get (st.head.set u.toNat (toInt32 (st.e.length % 2 ^ 64))) v, v := u,
        w := 0, c := wrap32 (-c) } := by
  rw [added_e, edge_append_right _ _ _ (by simp)]
  simp [edge]

theorem added_snd (st : State) (u v l d c : Int) (hs : st.e.length + 2 ≤ 2 ^ 31) :
    edge (added st u v l d c).e ((st.e.length : Int) + 1) =
      { u := v, next := get (st.head.set u.toNat (st.e.length : Int)) v, v := u,
        w := 0, c := wrap32 (-c) } := by
  rw [added_snd_raw, conv_small _ (by omega)]

/-- The array `head` after `addEdge`, entry by entry, with the narrowed positions. -/
theorem added_head_raw (st : State) (u v l d c x : Int) (hu0 : 0 ≤ u) (hu1 : u < st.head.length)
    (hv0 : 0 ≤ v) (hv1 : v < st.head.length) (hx : 0 ≤ x) :
    get (added st u v l d c).head x =
      if x = v then toInt32 ((st.e.length + 1) % 2 ^ 64)
      else if x = u then toInt32 (st.e.length % 2 ^ 64)
      else get st.head x := by
  show get ((st.head.set u.toNat (toInt32 (st.e.length % 2 ^ 64))).set v.toNat
    (toInt32 ((st.e.length + 1) % 2 ^ 64))) x = _
  rw [get_set _ _ _ _ hv0 (by simp; omega) hx]
  split_ifs with h1 h2
  · rfl
  · rw [get_set _ _ _ _ hu0 hu1 hx, if_pos h2]
  · rw [get_set _ _ _ _ hu0 hu1 hx, if_neg h2]

theorem added_head (st : State) (u v l d c x : Int) (hu0 : 0 ≤ u) (hu1 : u < st.head.length)
    (hv0 : 0 ≤ v) (hv1 : v < st.head.length) (hx : 0 ≤ x) (hs : st.e.length + 2 ≤ 2 ^ 31) :
    get (added st u v l d c).head x =
      if x = v then (st.e.length : Int) + 1 else if x = u then (st.e.length : Int)
      else get st.head x := by
  rw [added_head_raw st u v l d c x hu0 hu1 hv0 hv1 hx, conv_small _ (by omega),
    conv_small _ (by omega)]
  push_cast
  rfl

/-- The function `addEdge` keeps the structural invariant of the solver state as long as the
arena positions fit `int`. -/
theorem added_Wf (st : State) (u v l d c : Int) (hw : Wf st) (hu0 : 0 ≤ u)
    (hu1 : u < st.d.length) (hv0 : 0 ≤ v) (hv1 : v < st.d.length)
    (hs : st.e.length + 2 ≤ 2 ^ 31) (hc0 : -2 ^ 31 < c) (hc1 : c < 2 ^ 31) :
    Wf (added st u v l d c) := by
  have hcw : wrap32 (-c) = -c := wrap32_of_range _ (by omega) (by omega)
  have hlh := hw.len_head
  have hev := hw.even
  have h2le := hw.two_le
  have hlen := added_length st u v l d c
  have hA := added_fst st u v l d c
  have hB := added_snd st u v l d c hs
  rw [hcw] at hB
  have hold := added_old st u v l d c
  have hhead := fun x hx => added_head st u v l d c x hu0 (by omega) hv0 (by omega) hx hs
  have hBn : get (st.head.set u.toNat (st.e.length : Int)) v =
      if v = u then (st.e.length : Int) else get st.head v :=
    get_set _ _ _ _ hu0 (by omega) hv0
  have hcases : ∀ i : Int, 2 ≤ i → i < (added st u v l d c).e.length →
      i < st.e.length ∨ i = st.e.length ∨ i = (st.e.length : Int) + 1 := by
    intro i h0 h1
    rw [hlen] at h1
    push_cast at h1
    omega
  have hx1 : xor1 (st.e.length : Int) = (st.e.length : Int) + 1 := by
    unfold xor1
    rw [if_pos (by omega)]
  have hx2 : xor1 ((st.e.length : Int) + 1) = (st.e.length : Int) := by
    unfold xor1
    rw [if_neg (by omega)]
    omega
  have hnext' : ∀ i : Int, 2 ≤ i → i < st.e.length →
      (edge st.e i).next = 0 ∨ (2 ≤ (edge st.e i).next ∧ (edge st.e i).next < i) := by
    intro i h0 h1
    rcases hw.next_ok i h0 h1 with h | ⟨a, b, -⟩
    · exact Or.inl h
    · exact Or.inr ⟨a, b⟩
  -- chains of the old arena, seen in the new one
  have hC : ∀ i : Int, 2 ≤ i → i < st.e.length →
      in_chain (added st u v l d c).e st.e.length (get st.head (edge st.e i).u) i := by
    intro i h0 h1
    obtain ⟨a0, a1, -, -⟩ := hw.e_range i h0 h1
    rw [added_e, List.append_assoc]
    apply in_chain_append st.e _ hnext' _ _ _ _ (hw.complete i h0 h1)
    rcases hw.head_ok _ a0 a1 with h | ⟨a, b, -⟩
    · exact Or.inl h
    · exact Or.inr ⟨a, b⟩
  constructor
  · exact hw.len_incf
  · exact hw.len_pre
  · show ((st.head.set u.toNat (toInt32 (st.e.length % 2 ^ 64))).set v.toNat
      (toInt32 ((st.e.length + 1) % 2 ^ 64))).length = st.d.length
    simp [hlh]
  · exact hw.len_vis
  · exact hw.S_range
  · exact hw.T_range
  · rw [hlen]; omega
  · rw [hlen]; omega
  · intro i h0 h1
    rcases hcases i h0 h1 with h | rfl | rfl
    · rw [hold i (by omega) h]
      exact hw.e_range i h0 h
    · rw [hA]
      exact ⟨hu0, hu1, hv0, hv1⟩
    · rw [hB]
      exact ⟨hv0, hv1, hu0, hu1⟩
  · intro i h0 h1
    rcases hcases i h0 h1 with h | rfl | rfl
    · rw [hold i (by omega) h]
      rcases hw.next_ok i h0 h with hn | ⟨a, b, c'⟩
      · exact Or.inl hn
      · right
        rw [hold _ (by omega) (by omega)]
        exact ⟨a, b, c'⟩
    · rw [hA]
      show get st.head u = 0 ∨ _
      rcases hw.head_ok u hu0 hu1 with hn | ⟨a, b, c'⟩
      · exact Or.inl hn
      · right
        rw [hold _ (by omega) b]
        exact ⟨a, b, c'⟩
    · rw [hB]
      simp only
      rw [hBn]
      split_ifs with hvu
      · right
        rw [hA]
        exact ⟨by omega, by omega, hvu.symm⟩
      · rcases hw.head_ok v hv0 hv1 with hn | ⟨a, b, c'⟩
        · exact Or.inl hn
        · right
          rw [hold _ (by omega) b]
          exact ⟨a, by omega, c'⟩
  · intro x h0 h1
    rw [hhead x h0, hlen]
    split_ifs with hxv hxu
    · right
      rw [hB]
      exact ⟨by omega, by push_cast; omega, hxv.symm⟩
    · right
      rw [hA]
      exact ⟨by omega, by push_cast; omega, hxu.symm⟩
    · rcases hw.head_ok x h0 h1 with hn | ⟨a, b, c'⟩
      · exact Or.inl hn
      · right
        rw [hold _ (by omega) b]
        exact ⟨a, by push_cast; omega, c'⟩
  · intro i h0 h1
    rcases hcases i h0 h1 with h | rfl | rfl
    · obtain ⟨a, b, -, -⟩ := xor1_range i st.e.length hev h0 h
      rw [hold i (by omega) h, hold _ (by omega) b]
      exact hw.pair i h0 h
    · rw [hx1, hA, hB]
      exact ⟨rfl, rfl, rfl⟩
    · rw [hx2, hA, hB]
      exact ⟨rfl, rfl, by simp⟩
  · intro i h0 h1
    rw [hlen]
    rcases hcases i h0 h1 with h | rfl | rfl
    · obtain ⟨a0, a1, -, -⟩ := hw.e_range i h0 h
      have hCi := hC i h0 h
      rw [hold i (by omega) h, hhead _ a0]
      split_ifs with hxv hxu
      · refine ⟨by omega, Or.inr ?_⟩
        rw [hB]
        simp only
        rw [hBn]
        split_ifs with hvu
        · refine ⟨by omega, Or.inr ?_⟩
          rw [hA]
          simp only
          rw [hxv.trans hvu] at hCi
          exact hCi
        · rw [hxv] at hCi
          exact in_chain_mono _ _ _ _ _ (by omega) hCi
      · refine ⟨by omega, Or.inr ?_⟩
        rw [hA]
        simp only
        rw [hxu] at hCi
        exact in_chain_mono _ _ _ _ _ (by omega) hCi
      · exact in_chain_mono _ _ _ _ _ (by omega) hCi
    · rw [hA]
      simp only
      rw [hhead _ hu0]
      by_cases huv : u = v
      · rw [if_pos huv]
        refine ⟨by omega, Or.inr ?_⟩
        rw [hB]
        simp only
        rw [hBn, if_pos huv.symm]
        exact ⟨by omega, Or.inl rfl⟩
      · rw [if_neg huv, if_pos rfl]
        exact ⟨by omega, Or.inl rfl⟩
    · rw [hB]
      simp only
      rw [hhead _ hv0, if_pos rfl]
      exact ⟨by omega, Or.inl rfl⟩

end mcmf

/-! ## The network construction of `distribution::solve` -/

theorem toUInt64_of_nonneg (x : Int) (h0 : 0 ≤ x) (h1 : x < 2 ^ 64) : toUInt64 x = x.toNat := by
  unfold toUInt64
  rw [Int.emod_eq_of_lt h0 h1]

theorem foldlM_range_inv {σ : Type} (Inv : Nat → σ → Prop) (f : σ → Nat → Option σ) :
    ∀ (n : Nat), (∀ i st, i < n → Inv i st → ∃ st', f st i = some st' ∧ Inv (i + 1) st') →
      ∀ st, Inv 0 st → ∃ st', (List.range n).foldlM f st = some st' ∧ Inv n st'
  | 0, _, st, h0 => ⟨st, rfl, h0⟩
  | n + 1, h, st, h0 => by
    obtain ⟨st1, h1, h2⟩ := foldlM_range_inv Inv f n
      (fun i s hi hs => h i s (by omega) hs) st h0
    obtain ⟨st2, h3, h4⟩ := h n st1 (by omega) h2
    refine ⟨st2, ?_, h4⟩
    rw [List.range_succ, List.foldlM_append, h1]
    simp [h3]

theorem foldlM_list_inv {σ α : Type} (Inv : σ → Prop) (f : σ → α → Option σ) :
    ∀ (l : List α), (∀ x ∈ l, ∀ st, Inv st → ∃ st', f st x = some st' ∧ Inv st') →
      ∀ st, Inv st → ∃ st', l.foldlM f st = some st' ∧ Inv st'
  | [], _, st, h0 => ⟨st, rfl, h0⟩
  | x :: l, h, st, h0 => by
    obtain ⟨st1, h1, h2⟩ := h x (by simp) st h0
    obtain ⟨st2, h3, h4⟩ := foldlM_list_inv Inv f l
      (fun y hy s hs => h y (List.mem_cons_of_mem _ hy) s hs) st1 h2
    refine ⟨st2, ?_, h4⟩
    simp [List.foldlM, h1, h3]

namespace mcmf

/-- Inserting an edge of the expected shape keeps the invariant of the construction. -/
theorem added_net (st : State) (n u v c : Int) (hinv : NetInv st n)
    (hok : arc_ok n { u := u, next := get st.head u, v := v, w := 1 - 0, c := c }) :
    addEdge st u v 0 1 c = some (added st u v 0 1 c) ∧ NetInv (added st u v 0 1 c) n := by
  obtain ⟨hw, hla, haz, hN, hn2, hq, hfwd, hhi, hsc, hlens, har⟩ := hinv
  obtain ⟨hshape, hv2, hvn, hu1, hun, -⟩ := hok
  simp only at hshape hv2 hvn hu1 hun
  have hlh := hlens.2.2.1
  have hu0 : 0 ≤ u := by omega
  have hv0 : 0 ≤ v := by omega
  have huN : u < st.d.length := by omega
  have hvN : v < st.d.length := by omega
  have hev := har.2
  refine ⟨addEdge_eq st u v 0 1 c hu0 (by omega) hv0 (by omega) (by omega), ?_⟩
  have hlen := added_length st u v 0 1 c
  constructor
  · intro hs
    rw [hlen] at hs
    exact added_Wf st u v 0 1 c (hw (by omega)) hu0 huN hv0 hvN hs (by omega) (by omega)
  · show ((st.a.set v.toNat (wrap32 (get st.a v + 0))).set u.toNat _).length = st.d.length
    simp [hla]
  · intro x hx
    show get ((st.a.set v.toNat (wrap32 (get st.a v + 0))).set u.toNat
      (wrap32 (get (st.a.set v.toNat (wrap32 (get st.a v + 0))) u - 0))) x = 0
    have e1 : ∀ y : Int, 0 ≤ y → get (st.a.set v.toNat (wrap32 (get st.a v + 0))) y = 0 := by
      intro y hy
      rw [get_set _ _ _ _ hv0 (by omega) hy]
      split_ifs
      · rw [haz v hv0]; rfl
      · exact haz y hy
    rw [get_set _ _ _ _ hu0 (by simp; omega) hx]
    split_ifs
    · rw [e1 u hu0]; rfl
    · exact e1 x hx
  · exact hN
  · exact hn2
  · exact hq
  · intro i h0 h1 hi2
    rw [hlen] at h1
    push_cast at h1
    by_cases hi : i < st.e.length
    · rw [added_old _ _ _ _ _ _ i (by omega) hi, added_old _ _ _ _ _ _ (i + 1) (by omega) (by omega)]
      exact hfwd i h0 hi hi2
    · have hi' : i = st.e.length := by omega
      rw [hi', added_fst, added_snd_raw]
      exact ⟨⟨hshape, hv2, hvn, hu1, hun, rfl⟩, rfl⟩
  · rw [added_head_raw _ _ _ _ _ _ _ hu0 (by omega) hv0 (by omega) (by omega),
      added_head_raw _ _ _ _ _ _ _ hu0 (by omega) hv0 (by omega) (by omega)]
    rw [if_neg (by omega), if_neg (by omega), if_neg (by omega), if_neg (by omega)]
    exact hhi
  · exact hsc
  · refine ⟨hlens.1, hlens.2.1, ?_, hlens.2.2.2⟩
    show ((st.head.set u.toNat (toInt32 (st.e.length % 2 ^ 64))).set v.toNat
      (toInt32 ((st.e.length + 1) % 2 ^ 64))).length = st.d.length
    simp [hlh]
  · rw [hlen]
    omega

theorem src_arcs_added (st : State) (u v l d c : Int) (k : Nat) (h : src_arcs st.e k) :
    src_arcs (added st u v l d c).e k := by
  obtain ⟨hlen, harcs⟩ := h
  refine ⟨by rw [added_length]; omega, fun a ha => ?_⟩
  rw [added_old _ _ _ _ _ _ _ (by omega) (by omega), added_old _ _ _ _ _ _ _ (by omega) (by omega),
    added_old _ _ _ _ _ _ _ (by omega) (by omega)]
  exact harcs a ha


theorem get_replicate_zero (k : Nat) (x : Int) : get (List.replicate k (0 : Int)) x = 0 := by
  unfold get
  rw [List.getD_eq_getElem?_getD, List.getElem?_replicate]
  split_ifs <;> rfl

theorem resize_nil (k : Nat) : resize ([] : List Int) k 0 = List.replicate k 0 := by
  simp [resize]

theorem added_net' (st : State) (n u v c : Int) (hinv : NetInv st n)
    (hshape : (u = 1 ∧ 0 ≤ c ∧ c ≤ 100) ∨ (2 ≤ u ∧ u ≠ v ∧ c = 0))
    (hv : 2 ≤ v ∧ v ≤ n) (hu : 1 ≤ u ∧ u ≤ n) :
    addEdge st u v 0 1 c = some (added st u v 0 1 c) ∧ NetInv (added st u v 0 1 c) n :=
  added_net st n u v c hinv ⟨hshape, hv.1, hv.2, hu.1, hu.2, rfl⟩

/-- One edge of the expected shape can be inserted, and nothing built before is disturbed. -/
theorem insert_ok (st : State) (n u v c : Int) (P : Nat)
    (hinv : NetInv st n ∧ src_arcs st.e P ∧ inner_arcs st.e P)
    (hshape : 2 ≤ u ∧ u ≠ v ∧ c = 0)
    (hv : 2 ≤ v ∧ v ≤ n) (hu : 1 ≤ u ∧ u ≤ n) :
    ∃ st', addEdge st u v 0 1 c = some st' ∧ NetInv st' n ∧ src_arcs st'.e P ∧
      inner_arcs st'.e P := by
  obtain ⟨h1, h2⟩ := added_net' st n u v c hinv.1 (Or.inr hshape) hv hu
  refine ⟨_, h1, h2, src_arcs_added st u v 0 1 c P hinv.2.1, ?_⟩
  intro i h0 h1 hi2
  rw [added_length] at h1
  push_cast at h1
  have hev := hinv.1.arena.2
  by_cases hi : i < st.e.length
  · rw [added_old _ _ _ _ _ _ i (by omega) hi]
    exact hinv.2.2 i h0 hi hi2
  · have hi' : i = st.e.length := by omega
    rw [hi', added_fst]
    exact hshape.1

/-- The three source edges of participant `i` are inserted at the positions `2 + 6i`,
`4 + 6i` and `6 + 6i`. -/
theorem build_source_spec (n : Int) (P i : Nat) (st : State) (hi : i < P)
    (hn : (P : Int) + 1 ≤ n) (hn31 : n < 2 ^ 31)
    (hinv : NetInv st n ∧ st.e.length = 2 + 6 * i ∧ src_arcs st.e i) :
    ∃ st', distribution.build_source 1 st i = some st' ∧
      NetInv st' n ∧ st'.e.length = 2 + 6 * (i + 1) ∧ src_arcs st'.e (i + 1) := by
  obtain ⟨h0, hL, hsrc⟩ := hinv
  have hi2 : toInt32 ((i + 2) % 2 ^ 64) = (i : Int) + 2 := by
    rw [Nat.mod_eq_of_lt (by omega), toInt32_of_lt _ (by omega)]
    push_cast
    rfl
  have hv : (2 : Int) ≤ (i : Int) + 2 ∧ (i : Int) + 2 ≤ n := by omega
  have hu : (1 : Int) ≤ 1 ∧ (1 : Int) ≤ n := by omega
  obtain ⟨a1, a2⟩ := added_net' st n 1 ((i : Int) + 2) 20 h0
    (Or.inl ⟨rfl, by omega, by omega⟩) hv hu
  obtain ⟨b1, b2⟩ := added_net' _ n 1 ((i : Int) + 2) 50 a2
    (Or.inl ⟨rfl, by omega, by omega⟩) hv hu
  obtain ⟨c1, c2⟩ := added_net' _ n 1 ((i : Int) + 2) 100 b2
    (Or.inl ⟨rfl, by omega, by omega⟩) hv hu
  have l1 := added_length st 1 ((i : Int) + 2) 0 1 20
  have l2 := added_length (added st 1 ((i : Int) + 2) 0 1 20) 1 ((i : Int) + 2) 0 1 50
  have l3 := added_length (added (added st 1 ((i : Int) + 2) 0 1 20) 1 ((i : Int) + 2) 0 1 50)
    1 ((i : Int) + 2) 0 1 100
  refine ⟨_, ?_, c2, by omega, ?_⟩
  · simp only [distribution.build_source, hi2, a1, b1, c1, Option.bind_eq_bind, Option.some_bind]
  · have s3 := src_arcs_added _ 1 ((i : Int) + 2) 0 1 100 i
      (src_arcs_added _ 1 ((i : Int) + 2) 0 1 50 i (src_arcs_added st 1 ((i : Int) + 2) 0 1 20 i hsrc))
    refine ⟨by omega, fun a ha => ?_⟩
    by_cases hai : a < i
    · exact s3.2 a hai
    · have hae : a = i := by omega
      subst hae
      have p1 : (2 : Int) + 6 * (a : Int) = (st.e.length : Int) := by omega
      have p2 : (4 : Int) + 6 * (a : Int) =
          ((added st 1 ((a : Int) + 2) 0 1 20).e.length : Int) := by omega
      have p3 : (6 : Int) + 6 * (a : Int) =
          ((added (added st 1 ((a : Int) + 2) 0 1 20) 1 ((a : Int) + 2) 0 1 50).e.length : Int) := by
        omega
      refine ⟨?_, ?_, ?_⟩
      · rw [added_old _ _ _ _ _ _ _ (by omega) (by omega),
          added_old _ _ _ _ _ _ _ (by omega) (by omega), p1, added_fst]
        exact ⟨rfl, rfl, rfl⟩
      · rw [added_old _ _ _ _ _ _ _ (by omega) (by omega), p2, added_fst]
        exact ⟨rfl, rfl, rfl⟩
      · rw [p3, added_fst]
        exact ⟨rfl, rfl, rfl⟩


/-- The reset and sized solver state satisfies the invariant of the construction. -/
theorem init_net (st : State) (n : Int) (hn : 2 ≤ n) :
    ∃ st1, set_n { mcmf.init st with s := 1, t := n, n := n } n = some st1 ∧
      NetInv st1 n ∧ st1.e.length = 2 + 6 * 0 ∧ src_arcs st1.e 0 := by
  have hk : ((n + 3).toNat : Int) = n + 3 := by omega
  refine ⟨_, by unfold set_n; rw [if_neg (by omega : ¬ (n + 3 < 0))], ?_, ?_, ?_⟩
  · simp only [mcmf.init, drain_eq_nil, resize_nil]
    constructor
    · intro _
      constructor
      · simp
      · simp
      · simp
      · simp
      · simp only [List.length_replicate]; omega
      · simp only [List.length_replicate]; omega
      · simp
      · simp
      · intro i h0 h1
        simp at h1
        omega
      · intro i h0 h1
        simp at h1
        omega
      · intro u h0 h1
        left
        exact get_replicate_zero _ _
      · intro i h0 h1
        simp at h1
        omega
      · intro i h0 h1
        simp at h1
        omega
    · simp
    · intro x _
      exact get_replicate_zero _ _
    · simp only [List.length_replicate]; omega
    · exact hn
    · rfl
    · intro i h0 h1
      simp at h1
      omega
    · exact ⟨get_replicate_zero _ _, get_replicate_zero _ _⟩
    · exact ⟨rfl, rfl, rfl, rfl, rfl, rfl, rfl⟩
    · simp
    · simp
  · simp [mcmf.init, drain_eq_nil]
  · refine ⟨by simp [mcmf.init, drain_eq_nil], fun a ha => ?_⟩
    omega


/-- On well-formed input the network construction of `distribution::solve` succeeds; the
network has `n = 8P + S + 2` nodes, satisfies the invariant of the construction and starts
with the source entries of the `P` participants. -/
theorem build_spec (users : List User) (spares : List Spare) (st : State)
    (hwf : well_formed users spares) :
    ∃ bst, distribution.build ⟨users, spares⟩ st = some bst ∧
      NetInv bst (8 * (users.length : Int) + (spares.length : Int) + 2) ∧
      src_arcs bst.e users.length ∧ inner_arcs bst.e users.length := by
  obtain ⟨hsize, hpref, hsp⟩ := hwf
  have h31 : (2 : Nat) ^ 31 = 2147483648 := by norm_num
  have h64 : (2 : Nat) ^ 64 = 18446744073709551616 := by norm_num
  rw [h31] at hsize
  generalize hn : 8 * (users.length : Int) + (spares.length : Int) + 2 = n
  have hn' : toInt32 ((users.length * 8 + spares.length + 2) % 2 ^ 64) = n := by
    rw [Nat.mod_eq_of_lt (by omega), toInt32_of_lt _ (by omega), ← hn]
    push_cast
    ring
  have hn31 : n < 2 ^ 31 := by
    have : (2 : Int) ^ 31 = 2147483648 := by norm_num
    omega
  -- the reset state
  obtain ⟨st1, e1, i1, l1, s1⟩ := init_net st n (by omega)
  -- first loop
  obtain ⟨st2, e2, i2, l2, s2⟩ := foldlM_range_inv
    (fun i s => NetInv s n ∧ s.e.length = 2 + 6 * i ∧ src_arcs s.e i)
    (distribution.build_source 1) users.length
    (fun i s hi hs => build_source_spec n users.length i s hi (by omega) hn31 hs)
    st1 ⟨i1, l1, s1⟩
  -- second loop
  obtain ⟨st3, e3, i3, s3, t3⟩ := foldlM_range_inv
    (fun _ s => NetInv s n ∧ src_arcs s.e users.length ∧
      inner_arcs s.e users.length)
    (fun acc i => (List.range users.length).foldlM
      (distribution.build_day users.length (i + 1)) acc) 7
    (fun i s hi hs => foldlM_range_inv (fun _ s => NetInv s n ∧ src_arcs s.e users.length ∧
      inner_arcs s.e users.length)
      (distribution.build_day users.length (i + 1)) users.length
      (fun j s' hj hs' => by
        beta_reduce
        have hmul : i * users.length ≤ 6 * users.length := Nat.mul_le_mul_right _ (by omega)
        have hu : toInt32 ((j + 2) % 2 ^ 64) = (j : Int) + 2 := by
          rw [Nat.mod_eq_of_lt (by omega), toInt32_of_lt _ (by omega)]
          push_cast
          rfl
        have hv : toInt32 ((j + 2 + (i + 1) * users.length) % 2 ^ 64)
            = (j : Int) + 2 + ((i : Int) + 1) * users.length := by
          have : (i + 1) * users.length = i * users.length + users.length := by ring
          rw [Nat.mod_eq_of_lt (by omega), toInt32_of_lt _ (by omega)]
          push_cast
          rfl
        have hmul' : (i : Int) * users.length ≤ 6 * users.length := by exact_mod_cast hmul
        have hmul0 : (0 : Int) ≤ (i : Int) * users.length := by positivity
        have hexp : ((i : Int) + 1) * users.length = (i : Int) * users.length + users.length := by
          ring
        simp only [distribution.build_day, hu, hv]
        exact insert_ok s' n _ _ 0 users.length hs'
          ⟨by omega, by omega, rfl⟩ (by omega) (by omega)) s hs)
    st2 ⟨i2, s2, fun i h0 h1 _ => by omega⟩
  -- third loop
  obtain ⟨st4, e4, i4, s4, t4⟩ := foldlM_range_inv
    (fun _ s => NetInv s n ∧ src_arcs s.e users.length ∧
      inner_arcs s.e users.length)
    (fun acc i => do
      let ui ← users[i]?
      ui.stamps.foldlM (distribution.build_pref ⟨users, spares⟩ n i) acc) users.length
    (fun i s hi hs => by
      beta_reduce
      rw [List.getElem?_eq_getElem hi]
      simp only [Option.bind_eq_bind, Option.some_bind]
      apply foldlM_list_inv (fun s => NetInv s n ∧ src_arcs s.e users.length ∧
      inner_arcs s.e users.length)
      · intro p hp s' hs'
        have hpS : p < spares.length := hpref _ (List.getElem_mem hi) p hp
        obtain ⟨hday, hstamp⟩ := hsp _ (List.getElem_mem hpS)
        have hmul : (spares[p].day + 1) * users.length ≤ 7 * users.length :=
          Nat.mul_le_mul_right _ (by omega)
        have hmul1 : users.length ≤ (spares[p].day + 1) * users.length :=
          Nat.le_mul_of_pos_left _ (by omega)
        have hu : toInt32 ((i + 2 + (spares[p].day + 1) * users.length) % 2 ^ 64)
            = ((i + 2 + (spares[p].day + 1) * users.length : Nat) : Int) := by
          rw [Nat.mod_eq_of_lt (by omega), toInt32_of_lt _ (by omega)]
        have hnn : toUInt64 n = users.length * 8 + spares.length + 2 := by
          rw [toUInt64_of_nonneg n (by omega) (by
            have : (2 : Int) ^ 64 = 18446744073709551616 := by norm_num
            omega)]
          omega
        have hv : toInt32 ((toUInt64 n + 2 ^ 64 - spares.length % 2 ^ 64 + spares[p].stamp)
            % 2 ^ 64) = ((users.length * 8 + 2 + spares[p].stamp : Nat) : Int) := by
          rw [hnn, Nat.mod_eq_of_lt (by omega : spares.length < 2 ^ 64)]
          have : users.length * 8 + spares.length + 2 + 2 ^ 64 - spares.length + spares[p].stamp
              = (users.length * 8 + 2 + spares[p].stamp) + 2 ^ 64 := by omega
          rw [this, Nat.add_mod_right, Nat.mod_eq_of_lt (by omega), toInt32_of_lt _ (by omega)]
        simp only [distribution.build_pref, List.getElem?_eq_getElem hpS, Option.bind_eq_bind,
          Option.some_bind, hu, hv]
        exact insert_ok s' n _ _ 0 users.length hs'
          ⟨by omega, by omega, rfl⟩ (by omega) (by omega)
      · exact hs)
    st3 ⟨i3, s3, t3⟩
  -- fourth loop
  obtain ⟨st5, e5, i5, s5, t5⟩ := foldlM_range_inv
    (fun _ s => NetInv s n ∧ src_arcs s.e users.length ∧
      inner_arcs s.e users.length)
    (distribution.build_sink ⟨users, spares⟩ n n) spares.length
    (fun i s hi hs => by
      beta_reduce
      have hnn : toUInt64 n = users.length * 8 + spares.length + 2 := by
        rw [toUInt64_of_nonneg n (by omega) (by
          have : (2 : Int) ^ 64 = 18446744073709551616 := by norm_num
          omega)]
        omega
      have hu : toInt32 ((toUInt64 n + 2 ^ 64 - spares.length % 2 ^ 64 + i) % 2 ^ 64)
          = ((users.length * 8 + 2 + i : Nat) : Int) := by
        rw [hnn, Nat.mod_eq_of_lt (by omega : spares.length < 2 ^ 64)]
        have : users.length * 8 + spares.length + 2 + 2 ^ 64 - spares.length + i
            = (users.length * 8 + 2 + i) + 2 ^ 64 := by omega
        rw [this, Nat.add_mod_right, Nat.mod_eq_of_lt (by omega), toInt32_of_lt _ (by omega)]
      simp only [distribution.build_sink, hu]
      exact insert_ok s n _ _ 0 users.length hs
        ⟨by omega, by omega, rfl⟩ (by omega) (by omega))
    st4 ⟨i4, s4, t4⟩
  refine ⟨st5, ?_, i5, s5, t5⟩
  dsimp only at e1
  simp only [Option.bind_eq_bind] at e4
  simp only [distribution.build, hn', Option.bind_eq_bind]
  rw [e1, Option.some_bind, e2, Option.some_bind, e3, Option.some_bind, e4, Option.some_bind, e5]

end mcmf

/-! ## The two phases of `solve()` on a constructed network -/

namespace mcmf

theorem foldlM_range_const {σ : Type} (f : σ → Nat → Option σ) (st : σ) (n : Nat)
    (h : ∀ i, i < n → f st i = some st) : (List.range n).foldlM f st = some st := by
  obtain ⟨st', h1, h2⟩ := foldlM_range_inv (fun _ s => s = st) f n
    (fun i s hi hs => ⟨st, by rw [hs]; exact h i hi, rfl⟩) st rfl
  rw [h1, h2]

/-- A labelling pass from a source whose only entry has no residual capacity labels nothing
else and reports that the sink was not reached. -/
theorem spfa_isolated (st : State) (f : Nat) (hw : Wf st) (hq : st.q = [])
    (hST : st.T ≠ st.S)
    (h0 : 2 ≤ get st.head st.S) (h1 : get st.head st.S < st.e.length)
    (hw0 : (edge st.e (get st.head st.S)).w = 0)
    (hnx : (edge st.e (get st.head st.S)).next = 0) :
    spfa (f + 2) st = some (false,
      { st with vis := (List.replicate st.vis.length (0 : Int)).set st.S.toNat 0,
                d := (List.replicate st.d.length INF).set st.S.toNat 0,
                incf := st.incf.set st.S.toNat 2000000000,
                q := [] }) := by
  obtain ⟨hS0, hS1⟩ := hw.S_range
  obtain ⟨hT0, hT1⟩ := hw.T_range
  have hSi : st.S < st.incf.length := by rw [hw.len_incf]; exact hS1
  have hSv : st.S < st.vis.length := by rw [hw.len_vis]; exact hS1
  have hSh : st.S < st.head.length := by rw [hw.len_head]; exact hS1
  have hwB : Wf { st with vis := (List.replicate st.vis.length (0 : Int)).set st.S.toNat 0,
                          d := (List.replicate st.d.length INF).set st.S.toNat 0,
                          incf := st.incf.set st.S.toNat 2000000000,
                          q := [] } :=
    ⟨by simpa using hw.len_incf, by simpa using hw.len_pre, by simpa using hw.len_head,
      by simpa using hw.len_vis, by simpa using hw.S_range, by simpa using hw.T_range,
      hw.two_le, hw.even, by simpa using hw.e_range, hw.next_ok, by simpa using hw.head_ok,
      hw.pair, hw.complete⟩
  have hrel := relax_eq _ st.S (get st.head st.S) hwB hS0 (by simpa using hS1) h0 h1
  rw [relaxed_noop _ _ _ (by simp [hw0])] at hrel
  have hdT : get ((List.replicate st.d.length INF).set st.S.toNat 0) st.T = INF := by
    rw [get_set _ _ _ _ hS0 (by simpa using hS1) hT0, if_neg hST]
    exact get_replicate _ _ _ hT0 hT1
  have hne : get st.head st.S ≠ 0 := by omega
  simp only [spfa, wr_eq_set _ st.S (0 : Int) hS0 (by simpa using hS1 :
      st.S < ((List.replicate st.d.length INF).length : Int)),
    wr_eq_set _ st.S (2000000000 : Int) hS0 hSi, hq, List.nil_append, Option.bind_eq_bind,
    Option.some_bind, spfa_while,
    wr_eq_set _ st.S (0 : Int) hS0 (by simpa using hSv :
      st.S < ((List.replicate st.vis.length (0 : Int)).length : Int)),
    rd_eq st.head st.S hS0 hSh, spfa_for, if_neg hne, hrel,
    rd_edge st.e _ (by omega) h1, hnx, if_true,
    rd_eq _ st.T hT0 (by simpa using hT1 :
      st.T < (((List.replicate st.d.length INF).set st.S.toNat 0).length : Int)), hdT,
    Option.pure_def]
  simp


/-- On a constructed network whose arena positions fit `int` the feasibility phase of `solve()`
appends the plumbing pair and runs one labelling pass that reaches nothing. -/
theorem feasibility_spec (st : State) (n : Int) (hinv : NetInv st n)
    (hs : st.e.length + 2 ≤ 2 ^ 31) (f : Nat) :
    solve_feasibility (f + 2) st = some (after_feasibility st) := by
  obtain ⟨hwc, hla, haz, hN, hn2, hq, hfwd, hhi, hsc, -, -⟩ := hinv
  have hw := hwc (by omega)
  have hn : st.n = n := hsc.1
  have hlh := hw.len_head
  have hw1 : Wf { st with S := st.n + 1, T := st.n + 2 } :=
    ⟨hw.len_incf, hw.len_pre, hw.len_head, hw.len_vis, by simp only; omega, by simp only; omega,
      hw.two_le, hw.even, hw.e_range, hw.next_ok, hw.head_ok, hw.pair, hw.complete⟩
  have hloop : (List.range st.n.toNat).foldlM
      (fun acc (k : Nat) => solve_imbalance acc ((k : Int) + 1))
      { st with S := st.n + 1, T := st.n + 2 } = some { st with S := st.n + 1, T := st.n + 2 } := by
    apply foldlM_range_const
    intro i hi
    simp only [solve_imbalance]
    rw [rd_eq st.a _ (by omega) (by omega), haz _ (by omega)]
    simp
  have hadd := addEdge_eq { st with S := st.n + 1, T := st.n + 2 } (st.n + 2) (st.n + 1) 0 INF 0
    (by omega) (by simp only; omega) (by omega) (by simp only; omega) (by simp only; omega)
  have hw3 := added_Wf { st with S := st.n + 1, T := st.n + 2 } (st.n + 2) (st.n + 1) 0 INF 0 hw1
    (by omega) (by simp only; omega) (by omega) (by simp only; omega) hs (by norm_num) (by norm_num)
  have hhead : get (added { st with S := st.n + 1, T := st.n + 2 } (st.n + 2) (st.n + 1) 0 INF 0).head
      (st.n + 1) = (st.e.length : Int) + 1 := by
    rw [added_head { st with S := st.n + 1, T := st.n + 2 } _ _ _ _ _ _ (by omega)
      (by simp only; omega) (by omega) (by simp only; omega) (by omega) hs, if_pos rfl]
  have hsnd := added_snd { st with S := st.n + 1, T := st.n + 2 } (st.n + 2) (st.n + 1) 0 INF 0 hs
  rw [wrap32_neg_zero] at hsnd
  have hnx : get (st.head.set (st.n + 2).toNat (st.e.length : Int)) (st.n + 1) = 0 := by
    rw [get_set st.head (st.n + 2) (st.n + 1) _ (by omega) (by omega) (by omega),
      if_neg (by omega), hn]
    exact hhi.1
  have hlen := added_length { st with S := st.n + 1, T := st.n + 2 } (st.n + 2) (st.n + 1) 0 INF 0
  have hsp := spfa_isolated
    (added { st with S := st.n + 1, T := st.n + 2 } (st.n + 2) (st.n + 1) 0 INF 0) f hw3 hq
    (by show st.n + 2 ≠ st.n + 1; omega)
    (by
      show 2 ≤ get _ (st.n + 1)
      rw [hhead]
      have := hw.two_le
      omega)
    (by
      show get _ (st.n + 1) < _
      rw [hhead, hlen]
      push_cast
      show (st.e.length : Int) + 1 < (st.e.length : Int) + 2
      omega)
    (by
      show (edge _ (get _ (st.n + 1))).w = 0
      rw [hhead]
      exact congrArg E.w hsnd)
    (by
      show (edge _ (get _ (st.n + 1))).next = 0
      rw [hhead]
      exact (congrArg E.next hsnd).trans hnx)
  simp only [solve_feasibility, hloop, hadd, Option.bind_eq_bind, Option.some_bind, work, hsp]
  rfl

theorem optimize_init_eq (st4 : State) (h : 2 ≤ st4.e.length) :
    optimize_init st4 = some (optimize_start st4) := by
  simp only [optimize_init, optimize_start, Option.bind_eq_bind,
    rd_edge st4.e _ (by omega : (0 : Int) ≤ (st4.e.length : Int) - 1) (by omega),
    wr_eq_set st4.e _ _ (by omega : (0 : Int) ≤ (st4.e.length : Int) - 1) (by omega),
    Option.some_bind, List.length_set,
    rd_edge _ _ (by omega : (0 : Int) ≤ (st4.e.length : Int) - 2)
      (by simp : (st4.e.length : Int) - 2 < ((st4.e.set ((st4.e.length : Int) - 1).toNat
        { edge st4.e ((st4.e.length : Int) - 1) with w := 0 }).length : Int)),
    wr_eq_set _ _ _ (by omega : (0 : Int) ≤ (st4.e.length : Int) - 2)
      (by simp : (st4.e.length : Int) - 2 < ((st4.e.set ((st4.e.length : Int) - 1).toNat
        { edge st4.e ((st4.e.length : Int) - 1) with w := 0 }).length : Int)),
    Option.pure_def]


/-- Shape of every entry at the start of the second `work()`. -/
theorem optimize_start_entries (st : State) (n : Int) (hinv : NetInv st n)
    (hs : st.e.length + 2 ≤ 2 ^ 31) :
    (optimize_start (after_feasibility st)).e.length = st.e.length + 2 ∧
    (∀ j : Int, 0 ≤ j → j < st.e.length →
      edge (optimize_start (after_feasibility st)).e j = edge st.e j) ∧
    edge (optimize_start (after_feasibility st)).e st.e.length =
      { u := n + 2, next := get st.head (n + 2), v := n + 1, w := 0, c := 0 } ∧
    edge (optimize_start (after_feasibility st)).e ((st.e.length : Int) + 1) =
      { u := n + 1, next := get (st.head.set (n + 2).toNat (st.e.length : Int)) (n + 1),
        v := n + 2, w := 0, c := -0 } := by
  have hn : st.n = n := hinv.scal.1
  have h2 := hinv.arena.1
  have hlen3 := added_length { st with S := st.n + 1, T := st.n + 2 } (st.n + 2) (st.n + 1) 0 INF 0
  have hA := added_fst { st with S := st.n + 1, T := st.n + 2 } (st.n + 2) (st.n + 1) 0 INF 0
  have hB := added_snd { st with S := st.n + 1, T := st.n + 2 } (st.n + 2) (st.n + 1) 0 INF 0 hs
  rw [wrap32_INF_sub] at hA
  rw [wrap32_neg_zero] at hB
  have hO := added_old { st with S := st.n + 1, T := st.n + 2 } (st.n + 2) (st.n + 1) 0 INF 0
  have he4 : (after_feasibility st).e =
      (added { st with S := st.n + 1, T := st.n + 2 } (st.n + 2) (st.n + 1) 0 INF 0).e := rfl
  have hl4 : ((after_feasibility st).e.length : Int) = (st.e.length : Int) + 2 := by
    rw [he4, hlen3]
    push_cast
    rfl
  have hi1 : ((after_feasibility st).e.length : Int) - 1 = (st.e.length : Int) + 1 := by omega
  have hi2 : ((after_feasibility st).e.length : Int) - 2 = (st.e.length : Int) := by omega
  have hE : ∀ j : Int, 0 ≤ j → edge (optimize_start (after_feasibility st)).e j =
      if j = (st.e.length : Int) then
        { edge (after_feasibility st).e (st.e.length : Int) with w := 0 }
      else if j = (st.e.length : Int) + 1 then
        { edge (after_feasibility st).e ((st.e.length : Int) + 1) with w := 0 }
      else edge (after_feasibility st).e j := by
    intro j hj
    show edge (((after_feasibility st).e.set (((after_feasibility st).e.length : Int) - 1).toNat
      _).set (((after_feasibility st).e.length : Int) - 2).toNat _) j = _
    rw [hi1, hi2, edge_set _ _ _ _ (by omega) (by simp; omega) hj]
    split_ifs with h1 h3
    · rw [edge_set _ _ _ _ (by omega) (by omega) (by omega), if_neg (by omega)]
    · rw [edge_set _ _ _ _ (by omega) (by omega) hj, if_pos h3]
    · rw [edge_set _ _ _ _ (by omega) (by omega) hj, if_neg h3]
  refine ⟨?_, ?_, ?_, ?_⟩
  · show (((after_feasibility st).e.set _ _).set _ _).length = _
    simp only [List.length_set]
    rw [he4, hlen3]
  · intro j h0 h1
    rw [hE j h0, if_neg (by omega), if_neg (by omega), he4]
    exact hO j h0 h1
  · rw [hE _ (by omega), if_pos rfl, he4]
    have := hA
    simp only at this
    rw [this, hn]
  · rw [hE _ (by omega), if_neg (by omega), if_pos rfl, he4]
    have := hB
    simp only at this
    rw [this, hn]
    rfl


theorem same_arcs_set_w (es : List E) (k x : Int) (h0 : 0 ≤ k) (h1 : k < es.length) :
    same_arcs es (es.set k.toNat { edge es k with w := x }) := by
  refine ⟨by simp, fun j => ?_⟩
  by_cases hj : 0 ≤ j
  · rw [edge_set _ _ _ _ h0 h1 hj]
    split_ifs with h
    · rw [h]
      exact ⟨rfl, rfl, rfl, rfl⟩
    · exact ⟨rfl, rfl, rfl, rfl⟩
  · rw [edge_neg _ j (by omega), edge_neg es j (by omega), edge_set _ _ _ _ h0 h1 (le_refl _)]
    split_ifs with h
    · rw [← h]
      exact ⟨rfl, rfl, rfl, rfl⟩
    · exact ⟨rfl, rfl, rfl, rfl⟩

/-- The structural invariant depends on the arena only up to the residual capacities, and on
the per-node arrays only through their lengths. -/
theorem Wf_transfer (st st' : State) (hw : Wf st) (hd : st'.d.length = st.d.length)
    (hincf : st'.incf.length = st.d.length) (hpre : st'.pre.length = st.d.length)
    (hvis : st'.vis.length = st.d.length) (hhead : st'.head = st.head)
    (hS : 0 ≤ st'.S ∧ st'.S < st.d.length) (hT : 0 ≤ st'.T ∧ st'.T < st.d.length)
    (h : same_arcs st.e st'.e) : Wf st' := by
  obtain ⟨hlen, harc⟩ := h
  constructor
  · rw [hincf, hd]
  · rw [hpre, hd]
  · rw [hhead, hd]; exact hw.len_head
  · rw [hvis, hd]
  · rw [hd]; exact hS
  · rw [hd]; exact hT
  · rw [hlen]; exact hw.two_le
  · rw [hlen]; exact hw.even
  · intro i h0 h1
    rw [hlen] at h1
    rw [(harc i).1, (harc i).2.1, hd]
    exact hw.e_range i h0 h1
  · intro i h0 h1
    rw [hlen] at h1
    rw [(harc i).2.2.1, (harc (edge st.e i).next).1, (harc i).1]
    exact hw.next_ok i h0 h1
  · intro u h0 h1
    rw [hd] at h1
    rw [hhead, hlen, (harc (get st.head u)).1]
    exact hw.head_ok u h0 h1
  · intro i h0 h1
    rw [hlen] at h1
    rw [(harc (xor1 i)).1, (harc (xor1 i)).2.1, (harc (xor1 i)).2.2.2, (harc i).1, (harc i).2.1,
      (harc i).2.2.2]
    exact hw.pair i h0 h1
  · intro i h0 h1
    rw [hlen] at h1 ⊢
    rw [hhead, (harc i).1]
    exact in_chain_congr _ _ ⟨hlen, harc⟩ _ _ _ (hw.complete i h0 h1)

/-- The state at the start of the second `work()` on a constructed network satisfies the loop
invariant of `work()`, with the real source `1` and the real sink `n`. -/
theorem optimize_start_spec (st : State) (n : Int) (hinv : NetInv st n)
    (hs : st.e.length + 2 ≤ 2 ^ 31) :
    OptStart st.e (optimize_start (after_feasibility st)) n := by
  obtain ⟨hl7, hold, hA7, hB7⟩ := optimize_start_entries st n hinv hs
  obtain ⟨hwc, hla, haz, hN, hn2, hq, hfwd, hhi, hsc, -, -⟩ := hinv
  have hw := hwc (by omega)
  obtain ⟨hsn, hss, hst, hsm, hsco, hsa0, hsa1⟩ := hsc
  have hev := hw.even
  have h2 := hw.two_le
  have hS7 : (optimize_start (after_feasibility st)).S = 1 := hss
  have hT7 : (optimize_start (after_feasibility st)).T = n := hst
  have hw1 : Wf { st with S := st.n + 1, T := st.n + 2 } :=
    ⟨hw.len_incf, hw.len_pre, hw.len_head, hw.len_vis, by simp only; omega, by simp only; omega,
      hw.two_le, hw.even, hw.e_range, hw.next_ok, hw.head_ok, hw.pair, hw.complete⟩
  have hw3 := added_Wf { st with S := st.n + 1, T := st.n + 2 } (st.n + 2) (st.n + 1) 0 INF 0 hw1
    (by omega) (by simp only; omega) (by omega) (by simp only; omega) hs (by norm_num) (by norm_num)
  have hlen3 := added_length { st with S := st.n + 1, T := st.n + 2 } (st.n + 2) (st.n + 1) 0 INF 0
  have hsame : same_arcs
      (added { st with S := st.n + 1, T := st.n + 2 } (st.n + 2) (st.n + 1) 0 INF 0).e
      (optimize_start (after_feasibility st)).e := by
    refine same_arcs_trans _ _ _ (same_arcs_set_w _ _ 0 ?_ ?_) (same_arcs_set_w _ _ 0 ?_ ?_)
    · show (0 : Int) ≤ ((after_feasibility st).e.length : Int) - 1
      have : (after_feasibility st).e.length = st.e.length + 2 := hlen3
      omega
    · show ((after_feasibility st).e.length : Int) - 1 < ((after_feasibility st).e.length : Int)
      omega
    · show (0 : Int) ≤ ((after_feasibility st).e.length : Int) - 2
      have : (after_feasibility st).e.length = st.e.length + 2 := hlen3
      omega
    · simp only [List.length_set]
      show ((after_feasibility st).e.length : Int) - 2 < ((after_feasibility st).e.length : Int)
      omega
  have hw7 : Wf (optimize_start (after_feasibility st)) := by
    apply Wf_transfer _ _ hw3 _ _ _ _ _ _ _ hsame
    · show ((List.replicate st.d.length INF).set _ _).length = st.d.length
      simp
    · show (st.incf.set _ _).length = st.d.length
      simp [hw.len_incf]
    · exact hw.len_pre
    · show ((List.replicate st.vis.length (0 : Int)).set _ _).length = st.d.length
      simp [hw.len_vis]
    · rfl
    · rw [hS7]
      show (0 : Int) ≤ 1 ∧ (1 : Int) < st.d.length
      omega
    · rw [hT7]
      show (0 : Int) ≤ n ∧ n < st.d.length
      omega
  -- every entry, by position
  have hP : ∀ i : Int, 2 ≤ i → i < (optimize_start (after_feasibility st)).e.length →
      (edge (optimize_start (after_feasibility st)).e i).u ≠
        (edge (optimize_start (after_feasibility st)).e i).v ∧
      ((edge (optimize_start (after_feasibility st)).e i).u = 1 →
        0 ≤ (edge (optimize_start (after_feasibility st)).e i).c ∧
        (edge (optimize_start (after_feasibility st)).e i).c ≤ 100 ∧
        (edge (optimize_start (after_feasibility st)).e i).w = 1) ∧
      ((edge (optimize_start (after_feasibility st)).e i).u ≠ 1 →
        (edge (optimize_start (after_feasibility st)).e i).c ≤ 0) ∧
      ((edge (optimize_start (after_feasibility st)).e i).u ≠ 1 →
        (edge (optimize_start (after_feasibility st)).e i).v ≠ 1 →
        (edge (optimize_start (after_feasibility st)).e i).c = 0) ∧
      0 ≤ (edge (optimize_start (after_feasibility st)).e i).w ∧
      ((edge (optimize_start (after_feasibility st)).e i).w ≠ 0 →
        0 ≤ (edge (optimize_start (after_feasibility st)).e i).c) := by
    intro i h0 h1
    rw [hl7] at h1
    push_cast at h1
    by_cases hi : i < st.e.length
    · rw [hold i (by omega) hi]
      by_cases hpar : i % 2 = 0
      · obtain ⟨⟨hsh, hv2, hvn, hu1, hun, hw1'⟩, -⟩ := hfwd i h0 hi hpar
        rcases hsh with ⟨a, b, c⟩ | ⟨a, b, c⟩
        · exact ⟨by omega, fun _ => ⟨b, c, hw1'⟩, fun h => absurd a h, fun h => absurd a h,
            by omega, fun _ => b⟩
        · exact ⟨b, fun h => by omega, fun _ => by omega, fun _ _ => c, by omega,
            fun _ => by omega⟩
      · obtain ⟨⟨hsh, hv2, hvn, hu1, hun, hw1'⟩, hrev⟩ := hfwd (i - 1) (by omega) (by omega)
          (by omega)
        have hx : xor1 (i - 1) = i := by
          unfold xor1
          rw [if_pos (by omega)]
          omega
        obtain ⟨p1, p2, p3⟩ := hw.pair (i - 1) (by omega) (by omega)
        rw [hx] at p1 p2 p3
        have hrev' : (edge st.e i).w = 0 := by
          have : i - 1 + 1 = i := by omega
          rw [this] at hrev
          exact hrev
        rw [p1, p2, p3, hrev']
        rcases hsh with ⟨a, b, c⟩ | ⟨a, b, c⟩
        · exact ⟨by omega, fun h => by omega, fun _ => by omega, fun _ h => absurd a h,
            le_refl _, fun h => absurd rfl h⟩
        · exact ⟨fun h => b h.symm, fun h => by omega, fun _ => by omega, fun _ _ => by omega,
            le_refl _, fun h => absurd rfl h⟩
    · by_cases hi' : i = st.e.length
      · rw [hi', hA7]
        exact ⟨by simp only; omega, fun h => by simp only at h; omega, fun _ => le_refl _,
          fun _ _ => rfl, le_refl _, fun h => absurd rfl h⟩
      · have hi'' : i = (st.e.length : Int) + 1 := by omega
        rw [hi'', hB7]
        exact ⟨by simp only; omega, fun h => by simp only at h; omega, fun _ => by simp,
          fun _ _ => by simp, le_refl _, fun h => absurd rfl h⟩
  refine ⟨⟨hw7, ?_, ⟨fun _ => 0, ?_, ?_⟩, rfl, ?_⟩, hS7, hT7, hl7, hold, hfwd, ?_, ?_⟩
  · constructor
    · intro i h0 h1 hu
      rw [hS7] at hu
      obtain ⟨-, a, -⟩ := hP i h0 h1
      exact ⟨(a hu).1, (a hu).2.1⟩
    · intro i h0 h1 hu
      rw [hS7] at hu
      exact (hP i h0 h1).2.2.1 hu
    · intro i h0 h1 hu hv
      rw [hS7] at hu hv
      exact (hP i h0 h1).2.2.2.1 hu hv
    · intro i h0 h1
      exact (hP i h0 h1).1
  · constructor
    · intro i h0 h1
      exact (hP i h0 h1).2.2.2.2.1
    · intro i h0 h1 hwi
      have := (hP i h0 h1).2.2.2.2.2 hwi
      simpa using this
    · rfl
    · intro x
      exact le_refl _
  · intro i h0 h1 hu hwi
    rw [hS7] at hu
    have := ((hP i h0 h1).2.1 hu).2.2
    omega
  · rw [hS7, hT7]
    omega
  · rw [hA7, hB7]
    exact ⟨rfl, rfl, rfl, rfl, rfl⟩
  · refine ⟨rfl, rfl, hsa0, ?_, hss, hst, ?_, hn2⟩
    · show wrap32 (st.a1 + st.cost) = 0
      rw [hsa1, hsco]
      rfl
    · show (((List.replicate st.d.length INF).set _ _).length : Int) = n + 3
      simp only [List.length_set, List.length_replicate]
      exact hN

/-- The function `solve()` on a constructed network: both phases finish, and the second
`work()` starts from a state that satisfies its loop invariant. -/
theorem solve_spec (st : State) (n : Int) (hinv : NetInv st n)
    (hs : st.e.length + 2 ≤ 2 ^ 31) :
    ∃ fuel0 stA st8, OptStart st.e (optimize_start (after_feasibility st)) n ∧
      reached (optimize_start (after_feasibility st)) stA ∧ WorkInv stA ∧
      spfa_frame stA st8 ∧ get st8.d st8.T = INF ∧ Wf st8 ∧ st8.q = [] ∧
      (∃ p, Res st8 p ∧ Fair st8 p ∧ SpfaInv st8 p (fun _ => False)) ∧
      ∀ fuel, fuel0 ≤ fuel →
        solve_feasibility fuel st = some (after_feasibility st) ∧
        optimize_init (after_feasibility st) = some (optimize_start (after_feasibility st)) ∧
        work fuel (optimize_start (after_feasibility st)) = some st8 ∧
        solve fuel st =
          some { st8 with a0 := wrap32 (st8.a0 + st8.maxflow),
                          a1 := wrap32 (st8.a1 + st8.cost) } := by
  have hos := optimize_start_spec st n hinv hs
  obtain ⟨fuel1, stA, st8, hre, hiA, hwk, -, hfr, hw8, hq8, hd8, hp8⟩ :=
    work_spec _ (optimize_start (after_feasibility st)) hos.inv (le_refl _)
  have hoi : optimize_init (after_feasibility st) = some (optimize_start (after_feasibility st)) := by
    apply optimize_init_eq
    have : (after_feasibility st).e.length = st.e.length + 2 :=
      added_length { st with S := st.n + 1, T := st.n + 2 } (st.n + 2) (st.n + 1) 0 INF 0
    omega
  refine ⟨max fuel1 2, stA, st8, hos, hre, hiA, hfr, hd8, hw8, hq8, hp8, fun fuel hf => ?_⟩
  obtain ⟨f, rfl⟩ : ∃ f, fuel = f + 2 := ⟨fuel - 2, by omega⟩
  have h1 := feasibility_spec st n hinv hs f
  have h2 := hwk (f + 2) (by omega)
  refine ⟨h1, hoi, h2, ?_⟩
  simp only [solve, h1, Option.bind_eq_bind, Option.some_bind, solve_optimize, hoi, h2,
    Option.pure_def]

end mcmf

/-! ## The order in which the tiers are consumed -/

namespace mcmf

/-- A potential does not increase along a residual path that avoids the source. -/
theorem pot_res_path (st : State) (p : Int → Int) (hc : CostShape st) (hr : Res st p)
    (x y : Int) (h : res_path st.e st.S x y) : p y ≤ p x := by
  induction h with
  | nil x => exact le_refl _
  | cons i y h0 h1 hw hu hv _ ih =>
    have h2 := hr.reduced i h0 h1 hw
    have h3 := hc.inner i h0 h1 hu hv
    omega

/-- Residual capacities after `update()`, entry by entry. -/
theorem augmented_w (st : State) (p : Int → Int) (k : Nat) (hw : Wf st) (hc : CostShape st)
    (hr : Res st p) (hI : SpfaInv st p (fun _ => False)) (hq : st.q = [])
    (hT : get st.d st.T ≠ INF) (hk : chain st.e st.pre st.S k st.T) :
    ∀ j : Int, 2 ≤ j → j < st.e.length →
      (edge (augmented st k).e j).w =
        (edge st.e j).w - get st.incf st.T * ((path st.e st.pre st.S k st.T).count j : Int)
          + get st.incf st.T * ((path st.e st.pre st.S k st.T).count (xor1 j) : Int) := by
  obtain ⟨hT0, hT1⟩ := hw.T_range
  obtain ⟨-, -, hP, -⟩ := path_facts st p hw hc hr hI hq k st.T hT0 hT1 hT hk
  exact (edge_pushes (get st.incf st.T) st.e.length hw.even
    (path st.e st.pre st.S k st.T) st.e rfl (fun i hi => ⟨(hP i hi).1, (hP i hi).2.1⟩)).2

/-- Every state at the head of the loop of `work()` is linked to the state the loop started
from. -/
theorem reached_linked (st0 st : State) (hinv : WorkInv st0) (h : reached st0 st) :
    WorkInv st ∧ linked st0 st := by
  apply reached_ind (linked st0) st0 hinv
  · exact ⟨same_arcs_refl _, rfl, rfl, fun _ _ _ _ => rfl⟩
  · intro s s1 p k hs hl hfr hw1 hc1 hr1 hF1 hI1 hq1 hT hk _
    obtain ⟨hsame, hS, hT', hsum⟩ := hl
    have he1 := spfa_frame_e _ _ hfr
    have hS1 := spfa_frame_S _ _ hfr
    have hT1 := spfa_frame_T _ _ hfr
    have hTS : s1.T ≠ s1.S := by rw [hT1, hS1]; exact hs.T_ne_S
    obtain ⟨hsame2, -, -, -⟩ := augmented_spec s1 p k hw1 hc1 hr1 hF1 hI1 hq1 hT hTS hk
    have hwf := augmented_w s1 p k hw1 hc1 hr1 hI1 hq1 hT hk
    rw [he1] at hsame2
    refine ⟨same_arcs_trans _ _ _ hsame hsame2, ?_, ?_, ?_⟩
    · show s1.S = st0.S
      rw [hS1, hS]
    · show s1.T = st0.T
      rw [hT1, hT']
    · intro i h0 h1 hpar
      have hlen : s1.e.length = st0.e.length := by rw [he1]; exact hsame.1
      have hx : xor1 i = i + 1 := by
        unfold xor1
        rw [if_pos hpar]
      have hx' : xor1 (i + 1) = i := by
        unfold xor1
        rw [if_neg (by omega)]
        omega
      have hev := hw1.even
      rw [hwf i h0 (by omega), hwf (i + 1) (by omega) (by omega), hx, hx', ← hsum i h0 h1 hpar, he1]
      ring
  · exact h

/-- On every network that `distribution::solve` builds from well-formed input, every state at
the head of the loop of the second `work()` keeps the tiers in order. -/
theorem reached_tier_order (users : List User) (spares : List Spare) (bst st : State)
    (hinv : NetInv bst (8 * (users.length : Int) + (spares.length : Int) + 2))
    (hs : bst.e.length + 2 ≤ 2 ^ 31) (hsrc : src_arcs bst.e users.length)
    (h : reached (optimize_start (after_feasibility bst)) st) :
    src_arcs st.e users.length ∧
    tier_order st.e users.length (8 * (users.length : Int) + (spares.length : Int) + 2) := by
  have hos := optimize_start_spec bst _ hinv hs
  obtain ⟨hwi, ⟨hsame, hS, hT, hsum⟩⟩ := reached_linked _ st hos.inv h
  obtain ⟨hw, hc, ⟨p, hr, hF⟩, -, -⟩ := hwi
  obtain ⟨hlenb, harcs⟩ := hsrc
  rw [hos.S_eq] at hS
  rw [hos.T_eq] at hT
  have hpS : p 1 = 0 := by rw [← hS]; exact hr.pot_S
  have hlen : st.e.length = bst.e.length + 2 := by rw [hsame.1, hos.len]
  -- the source entries of participant `a`, in the state `st`
  have hent : ∀ (a : Nat) (o c : Int), a < users.length → (o = 2 ∨ o = 4 ∨ o = 6) →
      ((edge bst.e (o + 6 * (a : Int))).u = 1 ∧ (edge bst.e (o + 6 * (a : Int))).v = (a : Int) + 2 ∧
        (edge bst.e (o + 6 * (a : Int))).c = c) →
      (edge st.e (o + 6 * (a : Int))).u = 1 ∧ (edge st.e (o + 6 * (a : Int))).v = (a : Int) + 2 ∧
        (edge st.e (o + 6 * (a : Int))).c = c ∧
      (edge st.e (o + 6 * (a : Int))).w + (edge st.e (o + 6 * (a : Int) + 1)).w = 1 := by
    intro a o c ha ho hb
    have h0 : (2 : Int) ≤ o + 6 * (a : Int) := by omega
    have h1 : o + 6 * (a : Int) < bst.e.length := by omega
    have hpar : (o + 6 * (a : Int)) % 2 = 0 := by omega
    obtain ⟨x1, x2, -, x4⟩ := hsame.2 (o + 6 * (a : Int))
    rw [hos.old _ (by omega) h1] at x1 x2 x4
    have hs := hsum _ h0 (by rw [hos.len]; push_cast; omega) hpar
    rw [hos.old _ (by omega) h1, hos.old _ (by omega) (by omega)] at hs
    obtain ⟨⟨-, -, -, -, -, hw1⟩, hw0⟩ := hos.fwd _ h0 h1 hpar
    exact ⟨by rw [x1]; exact hb.1, by rw [x2]; exact hb.2.1, by rw [x4]; exact hb.2.2,
      by rw [hs, hw1, hw0]; rfl⟩
  -- a free source entry bounds the potential of the base node from above
  have hfree : ∀ (a : Nat) (o c : Int), a < users.length → (o = 2 ∨ o = 4 ∨ o = 6) →
      ((edge bst.e (o + 6 * (a : Int))).u = 1 ∧ (edge bst.e (o + 6 * (a : Int))).v = (a : Int) + 2 ∧
        (edge bst.e (o + 6 * (a : Int))).c = c) →
      (edge st.e (o + 6 * (a : Int))).w ≠ 0 → p ((a : Int) + 2) ≤ c := by
    intro a o c ha ho hb hwne
    obtain ⟨e1, e2, e3, -⟩ := hent a o c ha ho hb
    have := hr.reduced (o + 6 * (a : Int)) (by omega) (by omega) hwne
    rw [e1, e2, e3, hpS] at this
    omega
  -- a saturated source entry bounds it from below, and the potential of the sink as well
  have hsat : ∀ (a : Nat) (o c : Int), a < users.length → (o = 2 ∨ o = 4 ∨ o = 6) →
      ((edge bst.e (o + 6 * (a : Int))).u = 1 ∧ (edge bst.e (o + 6 * (a : Int))).v = (a : Int) + 2 ∧
        (edge bst.e (o + 6 * (a : Int))).c = c) →
      (edge st.e (o + 6 * (a : Int))).w = 0 → c ≤ p ((a : Int) + 2) ∧ c ≤ p st.T := by
    intro a o c ha ho hb hw0
    obtain ⟨e1, e2, e3, e4⟩ := hent a o c ha ho hb
    have h0 : (2 : Int) ≤ o + 6 * (a : Int) := by omega
    have h1 : o + 6 * (a : Int) < st.e.length := by omega
    have hx : xor1 (o + 6 * (a : Int)) = o + 6 * (a : Int) + 1 := by
      unfold xor1
      rw [if_pos (by omega)]
    obtain ⟨p1, p2, p3⟩ := hw.pair _ h0 h1
    simp only [hx, e1, e2, e3] at p1 p2 p3
    have hrev : (edge st.e (o + 6 * (a : Int) + 1)).w ≠ 0 := by omega
    have := hr.reduced (o + 6 * (a : Int) + 1) (by omega) (by omega) hrev
    rw [p1, p2, p3, hpS] at this
    have hfair := hF _ h0 h1 (by rw [e1, hS]) hw0
    rw [e3] at hfair
    exact ⟨by omega, hfair⟩
  refine ⟨⟨by omega, fun a ha => ?_⟩, fun a b ha hb => ⟨?_, ?_, ?_, ?_⟩⟩
  · obtain ⟨b1, b2, b3⟩ := harcs a ha
    obtain ⟨x1, x2, x3, -⟩ := hent a 2 20 ha (Or.inl rfl) b1
    obtain ⟨y1, y2, y3, -⟩ := hent a 4 50 ha (Or.inr (Or.inl rfl)) b2
    obtain ⟨z1, z2, z3, -⟩ := hent a 6 100 ha (Or.inr (Or.inr rfl)) b3
    exact ⟨⟨x1, x2, x3⟩, ⟨y1, y2, y3⟩, ⟨z1, z2, z3⟩⟩
  · intro h50
    by_contra h20
    have u1 := hfree a 2 20 ha (Or.inl rfl) (harcs a ha).1 h20
    have u2 := (hsat a 4 50 ha (Or.inr (Or.inl rfl)) (harcs a ha).2.1 h50).1
    omega
  · intro h100
    by_contra h50
    have u1 := hfree a 4 50 ha (Or.inr (Or.inl rfl)) (harcs a ha).2.1 h50
    have u2 := (hsat a 6 100 ha (Or.inr (Or.inr rfl)) (harcs a ha).2.2 h100).1
    omega
  · intro h50 h20 hpath
    have u1 := hfree b 2 20 hb (Or.inl rfl) (harcs b hb).1 h20
    have u2 := (hsat a 4 50 ha (Or.inr (Or.inl rfl)) (harcs a ha).2.1 h50).2
    rw [← hS, ← hT] at hpath
    have := pot_res_path st p hc hr _ _ hpath
    omega
  · intro h100 h50 hpath
    have u1 := hfree b 4 50 hb (Or.inr (Or.inl rfl)) (harcs b hb).2.1 h50
    have u2 := (hsat a 6 100 ha (Or.inr (Or.inr rfl)) (harcs a ha).2.2 h100).2
    rw [← hS, ← hT] at hpath
    have := pot_res_path st p hc hr _ _ hpath
    omega

end mcmf

/-! ## Flows on the arena -/

namespace mcmf

theorem sum_node_ite (N : Nat) (u : Int) (h0 : 0 ≤ u) (h1 : u < N) (F : Nat → Int) :
    Finset.sum (Finset.range N) (fun x => if u = (x : Int) then F x else 0) = F u.toNat := by
  have hiff : ∀ x : Nat, (u = (x : Int)) ↔ (u.toNat = x) := by
    intro x
    omega
  simp only [hiff]
  rw [Finset.sum_ite_eq]
  have : u.toNat ∈ Finset.range N := Finset.mem_range.mpr (by omega)
  rw [if_pos this]

/-- Summing `g k * (φ (tail) - φ (head))` over the forward entries is the same as summing
`φ x * outflow x` over the nodes. -/
theorem sum_potential (es : List E) (N : Nat) (φ : Int → Int) (g : Nat → Int)
    (hr : ∀ k : Nat, k < arcs es → 0 ≤ (arc es k).u ∧ (arc es k).u < N ∧
      0 ≤ (arc es k).v ∧ (arc es k).v < N) :
    Finset.sum (Finset.range (arcs es)) (fun k => g k * (φ (arc es k).u - φ (arc es k).v)) =
      Finset.sum (Finset.range N) (fun x => φ (x : Int) * outflow es g (x : Int)) := by
  have e1 : ∀ k : Nat, k < arcs es → Finset.sum (Finset.range N)
      (fun x => φ (x : Int) * (if (arc es k).u = (x : Int) then g k else 0)) =
      φ (arc es k).u * g k := by
    intro k hk
    obtain ⟨a0, a1, -, -⟩ := hr k hk
    have : ∀ x : Nat, φ (x : Int) * (if (arc es k).u = (x : Int) then g k else 0) =
        if (arc es k).u = (x : Int) then φ (x : Int) * g k else 0 := by
      intro x
      split_ifs <;> simp
    simp only [this]
    rw [sum_node_ite N _ a0 a1 (fun x => φ (x : Int) * g k)]
    show φ (((arc es k).u.toNat : Nat) : Int) * g k = _
    rw [Int.toNat_of_nonneg a0]
  have e2 : ∀ k : Nat, k < arcs es → Finset.sum (Finset.range N)
      (fun x => φ (x : Int) * (if (arc es k).v = (x : Int) then g k else 0)) =
      φ (arc es k).v * g k := by
    intro k hk
    obtain ⟨-, -, b0, b1⟩ := hr k hk
    have : ∀ x : Nat, φ (x : Int) * (if (arc es k).v = (x : Int) then g k else 0) =
        if (arc es k).v = (x : Int) then φ (x : Int) * g k else 0 := by
      intro x
      split_ifs <;> simp
    simp only [this]
    rw [sum_node_ite N _ b0 b1 (fun x => φ (x : Int) * g k)]
    show φ (((arc es k).v.toNat : Nat) : Int) * g k = _
    rw [Int.toNat_of_nonneg b0]
  have hR : Finset.sum (Finset.range N) (fun x => φ (x : Int) * outflow es g (x : Int)) =
      Finset.sum (Finset.range (arcs es))
        (fun k => φ (arc es k).u * g k - φ (arc es k).v * g k) := by
    unfold outflow
    simp only [mul_sub, Finset.mul_sum]
    rw [Finset.sum_sub_distrib, Finset.sum_comm, Finset.sum_comm (s := Finset.range N),
      Finset.sum_sub_distrib]
    congr 1
    · exact Finset.sum_congr rfl (fun k hk => e1 k (Finset.mem_range.mp hk))
    · exact Finset.sum_congr rfl (fun k hk => e2 k (Finset.mem_range.mp hk))
  rw [hR]
  apply Finset.sum_congr rfl
  intro k _
  ring

/-- The outflows of all nodes add up to `0`. -/
theorem sum_outflow (es : List E) (N : Nat) (g : Nat → Int)
    (hr : ∀ k : Nat, k < arcs es → 0 ≤ (arc es k).u ∧ (arc es k).u < N ∧
      0 ≤ (arc es k).v ∧ (arc es k).v < N) :
    Finset.sum (Finset.range N) (fun x => outflow es g (x : Int)) = 0 := by
  have := sum_potential es N (fun _ => 1) g hr
  simp only [sub_self, mul_zero, Finset.sum_const_zero, one_mul] at this
  exact this.symm

/-- A sum over the nodes whose terms vanish outside two different nodes `a` and `b`. -/
theorem sum_two_nodes (N : Nat) (a b : Int) (F : Int → Int) (ha0 : 0 ≤ a) (ha1 : a < N)
    (hb0 : 0 ≤ b) (hb1 : b < N) (hab : a ≠ b)
    (h : ∀ x : Nat, x < N → (x : Int) ≠ a → (x : Int) ≠ b → F x = 0) :
    Finset.sum (Finset.range N) (fun x => F (x : Int)) = F a + F b := by
  have h1 := Finset.sum_eq_add (s := Finset.range N) (f := fun x : Nat => F (x : Int))
    a.toNat b.toNat (by omega)
    (fun c hc hne => h c (Finset.mem_range.mp hc) (by omega) (by omega))
    (fun hn => absurd (Finset.mem_range.mpr (by omega)) hn)
    (fun hn => absurd (Finset.mem_range.mpr (by omega)) hn)
  rw [h1]
  show F ((a.toNat : Nat) : Int) + F ((b.toNat : Nat) : Int) = _
  rw [Int.toNat_of_nonneg ha0, Int.toNat_of_nonneg hb0]


theorem outflow_add_mul (es : List E) (g h : Nat → Int) (f x : Int) :
    outflow es (fun k => g k + f * h k) x = outflow es g x + f * outflow es h x := by
  unfold outflow
  have e1 : ∀ (P : Nat → Prop) [DecidablePred P],
      Finset.sum (Finset.range (arcs es)) (fun k => if P k then g k + f * h k else 0) =
      Finset.sum (Finset.range (arcs es)) (fun k => if P k then g k else 0) +
        f * Finset.sum (Finset.range (arcs es)) (fun k => if P k then h k else 0) := by
    intro P _
    rw [Finset.mul_sum, ← Finset.sum_add_distrib]
    apply Finset.sum_congr rfl
    intro k _
    split_ifs <;> simp
  rw [e1 (fun k => (arc es k).u = x), e1 (fun k => (arc es k).v = x)]
  ring

theorem flow_cost_add_mul (es : List E) (g h : Nat → Int) (f : Int) :
    flow_cost es (fun k => g k + f * h k) = flow_cost es g + f * flow_cost es h := by
  unfold flow_cost
  rw [Finset.mul_sum, ← Finset.sum_add_distrib]
  apply Finset.sum_congr rfl
  intro k _
  ring

theorem sum_pick (K k0 : Nat) (h : k0 < K) (H : Nat → Int)
    (hz : ∀ k, k < K → k ≠ k0 → H k = 0) :
    Finset.sum (Finset.range K) H = H k0 :=
  Finset.sum_eq_single k0 (fun k hk hne => hz k (Finset.mem_range.mp hk) hne)
    (fun hn => absurd (Finset.mem_range.mpr h) hn)

/-- Outflow and cost of amounts that vanish outside the pair `k0`. -/
theorem outflow_single (es : List E) (g : Nat → Int) (k0 : Nat) (x : Int) (h : k0 < arcs es)
    (hz : ∀ k, k ≠ k0 → g k = 0) :
    outflow es g x = (if (arc es k0).u = x then g k0 else 0)
        - (if (arc es k0).v = x then g k0 else 0) ∧
    flow_cost es g = (arc es k0).c * g k0 := by
  unfold outflow flow_cost
  rw [sum_pick _ k0 h (fun k => if (arc es k).u = x then g k else 0)
      (fun k _ hne => by simp [hz k hne]),
    sum_pick _ k0 h (fun k => if (arc es k).v = x then g k else 0)
      (fun k _ hne => by simp [hz k hne]),
    sum_pick _ k0 h (fun k => (arc es k).c * g k) (fun k _ hne => by simp [hz k hne])]
  exact ⟨rfl, rfl⟩

theorem path_use_cons (i : Int) (P : List Int) (k : Nat) :
    path_use (i :: P) k = path_use P k + 1 * path_use [i] k := by
  unfold path_use
  simp only [List.count_cons, List.count_nil, Nat.cast_add, Nat.cast_ite, Nat.cast_one,
    Nat.cast_zero, zero_add]
  ring

/-- Outflow and cost of a single use of the arena entry `i`. -/
theorem outflow_entry (es : List E) (i x : Int) (hev : es.length % 2 = 0) (h0 : 2 ≤ i)
    (h1 : i < es.length)
    (hpair : ∀ j : Int, 2 ≤ j → j < es.length →
      (edge es (xor1 j)).u = (edge es j).v ∧ (edge es (xor1 j)).v = (edge es j).u ∧
      (edge es (xor1 j)).c = -(edge es j).c) :
    outflow es (path_use [i]) x =
        (if (edge es i).u = x then 1 else 0) - (if (edge es i).v = x then 1 else 0) ∧
    flow_cost es (path_use [i]) = (edge es i).c := by
  have hk0 : ((i - 2) / 2).toNat < arcs es := by
    unfold arcs
    omega
  have huse : ∀ k : Nat, path_use [i] k =
      (if i = 2 * (k : Int) + 2 then 1 else 0) - (if i = 2 * (k : Int) + 3 then 1 else 0) := by
    intro k
    unfold path_use
    simp only [List.count_cons, List.count_nil, beq_iff_eq, zero_add, Nat.cast_ite, Nat.cast_one,
      Nat.cast_zero]
  obtain ⟨e1, e2⟩ := outflow_single es (path_use [i]) ((i - 2) / 2).toNat x hk0
    (by
      intro k hne
      have n1 : ¬ (i = 2 * (k : Int) + 2) := by omega
      have n2 : ¬ (i = 2 * (k : Int) + 3) := by omega
      rw [huse k, if_neg n1, if_neg n2]
      rfl)
  by_cases hpar : i % 2 = 0
  · have hi : i = 2 * ((((i - 2) / 2).toNat : Nat) : Int) + 2 := by omega
    have hi' : ¬ (i = 2 * ((((i - 2) / 2).toNat : Nat) : Int) + 3) := by omega
    have ha : arc es ((i - 2) / 2).toNat = edge es i := by
      unfold arc
      rw [← hi]
    have hg : path_use [i] ((i - 2) / 2).toNat = 1 := by
      rw [huse, if_pos hi, if_neg hi']
      rfl
    rw [e1, e2, hg, ha]
    simp
  · have hi : i = 2 * ((((i - 2) / 2).toNat : Nat) : Int) + 3 := by omega
    have hi' : ¬ (i = 2 * ((((i - 2) / 2).toNat : Nat) : Int) + 2) := by omega
    have hx : xor1 i = 2 * ((((i - 2) / 2).toNat : Nat) : Int) + 2 := by
      unfold xor1
      rw [if_neg hpar]
      omega
    have ha : arc es ((i - 2) / 2).toNat = edge es (xor1 i) := by
      unfold arc
      rw [← hx]
    have hg : path_use [i] ((i - 2) / 2).toNat = -1 := by
      rw [huse, if_neg hi', if_pos hi]
      rfl
    obtain ⟨p1, p2, p3⟩ := hpair i h0 h1
    rw [e1, e2, hg, ha, p1, p2, p3]
    constructor
    · split_ifs <;> simp
    · simp

/-- Outflow and cost of the uses made by a list of arena entries. -/
theorem outflow_path_use (es : List E) (x : Int) (hev : es.length % 2 = 0)
    (hpair : ∀ j : Int, 2 ≤ j → j < es.length →
      (edge es (xor1 j)).u = (edge es j).v ∧ (edge es (xor1 j)).v = (edge es j).u ∧
      (edge es (xor1 j)).c = -(edge es j).c) :
    ∀ (P : List Int), (∀ i ∈ P, 2 ≤ i ∧ i < es.length) →
      outflow es (path_use P) x =
        (P.map (fun i => (if (edge es i).u = x then (1 : Int) else 0)
          - (if (edge es i).v = x then 1 else 0))).sum ∧
      flow_cost es (path_use P) = (P.map (fun i => (edge es i).c)).sum
  | [], _ => by
    constructor
    · simp [outflow, path_use]
    · simp [flow_cost, path_use]
  | i :: P, hP => by
    obtain ⟨ih1, ih2⟩ := outflow_path_use es x hev hpair P
      (fun j hj => hP j (List.mem_cons_of_mem _ hj))
    obtain ⟨s1, s2⟩ := outflow_entry es i x hev (hP i (by simp)).1 (hP i (by simp)).2 hpair
    have hfun : path_use (i :: P) = fun k => path_use P k + 1 * path_use [i] k := by
      funext k
      exact path_use_cons i P k
    rw [hfun, outflow_add_mul, flow_cost_add_mul, ih1, ih2, s1, s2]
    simp only [List.map_cons, List.sum_cons, one_mul]
    constructor <;> ring

/-- Along the walk of `update` from `x0` back to the source the uses telescope: one unit
leaves the source and one unit enters `x0`. -/
theorem path_telescope (es : List E) (pre : List Int) (S : Int) (N : Nat) (x : Int) :
    ∀ (k : Nat) (x0 : Int), path_ok es pre S N k x0 →
      ((path es pre S k x0).map (fun i => (if (edge es i).u = x then (1 : Int) else 0)
          - (if (edge es i).v = x then 1 else 0))).sum =
        (if S = x then 1 else 0) - (if x0 = x then 1 else 0)
  | 0, x0, h => by
    have hx : x0 = S := h
    simp [path, hx]
  | k + 1, x0, h => by
    obtain ⟨hxS, -, -, -, -, hv, hrest⟩ := h
    have ih := path_telescope es pre S N x k _ hrest
    simp only [path, if_neg hxS, List.map_cons, List.sum_cons, ih, hv]
    ring


theorem arcs_lt (es : List E) (k : Nat) (h : k < arcs es) :
    (2 : Int) ≤ 2 * (k : Int) + 2 ∧ 2 * (k : Int) + 3 < es.length := by
  unfold arcs at h
  omega

theorem outflow_congr (es : List E) (g g' : Nat → Int) (x : Int)
    (h : ∀ k, k < arcs es → g k = g' k) :
    outflow es g x = outflow es g' x ∧ flow_cost es g = flow_cost es g' := by
  unfold outflow flow_cost
  refine ⟨?_, ?_⟩
  · congr 1
    · exact Finset.sum_congr rfl (fun k hk => by rw [h k (Finset.mem_range.mp hk)])
    · exact Finset.sum_congr rfl (fun k hk => by rw [h k (Finset.mem_range.mp hk)])
  · exact Finset.sum_congr rfl (fun k hk => by rw [h k (Finset.mem_range.mp hk)])

theorem outflow_same_arcs (es es' : List E) (g : Nat → Int) (x : Int) (h : same_arcs es es') :
    outflow es' g x = outflow es g x ∧ flow_cost es' g = flow_cost es g := by
  have ha : arcs es' = arcs es := by
    unfold arcs
    rw [h.1]
  unfold outflow flow_cost
  rw [ha]
  refine ⟨?_, ?_⟩
  · congr 1
    · exact Finset.sum_congr rfl (fun k _ => by
        show (if (edge es' _).u = x then _ else _) = (if (edge es _).u = x then _ else _)
        rw [(h.2 _).1])
    · exact Finset.sum_congr rfl (fun k _ => by
        show (if (edge es' _).v = x then _ else _) = (if (edge es _).v = x then _ else _)
        rw [(h.2 _).2.1])
  · exact Finset.sum_congr rfl (fun k _ => by
      show (edge es' _).c * _ = (edge es _).c * _
      rw [(h.2 _).2.2.2])

/-- The costs along the predecessor chain of a labelled node add up to its label. -/
theorem path_cost (st : State) (p : Int → Int) (hw : Wf st)
    (hI : SpfaInv st p (fun _ => False)) (hq : st.q = []) :
    ∀ (k : Nat) (x : Int), 0 ≤ x → x < st.d.length → get st.d x ≠ INF →
      chain st.e st.pre st.S k x →
      ((path st.e st.pre st.S k x).map (fun i => (edge st.e i).c)).sum = get st.d x
  | 0, x, _, _, _, h => by
    have hx : x = st.S := h
    simp [path, hx, hI.dS]
  | k + 1, x, hx0, hx1, hdx, h => by
    obtain ⟨hxS, hch⟩ := h
    obtain ⟨a1, a2, a3, a4, a5, a6, -⟩ := hI.pre_ok x hx0 hx1 hxS hdx
    obtain ⟨b0, b1, -, -⟩ := hw.e_range _ a1 a2
    have ih := path_cost st p hw hI hq k _ b0 b1 a5 hch
    have hrel := hI.relaxed_ok _ a1 a2 a4 a5 (by rw [hq]; simp) (fun h => h)
    rw [a3] at hrel
    simp only [path, if_neg hxS, List.map_cons, List.sum_cons, ih]
    omega

/-- The augmentation keeps the link to the start state. -/
theorem linked_augmented (st0 s s1 : State) (p : Int → Int) (k : Nat) (hs : WorkInv s)
    (hl : linked st0 s) (hfr : spfa_frame s s1) (hw1 : Wf s1) (hc1 : CostShape s1)
    (hr1 : Res s1 p) (hF1 : Fair s1 p) (hI1 : SpfaInv s1 p (fun _ => False)) (hq1 : s1.q = [])
    (hT : get s1.d s1.T ≠ INF) (hk : chain s1.e s1.pre s1.S k s1.T) :
    linked st0 (augmented s1 k) := by
  obtain ⟨hsame, hS, hT', hsum⟩ := hl
  have he1 := spfa_frame_e _ _ hfr
  have hS1 := spfa_frame_S _ _ hfr
  have hT1 := spfa_frame_T _ _ hfr
  have hTS : s1.T ≠ s1.S := by rw [hT1, hS1]; exact hs.T_ne_S
  obtain ⟨hsame2, -, -, -⟩ := augmented_spec s1 p k hw1 hc1 hr1 hF1 hI1 hq1 hT hTS hk
  have hwf := augmented_w s1 p k hw1 hc1 hr1 hI1 hq1 hT hk
  rw [he1] at hsame2
  refine ⟨same_arcs_trans _ _ _ hsame hsame2, ?_, ?_, ?_⟩
  · show s1.S = st0.S
    rw [hS1, hS]
  · show s1.T = st0.T
    rw [hT1, hT']
  · intro i h0 h1 hpar
    have hlen : s1.e.length = st0.e.length := by rw [he1]; exact hsame.1
    have hx : xor1 i = i + 1 := by
      unfold xor1
      rw [if_pos hpar]
    have hx' : xor1 (i + 1) = i := by
      unfold xor1
      rw [if_neg (by omega)]
      omega
    have hev := hw1.even
    rw [hwf i h0 (by omega), hwf (i + 1) (by omega) (by omega), hx, hx', ← hsum i h0 h1 hpar, he1]
    ring

/-- The augmentation keeps the flow bookkeeping: it adds `incf[T]` units from the source to
the sink at the cost `d[T]` per unit. -/
theorem flow_augmented (st0 s s1 : State) (p : Int → Int) (k : Nat)
    (hs : WorkInv s) (hfl : FlowInv st0 s) (hfr : spfa_frame s s1) (hw1 : Wf s1)
    (hc1 : CostShape s1) (hr1 : Res s1 p) (hF1 : Fair s1 p)
    (hI1 : SpfaInv s1 p (fun _ => False)) (hq1 : s1.q = [])
    (hT : get s1.d s1.T ≠ INF) (hk : chain s1.e s1.pre s1.S k s1.T) :
    FlowInv st0 (augmented s1 k) := by
  obtain ⟨hl, hbal, hval, hcost, ⟨hb0, hb1⟩, ht0, ht1⟩ := hfl
  have hl2 := linked_augmented st0 s s1 p k hs hl hfr hw1 hc1 hr1 hF1 hI1 hq1 hT hk
  obtain ⟨hsame, hS, hT', -⟩ := hl
  have he1 := spfa_frame_e _ _ hfr
  have hS1 := spfa_frame_S _ _ hfr
  have hT1 := spfa_frame_T _ _ hfr
  have hm1 : s1.maxflow = s.maxflow := by rw [hfr]
  have hco1 : s1.cost = s.cost := by rw [hfr]
  have hsame1 : same_arcs st0.e s1.e := by rw [he1]; exact hsame
  have hTS : s1.T ≠ s1.S := by rw [hT1, hS1]; exact hs.T_ne_S
  obtain ⟨hT0, hT1'⟩ := hw1.T_range
  obtain ⟨hok, -, hP, -⟩ := path_facts s1 p hw1 hc1 hr1 hI1 hq1 k s1.T hT0 hT1' hT hk
  have hwf := augmented_w s1 p k hw1 hc1 hr1 hI1 hq1 hT hk
  have hpc := path_cost s1 p hw1 hI1 hq1 k s1.T hT0 hT1' hT hk
  -- the new flow, pair by pair
  have hflow : ∀ k', k' < arcs st0.e → flow (augmented s1 k).e k' =
      flow s.e k' + get s1.incf s1.T * path_use (path s1.e s1.pre s1.S k s1.T) k' := by
    intro k' hk'
    obtain ⟨a, b⟩ := arcs_lt st0.e k' hk'
    rw [← hsame1.1] at b
    have hx : xor1 (2 * (k' : Int) + 3) = 2 * (k' : Int) + 2 := by
      unfold xor1
      rw [if_neg (by omega)]
      omega
    unfold flow path_use
    rw [hwf _ (by omega) b, hx, he1]
    ring
  have hout : ∀ x : Int, outflow st0.e (flow (augmented s1 k).e) x =
      outflow st0.e (flow s.e) x + get s1.incf s1.T *
        ((if s1.S = x then 1 else 0) - (if s1.T = x then 1 else 0)) := by
    intro x
    rw [(outflow_congr st0.e _ _ x hflow).1, outflow_add_mul,
      ← (outflow_same_arcs st0.e s1.e (path_use _) x hsame1).1,
      (outflow_path_use s1.e x hw1.even hw1.pair _ (fun i hi => ⟨(hP i hi).1, (hP i hi).2.1⟩)).1,
      path_telescope s1.e s1.pre s1.S _ x k s1.T hok]
  have hcst : flow_cost st0.e (flow (augmented s1 k).e) =
      flow_cost st0.e (flow s.e) + get s1.incf s1.T * get s1.d s1.T := by
    rw [(outflow_congr st0.e _ _ 0 hflow).2, flow_cost_add_mul,
      ← (outflow_same_arcs st0.e s1.e (path_use _) 0 hsame1).2,
      (outflow_path_use s1.e 0 hw1.even hw1.pair _ (fun i hi => ⟨(hP i hi).1, (hP i hi).2.1⟩)).2,
      hpc]
  have hTS0 : st0.T ≠ st0.S := by
    rw [← hT', ← hS]
    exact hs.T_ne_S
  obtain ⟨-, hf1, -, -⟩ := path_facts s1 p hw1 hc1 hr1 hI1 hq1 k s1.T hT0 hT1' hT hk
  have hdT : 0 ≤ get s1.d s1.T ∧ get s1.d s1.T ≤ 100 := by
    have h1 := hr1.pot_nonneg s1.T
    rcases hI1.d_bound s1.T hT0 hT1' with h | h
    · exact absurd h hT
    · omega
  have hprod0 : 0 ≤ get s1.d s1.T * get s1.incf s1.T := mul_nonneg hdT.1 (by omega)
  have hprod1 : get s1.d s1.T * get s1.incf s1.T ≤ 100 * get s1.incf s1.T :=
    mul_le_mul_of_nonneg_right hdT.2 (by omega)
  have ha0 : s1.a0 = s.a0 := by rw [hfr]
  have ha1 : s1.a1 = s.a1 := by rw [hfr]
  refine ⟨hl2, ?_, ?_, ?_, ?_, ?_⟩
  · intro x hx hxS hxT
    rw [hout, hbal x hx hxS hxT, if_neg (by rw [hS1, hS]; exact fun h => hxS h.symm),
      if_neg (by rw [hT1, hT']; exact fun h => hxT h.symm)]
    ring
  · show wrap32 (s1.maxflow + get s1.incf s1.T) = _
    rw [hout, hm1, hval, wrap32_add_left, if_pos (by rw [hS1, hS]),
      if_neg (by rw [hT1, hT']; exact hTS0)]
    congr 1
    ring
  · show wrap32 (s1.cost + get s1.d s1.T * get s1.incf s1.T) = _
    rw [hcst, hco1, hcost, wrap32_add_left]
    congr 1
    ring
  · show 0 ≤ flow_cost st0.e (flow (augmented s1 k).e) ∧
      flow_cost st0.e (flow (augmented s1 k).e) ≤
        100 * outflow st0.e (flow (augmented s1 k).e) st0.S
    rw [hcst, hout, if_pos (by rw [hS1, hS]), if_neg (by rw [hT1, hT']; exact hTS0)]
    constructor
    · linarith
    · linarith
  · show s1.a0 = st0.a0 ∧ s1.a1 = st0.a1
    rw [ha0, ha1]
    exact ⟨ht0, ht1⟩

theorem FlowInv_frame (st0 s s1 : State) (hfl : FlowInv st0 s) (hfr : spfa_frame s s1) :
    FlowInv st0 s1 := by
  obtain ⟨⟨a1, a2, a3, a4⟩, hbal, hval, hcost, hb, ht⟩ := hfl
  have he1 := spfa_frame_e _ _ hfr
  have hS1 := spfa_frame_S _ _ hfr
  have hT1 := spfa_frame_T _ _ hfr
  have hm1 : s1.maxflow = s.maxflow := by rw [hfr]
  have hco1 : s1.cost = s.cost := by rw [hfr]
  have ha0 : s1.a0 = s.a0 := by rw [hfr]
  have ha1 : s1.a1 = s.a1 := by rw [hfr]
  refine ⟨⟨?_, ?_, ?_, ?_⟩, ?_, ?_, ?_, ?_, ?_⟩
  · rw [he1]; exact a1
  · rw [hS1]; exact a2
  · rw [hT1]; exact a3
  · rw [he1]; exact a4
  · rw [he1]; exact hbal
  · rw [he1, hm1]; exact hval
  · rw [he1, hco1]; exact hcost
  · rw [he1]; exact hb
  · rw [ha0, ha1]; exact ht

/-- The start state carries the zero flow. -/
theorem FlowInv_start (st0 : State) (hz : ∀ k, k < arcs st0.e → flow st0.e k = 0)
    (hm : st0.maxflow = 0) (hco : st0.cost = 0) : FlowInv st0 st0 := by
  have h0 : ∀ x, outflow st0.e (fun _ => 0) x = 0 ∧ flow_cost st0.e (fun _ => 0) = 0 := by
    intro x
    unfold outflow flow_cost
    simp
  refine ⟨⟨same_arcs_refl _, rfl, rfl, fun _ _ _ _ => rfl⟩, ?_, ?_, ?_, ?_, rfl, rfl⟩
  · intro x _ _ _
    rw [(outflow_congr st0.e _ (fun _ => 0) x hz).1]
    exact (h0 x).1
  · rw [(outflow_congr st0.e _ (fun _ => 0) st0.S hz).1, (h0 _).1, hm]
    rfl
  · rw [(outflow_congr st0.e _ (fun _ => 0) 0 hz).2, (h0 0).2, hco]
    rfl
  · rw [(outflow_congr st0.e _ (fun _ => 0) st0.S hz).1, (h0 _).1,
      (outflow_congr st0.e _ (fun _ => 0) 0 hz).2, (h0 0).2]
    omega

/-- Every state at the head of the loop of `work()` keeps the flow bookkeeping. -/
theorem reached_flow (st0 st : State) (hinv : WorkInv st0) (h0 : FlowInv st0 st0)
    (h : reached st0 st) : WorkInv st ∧ FlowInv st0 st := by
  apply reached_ind (FlowInv st0) st0 hinv h0
  · intro s s1 p k hs hfl hfr hw1 hc1 hr1 hF1 hI1 hq1 hT hk _
    exact flow_augmented st0 s s1 p k hs hfl hfr hw1 hc1 hr1 hF1 hI1 hq1 hT hk
  · exact h


/-- Both entries of the pair `k` in a state linked to the start state `st0`, which carries no
flow: the endpoints and the cost are those of the start state, and the forward residual
capacity is the capacity less the flow. -/
theorem arc_facts (st0 st : State) (p : Int → Int) (hl : linked st0 st) (hw : Wf st)
    (hr : Res st p) (hz : ∀ k, k < arcs st0.e → flow st0.e k = 0) (k : Nat)
    (hk : k < arcs st0.e) :
    (2 : Int) ≤ 2 * (k : Int) + 2 ∧ 2 * (k : Int) + 3 < st.e.length ∧
    (edge st.e (2 * (k : Int) + 2)).u = (arc st0.e k).u ∧
    (edge st.e (2 * (k : Int) + 2)).v = (arc st0.e k).v ∧
    (edge st.e (2 * (k : Int) + 2)).c = (arc st0.e k).c ∧
    (edge st.e (2 * (k : Int) + 3)).u = (arc st0.e k).v ∧
    (edge st.e (2 * (k : Int) + 3)).v = (arc st0.e k).u ∧
    (edge st.e (2 * (k : Int) + 3)).c = -(arc st0.e k).c ∧
    (edge st.e (2 * (k : Int) + 2)).w = (arc st0.e k).w - flow st.e k ∧
    0 ≤ flow st.e k ∧ flow st.e k ≤ (arc st0.e k).w := by
  obtain ⟨hsame, -, -, hsum⟩ := hl
  obtain ⟨a, b⟩ := arcs_lt st0.e k hk
  have b' : 2 * (k : Int) + 3 < st.e.length := by rw [hsame.1]; exact b
  obtain ⟨s1, s2, -, s4⟩ := hsame.2 (2 * (k : Int) + 2)
  have hx : xor1 (2 * (k : Int) + 2) = 2 * (k : Int) + 3 := by
    unfold xor1
    rw [if_pos (by omega)]
    omega
  obtain ⟨p1, p2, p3⟩ := hw.pair (2 * (k : Int) + 2) a (by omega)
  rw [hx] at p1 p2 p3
  have h3 : 2 * (k : Int) + 2 + 1 = 2 * (k : Int) + 3 := by ring
  have hs := hsum (2 * (k : Int) + 2) a (by omega) (by omega)
  rw [h3] at hs
  have hz' : (edge st0.e (2 * (k : Int) + 3)).w = 0 := hz k hk
  have hn1 := hr.w_nonneg (2 * (k : Int) + 2) a (by omega)
  have hn2 := hr.w_nonneg (2 * (k : Int) + 3) (by omega) b'
  have hf : flow st.e k = (edge st.e (2 * (k : Int) + 3)).w := rfl
  have ha : (arc st0.e k) = edge st0.e (2 * (k : Int) + 2) := rfl
  rw [ha, hf]
  refine ⟨a, b', s1, s2, s4, ?_, ?_, ?_, ?_, hn2, ?_⟩
  · rw [p1, s2]
  · rw [p2, s1]
  · rw [p3, s4]
  · omega
  · omega

/-- Summing `(g - f) * (φ (tail) - φ (head))` over the pairs, for two amounts balanced away
from the nodes `a` and `b`. -/
theorem potential_identity (es : List E) (N : Nat) (φ : Int → Int) (g f : Nat → Int)
    (a b : Int) (hr : ∀ k : Nat, k < arcs es → 0 ≤ (arc es k).u ∧ (arc es k).u < N ∧
      0 ≤ (arc es k).v ∧ (arc es k).v < N)
    (ha0 : 0 ≤ a) (ha1 : a < N) (hb0 : 0 ≤ b) (hb1 : b < N) (hab : a ≠ b)
    (hg : ∀ x : Nat, x < N → (x : Int) ≠ a → (x : Int) ≠ b → outflow es g x = 0)
    (hf : ∀ x : Nat, x < N → (x : Int) ≠ a → (x : Int) ≠ b → outflow es f x = 0) :
    Finset.sum (Finset.range (arcs es))
        (fun k => (g k - f k) * (φ (arc es k).u - φ (arc es k).v)) =
      φ a * (outflow es g a - outflow es f a) + φ b * (outflow es g b - outflow es f b) := by
  have h1 := sum_potential es N φ (fun k => g k + (-1) * f k) hr
  have h2 := sum_two_nodes N a b (fun x => φ x * outflow es (fun k => g k + (-1) * f k) x)
    ha0 ha1 hb0 hb1 hab (by
      intro x hx hxa hxb
      show φ (x : Int) * outflow es (fun k => g k + (-1) * f k) (x : Int) = 0
      rw [outflow_add_mul, hg x hx hxa hxb, hf x hx hxa hxb]
      ring)
  have h3 : Finset.sum (Finset.range (arcs es))
        (fun k => (g k - f k) * (φ (arc es k).u - φ (arc es k).v)) =
      Finset.sum (Finset.range (arcs es))
        (fun k => (g k + (-1) * f k) * (φ (arc es k).u - φ (arc es k).v)) :=
    Finset.sum_congr rfl (fun k _ => by ring)
  beta_reduce at h1 h2
  rw [h3, h1, h2, outflow_add_mul, outflow_add_mul]
  ring

/-- What leaves the node `a` enters the node `b`, for amounts balanced everywhere else. -/
theorem outflow_sink (es : List E) (N : Nat) (g : Nat → Int) (a b : Int)
    (hr : ∀ k : Nat, k < arcs es → 0 ≤ (arc es k).u ∧ (arc es k).u < N ∧
      0 ≤ (arc es k).v ∧ (arc es k).v < N)
    (ha0 : 0 ≤ a) (ha1 : a < N) (hb0 : 0 ≤ b) (hb1 : b < N) (hab : a ≠ b)
    (hg : ∀ x : Nat, x < N → (x : Int) ≠ a → (x : Int) ≠ b → outflow es g x = 0) :
    outflow es g b = -outflow es g a := by
  have h1 := sum_outflow es N g hr
  have h2 := sum_two_nodes N a b (fun x => outflow es g x) ha0 ha1 hb0 hb1 hab hg
  beta_reduce at h2
  rw [h1] at h2
  omega

theorem flow_cost_sub (es : List E) (φ : Int → Int) (g f : Nat → Int) :
    Finset.sum (Finset.range (arcs es))
        (fun k => (g k - f k) * ((arc es k).c + φ (arc es k).u - φ (arc es k).v)) =
      flow_cost es g - flow_cost es f + Finset.sum (Finset.range (arcs es))
        (fun k => (g k - f k) * (φ (arc es k).u - φ (arc es k).v)) := by
  unfold flow_cost
  rw [← Finset.sum_sub_distrib, ← Finset.sum_add_distrib]
  exact Finset.sum_congr rfl (fun k _ => by ring)


/-- When the labelling pass no longer reaches the sink, the flow in the arena is feasible, no
feasible flow carries more from the source to the sink, and no feasible flow that carries as
much costs less. -/
theorem flow_optimal (st0 st : State) (p : Int → Int) (hw0 : Wf st0) (hTS : st0.T ≠ st0.S)
    (hz : ∀ k, k < arcs st0.e → flow st0.e k = 0) (hfl : FlowInv st0 st) (hw : Wf st)
    (hc : CostShape st) (hr : Res st p) (hI : SpfaInv st p (fun _ => False)) (hq : st.q = [])
    (hd : get st.d st.T = INF) :
    feasible st0.e st0.S st0.T st0.d.length (flow st.e) ∧
    (∀ g : Nat → Int, feasible st0.e st0.S st0.T st0.d.length g →
      outflow st0.e g st0.S ≤ outflow st0.e (flow st.e) st0.S) ∧
    (∀ g : Nat → Int, feasible st0.e st0.S st0.T st0.d.length g →
      outflow st0.e g st0.S = outflow st0.e (flow st.e) st0.S →
      flow_cost st0.e (flow st.e) ≤ flow_cost st0.e g) := by
  have hINF := INF_val
  have hAF := arc_facts st0 st p hfl.link hw hr hz
  obtain ⟨-, hS, hT, -⟩ := hfl.link
  have hrange : ∀ k : Nat, k < arcs st0.e → 0 ≤ (arc st0.e k).u ∧
      (arc st0.e k).u < st0.d.length ∧ 0 ≤ (arc st0.e k).v ∧ (arc st0.e k).v < st0.d.length := by
    intro k hk
    obtain ⟨a, b⟩ := arcs_lt st0.e k hk
    exact hw0.e_range _ a (by omega)
  obtain ⟨hS0, hS1⟩ := hw0.S_range
  obtain ⟨hT0, hT1⟩ := hw0.T_range
  have hST : st0.S ≠ st0.T := fun h => hTS h.symm
  have hfeas : feasible st0.e st0.S st0.T st0.d.length (flow st.e) :=
    ⟨fun k hk => ⟨(hAF k hk).2.2.2.2.2.2.2.2.2.1, (hAF k hk).2.2.2.2.2.2.2.2.2.2⟩, hfl.balance⟩
  -- an entry with residual capacity that leaves a labelled node enters a labelled node
  have hlab : ∀ i : Int, 2 ≤ i → i < st.e.length → (edge st.e i).w ≠ 0 →
      get st.d (edge st.e i).u ≠ INF → get st.d (edge st.e i).v ≠ INF := by
    intro i h0 h1 hwi hu
    have h := hI.relaxed_ok i h0 h1 hwi hu (by rw [hq]; simp) (fun h => h)
    obtain ⟨r0, r1, -, -⟩ := hw.e_range i h0 h1
    have hc2 := (cost_ge st hw hc i h0 h1).2
    rcases hI.d_bound _ r0 r1 with hb | hb
    · exact absurd hb hu
    · omega
  refine ⟨hfeas, ?_, ?_⟩
  · intro g hg
    have key : ∀ k, k ∈ Finset.range (arcs st0.e) →
        (g k - flow st.e k) *
          ((fun x => if get st.d x = INF then (0 : Int) else 1) (arc st0.e k).u -
           (fun x => if get st.d x = INF then (0 : Int) else 1) (arc st0.e k).v) ≤ 0 := by
      intro k hk
      have hk' := Finset.mem_range.mp hk
      obtain ⟨a, b, e1, e2, -, e4, e5, -, e7, e8, e9⟩ := hAF k hk'
      obtain ⟨g0, g1⟩ := hg.1 k hk'
      beta_reduce
      by_cases hu : get st.d (arc st0.e k).u = INF
      · by_cases hv : get st.d (arc st0.e k).v = INF
        · rw [if_pos hu, if_pos hv]
          omega
        · rw [if_pos hu, if_neg hv]
          have hf0 : flow st.e k = 0 := by
            by_contra hne
            have := hlab (2 * (k : Int) + 3) (by omega) b hne (by rw [e4]; exact hv)
            rw [e5] at this
            exact this hu
          rw [hf0]
          omega
      · by_cases hv : get st.d (arc st0.e k).v = INF
        · rw [if_neg hu, if_pos hv]
          have hf0 : (edge st.e (2 * (k : Int) + 2)).w = 0 := by
            by_contra hne
            have := hlab (2 * (k : Int) + 2) a (by omega) hne (by rw [e1]; exact hu)
            rw [e2] at this
            exact this hv
          omega
        · rw [if_neg hu, if_neg hv]
          omega
    have hpi := potential_identity st0.e st0.d.length
      (fun x => if get st.d x = INF then (0 : Int) else 1) g (flow st.e) st0.S st0.T hrange
      hS0 hS1 hT0 hT1 hST hg.2 hfeas.2
    have hsum := le_of_eq_of_le hpi.symm (Finset.sum_nonpos key)
    beta_reduce at hsum
    have hdS : get st.d st0.S ≠ INF := by
      rw [← hS, hI.dS, hINF]
      omega
    have hdT : get st.d st0.T = INF := by rw [← hT]; exact hd
    rw [if_neg hdS, if_pos hdT] at hsum
    omega
  · intro g hg hval
    have key : ∀ k, k ∈ Finset.range (arcs st0.e) →
        0 ≤ (g k - flow st.e k) *
          ((arc st0.e k).c + p (arc st0.e k).u - p (arc st0.e k).v) := by
      intro k hk
      have hk' := Finset.mem_range.mp hk
      obtain ⟨a, b, e1, e2, e3, e4, e5, e6, e7, e8, e9⟩ := hAF k hk'
      obtain ⟨g0, g1⟩ := hg.1 k hk'
      rcases lt_trichotomy (g k) (flow st.e k) with hlt | heq | hgt
      · have h := hr.reduced (2 * (k : Int) + 3) (by omega) b (by
          show flow st.e k ≠ 0
          omega)
        rw [e4, e5, e6] at h
        nlinarith [mul_nonneg (show 0 ≤ flow st.e k - g k by omega) h]
      · rw [heq]
        simp
      · have h := hr.reduced (2 * (k : Int) + 2) a (by omega) (by omega)
        rw [e1, e2, e3] at h
        exact mul_nonneg (by omega) h
    have hsum := Finset.sum_nonneg key
    rw [flow_cost_sub, potential_identity st0.e st0.d.length p g (flow st.e) st0.S st0.T hrange
      hS0 hS1 hT0 hT1 hST hg.2 hfeas.2,
      outflow_sink st0.e st0.d.length g st0.S st0.T hrange hS0 hS1 hT0 hT1 hST hg.2,
      outflow_sink st0.e st0.d.length (flow st.e) st0.S st0.T hrange hS0 hS1 hT0 hT1 hST hfeas.2,
      hval] at hsum
    have e : p st0.S * (outflow st0.e (flow st.e) st0.S - outflow st0.e (flow st.e) st0.S) +
        p st0.T * (-outflow st0.e (flow st.e) st0.S - -outflow st0.e (flow st.e) st0.S) = 0 := by
      ring
    rw [e] at hsum
    omega


/-- Appending one pair that carries nothing changes neither the outflows nor the cost. -/
theorem outflow_old (es es7 : List E) (g : Nat → Int) (x : Int) (h2 : 2 ≤ es.length)
    (hlen : es7.length = es.length + 2)
    (hold : ∀ j : Int, 0 ≤ j → j < es.length → edge es7 j = edge es j)
    (hK : g (arcs es) = 0) :
    outflow es7 g x = outflow es g x ∧ flow_cost es7 g = flow_cost es g := by
  have ha : arcs es7 = arcs es + 1 := by
    unfold arcs
    omega
  have harc : ∀ k, k ∈ Finset.range (arcs es) → arc es7 k = arc es k := by
    intro k hk
    have hk' := Finset.mem_range.mp hk
    obtain ⟨a, b⟩ := arcs_lt es k hk'
    exact hold _ (by omega) (by omega)
  unfold outflow flow_cost
  rw [ha, Finset.sum_range_succ, Finset.sum_range_succ, Finset.sum_range_succ, hK]
  simp only [ite_self, mul_zero, add_zero]
  refine ⟨?_, ?_⟩
  · congr 1
    · exact Finset.sum_congr rfl (fun k hk => by rw [harc k hk])
    · exact Finset.sum_congr rfl (fun k hk => by rw [harc k hk])
  · exact Finset.sum_congr rfl (fun k hk => by rw [harc k hk])

theorem sum_range_three (H : Nat → Int) : ∀ P : Nat,
    Finset.sum (Finset.range (3 * P)) H =
      Finset.sum (Finset.range P) (fun a => H (3 * a) + H (3 * a + 1) + H (3 * a + 2))
  | 0 => by simp
  | P + 1 => by
    have e : 3 * (P + 1) = 3 * P + 1 + 1 + 1 := by ring
    rw [e, Finset.sum_range_succ, Finset.sum_range_succ, Finset.sum_range_succ,
      Finset.sum_range_succ, sum_range_three H P]
    ring

/-- A sum over the pairs whose terms vanish behind the first `3 * P` pairs. -/
theorem sum_tiers (K P : Nat) (H : Nat → Int) (hP : 3 * P ≤ K)
    (hz : ∀ k, 3 * P ≤ k → k < K → H k = 0) :
    Finset.sum (Finset.range K) H =
      Finset.sum (Finset.range P) (fun a => H (3 * a) + H (3 * a + 1) + H (3 * a + 2)) := by
  rw [← sum_range_three H P]
  symm
  apply Finset.sum_subset (Finset.range_subset.mpr hP)
  intro k hk hnk
  have h1 : ¬ k < 3 * P := fun h => hnk (Finset.mem_range.mpr h)
  exact hz k (by omega) (Finset.mem_range.mp hk)


theorem tier_cost_le (es : List E) (P : Nat) : tier_cost es P ≤ 170 * (P : Int) := by
  unfold tier_cost
  have h := Finset.sum_le_sum (s := Finset.range P)
    (f := fun a : Nat => (if (edge es (2 + 6 * (a : Int))).w = 0 then (20 : Int) else 0) +
      (if (edge es (4 + 6 * (a : Int))).w = 0 then 50 else 0) +
      (if (edge es (6 + 6 * (a : Int))).w = 0 then 100 else 0))
    (g := fun _ => (170 : Int)) (fun a _ => by
      beta_reduce
      split_ifs <;> omega)
  rw [Finset.sum_const, Finset.card_range, nsmul_eq_mul] at h
  linarith

/-- Amounts between `0` and `1` leave a node by at most the number of pairs. -/
theorem outflow_bound (es : List E) (g : Nat → Int) (x : Int)
    (h : ∀ k, k < arcs es → 0 ≤ g k ∧ g k ≤ 1) :
    -(arcs es : Int) ≤ outflow es g x ∧ outflow es g x ≤ arcs es := by
  have hb : ∀ f : E → Int,
      0 ≤ Finset.sum (Finset.range (arcs es)) (fun k => if f (arc es k) = x then g k else 0) ∧
      Finset.sum (Finset.range (arcs es)) (fun k => if f (arc es k) = x then g k else 0) ≤
        arcs es := by
    intro f
    constructor
    · apply Finset.sum_nonneg
      intro k hk
      have := h k (Finset.mem_range.mp hk)
      split_ifs <;> omega
    · have h1 := Finset.sum_le_sum (s := Finset.range (arcs es))
        (f := fun k => if f (arc es k) = x then g k else 0) (g := fun _ => (1 : Int))
        (fun k hk => by
          have := h k (Finset.mem_range.mp hk)
          beta_reduce
          split_ifs <;> omega)
      rw [Finset.sum_const, Finset.card_range, nsmul_eq_mul, mul_one] at h1
      exact h1
  have h1 := hb (fun e => e.u)
  have h2 := hb (fun e => e.v)
  unfold outflow
  constructor <;> omega

/-- The function `solve()` on a constructed network of fewer than `2 ^ 31` arena entries whose
source entries are the first `3 * P` forward entries, with the costs `20`, `50`, `100`: it
returns, the flow it leaves in the arena is feasible, `a0` is its value and `a1` its cost kept
in 32 bits, the cost is the sum of the costs of the saturated source entries; no feasible flow
has a larger value, and no feasible flow of the same value has a lower cost. -/
theorem solve_optimal (st : State) (n : Int) (P : Nat) (hinv : NetInv st n)
    (hs : st.e.length + 2 ≤ 2 ^ 31) (hsrc : src_arcs st.e P) (hin : inner_arcs st.e P) :
    ∃ fuel0 fin, (∀ fuel, fuel0 ≤ fuel → solve fuel st = some fin) ∧
      feasible st.e st.s st.t st.d.length (flow fin.e) ∧
      fin.a0 = outflow st.e (flow fin.e) st.s ∧
      fin.a1 = wrap32 (flow_cost st.e (flow fin.e)) ∧
      flow_cost st.e (flow fin.e) = tier_cost fin.e P ∧
      (∀ g : Nat → Int, feasible st.e st.s st.t st.d.length g →
        outflow st.e g st.s ≤ outflow st.e (flow fin.e) st.s) ∧
      (∀ g : Nat → Int, feasible st.e st.s st.t st.d.length g →
        outflow st.e g st.s = outflow st.e (flow fin.e) st.s →
        flow_cost st.e (flow fin.e) ≤ flow_cost st.e g) := by
  obtain ⟨fuel0, stA, st8, hos, hre, hiA, hfr, hd8, hw8, hq8, ⟨p, hr8, -, hI8⟩, hsolve⟩ :=
    solve_spec st n hinv hs
  generalize optimize_start (after_feasibility st) = st7 at hos hre hsolve
  obtain ⟨hinv7, hS7, hT7, hlen7, hold7, hfwd7, ⟨hp1, hp2, -, -, -⟩,
    hm7, hc7, ha07, ha17, -, -, hN7, -⟩ := hos
  have hev := hinv.arena.2
  have h2 := hinv.arena.1
  obtain ⟨-, hs1, ht1, -⟩ := hinv.scal
  have hK : 2 * (arcs st.e : Int) + 2 = st.e.length := by
    unfold arcs
    omega
  have ha7 : arcs st7.e = arcs st.e + 1 := by
    unfold arcs
    omega
  have h3 : ∀ k : Nat, 2 * (k : Int) + 2 + 1 = 2 * (k : Int) + 3 := fun k => by ring
  have harc : ∀ k, k < arcs st.e → arc st7.e k = arc st.e k := by
    intro k hk
    obtain ⟨a, b⟩ := arcs_lt st.e k hk
    exact hold7 _ (by omega) (by omega)
  have hcap : ∀ k, k < arcs st.e → (arc st.e k).w = 1 := by
    intro k hk
    obtain ⟨a, b⟩ := arcs_lt st.e k hk
    exact (hfwd7 (2 * (k : Int) + 2) a (by omega) (by omega)).1.2.2.2.2.2
  have hz : ∀ k, k < arcs st7.e → flow st7.e k = 0 := by
    intro k hk
    show (edge st7.e (2 * (k : Int) + 3)).w = 0
    by_cases h : k < arcs st.e
    · obtain ⟨a, b⟩ := arcs_lt st.e k h
      rw [hold7 _ (by omega) b]
      have := (hfwd7 (2 * (k : Int) + 2) a (by omega) (by omega)).2
      rw [h3] at this
      exact this
    · have hk' : k = arcs st.e := by omega
      have : 2 * (k : Int) + 3 = (st.e.length : Int) + 1 := by
        rw [hk']
        omega
      rw [this]
      exact hp2
  have hfl7 := FlowInv_start st7 hz hm7 hc7
  obtain ⟨-, hflA⟩ := reached_flow st7 stA hinv7 hfl7 hre
  have hfl8 := FlowInv_frame st7 stA st8 hflA hfr
  have hc8 : CostShape st8 :=
    CostShape_congr stA st8 (spfa_frame_e _ _ hfr) (spfa_frame_S _ _ hfr) hiA.shape
  obtain ⟨hfeas, hmax, hmin⟩ :=
    flow_optimal st7 st8 p hinv7.wf hinv7.T_ne_S hz hfl8 hw8 hc8 hr8 hI8 hq8 hd8
  have hAF := arc_facts st7 st8 p hfl8.link hw8 hr8 hz
  have hpl : (arc st7.e (arcs st.e)).w = 0 := by
    show (edge st7.e (2 * (arcs st.e : Int) + 2)).w = 0
    rw [hK]
    exact hp1
  have hfK : flow st8.e (arcs st.e) = 0 := by
    obtain ⟨b0, b1⟩ := hfeas.1 (arcs st.e) (by omega)
    omega
  have hNN : st7.d.length = st.d.length := by
    have := hinv.N_eq
    omega
  have hsS : st7.S = st.s := by rw [hS7, hs1]
  have hsT : st7.T = st.t := by rw [hT7, ht1]
  rw [hNN, hsS, hsT] at hfeas hmax hmin
  have hval8 : st8.maxflow = wrap32 (outflow st.e (flow st8.e) st.s) := by
    rw [hfl8.value, hsS, (outflow_old st.e st7.e _ _ h2 hlen7 hold7 hfK).1]
  have hcost8 : st8.cost = wrap32 (flow_cost st.e (flow st8.e)) := by
    rw [hfl8.cost, (outflow_old st.e st7.e _ 0 h2 hlen7 hold7 hfK).2]
  have hout7 : ∀ x, outflow st7.e (flow st8.e) x = outflow st.e (flow st8.e) x :=
    fun x => (outflow_old st.e st7.e _ x h2 hlen7 hold7 hfK).1
  have hcst7 : flow_cost st7.e (flow st8.e) = flow_cost st.e (flow st8.e) :=
    (outflow_old st.e st7.e _ 0 h2 hlen7 hold7 hfK).2
  have hsmall : -(arcs st.e : Int) ≤ outflow st.e (flow st8.e) st.s ∧
      outflow st.e (flow st8.e) st.s ≤ arcs st.e :=
    outflow_bound st.e _ _ (fun k hk => by
      have := hfeas.1 k (by omega)
      rw [harc k hk, hcap k hk] at this
      exact this)
  have harcs : (arcs st.e : Int) < 2 ^ 31 := by
    have : (st.e.length : Int) + 2 ≤ 2 ^ 31 := by exact_mod_cast hs
    omega
  have ha08 : st8.a0 = 0 := by rw [hfl8.totals.1, ha07]
  have ha18 : st8.a1 = 0 := by rw [hfl8.totals.2, ha17]
  -- a feasible flow of the network is a feasible flow of the arena with the plumbing pair
  have hto : ∀ g : Nat → Int, feasible st.e st.s st.t st.d.length g →
      feasible st7.e st.s st.t st.d.length (restrict st.e g) ∧
      outflow st7.e (restrict st.e g) st.s = outflow st.e g st.s ∧
      flow_cost st7.e (restrict st.e g) = flow_cost st.e g := by
    intro g hg
    have hr0 : restrict st.e g (arcs st.e) = 0 := by
      unfold restrict
      rw [if_neg (by omega)]
    have hrk : ∀ k, k < arcs st.e → restrict st.e g k = g k := by
      intro k hk
      unfold restrict
      rw [if_pos hk]
    have hout : ∀ x, outflow st7.e (restrict st.e g) x = outflow st.e g x := by
      intro x
      rw [(outflow_old st.e st7.e _ x h2 hlen7 hold7 hr0).1,
        (outflow_congr st.e _ g x hrk).1]
    refine ⟨⟨?_, ?_⟩, hout _, ?_⟩
    · intro k hk
      by_cases h : k < arcs st.e
      · rw [hrk k h, harc k h]
        exact hg.1 k h
      · have hk' : k = arcs st.e := by omega
        rw [hk', hr0, hpl]
        omega
    · intro x hx hxs hxt
      rw [hout]
      exact hg.2 x hx hxs hxt
    · rw [(outflow_old st.e st7.e _ 0 h2 hlen7 hold7 hr0).2,
        (outflow_congr st.e _ g 0 hrk).2]
  refine ⟨fuel0, { st8 with a0 := wrap32 (st8.a0 + st8.maxflow),
                            a1 := wrap32 (st8.a1 + st8.cost) },
    fun fuel hf => (hsolve fuel hf).2.2.2, ?_, ?_, ?_, ?_, ?_, ?_⟩
  · show feasible st.e st.s st.t st.d.length (flow st8.e)
    refine ⟨fun k hk => ?_, fun x hx hxs hxt => ?_⟩
    · rw [← harc k hk]
      exact hfeas.1 k (by omega)
    · rw [← (outflow_old st.e st7.e _ _ h2 hlen7 hold7 hfK).1]
      exact hfeas.2 x hx hxs hxt
  · show wrap32 (st8.a0 + st8.maxflow) = outflow st.e (flow st8.e) st.s
    have hx := wrap32_of_range (outflow st.e (flow st8.e) st.s) (by omega) (by omega)
    rw [ha08, hval8, zero_add, hx, hx]
  · show wrap32 (st8.a1 + st8.cost) = wrap32 (flow_cost st.e (flow st8.e))
    rw [ha18, hcost8, zero_add]
    exact wrap32_congr _ _ (wrap32_emod _)
  · show flow_cost st.e (flow st8.e) = tier_cost st8.e P
    -- the cost of one pair
    have hH : ∀ (k : Nat) (i : Int), i = 2 * (k : Int) + 2 → k < arcs st.e →
        (arc st.e k).c * flow st8.e k =
          if (edge st8.e i).w = 0 then (edge st.e i).c else 0 := by
      intro k i hi hk
      obtain ⟨a, b, -, -, -, -, -, -, e7, e8, e9⟩ := hAF k (by omega)
      have hn := hr8.w_nonneg (2 * (k : Int) + 2) a (by omega)
      rw [harc k hk, hcap k hk] at e7 e9
      rw [hi]
      show (edge st.e (2 * (k : Int) + 2)).c * flow st8.e k = _
      by_cases hw0 : (edge st8.e (2 * (k : Int) + 2)).w = 0
      · rw [if_pos hw0]
        have : flow st8.e k = 1 := by omega
        rw [this]
        ring
      · rw [if_neg hw0]
        have : flow st8.e k = 0 := by omega
        rw [this]
        ring
    have hP : 3 * P ≤ arcs st.e := by
      have := hsrc.1
      unfold arcs
      omega
    unfold flow_cost
    rw [sum_tiers (arcs st.e) P _ hP (by
      intro k hk1 hk2
      obtain ⟨a, b⟩ := arcs_lt st.e k hk2
      have hu := hin (2 * (k : Int) + 2) (by omega) (by omega) (by omega)
      have hc0 : (arc st.e k).c = 0 := by
        rcases (hfwd7 (2 * (k : Int) + 2) a (by omega) (by omega)).1.1 with h | h
        · have h1 : (edge st.e (2 * (k : Int) + 2)).u = 1 := h.1
          omega
        · exact h.2.2
      rw [hc0]
      ring)]
    unfold tier_cost
    apply Finset.sum_congr rfl
    intro a ha
    have haP := Finset.mem_range.mp ha
    obtain ⟨⟨-, -, c1⟩, ⟨-, -, c2⟩, ⟨-, -, c3⟩⟩ := hsrc.2 a haP
    rw [hH (3 * a) (2 + 6 * (a : Int)) (by push_cast; ring) (by omega),
      hH (3 * a + 1) (4 + 6 * (a : Int)) (by push_cast; ring) (by omega),
      hH (3 * a + 2) (6 + 6 * (a : Int)) (by push_cast; ring) (by omega), c1, c2, c3]
  · intro g hg
    show outflow st.e g st.s ≤ outflow st.e (flow st8.e) st.s
    obtain ⟨t1, t2, -⟩ := hto g hg
    have := hmax _ t1
    rw [t2, hout7] at this
    exact this
  · intro g hg hv
    show flow_cost st.e (flow st8.e) ≤ flow_cost st.e g
    have hv' : outflow st.e g st.s = outflow st.e (flow st8.e) st.s := hv
    obtain ⟨t1, t2, t3⟩ := hto g hg
    have := hmin _ t1 (by rw [t2, hv', hout7])
    rw [t3, hcst7] at this
    exact this

end mcmf

/-! ## What a successful access tells -/

theorem rd_some {α : Type} (xs : List α) (i : Int) (y : α) (h : rd xs i = some y) :
    0 ≤ i ∧ i < xs.length ∧ xs[i.toNat]? = some y := by
  unfold rd at h
  split_ifs at h with h0
  have h1 : i.toNat < xs.length := by
    by_contra hc
    rw [List.getElem?_eq_none (by omega)] at h
    exact absurd h (by simp)
  exact ⟨by omega, by omega, h⟩

theorem wr_some {α : Type} (xs : List α) (i : Int) (x : α) (ys : List α)
    (h : wr xs i x = some ys) : 0 ≤ i ∧ i < xs.length ∧ ys = xs.set i.toNat x := by
  unfold wr at h
  split_ifs at h with h0
  simp only [Option.some.injEq] at h
  exact ⟨h0.1, by omega, h.symm⟩

namespace mcmf

theorem rd_some_get (xs : List Int) (i y : Int) (h : rd xs i = some y) :
    0 ≤ i ∧ i < xs.length ∧ y = get xs i := by
  obtain ⟨h0, h1, h2⟩ := rd_some xs i y h
  refine ⟨h0, h1, ?_⟩
  unfold get
  rw [List.getD_eq_getElem?_getD, h2]
  rfl

theorem rd_some_edge (es : List E) (i : Int) (y : E) (h : rd es i = some y) :
    0 ≤ i ∧ i < es.length ∧ y = edge es i := by
  obtain ⟨h0, h1, h2⟩ := rd_some es i y h
  refine ⟨h0, h1, ?_⟩
  unfold edge
  rw [List.getD_eq_getElem?_getD, h2]
  rfl

/-- A call `addEdge(u, v, l, d, c)` that succeeds had both endpoints inside the arrays and
leaves the state `added`. -/
theorem addEdge_some (st st' : State) (u v l d c : Int)
    (h : addEdge st u v l d c = some st') :
    st' = added st u v l d c ∧ 0 ≤ u ∧ u < st.head.length ∧ 0 ≤ v ∧ v < st.head.length ∧
      u < st.a.length ∧ v < st.a.length := by
  simp only [addEdge, addE, add, Option.bind_eq_bind, Option.bind_eq_some, Option.pure_def,
    Option.some.injEq] at h
  obtain ⟨av, h1, a1, h2, au, h3, a2, h4, st1, ⟨hu, h5, head1, h6, h7⟩, hv, h8, head2, h9, h10⟩ := h
  obtain ⟨v0, v1, rfl⟩ := rd_some_get _ _ _ h1
  obtain ⟨-, -, rfl⟩ := wr_some _ _ _ _ h2
  obtain ⟨u0, u1, rfl⟩ := rd_some_get _ _ _ h3
  obtain ⟨-, -, rfl⟩ := wr_some _ _ _ _ h4
  obtain ⟨-, u2, rfl⟩ := rd_some_get _ _ _ h5
  obtain ⟨-, -, rfl⟩ := wr_some _ _ _ _ h6
  subst h7
  obtain ⟨-, v2, rfl⟩ := rd_some_get _ _ _ h8
  obtain ⟨-, -, rfl⟩ := wr_some _ _ _ _ h9
  subst h10
  simp only [List.length_set] at u1 v2
  refine ⟨?_, u0, u2, v0, v2, u1, v1⟩
  simp only [added, List.length_append, List.length_singleton, Nat.add_sub_cancel]

theorem solve_feasibility_eq (fuel : Nat) (st : State) :
    solve_feasibility fuel st = (feasibility_init st).bind (work fuel) := by
  simp only [solve_feasibility, feasibility_init, Option.bind_eq_bind, Option.bind_assoc]

/-- A loop whose every successful step keeps `I` keeps `I` when it succeeds. -/
theorem foldlM_keeps {σ α : Type} (I : σ → Prop) (f : σ → α → Option σ)
    (hstep : ∀ s x s', f s x = some s' → I s → I s') :
    ∀ (l : List α) (st st' : σ), l.foldlM f st = some st' → I st → I st'
  | [], st, st', h, h0 => by
    simp only [List.foldlM, Option.pure_def, Option.some.injEq] at h
    rw [← h]
    exact h0
  | x :: l, st, st', h, h0 => by
    simp only [List.foldlM, Option.bind_eq_bind, Option.bind_eq_some] at h
    obtain ⟨s1, h1, h2⟩ := h
    exact foldlM_keeps I f hstep l s1 st' h2 (hstep st x s1 h1 h0)

end mcmf

/-! ## The plumbing edge of the feasibility phase -/

namespace mcmf

theorem solve_imbalance_scalars (st st' : State) (i : Int)
    (h : solve_imbalance st i = some st') :
    st'.S = st.S ∧ st'.T = st.T ∧ st'.n = st.n ∧ st'.s = st.s ∧ st'.t = st.t := by
  simp only [solve_imbalance, Option.bind_eq_bind, Option.bind_eq_some] at h
  obtain ⟨ai, -, h⟩ := h
  split_ifs at h
  · simp only [Option.pure_def, Option.some.injEq] at h
    rw [← h]
    exact ⟨rfl, rfl, rfl, rfl, rfl⟩
  · obtain ⟨rfl, -⟩ := addEdge_some _ _ _ _ _ _ _ h
    exact ⟨rfl, rfl, rfl, rfl, rfl⟩
  · simp only [Option.bind_eq_some] at h
    obtain ⟨_, -, h⟩ := h
    obtain ⟨rfl, -⟩ := addEdge_some _ _ _ _ _ _ _ h
    exact ⟨rfl, rfl, rfl, rfl, rfl⟩

end mcmf

/-- C14: whatever the state, the edge that phase 1 of `mcmf::solve` appends last, the plumbing
edge of capacity `INF` and cost `0`, leaves the super sink `n + 2` and enters the super source
`n + 1` (`addEdge(T, S, 0, INF, 0)` with the upper-case variables); `s` and `t` keep their
values and are not its endpoints unless they happen to be `n + 1` and `n + 2`. -/
theorem plumbing_edge_joins_virtual_nodes (st st3 : mcmf.State)
    (h : mcmf.feasibility_init st = some st3) :
    st3.s = st.s ∧ st3.t = st.t ∧ 2 ≤ st3.e.length ∧
    (mcmf.edge st3.e ((st3.e.length : Int) - 2)).u = st.n + 2 ∧
    (mcmf.edge st3.e ((st3.e.length : Int) - 2)).v = st.n + 1 ∧
    (mcmf.edge st3.e ((st3.e.length : Int) - 2)).w = mcmf.INF ∧
    (mcmf.edge st3.e ((st3.e.length : Int) - 2)).c = 0 := by
  simp only [mcmf.feasibility_init, Option.bind_eq_bind, Option.bind_eq_some] at h
  obtain ⟨st2, h1, h2⟩ := h
  have hk := mcmf.foldlM_keeps
    (fun s : mcmf.State => s.S = st.n + 1 ∧ s.T = st.n + 2 ∧ s.s = st.s ∧ s.t = st.t)
    (fun acc (k : Nat) => mcmf.solve_imbalance acc ((k : Int) + 1))
    (fun s x s' hs hI => by
      obtain ⟨a1, a2, -, a4, a5⟩ := mcmf.solve_imbalance_scalars s s' _ hs
      exact ⟨a1.trans hI.1, a2.trans hI.2.1, a4.trans hI.2.2.1, a5.trans hI.2.2.2⟩)
    _ _ st2 h1 ⟨rfl, rfl, rfl, rfl⟩
  obtain ⟨hS, hT, hs, ht⟩ := hk
  obtain ⟨rfl, -⟩ := mcmf.addEdge_some _ _ _ _ _ _ _ h2
  have hlen := mcmf.added_length st2 st2.T st2.S 0 mcmf.INF 0
  have hpos : ((mcmf.added st2 st2.T st2.S 0 mcmf.INF 0).e.length : Int) - 2 = st2.e.length := by
    rw [hlen]
    push_cast
    ring
  rw [hpos, mcmf.added_fst]
  exact ⟨hs, ht, by rw [hlen]; omega, hT, hS, mcmf.wrap32_INF_sub, rfl⟩

/-- Witness of `plumbing_edge_joins_virtual_nodes`: with `n = 2`, `s = 1`, `t = 2` and no
edge, the plumbing edge runs from node `4` to node `3`. -/
theorem plumbing_edge_joins_virtual_nodes_witness :
    ∃ st3, mcmf.feasibility_init
        { mcmf.start with n := 2, s := 1, t := 2, head := [0, 0, 0, 0, 0], a := [0, 0, 0, 0, 0],
                          e := [⟨0, 0, 0, 0, 0⟩, ⟨0, 0, 0, 0, 0⟩] } = some st3 ∧
      st3.s = 1 ∧ st3.t = 2 ∧ 2 ≤ st3.e.length ∧
      (mcmf.edge st3.e ((st3.e.length : Int) - 2)).u = 2 + 2 ∧
      (mcmf.edge st3.e ((st3.e.length : Int) - 2)).v = 2 + 1 ∧
      (mcmf.edge st3.e ((st3.e.length : Int) - 2)).w = mcmf.INF ∧
      (mcmf.edge st3.e ((st3.e.length : Int) - 2)).c = 0 := by
  have hs : (mcmf.feasibility_init
      { mcmf.start with n := 2, s := 1, t := 2, head := [0, 0, 0, 0, 0], a := [0, 0, 0, 0, 0],
                        e := [⟨0, 0, 0, 0, 0⟩, ⟨0, 0, 0, 0, 0⟩] }).isSome = true := by decide
  obtain ⟨st3, h⟩ := Option.isSome_iff_exists.mp hs
  exact ⟨st3, h, plumbing_edge_joins_virtual_nodes _ st3 h⟩

/-! ## The feasibility phase on a constructed network -/

namespace mcmf

/-- The feasibility phase on a constructed network up to its first `work()`: the imbalance loop
inserts nothing and the plumbing pair is appended, whatever the size of the arena. -/
theorem feasibility_init_eq (st : State) (n : Int) (hinv : NetInv st n) :
    feasibility_init st =
      some (added { st with S := st.n + 1, T := st.n + 2 } (st.n + 2) (st.n + 1) 0 INF 0) := by
  obtain ⟨-, hla, haz, hN, hn2, hq, hfwd, hhi, hsc, hlens, -⟩ := hinv
  have hn : st.n = n := hsc.1
  have hlh := hlens.2.2.1
  have hloop : (List.range st.n.toNat).foldlM
      (fun acc (k : Nat) => solve_imbalance acc ((k : Int) + 1))
      { st with S := st.n + 1, T := st.n + 2 } = some { st with S := st.n + 1, T := st.n + 2 } := by
    apply foldlM_range_const
    intro i hi
    simp only [solve_imbalance]
    rw [rd_eq st.a _ (by omega) (by omega), haz _ (by omega)]
    simp
  have hadd := addEdge_eq { st with S := st.n + 1, T := st.n + 2 } (st.n + 2) (st.n + 1) 0 INF 0
    (by omega) (by simp only; omega) (by omega) (by simp only; omega) (by simp only; omega)
  simp only [feasibility_init, hloop, hadd, Option.bind_eq_bind, Option.some_bind]

/-- The two steps of the feasibility phase on a constructed network: the imbalance loop
inserts nothing and the plumbing pair is appended; the labelling pass that follows reports that
the super sink was not reached. -/
theorem feasibility_steps (st : State) (n : Int) (hinv : NetInv st n)
    (hs : st.e.length + 2 ≤ 2 ^ 31) :
    feasibility_init st =
      some (added { st with S := st.n + 1, T := st.n + 2 } (st.n + 2) (st.n + 1) 0 INF 0) ∧
    ∀ f : Nat, spfa (f + 2)
        (added { st with S := st.n + 1, T := st.n + 2 } (st.n + 2) (st.n + 1) 0 INF 0) =
      some (false, after_feasibility st) := by
  have hfi := feasibility_init_eq st n hinv
  obtain ⟨hw', hla, haz, hN, hn2, hq, hfwd, hhi, hsc, -, -⟩ := hinv
  have hw := hw' (by omega)
  have hn : st.n = n := hsc.1
  have hlh := hw.len_head
  have hw1 : Wf { st with S := st.n + 1, T := st.n + 2 } :=
    ⟨hw.len_incf, hw.len_pre, hw.len_head, hw.len_vis, by simp only; omega, by simp only; omega,
      hw.two_le, hw.even, hw.e_range, hw.next_ok, hw.head_ok, hw.pair, hw.complete⟩
  have hw3 := added_Wf { st with S := st.n + 1, T := st.n + 2 } (st.n + 2) (st.n + 1) 0 INF 0 hw1
    (by omega) (by simp only; omega) (by omega) (by simp only; omega) hs (by norm_num) (by norm_num)
  have hhead : get (added { st with S := st.n + 1, T := st.n + 2 } (st.n + 2) (st.n + 1) 0 INF 0).head
      (st.n + 1) = (st.e.length : Int) + 1 := by
    rw [added_head { st with S := st.n + 1, T := st.n + 2 } _ _ _ _ _ _ (by omega)
      (by simp only; omega) (by omega) (by simp only; omega) (by omega) hs, if_pos rfl]
  have hsnd := added_snd { st with S := st.n + 1, T := st.n + 2 } (st.n + 2) (st.n + 1) 0 INF 0 hs
  rw [wrap32_neg_zero] at hsnd
  have hnx : get (st.head.set (st.n + 2).toNat (st.e.length : Int)) (st.n + 1) = 0 := by
    rw [get_set st.head (st.n + 2) (st.n + 1) _ (by omega) (by omega) (by omega),
      if_neg (by omega), hn]
    exact hhi.1
  have hlen := added_length { st with S := st.n + 1, T := st.n + 2 } (st.n + 2) (st.n + 1) 0 INF 0
  have hsp := fun f : Nat => spfa_isolated
    (added { st with S := st.n + 1, T := st.n + 2 } (st.n + 2) (st.n + 1) 0 INF 0) f hw3 hq
    (by show st.n + 2 ≠ st.n + 1; omega)
    (by
      show 2 ≤ get _ (st.n + 1)
      rw [hhead]
      have := hw.two_le
      omega)
    (by
      show get _ (st.n + 1) < _
      rw [hhead, hlen]
      push_cast
      show (st.e.length : Int) + 1 < (st.e.length : Int) + 2
      omega)
    (by
      show (edge _ (get _ (st.n + 1))).w = 0
      rw [hhead]
      exact congrArg E.w hsnd)
    (by
      show (edge _ (get _ (st.n + 1))).next = 0
      rw [hhead]
      exact (congrArg E.next hsnd).trans hnx)
  refine ⟨hfi, fun f => ?_⟩
  rw [hsp f]
  rfl

end mcmf

/-! ## No negative cycle, and termination -/

namespace mcmf

/-- A potential bounds the cost of every walk along entries with residual capacity. -/
theorem walk_potential (st : State) (p : Int → Int) (hr : Res st p) (x y c : Int)
    (h : res_walk st.e x y c) : p y ≤ p x + c := by
  induction h with
  | nil x => omega
  | cons i y c h0 h1 hw _ ih =>
    have h2 := hr.reduced i h0 h1 (by omega)
    omega

/-- A walk along entries of non-negative cost has a non-negative cost. -/
theorem walk_nonneg (es : List E)
    (hc : ∀ i : Int, 2 ≤ i → i < es.length → 0 < (edge es i).w → 0 ≤ (edge es i).c)
    (x y c : Int) (h : res_walk es x y c) : 0 ≤ c := by
  induction h with
  | nil x => omega
  | cons i y c h0 h1 hw _ ih =>
    have := hc i h0 h1 hw
    omega

/-- Appending a pair whose forward entry costs `0` keeps the cost of every entry with residual
capacity non-negative. -/
theorem added_costs (st : State) (u v d : Int)
    (hc : ∀ i : Int, 2 ≤ i → i < st.e.length → 0 < (edge st.e i).w → 0 ≤ (edge st.e i).c) :
    ∀ i : Int, 2 ≤ i → i < (added st u v 0 d 0).e.length →
      0 < (edge (added st u v 0 d 0).e i).w → 0 ≤ (edge (added st u v 0 d 0).e i).c := by
  intro i h0 h1 hw
  rw [added_length] at h1
  push_cast at h1
  by_cases hi : i < st.e.length
  · rw [added_old _ _ _ _ _ _ i (by omega) hi] at hw ⊢
    exact hc i h0 hi hw
  · by_cases hi' : i = st.e.length
    · rw [hi', added_fst]
    · have hi2 : i = (st.e.length : Int) + 1 := by omega
      rw [hi2, added_snd_raw] at hw
      simp at hw

/-- On a constructed network every entry with residual capacity has a non-negative cost. -/
theorem net_costs (st : State) (n : Int) (hinv : NetInv st n) :
    ∀ i : Int, 2 ≤ i → i < st.e.length → 0 < (edge st.e i).w → 0 ≤ (edge st.e i).c := by
  intro i h0 hi hw
  have hev := hinv.arena.2
  by_cases hpar : i % 2 = 0
  · obtain ⟨⟨hs, -⟩, -⟩ := hinv.fwd i h0 hi hpar
    rcases hs with h | h
    · exact h.2.1
    · omega
  · have := (hinv.fwd (i - 1) (by omega) (by omega) (by omega)).2
    rw [show i - 1 + 1 = i by ring] at this
    omega

end mcmf


/-! ## The forward entries that the construction inserts -/

namespace mcmf

theorem arcs_added (st : State) (u v l d c : Int) (h2 : 2 ≤ st.e.length) :
    arcs (added st u v l d c).e = arcs st.e + 1 := by
  unfold arcs
  rw [added_length]
  omega

/-- Inserting an edge appends one forward entry. -/
theorem forward_arcs_added (st : State) (u v l d c : Int) (h2 : 2 ≤ st.e.length)
    (hev : st.e.length % 2 = 0) :
    forward_arcs (added st u v l d c).e = forward_arcs st.e ++ [⟨u, v, wrap32 (d - l), c⟩] := by
  unfold forward_arcs
  rw [arcs_added st u v l d c h2, List.range_succ, List.map_append, List.map_singleton]
  have hk : 2 * ((arcs st.e : Nat) : Int) + 2 = st.e.length := by
    unfold arcs
    omega
  congr 1
  · apply List.map_congr_left
    intro k hk'
    have hlt := List.mem_range.mp hk'
    obtain ⟨a, b⟩ := arcs_lt st.e k hlt
    have : arc (added st u v l d c).e k = arc st.e k :=
      added_old st u v l d c _ (by omega) (by omega)
    rw [this]
  · have : arc (added st u v l d c).e (arcs st.e) =
        { u := u, next := get st.head u, v := v, w := wrap32 (d - l), c := c } := by
      show edge _ (2 * ((arcs st.e : Nat) : Int) + 2) = _
      rw [hk, added_fst]
    rw [this]

theorem even_added (st : State) (u v l d c : Int) (h : even_arena st) :
    even_arena (added st u v l d c) := by
  unfold even_arena at *
  rw [added_length]
  omega

/-- A loop each of whose successful steps appends the forward entries `g x` appends the
entries of all its steps. -/
theorem foldlM_arcs {α : Type} (f : State → α → Option State) (g : α → List Arc) :
    ∀ (l : List α),
      (∀ s x s', x ∈ l → f s x = some s' → even_arena s →
        even_arena s' ∧ forward_arcs s'.e = forward_arcs s.e ++ g x) →
      ∀ (st st' : State), l.foldlM f st = some st' → even_arena st →
        even_arena st' ∧ forward_arcs st'.e = forward_arcs st.e ++ l.flatMap g
  | [], _, st, st', h, h0 => by
    simp only [List.foldlM, Option.pure_def, Option.some.injEq] at h
    rw [← h]
    exact ⟨h0, by simp⟩
  | x :: l, hstep, st, st', h, h0 => by
    simp only [List.foldlM, Option.bind_eq_bind, Option.bind_eq_some] at h
    obtain ⟨s1, h1, h2⟩ := h
    obtain ⟨e1, a1⟩ := hstep st x s1 (by simp) h1 h0
    obtain ⟨e2, a2⟩ := foldlM_arcs f g l
      (fun s y s' hy => hstep s y s' (List.mem_cons_of_mem _ hy)) s1 st' h2 e1
    refine ⟨e2, ?_⟩
    rw [a2, a1, List.flatMap_cons, List.append_assoc]

end mcmf

/-! ## Node numbers of the construction in `int32_t` -/

theorem conv_slot (P S k : Nat) (h : P * 8 + S + 5 < 2 ^ 31) (hk : k ≤ S) :
    toInt32 ((toUInt64 (8 * (P : Int) + (S : Int) + 2) + 2 ^ 64 - S % 2 ^ 64 + k) % 2 ^ 64) =
      8 * (P : Int) + 2 + k := by
  have h31 : (2 : Nat) ^ 31 = 2147483648 := by norm_num
  have h64 : (2 : Nat) ^ 64 = 18446744073709551616 := by norm_num
  rw [h31] at h
  have hnn : toUInt64 (8 * (P : Int) + (S : Int) + 2) = P * 8 + S + 2 := by
    rw [toUInt64_of_nonneg _ (by omega) (by
      have : (2 : Int) ^ 64 = 18446744073709551616 := by norm_num
      omega)]
    omega
  rw [hnn, Nat.mod_eq_of_lt (by omega : S < 2 ^ 64)]
  have : P * 8 + S + 2 + 2 ^ 64 - S + k = (P * 8 + 2 + k) + 2 ^ 64 := by omega
  rw [this, Nat.add_mod_right, Nat.mod_eq_of_lt (by omega), toInt32_of_lt _ (by omega)]
  push_cast
  ring

namespace mcmf

theorem build_source_arcs (P S i : Nat) (st st' : State) (hsz : P * 8 + S + 5 < 2 ^ 31)
    (hi : i < P) (h : distribution.build_source 1 st i = some st') (hev : even_arena st) :
    even_arena st' ∧ forward_arcs st'.e = forward_arcs st.e ++
      [⟨1, (i : Int) + 2, 1, 20⟩, ⟨1, (i : Int) + 2, 1, 50⟩, ⟨1, (i : Int) + 2, 1, 100⟩] := by
  have h31 : (2 : Nat) ^ 31 = 2147483648 := by norm_num
  have hc : toInt32 ((i + 2) % 2 ^ 64) = (i : Int) + 2 := by
    rw [conv_small _ (by omega)]
    push_cast
    rfl
  simp only [distribution.build_source, hc, Option.bind_eq_bind, Option.bind_eq_some] at h
  obtain ⟨s1, h1, s2, h2, h3⟩ := h
  obtain ⟨rfl, -⟩ := addEdge_some _ _ _ _ _ _ _ h1
  obtain ⟨rfl, -⟩ := addEdge_some _ _ _ _ _ _ _ h2
  obtain ⟨rfl, -⟩ := addEdge_some _ _ _ _ _ _ _ h3
  have e1 := even_added st 1 ((i : Int) + 2) 0 1 20 hev
  have e2 := even_added _ 1 ((i : Int) + 2) 0 1 50 e1
  have e3 := even_added _ 1 ((i : Int) + 2) 0 1 100 e2
  refine ⟨e3, ?_⟩
  rw [forward_arcs_added _ _ _ _ _ _ e2.1 e2.2, forward_arcs_added _ _ _ _ _ _ e1.1 e1.2,
    forward_arcs_added _ _ _ _ _ _ hev.1 hev.2]
  simp

theorem build_day_arcs (P S d j : Nat) (st st' : State) (hsz : P * 8 + S + 5 < 2 ^ 31)
    (hd : d < 7) (hj : j < P) (h : distribution.build_day P (d + 1) st j = some st')
    (hev : even_arena st) :
    even_arena st' ∧ forward_arcs st'.e = forward_arcs st.e ++
      [⟨(j : Int) + 2, (j : Int) + 2 + ((d : Int) + 1) * P, 1, 0⟩] := by
  have h31 : (2 : Nat) ^ 31 = 2147483648 := by norm_num
  have hmul : d * P ≤ 6 * P := Nat.mul_le_mul_right _ (by omega)
  have hexp : (d + 1) * P = d * P + P := by ring
  have hu : toInt32 ((j + 2) % 2 ^ 64) = (j : Int) + 2 := by
    rw [conv_small _ (by omega)]
    push_cast
    rfl
  have hv : toInt32 ((j + 2 + (d + 1) * P) % 2 ^ 64) = (j : Int) + 2 + ((d : Int) + 1) * P := by
    rw [conv_small _ (by omega)]
    push_cast
    rfl
  simp only [distribution.build_day, hu, hv] at h
  obtain ⟨rfl, -⟩ := addEdge_some _ _ _ _ _ _ _ h
  refine ⟨even_added _ _ _ _ _ _ hev, ?_⟩
  rw [forward_arcs_added _ _ _ _ _ _ hev.1 hev.2]
  simp

theorem build_pref_arcs (users : List User) (spares : List Spare) (i p : Nat) (st st' : State)
    (hwf : well_formed users spares) (hi : i < users.length) (hp : p < spares.length)
    (h : distribution.build_pref ⟨users, spares⟩
      (8 * (users.length : Int) + (spares.length : Int) + 2) i st p = some st')
    (hev : even_arena st) :
    even_arena st' ∧ forward_arcs st'.e = forward_arcs st.e ++
      [⟨(i : Int) + 2 + (((spares.getD p ⟨0, 0⟩).day : Int) + 1) * users.length,
        8 * (users.length : Int) + 2 + (spares.getD p ⟨0, 0⟩).stamp, 1, 0⟩] := by
  obtain ⟨hsize, -, hsp⟩ := hwf
  have h31 : (2 : Nat) ^ 31 = 2147483648 := by norm_num
  have hgd : spares.getD p ⟨0, 0⟩ = spares[p] := by
    rw [List.getD_eq_getElem?_getD, List.getElem?_eq_getElem hp]
    rfl
  obtain ⟨hday, hstamp⟩ := hsp _ (List.getElem_mem hp)
  have hmul : (spares[p].day + 1) * users.length ≤ 7 * users.length :=
    Nat.mul_le_mul_right _ (by omega)
  have hu : toInt32 ((i + 2 + (spares[p].day + 1) * users.length) % 2 ^ 64)
      = (i : Int) + 2 + ((spares[p].day : Int) + 1) * users.length := by
    rw [conv_small _ (by omega)]
    push_cast
    rfl
  have hv := conv_slot users.length spares.length spares[p].stamp hsize (by omega)
  simp only [distribution.build_pref, List.getElem?_eq_getElem hp, Option.bind_eq_bind,
    Option.some_bind, hu, hv] at h
  obtain ⟨rfl, -⟩ := addEdge_some _ _ _ _ _ _ _ h
  refine ⟨even_added _ _ _ _ _ _ hev, ?_⟩
  rw [forward_arcs_added _ _ _ _ _ _ hev.1 hev.2, hgd]
  simp

theorem build_sink_arcs (users : List User) (spares : List Spare) (k : Nat) (st st' : State)
    (hsz : users.length * 8 + spares.length + 5 < 2 ^ 31) (hk : k < spares.length)
    (h : distribution.build_sink ⟨users, spares⟩
      (8 * (users.length : Int) + (spares.length : Int) + 2)
      (8 * (users.length : Int) + (spares.length : Int) + 2) st k = some st')
    (hev : even_arena st) :
    even_arena st' ∧ forward_arcs st'.e = forward_arcs st.e ++
      [⟨8 * (users.length : Int) + 2 + k,
        8 * (users.length : Int) + (spares.length : Int) + 2, 1, 0⟩] := by
  have hu := conv_slot users.length spares.length k hsz (by omega)
  simp only [distribution.build_sink, hu] at h
  obtain ⟨rfl, -⟩ := addEdge_some _ _ _ _ _ _ _ h
  refine ⟨even_added _ _ _ _ _ _ hev, ?_⟩
  rw [forward_arcs_added _ _ _ _ _ _ hev.1 hev.2]
  simp


theorem flatMap_single {α β : Type} (l : List α) (f : α → β) :
    l.flatMap (fun x => [f x]) = l.map f := by
  induction l with
  | nil => rfl
  | cons x l ih => simp [List.flatMap_cons, ih]

/-- The forward entries of the network that `distribution::solve` builds from well-formed
input, in the order of insertion. -/
theorem build_arcs (users : List User) (spares : List Spare) (st bst : State)
    (hwf : well_formed users spares)
    (hb : distribution.build ⟨users, spares⟩ st = some bst) :
    forward_arcs bst.e = stamp_arcs users spares := by
  have hwf' := hwf
  obtain ⟨hsize, hpref, hsp⟩ := hwf
  have h31 : (2 : Nat) ^ 31 = 2147483648 := by norm_num
  have hn' : toInt32 ((users.length * 8 + spares.length + 2) % 2 ^ 64) =
      8 * (users.length : Int) + (spares.length : Int) + 2 := by
    rw [conv_small _ (by omega)]
    push_cast
    ring
  simp only [distribution.build, hn', Option.bind_eq_bind, Option.bind_eq_some] at hb
  obtain ⟨st1, h1, st2, h2, st3, h3, st4, h4, h5⟩ := hb
  -- the reset state
  have he1 : st1.e = [⟨0, 0, 0, 0, 0⟩, ⟨0, 0, 0, 0, 0⟩] := by
    unfold set_n at h1
    split_ifs at h1
    simp only [Option.some.injEq] at h1
    rw [← h1]
    rfl
  have hev1 : even_arena st1 := by
    unfold even_arena
    rw [he1]
    exact ⟨by decide, by decide⟩
  have ha1 : forward_arcs st1.e = [] := by
    rw [he1]
    rfl
  obtain ⟨hev2, ha2⟩ := foldlM_arcs (distribution.build_source 1)
    (fun i => [⟨1, (i : Int) + 2, 1, 20⟩, ⟨1, (i : Int) + 2, 1, 50⟩, ⟨1, (i : Int) + 2, 1, 100⟩])
    (List.range users.length)
    (fun s x s' hx hs he =>
      build_source_arcs users.length spares.length x s s' hsize (List.mem_range.mp hx) hs he)
    st1 st2 h2 hev1
  obtain ⟨hev3, ha3⟩ := foldlM_arcs
    (fun acc i => (List.range users.length).foldlM
      (distribution.build_day users.length (i + 1)) acc)
    (fun d => (List.range users.length).flatMap
      (fun j => [⟨(j : Int) + 2, (j : Int) + 2 + ((d : Int) + 1) * users.length, 1, 0⟩]))
    (List.range 7)
    (fun s d s' hd hs he => foldlM_arcs (distribution.build_day users.length (d + 1))
      (fun j => [⟨(j : Int) + 2, (j : Int) + 2 + ((d : Int) + 1) * users.length, 1, 0⟩])
      (List.range users.length)
      (fun s1 j s1' hj hs1 he1 => build_day_arcs users.length spares.length d j s1 s1' hsize
        (List.mem_range.mp hd) (List.mem_range.mp hj) hs1 he1)
      s s' hs he)
    st2 st3 h3 hev2
  obtain ⟨hev4, ha4⟩ := foldlM_arcs
    (fun acc i => do
      let ui ← users[i]?
      ui.stamps.foldlM (distribution.build_pref ⟨users, spares⟩
        (8 * (users.length : Int) + (spares.length : Int) + 2) i) acc)
    (fun i => (users.getD i ⟨0, []⟩).stamps.flatMap
      (fun p => [⟨(i : Int) + 2 + (((spares.getD p ⟨0, 0⟩).day : Int) + 1) * users.length,
        8 * (users.length : Int) + 2 + (spares.getD p ⟨0, 0⟩).stamp, 1, 0⟩]))
    (List.range users.length)
    (fun s i s' hi hs he => by
      have hi' := List.mem_range.mp hi
      have hgd : users.getD i ⟨0, []⟩ = users[i] := by
        rw [List.getD_eq_getElem?_getD, List.getElem?_eq_getElem hi']
        rfl
      beta_reduce at hs ⊢
      rw [hgd]
      simp only [List.getElem?_eq_getElem hi', Option.bind_eq_bind, Option.some_bind] at hs
      exact foldlM_arcs _ _ users[i].stamps
        (fun s1 p s1' hp hs1 he1 => build_pref_arcs users spares i p s1 s1' hwf' hi'
          (hpref _ (List.getElem_mem hi') p hp) hs1 he1)
        s s' hs he)
    st3 st4 h4 hev3
  obtain ⟨-, ha5⟩ := foldlM_arcs
    (distribution.build_sink ⟨users, spares⟩
      (8 * (users.length : Int) + (spares.length : Int) + 2)
      (8 * (users.length : Int) + (spares.length : Int) + 2))
    (fun k => [⟨8 * (users.length : Int) + 2 + k,
      8 * (users.length : Int) + (spares.length : Int) + 2, 1, 0⟩])
    (List.range spares.length)
    (fun s k s' hk hs he =>
      build_sink_arcs users spares k s s' hsize (List.mem_range.mp hk) hs he)
    st4 bst h5 hev4
  rw [ha5, ha4, ha3, ha2, ha1]
  unfold stamp_arcs arcs_with
  simp only [flatMap_single, List.nil_append]

end mcmf

theorem stamp_arcs_eq_claimed (users : List User) (spares : List Spare)
    (hpref : ∀ u ∈ users, ∀ p ∈ u.stamps, p < spares.length)
    (hid : ∀ p, p < spares.length → (spares.getD p ⟨0, 0⟩).stamp = p) :
    stamp_arcs users spares = claimed_arcs users spares := by
  unfold stamp_arcs claimed_arcs arcs_with
  congr 2
  apply List.flatMap_congr
  intro i hi
  have hi' := List.mem_range.mp hi
  have hgd : users.getD i ⟨0, []⟩ = users[i] := by
    rw [List.getD_eq_getElem?_getD, List.getElem?_eq_getElem hi']
    rfl
  rw [hgd]
  apply List.map_congr_left
  intro p hp
  beta_reduce
  rw [hid p (hpref _ (List.getElem_mem hi') p hp)]

/-- C12 (amended): on well-formed input `distribution::solve` builds a network and its forward
entries are, in the order of insertion: three source edges `1 → i + 2` per participant with
capacity 1 and the costs 20, 50, 100; for each day `d` of the seven and each participant the
edge `j + 2 → j + 2 + (d + 1) P` of capacity 1 and cost 0; for each participant and each entry
`p` of the preference list the edge of capacity 1 and cost 0 from the participant's layer node
of the day of slot `p` to the node `8P + 2 + stamp` given by the identifier of slot `p`; one
edge `8P + 2 + k → n` of capacity 1 and cost 0 per slot. All lower bounds are 0: every
imbalance is 0. The preference edges enter the node that carries the slot's own slot-to-sink
edge when every slot's identifier is its index in the slot list. -/
theorem forward_edges_of_the_construction (users : List User) (spares : List Spare)
    (st0 : mcmf.State) (hwf : well_formed users spares) :
    ∃ bst, distribution.build ⟨users, spares⟩ st0 = some bst ∧
      mcmf.forward_arcs bst.e = stamp_arcs users spares ∧
      (∀ x : Int, 0 ≤ x → mcmf.get bst.a x = 0) ∧
      ((∀ p, p < spares.length → (spares.getD p ⟨0, 0⟩).stamp = p) →
        mcmf.forward_arcs bst.e = claimed_arcs users spares) := by
  obtain ⟨bst, hb, hinv, -, -⟩ := mcmf.build_spec users spares st0 hwf
  have ha := mcmf.build_arcs users spares st0 bst hwf hb
  refine ⟨bst, hb, ha, hinv.a_zero, fun hid => ?_⟩
  rw [ha]
  exact stamp_arcs_eq_claimed users spares hwf.2.1 hid

/-- Witness of `forward_edges_of_the_construction`: one participant who prefers both slots,
which lie on different days and carry their indices as identifiers. -/
theorem forward_edges_of_the_construction_witness :
    well_formed [⟨9, [1, 0]⟩] [⟨0, 2⟩, ⟨1, 4⟩] ∧
    ∃ bst, distribution.build ⟨[⟨9, [1, 0]⟩], [⟨0, 2⟩, ⟨1, 4⟩]⟩ mcmf.start = some bst ∧
      mcmf.forward_arcs bst.e = stamp_arcs [⟨9, [1, 0]⟩] [⟨0, 2⟩, ⟨1, 4⟩] ∧
      (∀ x : Int, 0 ≤ x → mcmf.get bst.a x = 0) ∧
      ((∀ p, p < ([⟨0, 2⟩, ⟨1, 4⟩] : List Spare).length →
          (([⟨0, 2⟩, ⟨1, 4⟩] : List Spare).getD p ⟨0, 0⟩).stamp = p) →
        mcmf.forward_arcs bst.e = claimed_arcs [⟨9, [1, 0]⟩] [⟨0, 2⟩, ⟨1, 4⟩]) :=
  ⟨by decide, forward_edges_of_the_construction [⟨9, [1, 0]⟩] [⟨0, 2⟩, ⟨1, 4⟩] mcmf.start
    (by decide)⟩

/-- C12 as the specification states it fails: with one participant who prefers slot `0`, and
two slots of day `0` whose identifiers are `1` and `0`, the preference edge (the eleventh
forward entry) enters node `11`, while the slot-to-sink edge of slot `0` leaves node `10`. -/
theorem preference_edge_misses_slot_node :
    ∃ bst, distribution.build ⟨[⟨1, [0]⟩], [⟨1, 0⟩, ⟨0, 0⟩]⟩ mcmf.start = some bst ∧
      mcmf.forward_arcs bst.e ≠ claimed_arcs [⟨1, [0]⟩] [⟨1, 0⟩, ⟨0, 0⟩] ∧
      (mcmf.forward_arcs bst.e)[10]? = some ⟨3, 11, 1, 0⟩ ∧
      (claimed_arcs [⟨1, [0]⟩] [⟨1, 0⟩, ⟨0, 0⟩])[10]? = some ⟨3, 10, 1, 0⟩ ∧
      (mcmf.forward_arcs bst.e)[11]? = some ⟨10, 12, 1, 0⟩ := by
  have h : (distribution.build ⟨[⟨1, [0]⟩], [⟨1, 0⟩, ⟨0, 0⟩]⟩ mcmf.start).map
      (fun st => ((mcmf.forward_arcs st.e)[10]?, (mcmf.forward_arcs st.e)[11]?)) =
      some (some ⟨3, 11, 1, 0⟩, some ⟨10, 12, 1, 0⟩) := by decide!
  have hc : (claimed_arcs [⟨1, [0]⟩] [⟨1, 0⟩, ⟨0, 0⟩])[10]? = some ⟨3, 10, 1, 0⟩ := by decide!
  cases hb : distribution.build ⟨[⟨1, [0]⟩], [⟨1, 0⟩, ⟨0, 0⟩]⟩ mcmf.start with
  | none => simp [hb] at h
  | some bst =>
    rw [hb] at h
    simp only [Option.map_some', Option.some.injEq, Prod.mk.injEq] at h
    refine ⟨bst, rfl, fun heq => ?_, h.1, hc, h.2⟩
    have h10 := h.1
    rw [heq, hc] at h10
    exact absurd h10 (by decide)

/-! ## Node categories -/

theorem category_disjoint (P S : Nat) (c c' : Category) (x : Int)
    (h : in_category P S c x) (h' : in_category P S c' x) : c = c' := by
  cases c <;> cases c' <;> simp only [in_category] at h h' <;> first | rfl | omega

theorem category_range (P S : Nat) (c : Category) (x : Int) (h : in_category P S c x) :
    0 ≤ x ∧ x < 8 * (P : Int) + (S : Int) + 2 + 3 := by
  cases c <;> simp only [in_category] at h <;> omega

theorem mul_day_le (d P : Nat) (hd : d ≤ 6) :
    (P : Int) ≤ ((d : Int) + 1) * P ∧ ((d : Int) + 1) * P ≤ 7 * (P : Int) := by
  have h1 : P ≤ (d + 1) * P := Nat.le_mul_of_pos_left _ (by omega)
  have h2 : (d + 1) * P ≤ 7 * P := Nat.mul_le_mul_right _ (by omega)
  constructor
  · exact_mod_cast h1
  · exact_mod_cast h2

/-- Every edge of the construction joins the categories it is meant to join. -/
theorem stamp_arcs_categories (users : List User) (spares : List Spare)
    (hwf : well_formed users spares) :
    ∀ a ∈ stamp_arcs users spares, joins_categories users.length spares.length a := by
  obtain ⟨-, hpref, hsp⟩ := hwf
  intro a ha
  unfold stamp_arcs arcs_with at ha
  simp only [List.mem_append, List.mem_flatMap, List.mem_map, List.mem_range] at ha
  unfold joins_categories
  simp only [in_category]
  rcases ha with ((⟨i, hi, ha⟩ | ⟨d, hd, j, hj, rfl⟩) | ⟨i, hi, p, hp, rfl⟩) | ⟨k, hk, rfl⟩
  · simp only [List.mem_cons, List.mem_singleton, List.not_mem_nil, or_false] at ha
    left
    rcases ha with rfl | rfl | rfl <;> refine ⟨rfl, ?_, ?_⟩ <;> simp only <;> omega
  · right; left
    obtain ⟨m1, m2⟩ := mul_day_le d users.length (by omega)
    refine ⟨⟨?_, ?_⟩, ?_, ?_⟩ <;> simp only <;> omega
  · right; right; left
    have hgd : users.getD i ⟨0, []⟩ = users[i] := by
      rw [List.getD_eq_getElem?_getD, List.getElem?_eq_getElem hi]
      rfl
    rw [hgd] at hp
    have hpS := hpref _ (List.getElem_mem hi) p hp
    have hgs : spares.getD p ⟨0, 0⟩ = spares[p] := by
      rw [List.getD_eq_getElem?_getD, List.getElem?_eq_getElem hpS]
      rfl
    obtain ⟨hday, hstamp⟩ := hsp _ (List.getElem_mem hpS)
    obtain ⟨m1, m2⟩ := mul_day_le spares[p].day users.length hday
    rw [hgs]
    refine ⟨⟨?_, ?_⟩, ?_, ?_⟩ <;> simp only <;> omega
  · right; right; right
    refine ⟨⟨?_, ?_⟩, ?_⟩ <;> simp only <;> omega

/-- C13 (amended): for `P` participants and `S` slots with `8P + S + 5 < 2^31`, preference
indices and identifiers below `S` and days in `0..6`: the index ranges of the seven node
categories are pairwise disjoint and lie inside `0 .. n + 2`; `distribution::solve` builds its
network with `n = 8P + S + 2`, the source `1` and the sink `n`, `set_n` gives each of the six
per-node arrays the length `n + 3`, every edge passed to `addEdge` joins source and base, base
and layer, layer and slot, or slot and sink, and `mcmf::solve` takes `n + 1` and `n + 2` as
super source and super sink. -/
theorem node_ranges_of_the_construction (users : List User) (spares : List Spare)
    (st0 : mcmf.State) (hwf : well_formed users spares) :
    (∀ (c c' : Category) (x : Int), in_category users.length spares.length c x →
      in_category users.length spares.length c' x → c = c') ∧
    (∀ (c : Category) (x : Int), in_category users.length spares.length c x →
      0 ≤ x ∧ x < 8 * (users.length : Int) + (spares.length : Int) + 2 + 3) ∧
    ∃ bst st3, distribution.build ⟨users, spares⟩ st0 = some bst ∧
      bst.n = 8 * (users.length : Int) + (spares.length : Int) + 2 ∧
      (bst.d.length : Int) = bst.n + 3 ∧ bst.incf.length = bst.d.length ∧
      bst.pre.length = bst.d.length ∧ bst.head.length = bst.d.length ∧
      bst.a.length = bst.d.length ∧ bst.vis.length = bst.d.length ∧
      in_category users.length spares.length Category.source bst.s ∧
      in_category users.length spares.length Category.sink bst.t ∧
      (∀ a ∈ mcmf.forward_arcs bst.e, joins_categories users.length spares.length a) ∧
      mcmf.feasibility_init bst = some st3 ∧
      in_category users.length spares.length Category.super_source st3.S ∧
      in_category users.length spares.length Category.super_sink st3.T := by
  obtain ⟨bst, hb, hinv, -, -⟩ := mcmf.build_spec users spares st0 hwf
  have ha := mcmf.build_arcs users spares st0 bst hwf hb
  have hfi := mcmf.feasibility_init_eq bst _ hinv
  obtain ⟨hn, hs, ht, -⟩ := hinv.scal
  refine ⟨category_disjoint _ _, category_range _ _, bst, _, hb, hn, ?_, hinv.lens.1,
    hinv.lens.2.1, hinv.lens.2.2.1, hinv.len_a, hinv.lens.2.2.2, hs, ht, ?_, hfi, ?_, ?_⟩
  · rw [hinv.N_eq, hn]
  · rw [ha]
    exact stamp_arcs_categories users spares hwf
  · show bst.n + 1 = _
    rw [hn]
  · show bst.n + 2 = _
    rw [hn]

/-- Witness of `node_ranges_of_the_construction`: two participants and three slots. -/
theorem node_ranges_of_the_construction_witness :
    well_formed [⟨1, [2, 0]⟩, ⟨2, [1]⟩] [⟨0, 0⟩, ⟨1, 6⟩, ⟨2, 3⟩] ∧
    ((∀ (c c' : Category) (x : Int),
      in_category ([⟨1, [2, 0]⟩, ⟨2, [1]⟩] : List User).length
        ([⟨0, 0⟩, ⟨1, 6⟩, ⟨2, 3⟩] : List Spare).length c x →
      in_category ([⟨1, [2, 0]⟩, ⟨2, [1]⟩] : List User).length
        ([⟨0, 0⟩, ⟨1, 6⟩, ⟨2, 3⟩] : List Spare).length c' x → c = c') ∧
    (∀ (c : Category) (x : Int),
      in_category ([⟨1, [2, 0]⟩, ⟨2, [1]⟩] : List User).length
        ([⟨0, 0⟩, ⟨1, 6⟩, ⟨2, 3⟩] : List Spare).length c x →
      0 ≤ x ∧ x < 8 * (([⟨1, [2, 0]⟩, ⟨2, [1]⟩] : List User).length : Int)
        + (([⟨0, 0⟩, ⟨1, 6⟩, ⟨2, 3⟩] : List Spare).length : Int) + 2 + 3) ∧
    ∃ bst st3, distribution.build ⟨[⟨1, [2, 0]⟩, ⟨2, [1]⟩], [⟨0, 0⟩, ⟨1, 6⟩, ⟨2, 3⟩]⟩ mcmf.start
        = some bst ∧
      bst.n = 8 * (([⟨1, [2, 0]⟩, ⟨2, [1]⟩] : List User).length : Int)
        + (([⟨0, 0⟩, ⟨1, 6⟩, ⟨2, 3⟩] : List Spare).length : Int) + 2 ∧
      (bst.d.length : Int) = bst.n + 3 ∧ bst.incf.length = bst.d.length ∧
      bst.pre.length = bst.d.length ∧ bst.head.length = bst.d.length ∧
      bst.a.length = bst.d.length ∧ bst.vis.length = bst.d.length ∧
      in_category ([⟨1, [2, 0]⟩, ⟨2, [1]⟩] : List User).length
        ([⟨0, 0⟩, ⟨1, 6⟩, ⟨2, 3⟩] : List Spare).length Category.source bst.s ∧
      in_category ([⟨1, [2, 0]⟩, ⟨2, [1]⟩] : List User).length
        ([⟨0, 0⟩, ⟨1, 6⟩, ⟨2, 3⟩] : List Spare).length Category.sink bst.t ∧
      (∀ a ∈ mcmf.forward_arcs bst.e,
        joins_categories ([⟨1, [2, 0]⟩, ⟨2, [1]⟩] : List User).length
          ([⟨0, 0⟩, ⟨1, 6⟩, ⟨2, 3⟩] : List Spare).length a) ∧
      mcmf.feasibility_init bst = some st3 ∧
      in_category ([⟨1, [2, 0]⟩, ⟨2, [1]⟩] : List User).length
        ([⟨0, 0⟩, ⟨1, 6⟩, ⟨2, 3⟩] : List Spare).length Category.super_source st3.S ∧
      in_category ([⟨1, [2, 0]⟩, ⟨2, [1]⟩] : List User).length
        ([⟨0, 0⟩, ⟨1, 6⟩, ⟨2, 3⟩] : List Spare).length Category.super_sink st3.T) :=
  ⟨by decide, node_ranges_of_the_construction [⟨1, [2, 0]⟩, ⟨2, [1]⟩]
    [⟨0, 0⟩, ⟨1, 6⟩, ⟨2, 3⟩] mcmf.start (by decide)⟩

theorem build_none_of_negative (users : List User) (spares : List Spare) (st : mcmf.State)
    (h : toInt32 ((users.length * 8 + spares.length + 2) % 2 ^ 64) + 3 < 0) :
    distribution.build ⟨users, spares⟩ st = none := by
  simp only [distribution.build, mcmf.set_n, Option.bind_eq_bind]
  rw [if_pos h]
  rfl

/-- C13 as the specification states it fails: with `P = 2^28` participants and no slot the
node count `8P + 2 = 2^31 + 2` does not fit `int32_t`; `n` becomes `-2147483646`, `set_n`
is asked for a negative length, and no per-node array of length `n + 3` comes to exist. -/
theorem node_count_wraps_int32 :
    toInt32 (((List.replicate (2 ^ 28) (⟨0, []⟩ : User)).length * 8
      + ([] : List Spare).length + 2) % 2 ^ 64) = -2147483646 ∧
    distribution.build ⟨List.replicate (2 ^ 28) ⟨0, []⟩, []⟩ mcmf.start = none := by
  have hn : toInt32 (((List.replicate (2 ^ 28) (⟨0, []⟩ : User)).length * 8
      + ([] : List Spare).length + 2) % 2 ^ 64) = -2147483646 := by
    rw [List.length_replicate, List.length_nil]
    decide
  refine ⟨hn, build_none_of_negative _ _ mcmf.start ?_⟩
  rw [hn]
  decide

/-! ## Decoding a preference edge -/

theorem toUInt64_neg (x : Int) (h0 : -(2 : Int) ^ 63 ≤ x) (h1 : x < 0) :
    toUInt64 x = (2 ^ 64 + x).toNat := by
  unfold toUInt64
  have h64 : (2 : Int) ^ 64 = 18446744073709551616 := by norm_num
  have h63 : (2 : Int) ^ 63 = 9223372036854775808 := by norm_num
  rw [h64]
  rw [h63] at h0
  congr 1
  omega

/-- C11: the preference edge that the builder inserts for participant `i` and the slot with
index `p`, day `day` and identifier `stamp` passes the range test of the extraction loop, and
the loop decodes it to the index `i + day * P` and to the value `stamp - S` stored as
`uint64_t`: for a slot of day `0` the entry `2^64 + stamp - S` is appended to participant `i`,
for a slot of a later day the index lies outside the result list. -/
theorem preference_edge_decoded_shifted (users : List User) (spares : List Spare)
    (i p : Nat) (st : mcmf.State) (res : List User) (hwf : well_formed users spares)
    (hi : i < users.length) (hp : p < spares.length)
    (hhead : (st.head.length : Int) = 8 * (users.length : Int) + (spares.length : Int) + 2 + 3)
    (ha : st.a.length = st.head.length) (hres : res.length = users.length) :
    ∃ st', distribution.build_pref ⟨users, spares⟩
        (8 * (users.length : Int) + (spares.length : Int) + 2) i st p = some st' ∧
      distribution.extract_step (1 + (users.length : Int)) (1 + (users.length : Int) * 8)
          (8 * (users.length : Int) + (spares.length : Int) + 2 - 1) st'.e res st.e.length =
        if (spares.getD p ⟨0, 0⟩).day = 0 then
          some (res.set i { res.getD i ⟨0, []⟩ with
            stamps := (res.getD i ⟨0, []⟩).stamps ++
              [2 ^ 64 + (spares.getD p ⟨0, 0⟩).stamp - spares.length] })
        else none := by
  obtain ⟨hsize, -, hsp⟩ := hwf
  have h31 : (2 : Nat) ^ 31 = 2147483648 := by norm_num
  have hgd : spares.getD p ⟨0, 0⟩ = spares[p] := by
    rw [List.getD_eq_getElem?_getD, List.getElem?_eq_getElem hp]
    rfl
  obtain ⟨hday, hstamp⟩ := hsp _ (List.getElem_mem hp)
  obtain ⟨m1, m2⟩ := mul_day_le spares[p].day users.length hday
  have hmul : (spares[p].day + 1) * users.length ≤ 7 * users.length :=
    Nat.mul_le_mul_right _ (by omega)
  have hu : toInt32 ((i + 2 + (spares[p].day + 1) * users.length) % 2 ^ 64)
      = (i : Int) + 2 + ((spares[p].day : Int) + 1) * users.length := by
    rw [conv_small _ (by omega)]
    push_cast
    rfl
  have hv := conv_slot users.length spares.length spares[p].stamp hsize (by omega)
  have hadd := mcmf.addEdge_eq st
    ((i : Int) + 2 + ((spares[p].day : Int) + 1) * users.length)
    (8 * (users.length : Int) + 2 + spares[p].stamp) 0 1 0
    (by omega) (by omega) (by omega) (by omega) ha
  refine ⟨mcmf.added st ((i : Int) + 2 + ((spares[p].day : Int) + 1) * users.length)
    (8 * (users.length : Int) + 2 + spares[p].stamp) 0 1 0, ?_, ?_⟩
  · simp only [distribution.build_pref, List.getElem?_eq_getElem hp, Option.bind_eq_bind,
      Option.some_bind, hu, hv]
    exact hadd
  · have hget : (mcmf.added st ((i : Int) + 2 + ((spares[p].day : Int) + 1) * users.length)
        (8 * (users.length : Int) + 2 + spares[p].stamp) 0 1 0).e[st.e.length]? =
        some { u := (i : Int) + 2 + ((spares[p].day : Int) + 1) * users.length,
               next := mcmf.get st.head
                 ((i : Int) + 2 + ((spares[p].day : Int) + 1) * users.length),
               v := 8 * (users.length : Int) + 2 + spares[p].stamp, w := 1 - 0, c := 0 } := by
      rw [mcmf.added_e, List.getElem?_append_left (by simp),
        List.getElem?_append_right (le_refl _), Nat.sub_self]
      rfl
    have hval : toUInt64 (8 * (users.length : Int) + 2 + spares[p].stamp
        - (8 * (users.length : Int) + (spares.length : Int) + 2 - 1) - 1)
        = 2 ^ 64 + spares[p].stamp - spares.length := by
      rw [toUInt64_neg _ (by
        have : (2 : Int) ^ 63 = 9223372036854775808 := by norm_num
        omega) (by omega)]
      have : (2 : Int) ^ 64 = 18446744073709551616 := by norm_num
      have : (2 : Nat) ^ 64 = 18446744073709551616 := by norm_num
      omega
    simp only [distribution.extract_step, hget, Option.bind_eq_bind, Option.some_bind, hgd]
    rw [if_pos ⟨by omega, by omega, by omega, by omega⟩, hval]
    by_cases hd0 : spares[p].day = 0
    · rw [if_pos hd0]
      have hidx : (i : Int) + 2 + ((spares[p].day : Int) + 1) * users.length
          - (1 + (users.length : Int)) - 1 = (i : Int) := by
        rw [hd0]
        push_cast
        ring
      rw [hidx, rd_eq_getD res i ⟨0, []⟩ (by omega) (by omega)]
      simp only [Option.some_bind]
      rw [wr_eq_set res i _ (by omega) (by omega)]
      simp
    · rw [if_neg hd0]
      have hge : (users.length : Int) ≤ (spares[p].day : Int) * users.length := by
        have : users.length ≤ spares[p].day * users.length :=
          Nat.le_mul_of_pos_left _ (by omega)
        exact_mod_cast this
      have hidx : (res.length : Int) ≤ (i : Int) + 2 + ((spares[p].day : Int) + 1) * users.length
          - (1 + (users.length : Int)) - 1 := by
        have : ((spares[p].day : Int) + 1) * users.length
            = (spares[p].day : Int) * users.length + users.length := by ring
        omega
      have hrd : rd res ((i : Int) + 2 + ((spares[p].day : Int) + 1) * users.length
          - (1 + (users.length : Int)) - 1) = none := by
        unfold rd
        rw [if_neg (by omega)]
        exact List.getElem?_eq_none (by omega)
      rw [hrd]
      rfl

/-- Witness of `preference_edge_decoded_shifted`: one participant, one slot of day `1`: the
edge is decoded to the index `1` of a result list of length `1`. -/
theorem preference_edge_decoded_shifted_witness :
    well_formed [⟨5, [0]⟩] [⟨0, 1⟩] ∧ 0 < ([⟨5, [0]⟩] : List User).length ∧
    0 < ([⟨0, 1⟩] : List Spare).length ∧
    ∃ st', distribution.build_pref ⟨[⟨5, [0]⟩], [⟨0, 1⟩]⟩
        (8 * (([⟨5, [0]⟩] : List User).length : Int) + (([⟨0, 1⟩] : List Spare).length : Int) + 2)
        0 { mcmf.start with head := List.replicate 14 0, a := List.replicate 14 0,
                            e := [⟨0, 0, 0, 0, 0⟩, ⟨0, 0, 0, 0, 0⟩] } 0 = some st' ∧
      distribution.extract_step (1 + (([⟨5, [0]⟩] : List User).length : Int))
          (1 + (([⟨5, [0]⟩] : List User).length : Int) * 8)
          (8 * (([⟨5, [0]⟩] : List User).length : Int)
            + (([⟨0, 1⟩] : List Spare).length : Int) + 2 - 1) st'.e [⟨0, []⟩]
          ({ mcmf.start with head := List.replicate 14 0, a := List.replicate 14 0,
                             e := [⟨0, 0, 0, 0, 0⟩, ⟨0, 0, 0, 0, 0⟩] } : mcmf.State).e.length =
        if (([⟨0, 1⟩] : List Spare).getD 0 ⟨0, 0⟩).day = 0 then
          some (([⟨0, []⟩] : List User).set 0 { ([⟨0, []⟩] : List User).getD 0 ⟨0, []⟩ with
            stamps := (([⟨0, []⟩] : List User).getD 0 ⟨0, []⟩).stamps ++
              [2 ^ 64 + (([⟨0, 1⟩] : List Spare).getD 0 ⟨0, 0⟩).stamp
                - ([⟨0, 1⟩] : List Spare).length] })
        else none :=
  ⟨by decide, by decide, by decide,
    preference_edge_decoded_shifted [⟨5, [0]⟩] [⟨0, 1⟩] 0 0 _ [⟨0, []⟩] (by decide) (by decide)
      (by decide) (by decide) (by decide) (by decide)⟩

/-! ## The size of the arena -/

namespace mcmf

theorem length_flatMap_range {α : Type} (f : Nat → List α) (g : Nat → Nat)
    (h : ∀ i, (f i).length = g i) (n : Nat) :
    ((List.range n).flatMap f).length = ((List.range n).map g).sum := by
  induction n with
  | zero => rfl
  | succ n ih =>
    rw [List.range_succ, List.flatMap_append, List.length_append, ih, List.map_append,
      List.sum_append]
    simp [h]

theorem sum_const_range (c n : Nat) : ((List.range n).map (fun _ => c)).sum = n * c := by
  induction n with
  | zero => simp
  | succ n ih =>
    rw [List.range_succ, List.map_append, List.sum_append, ih]
    simp
    ring

theorem map_range_getD (users : List User) :
    (List.range users.length).map (fun i => (users.getD i ⟨0, []⟩).stamps.length) =
      users.map (fun u => u.stamps.length) := by
  apply List.ext_getElem
  · simp
  · intro i h1 h2
    simp only [List.length_map, List.length_range] at h1
    simp [List.getD_eq_getElem?_getD, List.getElem?_eq_getElem h1]

/-- The number of edges of the network: ten per participant, one per preference and one per
slot. -/
theorem stamp_arcs_length (users : List User) (spares : List Spare) :
    (stamp_arcs users spares).length =
      10 * users.length + (users.map (fun u => u.stamps.length)).sum + spares.length := by
  have e1 : ((List.range users.length).flatMap (fun i : Nat => ([⟨1, (i : Int) + 2, 1, 20⟩,
      ⟨1, (i : Int) + 2, 1, 50⟩, ⟨1, (i : Int) + 2, 1, 100⟩] : List Arc))).length
      = users.length * 3 := by
    rw [length_flatMap_range (fun i : Nat => ([⟨1, (i : Int) + 2, 1, 20⟩,
      ⟨1, (i : Int) + 2, 1, 50⟩, ⟨1, (i : Int) + 2, 1, 100⟩] : List Arc)) (fun _ => 3)
      (fun _ => rfl), sum_const_range]
  have e2 : ((List.range 7).flatMap (fun d : Nat => (List.range users.length).map
      (fun j : Nat =>
        (⟨(j : Int) + 2, (j : Int) + 2 + ((d : Int) + 1) * users.length, 1, 0⟩ : Arc)))).length
      = 7 * users.length := by
    rw [length_flatMap_range (fun d : Nat => (List.range users.length).map
      (fun j : Nat =>
        (⟨(j : Int) + 2, (j : Int) + 2 + ((d : Int) + 1) * users.length, 1, 0⟩ : Arc)))
      (fun _ => users.length) (fun _ => by simp), sum_const_range]
  have e3 : ((List.range users.length).flatMap (fun i : Nat =>
      (users.getD i ⟨0, []⟩).stamps.map (fun p : Nat =>
        (⟨(i : Int) + 2 + (((spares.getD p ⟨0, 0⟩).day : Int) + 1) * users.length,
          8 * (users.length : Int) + 2 + (spares.getD p ⟨0, 0⟩).stamp, 1, 0⟩ : Arc)))).length
      = (users.map (fun u => u.stamps.length)).sum := by
    rw [length_flatMap_range (fun i : Nat =>
      (users.getD i ⟨0, []⟩).stamps.map (fun p : Nat =>
        (⟨(i : Int) + 2 + (((spares.getD p ⟨0, 0⟩).day : Int) + 1) * users.length,
          8 * (users.length : Int) + 2 + (spares.getD p ⟨0, 0⟩).stamp, 1, 0⟩ : Arc)))
      (fun i => (users.getD i ⟨0, []⟩).stamps.length) (fun _ => by simp), map_range_getD]
  unfold stamp_arcs arcs_with
  rw [List.length_append, List.length_append, List.length_append, List.length_map,
    List.length_range, e1, e2, e3]
  ring

/-- The arena that `distribution::solve` builds from well-formed input holds the two dummy
entries and one pair per edge. -/
theorem build_arena (users : List User) (spares : List Spare) (st bst : State)
    (hwf : well_formed users spares) (hb : distribution.build ⟨users, spares⟩ st = some bst)
    (har : 2 ≤ bst.e.length ∧ bst.e.length % 2 = 0) :
    bst.e.length + 2 =
      20 * users.length + 2 * (users.map (fun u => u.stamps.length)).sum
        + 2 * spares.length + 4 := by
  have h := congrArg List.length (build_arcs users spares st bst hwf hb)
  rw [stamp_arcs_length] at h
  unfold forward_arcs at h
  rw [List.length_map, List.length_range] at h
  unfold arcs at h
  omega

/-- With an arena that fits, every position of the built arena and of the plumbing pair fits
`int`. -/
theorem arena_bound (users : List User) (spares : List Spare) (st bst : State)
    (hwf : well_formed users spares) (hfit : arena_fits users spares)
    (hb : distribution.build ⟨users, spares⟩ st = some bst)
    (har : 2 ≤ bst.e.length ∧ bst.e.length % 2 = 0) : bst.e.length + 2 ≤ 2 ^ 31 := by
  rw [build_arena users spares st bst hwf hb har]
  exact hfit

theorem rd_negative {α : Type} (xs : List α) (i : Int) (h : i < 0) : rd xs i = none := by
  unfold rd
  rw [if_pos h]

/-- A labelling pass from a source whose `head` entry is negative reads `e[]` out of range:
it has no result, whatever the fuel. -/
theorem spfa_negative_head (st : State) (hq : st.q = []) (hS0 : 0 ≤ st.S)
    (hS1 : st.S < st.d.length) (hli : st.incf.length = st.d.length)
    (hlv : st.vis.length = st.d.length) (hlh : st.head.length = st.d.length)
    (hneg : get st.head st.S < 0) (fuel : Nat) : spfa fuel st = none := by
  have hne : get st.head st.S ≠ 0 := by omega
  cases fuel with
  | zero =>
    simp only [spfa, wr_eq_set _ st.S (0 : Int) hS0 (by simpa using hS1 :
        st.S < ((List.replicate st.d.length INF).length : Int)),
      wr_eq_set st.incf st.S (2000000000 : Int) hS0 (by omega), Option.bind_eq_bind,
      Option.some_bind, spfa_while, Option.none_bind]
  | succ fuel =>
    simp only [spfa, wr_eq_set _ st.S (0 : Int) hS0 (by simpa using hS1 :
        st.S < ((List.replicate st.d.length INF).length : Int)),
      wr_eq_set st.incf st.S (2000000000 : Int) hS0 (by omega), hq, List.nil_append,
      Option.bind_eq_bind, Option.some_bind, spfa_while,
      wr_eq_set _ st.S (0 : Int) hS0 (by simpa using (by omega : st.S < (st.vis.length : Int)) :
        st.S < ((List.replicate st.vis.length (0 : Int)).length : Int)),
      rd_eq st.head st.S hS0 (by omega), spfa_for, if_neg hne, relax,
      rd_negative st.e _ hneg, Option.none_bind]

/-- When the arena of a well-formed input does not fit (more than `2^31` and at most `2^32`
entries with the plumbing pair), the construction and the insertion of the plumbing pair
still succeed, but `head[S]` of the super source is negative and the first labelling pass of
`solve()` reads `e[]` out of range: neither `spfa`, `work`, the feasibility phase nor `solve`
has a result, whatever the fuel. -/
theorem arena_overflow (users : List User) (spares : List Spare) (st0 : State)
    (hwf : well_formed users spares) (hbig : ¬ arena_fits users spares)
    (h32 : 20 * users.length + 2 * (users.map (fun u => u.stamps.length)).sum
      + 2 * spares.length + 4 ≤ 2 ^ 32) :
    ∃ bst st3, distribution.build ⟨users, spares⟩ st0 = some bst ∧
      feasibility_init bst = some st3 ∧ get st3.head st3.S < 0 ∧
      ∀ fuel, spfa fuel st3 = none ∧ work fuel st3 = none ∧
        solve_feasibility fuel bst = none ∧ solve fuel bst = none := by
  obtain ⟨bst, hb, hinv, -, -⟩ := build_spec users spares st0 hwf
  have hfi := feasibility_init_eq bst _ hinv
  have hlen := build_arena users spares st0 bst hwf hb hinv.arena
  unfold arena_fits at hbig
  have h31 : (2 : Nat) ^ 31 = 2147483648 := by norm_num
  have h32' : (2 : Nat) ^ 32 = 4294967296 := by norm_num
  have h64 : (2 : Nat) ^ 64 = 18446744073709551616 := by norm_num
  rw [← hlen] at hbig h32
  obtain ⟨hn, -⟩ := hinv.scal
  have hN := hinv.N_eq
  have hn2 := hinv.n_ge
  obtain ⟨hl1, hl2, hl3, hl4⟩ := hinv.lens
  have hhead : get (added { bst with S := bst.n + 1, T := bst.n + 2 } (bst.n + 2) (bst.n + 1)
      0 INF 0).head (bst.n + 1) = toInt32 ((bst.e.length + 1) % 2 ^ 64) := by
    rw [added_head_raw { bst with S := bst.n + 1, T := bst.n + 2 } _ _ _ _ _ _ (by omega)
      (by simp only; omega) (by omega) (by simp only; omega) (by omega), if_pos rfl]
  have hneg : toInt32 ((bst.e.length + 1) % 2 ^ 64) < 0 := by
    unfold toInt32
    rw [h64, h32', h31] at *
    rw [Nat.mod_eq_of_lt (by omega), Nat.mod_eq_of_lt (by omega), if_neg (by omega)]
    omega
  have hsp : ∀ fuel, spfa fuel (added { bst with S := bst.n + 1, T := bst.n + 2 } (bst.n + 2)
      (bst.n + 1) 0 INF 0) = none := by
    intro fuel
    apply spfa_negative_head
    · exact hinv.q_nil
    · show 0 ≤ bst.n + 1
      omega
    · show bst.n + 1 < (bst.d.length : Int)
      omega
    · exact hl1
    · exact hl4
    · show ((bst.head.set _ _).set _ _).length = bst.d.length
      rw [List.length_set, List.length_set]
      exact hl3
    · show get _ (bst.n + 1) < 0
      rw [hhead]
      exact hneg
  have hwk : ∀ fuel, work fuel (added { bst with S := bst.n + 1, T := bst.n + 2 } (bst.n + 2)
      (bst.n + 1) 0 INF 0) = none := by
    intro fuel
    cases fuel with
    | zero => rfl
    | succ fuel => simp only [work, hsp, Option.bind_eq_bind, Option.none_bind]
  have hsf : ∀ fuel, solve_feasibility fuel bst = none := by
    intro fuel
    rw [solve_feasibility_eq, hfi, Option.some_bind, hwk]
  refine ⟨bst, _, hb, hfi, ?_, fun fuel => ⟨hsp fuel, hwk fuel, hsf fuel, ?_⟩⟩
  · show get _ (bst.n + 1) < 0
    rw [hhead]
    exact hneg
  · simp only [solve, hsf, Option.bind_eq_bind, Option.none_bind]

/-- The input of `2^27` participants without preferences and no slot: the node count
`2^30 + 2` fits `int`, the arena of `20 * 2^27 + 4` entries does not. -/
theorem many_users_wf :
    well_formed (List.replicate (2 ^ 27) (⟨0, []⟩ : User)) [] ∧
    ¬ arena_fits (List.replicate (2 ^ 27) (⟨0, []⟩ : User)) [] ∧
    20 * (List.replicate (2 ^ 27) (⟨0, []⟩ : User)).length
      + 2 * ((List.replicate (2 ^ 27) (⟨0, []⟩ : User)).map (fun u => u.stamps.length)).sum
      + 2 * ([] : List Spare).length + 4 ≤ 2 ^ 32 := by
  have hsum : ((List.replicate (2 ^ 27) (⟨0, []⟩ : User)).map (fun u => u.stamps.length)).sum
      = 0 := by
    rw [List.map_replicate, List.sum_replicate]
    simp
  refine ⟨⟨?_, ?_, ?_⟩, ?_, ?_⟩
  · rw [List.length_replicate, List.length_nil]
    norm_num
  · intro u hu p hp
    rw [List.eq_of_mem_replicate hu] at hp
    exact absurd hp (List.not_mem_nil _)
  · intro sp hsp
    exact absurd hsp (List.not_mem_nil _)
  · unfold arena_fits
    rw [hsum, List.length_replicate, List.length_nil]
    norm_num
  · rw [hsum, List.length_replicate, List.length_nil]
    norm_num

end mcmf

/-! ## The flow that `solve()` leaves is a minimum-cost maximum flow -/

namespace mcmf

theorem tier_cost_nonneg (es : List E) (P : Nat) : 0 ≤ tier_cost es P := by
  unfold tier_cost
  apply Finset.sum_nonneg
  intro a _
  split_ifs <;> omega

end mcmf

/-- C4 (amended): on the network that `distribution::solve` builds from well-formed input whose
arena fits `int` positions, `mcmf::solve` returns, and the flow it leaves in the arena (the
residual capacity of the backward entry of every pair) is a feasible flow from the source to
the sink of value `a0`; its cost is the sum of the costs 20, 50, 100 of the saturated source
entries, which sit at the arena positions `2 + 6a`, `4 + 6a`, `6 + 6a`; `a1` is this cost
kept in 32 bits, and the cost itself when `170 * P < 2^31`; no feasible flow has a larger
value, and no feasible flow of the same value has a lower cost. -/
theorem solve_is_min_cost_max_flow (users : List User) (spares : List Spare)
    (st0 : mcmf.State) (hwf : well_formed users spares) (hfit : arena_fits users spares) :
    ∃ bst fuel0 fin, distribution.build ⟨users, spares⟩ st0 = some bst ∧
      (∀ fuel, fuel0 ≤ fuel → mcmf.solve fuel bst = some fin) ∧
      mcmf.src_arcs bst.e users.length ∧
      mcmf.feasible bst.e bst.s bst.t bst.d.length (mcmf.flow fin.e) ∧
      fin.a0 = mcmf.outflow bst.e (mcmf.flow fin.e) bst.s ∧
      fin.a1 = wrap32 (mcmf.flow_cost bst.e (mcmf.flow fin.e)) ∧
      (170 * (users.length : Int) < 2 ^ 31 →
        fin.a1 = mcmf.flow_cost bst.e (mcmf.flow fin.e)) ∧
      mcmf.flow_cost bst.e (mcmf.flow fin.e) = mcmf.tier_cost fin.e users.length ∧
      (∀ g : Nat → Int, mcmf.feasible bst.e bst.s bst.t bst.d.length g →
        mcmf.outflow bst.e g bst.s ≤ mcmf.outflow bst.e (mcmf.flow fin.e) bst.s) ∧
      (∀ g : Nat → Int, mcmf.feasible bst.e bst.s bst.t bst.d.length g →
        mcmf.outflow bst.e g bst.s = mcmf.outflow bst.e (mcmf.flow fin.e) bst.s →
        mcmf.flow_cost bst.e (mcmf.flow fin.e) ≤ mcmf.flow_cost bst.e g) := by
  obtain ⟨bst, hb, hinv, hsrc, hin⟩ := mcmf.build_spec users spares st0 hwf
  have hs := mcmf.arena_bound users spares st0 bst hwf hfit hb hinv.arena
  obtain ⟨fuel0, fin, h1, h2, h3, h4, h5, h6, h7⟩ :=
    mcmf.solve_optimal bst _ users.length hinv hs hsrc hin
  refine ⟨bst, fuel0, fin, hb, h1, hsrc, h2, h3, h4, fun hP => ?_, h5, h6, h7⟩
  rw [h4]
  have hlo := mcmf.tier_cost_nonneg fin.e users.length
  have hhi := mcmf.tier_cost_le fin.e users.length
  rw [← h5] at hlo hhi
  exact mcmf.wrap32_of_range _ (by omega) (by omega)

/-- Witness of `solve_is_min_cost_max_flow`: two participants who both prefer the only slot. -/
theorem solve_is_min_cost_max_flow_witness :
    well_formed [⟨1, [0]⟩, ⟨2, [0]⟩] [⟨0, 3⟩] ∧ arena_fits [⟨1, [0]⟩, ⟨2, [0]⟩] [⟨0, 3⟩] ∧
    ∃ bst fuel0 fin,
      distribution.build ⟨[⟨1, [0]⟩, ⟨2, [0]⟩], [⟨0, 3⟩]⟩ mcmf.start = some bst ∧
      (∀ fuel, fuel0 ≤ fuel → mcmf.solve fuel bst = some fin) ∧
      mcmf.src_arcs bst.e ([⟨1, [0]⟩, ⟨2, [0]⟩] : List User).length ∧
      mcmf.feasible bst.e bst.s bst.t bst.d.length (mcmf.flow fin.e) ∧
      fin.a0 = mcmf.outflow bst.e (mcmf.flow fin.e) bst.s ∧
      fin.a1 = wrap32 (mcmf.flow_cost bst.e (mcmf.flow fin.e)) ∧
      (170 * (([⟨1, [0]⟩, ⟨2, [0]⟩] : List User).length : Int) < 2 ^ 31 →
        fin.a1 = mcmf.flow_cost bst.e (mcmf.flow fin.e)) ∧
      mcmf.flow_cost bst.e (mcmf.flow fin.e)
        = mcmf.tier_cost fin.e ([⟨1, [0]⟩, ⟨2, [0]⟩] : List User).length ∧
      (∀ g : Nat → Int, mcmf.feasible bst.e bst.s bst.t bst.d.length g →
        mcmf.outflow bst.e g bst.s ≤ mcmf.outflow bst.e (mcmf.flow fin.e) bst.s) ∧
      (∀ g : Nat → Int, mcmf.feasible bst.e bst.s bst.t bst.d.length g →
        mcmf.outflow bst.e g bst.s = mcmf.outflow bst.e (mcmf.flow fin.e) bst.s →
        mcmf.flow_cost bst.e (mcmf.flow fin.e) ≤ mcmf.flow_cost bst.e g) :=
  ⟨by decide, by decide,
    solve_is_min_cost_max_flow [⟨1, [0]⟩, ⟨2, [0]⟩] [⟨0, 3⟩] mcmf.start (by decide) (by decide)⟩

/-- C4 as the specification states it fails: `2^27` participants without preferences and no
slot are well-formed input, the construction succeeds and fills the arena with `20 * 2^27 + 2`
entries; the position that the plumbing pair stores in `head` of the super source does not fit
`int` and is negative, the first labelling pass reads `e[]` out of range, and `mcmf::solve`
leaves no flow and no total `a1`, whatever the fuel. -/
theorem solve_leaves_no_flow_on_large_arena :
    well_formed (List.replicate (2 ^ 27) (⟨0, []⟩ : User)) [] ∧
    ∃ bst, distribution.build ⟨List.replicate (2 ^ 27) ⟨0, []⟩, []⟩ mcmf.start = some bst ∧
      ∀ fuel, mcmf.solve fuel bst = none := by
  obtain ⟨hwf, hbig, h32⟩ := mcmf.many_users_wf
  obtain ⟨bst, st3, hb, -, -, h⟩ := mcmf.arena_overflow _ _ mcmf.start hwf hbig h32
  exact ⟨hwf, bst, hb, fun fuel => (h fuel).2.2.2⟩

/-! ## The order of the tiers -/

/-- C7 (amended): on every network that `distribution::solve` builds from well-formed input
whose arena fits `int` positions, in every state at the head of the loop of the second
`work()` and in the state that `mcmf::solve` returns, the source entries of participant `a`
sit at the arena positions `2 + 6a`, `4 + 6a`, `6 + 6a` with the costs 20, 50, 100, a
participant's own entries are saturated in this order, and whenever some participant's cost-50
(cost-100) entry is saturated while another participant's cost-20 (cost-50) entry is free, no
path with residual capacity that avoids the source leads from that participant's base node to
the sink: no augmenting path starts with the free entry. -/
theorem tiers_in_order (users : List User) (spares : List Spare) (st0 : mcmf.State)
    (hwf : well_formed users spares) (hfit : arena_fits users spares) :
    ∃ bst st7 fuel0, distribution.build ⟨users, spares⟩ st0 = some bst ∧
      (∀ fuel, fuel0 ≤ fuel →
        (mcmf.solve_feasibility fuel bst).bind mcmf.optimize_init = some st7) ∧
      (∀ st, mcmf.reached st7 st →
        mcmf.src_arcs st.e users.length ∧
        mcmf.tier_order st.e users.length
          (8 * (users.length : Int) + (spares.length : Int) + 2)) ∧
      (∀ fuel, fuel0 ≤ fuel → ∃ fin, mcmf.solve fuel bst = some fin ∧
        mcmf.src_arcs fin.e users.length ∧
        mcmf.tier_order fin.e users.length
          (8 * (users.length : Int) + (spares.length : Int) + 2)) := by
  obtain ⟨bst, hb, hinv, hsrc, -⟩ := mcmf.build_spec users spares st0 hwf
  have hs := mcmf.arena_bound users spares st0 bst hwf hfit hb hinv.arena
  obtain ⟨fuel0, stA, st8, -, hre, -, hfr, -, -, -, -, hsolve⟩ := mcmf.solve_spec bst _ hinv hs
  refine ⟨bst, mcmf.optimize_start (mcmf.after_feasibility bst), fuel0, hb, ?_, ?_, ?_⟩
  · intro fuel hf
    obtain ⟨h1, h2, -, -⟩ := hsolve fuel hf
    rw [h1, Option.some_bind, h2]
  · intro st hst
    exact mcmf.reached_tier_order users spares bst st hinv hs hsrc hst
  · intro fuel hf
    obtain ⟨-, -, -, h4⟩ := hsolve fuel hf
    refine ⟨_, h4, ?_⟩
    have he : ({ st8 with a0 := wrap32 (st8.a0 + st8.maxflow),
                          a1 := wrap32 (st8.a1 + st8.cost) } : mcmf.State).e
        = stA.e := mcmf.spfa_frame_e stA st8 hfr
    rw [he]
    exact mcmf.reached_tier_order users spares bst stA hinv hs hsrc hre

/-- Witness of `tiers_in_order`: two participants, the first preferring two slots on
different days, the second preferring none. -/
theorem tiers_in_order_witness :
    well_formed [⟨1, [0, 1]⟩, ⟨2, []⟩] [⟨0, 0⟩, ⟨1, 1⟩] ∧
    arena_fits [⟨1, [0, 1]⟩, ⟨2, []⟩] [⟨0, 0⟩, ⟨1, 1⟩] ∧
    ∃ bst st7 fuel0,
      distribution.build ⟨[⟨1, [0, 1]⟩, ⟨2, []⟩], [⟨0, 0⟩, ⟨1, 1⟩]⟩ mcmf.start = some bst ∧
      (∀ fuel, fuel0 ≤ fuel →
        (mcmf.solve_feasibility fuel bst).bind mcmf.optimize_init = some st7) ∧
      (∀ st, mcmf.reached st7 st →
        mcmf.src_arcs st.e ([⟨1, [0, 1]⟩, ⟨2, []⟩] : List User).length ∧
        mcmf.tier_order st.e ([⟨1, [0, 1]⟩, ⟨2, []⟩] : List User).length
          (8 * (([⟨1, [0, 1]⟩, ⟨2, []⟩] : List User).length : Int)
            + (([⟨0, 0⟩, ⟨1, 1⟩] : List Spare).length : Int) + 2)) ∧
      (∀ fuel, fuel0 ≤ fuel → ∃ fin, mcmf.solve fuel bst = some fin ∧
        mcmf.src_arcs fin.e ([⟨1, [0, 1]⟩, ⟨2, []⟩] : List User).length ∧
        mcmf.tier_order fin.e ([⟨1, [0, 1]⟩, ⟨2, []⟩] : List User).length
          (8 * (([⟨1, [0, 1]⟩, ⟨2, []⟩] : List User).length : Int)
            + (([⟨0, 0⟩, ⟨1, 1⟩] : List Spare).length : Int) + 2)) :=
  ⟨by decide, by decide,
    tiers_in_order [⟨1, [0, 1]⟩, ⟨2, []⟩] [⟨0, 0⟩, ⟨1, 1⟩] mcmf.start (by decide) (by decide)⟩

/-- C7 as the specification states it fails: with two participants, the first preferring two
slots on different days and the second preferring none, `mcmf::solve` saturates the first
participant's cost-50 entry (position `4`) and leaves the second participant's cost-20 entry
(position `8`) free. -/
theorem tiers_claim_fails :
    ∃ fin, (distribution.build ⟨[⟨1, [0, 1]⟩, ⟨2, []⟩], [⟨0, 0⟩, ⟨1, 1⟩]⟩ mcmf.start).bind
        (mcmf.solve 100) = some fin ∧ ¬ mcmf.claimed_order fin.e 2 := by
  have h : ((distribution.build ⟨[⟨1, [0, 1]⟩, ⟨2, []⟩], [⟨0, 0⟩, ⟨1, 1⟩]⟩ mcmf.start).bind
      (mcmf.solve 100)).map (fun st => ((mcmf.edge st.e 4).w, (mcmf.edge st.e 8).w))
      = some (0, 1) := by decide!
  cases hfin : (distribution.build ⟨[⟨1, [0, 1]⟩, ⟨2, []⟩], [⟨0, 0⟩, ⟨1, 1⟩]⟩ mcmf.start).bind
      (mcmf.solve 100) with
  | none => simp [hfin] at h
  | some fin =>
    rw [hfin] at h
    simp only [Option.map_some', Option.some.injEq, Prod.mk.injEq] at h
    refine ⟨fin, rfl, fun hc => ?_⟩
    have := (hc 0 1 (by omega) (by omega)).1
    simp only [Nat.cast_zero, mul_zero, add_zero, Nat.cast_one, mul_one] at this
    have h8 : (4 : Int) = 4 := rfl
    have := this h.1
    have h2 : (2 : Int) + 6 = 8 := by norm_num
    rw [h2] at this
    omega

/-! ## No negative cycle, and termination of `solve()` -/

/-- C17 (amended): on the network that `distribution::solve` builds from well-formed input
whose arena fits `int` positions, no closed walk along entries with positive residual capacity
has a negative cost, neither in the arena of the feasibility phase nor in any state at the
head of the loop of the second `work()`; the labelling pass of the feasibility phase returns,
every labelling pass of the second `work()` returns within `spfa_fuel` steps, the predecessor
walk of `update` that follows a successful pass returns, both calls of `work()` return and so
does `solve()`. -/
theorem solve_has_no_negative_cycle_and_terminates (users : List User) (spares : List Spare)
    (st0 : mcmf.State) (hwf : well_formed users spares) (hfit : arena_fits users spares) :
    ∃ bst st3 st4 st7 st8 fuel0 fin, distribution.build ⟨users, spares⟩ st0 = some bst ∧
      mcmf.feasibility_init bst = some st3 ∧
      (∀ x c : Int, mcmf.res_walk st3.e x x c → 0 ≤ c) ∧
      (∀ fuel, 2 ≤ fuel → mcmf.spfa fuel st3 = some (false, st4)) ∧
      (∀ fuel, 2 ≤ fuel → mcmf.work fuel st3 = some st4) ∧
      mcmf.optimize_init st4 = some st7 ∧
      (∀ st, mcmf.reached st7 st →
        (∀ x c : Int, mcmf.res_walk st.e x x c → 0 ≤ c) ∧
        ∃ st1, (∀ fuel, mcmf.spfa_fuel st ≤ fuel →
            mcmf.spfa fuel st = some (decide (mcmf.get st1.d st1.T ≠ mcmf.INF), st1)) ∧
          st1.e = st.e ∧
          (mcmf.get st1.d st1.T ≠ mcmf.INF →
            ∃ k st2, ∀ fuel, k < fuel → mcmf.update fuel st1 = some st2)) ∧
      (∀ fuel, fuel0 ≤ fuel → mcmf.work fuel st7 = some st8) ∧
      (∀ fuel, fuel0 ≤ fuel → mcmf.solve fuel bst = some fin) := by
  obtain ⟨bst, hb, hinv, -, -⟩ := mcmf.build_spec users spares st0 hwf
  have hs := mcmf.arena_bound users spares st0 bst hwf hfit hb hinv.arena
  obtain ⟨hfi, hsp⟩ := mcmf.feasibility_steps bst _ hinv hs
  obtain ⟨fuel0, stA, st8, hos, hre, hiA, hfr, hd8, hw8, hq8, hp8, hsolve⟩ :=
    mcmf.solve_spec bst _ hinv hs
  have hsp' : ∀ fuel, 2 ≤ fuel → mcmf.spfa fuel
      (mcmf.added { bst with S := bst.n + 1, T := bst.n + 2 } (bst.n + 2) (bst.n + 1) 0 mcmf.INF 0)
      = some (false, mcmf.after_feasibility bst) := by
    intro fuel hf
    obtain ⟨f, rfl⟩ : ∃ f, fuel = f + 2 := ⟨fuel - 2, by omega⟩
    exact hsp f
  refine ⟨bst, _, mcmf.after_feasibility bst, mcmf.optimize_start (mcmf.after_feasibility bst),
    st8, fuel0, _, hb, hfi, ?_, hsp', ?_, (hsolve fuel0 (le_refl _)).2.1, ?_,
    fun fuel hf => (hsolve fuel hf).2.2.1, fun fuel hf => (hsolve fuel hf).2.2.2⟩
  · intro x c hwalk
    exact mcmf.walk_nonneg _ (mcmf.added_costs _ _ _ _ (mcmf.net_costs bst _ hinv)) x x c hwalk
  · intro fuel hf
    obtain ⟨f, rfl⟩ : ∃ f, fuel = f + 1 := ⟨fuel - 1, by omega⟩
    simp only [mcmf.work, hsp' (f + 1) hf, Option.bind_eq_bind, Option.some_bind]
    rfl
  · intro st hst
    have hinvs := mcmf.reached_inv _ st hos.inv hst
    obtain ⟨p, hr, -⟩ := hinvs.pot
    obtain ⟨st1, hs1, hfr1, -, -, -, -, haug⟩ := mcmf.work_step st hinvs
    refine ⟨fun x c hwalk => ?_, st1, hs1, mcmf.spfa_frame_e _ _ hfr1, fun hT => ?_⟩
    · have := mcmf.walk_potential st p hr x x c hwalk
      omega
    · obtain ⟨k, -, hu, -, -⟩ := haug hT
      exact ⟨k, _, hu⟩

/-- Witness of `solve_has_no_negative_cycle_and_terminates`: two participants, two slots on
different days. -/
theorem solve_has_no_negative_cycle_and_terminates_witness :
    well_formed [⟨1, [0, 1]⟩, ⟨2, [1]⟩] [⟨0, 0⟩, ⟨1, 5⟩] ∧
    arena_fits [⟨1, [0, 1]⟩, ⟨2, [1]⟩] [⟨0, 0⟩, ⟨1, 5⟩] ∧
    ∃ bst st3 st4 st7 st8 fuel0 fin,
      distribution.build ⟨[⟨1, [0, 1]⟩, ⟨2, [1]⟩], [⟨0, 0⟩, ⟨1, 5⟩]⟩ mcmf.start = some bst ∧
      mcmf.feasibility_init bst = some st3 ∧
      (∀ x c : Int, mcmf.res_walk st3.e x x c → 0 ≤ c) ∧
      (∀ fuel, 2 ≤ fuel → mcmf.spfa fuel st3 = some (false, st4)) ∧
      (∀ fuel, 2 ≤ fuel → mcmf.work fuel st3 = some st4) ∧
      mcmf.optimize_init st4 = some st7 ∧
      (∀ st, mcmf.reached st7 st →
        (∀ x c : Int, mcmf.res_walk st.e x x c → 0 ≤ c) ∧
        ∃ st1, (∀ fuel, mcmf.spfa_fuel st ≤ fuel →
            mcmf.spfa fuel st = some (decide (mcmf.get st1.d st1.T ≠ mcmf.INF), st1)) ∧
          st1.e = st.e ∧
          (mcmf.get st1.d st1.T ≠ mcmf.INF →
            ∃ k st2, ∀ fuel, k < fuel → mcmf.update fuel st1 = some st2)) ∧
      (∀ fuel, fuel0 ≤ fuel → mcmf.work fuel st7 = some st8) ∧
      (∀ fuel, fuel0 ≤ fuel → mcmf.solve fuel bst = some fin) :=
  ⟨by decide, by decide, solve_has_no_negative_cycle_and_terminates
    [⟨1, [0, 1]⟩, ⟨2, [1]⟩] [⟨0, 0⟩, ⟨1, 5⟩] mcmf.start (by decide) (by decide)⟩

/-- C17 as the specification states it fails: `2^27` participants without preferences and no
slot are well-formed input and the construction succeeds, but the arena then holds
`20 * 2^27 + 2` entries; the position `e.size() - 1` that the plumbing pair stores in `head`
of the super source does not fit `int` and is negative, so the first labelling pass reads
`e[]` out of range: neither `spfa`, `work` nor `solve` returns, whatever the fuel. -/
theorem labelling_pass_fails_on_large_arena :
    well_formed (List.replicate (2 ^ 27) (⟨0, []⟩ : User)) [] ∧
    ∃ bst st3, distribution.build ⟨List.replicate (2 ^ 27) ⟨0, []⟩, []⟩ mcmf.start = some bst ∧
      mcmf.feasibility_init bst = some st3 ∧ mcmf.get st3.head st3.S < 0 ∧
      ∀ fuel, mcmf.spfa fuel st3 = none ∧ mcmf.work fuel st3 = none ∧
        mcmf.solve fuel bst = none := by
  obtain ⟨hwf, hbig, h32⟩ := mcmf.many_users_wf
  obtain ⟨bst, st3, hb, hfi, hneg, h⟩ := mcmf.arena_overflow _ _ mcmf.start hwf hbig h32
  exact ⟨hwf, bst, st3, hb, hfi, hneg, fun fuel => ⟨(h fuel).1, (h fuel).2.1, (h fuel).2.2.2⟩⟩


/-- C18 (amended): on the network that `distribution::solve` builds from well-formed input
whose arena fits `int` positions every node imbalance `a[x]` is `0`, and the feasibility phase
of `mcmf::solve` is a pass-through: the imbalance loop inserts no edge, so the arena only grows
by the plumbing pair; the first labelling pass of `work()` returns `false`, so no augmentation
takes place; the phase leaves every entry of the arena as it was inserted, and `maxflow` and
`cost` at `0`. -/
theorem feasibility_phase_is_noop (users : List User) (spares : List Spare)
    (st0 : mcmf.State) (hwf : well_formed users spares) (hfit : arena_fits users spares) :
    ∃ bst st3 st4 h1 h2, distribution.build ⟨users, spares⟩ st0 = some bst ∧
      (∀ x : Int, 0 ≤ x → mcmf.get bst.a x = 0) ∧
      mcmf.feasibility_init bst = some st3 ∧
      st3.e = bst.e ++ [⟨bst.n + 2, h1, bst.n + 1, mcmf.INF, 0⟩, ⟨bst.n + 1, h2, bst.n + 2, 0, 0⟩] ∧
      (∀ fuel, 2 ≤ fuel → mcmf.spfa fuel st3 = some (false, st4)) ∧
      (∀ fuel, 2 ≤ fuel → mcmf.solve_feasibility fuel bst = some st4) ∧
      st4.e = st3.e ∧ st4.maxflow = 0 ∧ st4.cost = 0 := by
  obtain ⟨bst, hb, hinv, -, -⟩ := mcmf.build_spec users spares st0 hwf
  have hs := mcmf.arena_bound users spares st0 bst hwf hfit hb hinv.arena
  obtain ⟨hfi, hsp⟩ := mcmf.feasibility_steps bst _ hinv hs
  obtain ⟨-, -, -, hm, hc, -, -⟩ := hinv.scal
  refine ⟨bst, _, mcmf.after_feasibility bst, mcmf.get bst.head (bst.n + 2),
    mcmf.get (bst.head.set (bst.n + 2).toNat (toInt32 (bst.e.length % 2 ^ 64))) (bst.n + 1),
    hb, hinv.a_zero, hfi, ?_, ?_, ?_, rfl, hm, hc⟩
  · simp only [mcmf.added, List.append_assoc, List.singleton_append, sub_zero, neg_zero,
      mcmf.wrap32_INF, mcmf.wrap32_zero]
  · intro fuel hf
    obtain ⟨f, rfl⟩ : ∃ f, fuel = f + 2 := ⟨fuel - 2, by omega⟩
    exact hsp f
  · intro fuel hf
    obtain ⟨f, rfl⟩ : ∃ f, fuel = f + 2 := ⟨fuel - 2, by omega⟩
    exact mcmf.feasibility_spec bst _ hinv hs f

/-- Witness of `feasibility_phase_is_noop`: one participant who prefers the only slot. -/
theorem feasibility_phase_is_noop_witness :
    well_formed [⟨4, [0]⟩] [⟨0, 2⟩] ∧ arena_fits [⟨4, [0]⟩] [⟨0, 2⟩] ∧
    ∃ bst st3 st4 h1 h2, distribution.build ⟨[⟨4, [0]⟩], [⟨0, 2⟩]⟩ mcmf.start = some bst ∧
      (∀ x : Int, 0 ≤ x → mcmf.get bst.a x = 0) ∧
      mcmf.feasibility_init bst = some st3 ∧
      st3.e = bst.e ++ [⟨bst.n + 2, h1, bst.n + 1, mcmf.INF, 0⟩, ⟨bst.n + 1, h2, bst.n + 2, 0, 0⟩] ∧
      (∀ fuel, 2 ≤ fuel → mcmf.spfa fuel st3 = some (false, st4)) ∧
      (∀ fuel, 2 ≤ fuel → mcmf.solve_feasibility fuel bst = some st4) ∧
      st4.e = st3.e ∧ st4.maxflow = 0 ∧ st4.cost = 0 :=
  ⟨by decide, by decide,
    feasibility_phase_is_noop [⟨4, [0]⟩] [⟨0, 2⟩] mcmf.start (by decide) (by decide)⟩

/-- C18 as the specification states it fails: `2^27` participants without preferences and no
slot are well-formed input and the construction succeeds, but the position that the plumbing
pair stores in `head` of the super source does not fit `int` and is negative; the labelling
pass of the feasibility phase does not return `false`, it reads `e[]` out of range, and the
phase has no result, whatever the fuel. -/
theorem feasibility_phase_fails_on_large_arena :
    well_formed (List.replicate (2 ^ 27) (⟨0, []⟩ : User)) [] ∧
    ∃ bst st3, distribution.build ⟨List.replicate (2 ^ 27) ⟨0, []⟩, []⟩ mcmf.start = some bst ∧
      mcmf.feasibility_init bst = some st3 ∧
      mcmf.get st3.head st3.S < 0 ∧
      ∀ fuel, mcmf.spfa fuel st3 = none ∧ mcmf.solve_feasibility fuel bst = none := by
  obtain ⟨hwf, hbig, h32⟩ := mcmf.many_users_wf
  obtain ⟨bst, st3, hb, hfi, hneg, h⟩ := mcmf.arena_overflow _ _ mcmf.start hwf hbig h32
  exact ⟨hwf, bst, st3, hb, hfi, hneg, fun fuel => ⟨(h fuel).1, (h fuel).2.2.1⟩⟩

/-! ## The labelling pass on an arbitrary arena -/

namespace mcmf

/-- Along a predecessor chain the distance `d - D` to the final labels does not increase, so a
chain that starts below the distance of `v` never meets `v` and survives a change of
`pre[v]`. -/
theorem lab_chain_avoid (st : State) (D : Int → Int) (P : Int → Prop) (hw : Wf st)
    (hD : settled st.e D) (hI : Lab st D P)
    (hDd : ∀ x : Int, 0 ≤ x → x < st.d.length → D x ≤ get st.d x)
    (v i b : Int) (hv0 : 0 ≤ v) (hv1 : v < st.d.length)
    (hb : b ≤ get st.d v - D v) :
    ∀ (k : Nat) (x : Int), 0 ≤ x → x < st.d.length → get st.d x ≠ INF →
      get st.d x - D x < b → chain st.e st.pre st.S k x →
      chain st.e (st.pre.set v.toNat i) st.S k x
  | 0, x, _, _, _, _, h => h
  | k + 1, x, hx0, hx1, hdx, hlt, h => by
    obtain ⟨hxS, hch⟩ := h
    have hxv : x ≠ v := by
      rintro rfl
      omega
    obtain ⟨hp0, hp1, hpv, hpw, hpd, hple, -⟩ := hI.pre_ok x hx0 hx1 hxS hdx
    obtain ⟨hu0, hu1, -, -⟩ := hw.e_range _ hp0 hp1
    have hDu : D (edge st.e (get st.pre x)).u ≠ INF := by
      have h1 := hDd _ hu0 hu1
      have h2 := hI.d_le _ hu0 hu1
      omega
    have hred := hD _ hp0 hp1 hpw hDu
    rw [hpv] at hred
    refine ⟨hxS, ?_⟩
    rw [get_set st.pre v x i hv0 (by rw [hw.len_pre]; exact hv1) hx0, if_neg hxv]
    exact lab_chain_avoid st D P hw hD hI hDd v i b hv0 hv1 hb k _ hu0 hu1 hpd (by omega) hch

/-- Every chain of the old predecessor entries can be rerouted once `v` has a chain under the
new entry `pre[v] = i`. -/
theorem lab_chain_reroute (st : State) (D : Int → Int) (P : Int → Prop) (hw : Wf st)
    (hI : Lab st D P) (v i : Int) (hv0 : 0 ≤ v) (hv1 : v < st.d.length)
    (hv : ∃ kv, chain st.e (st.pre.set v.toNat i) st.S kv v) :
    ∀ (k : Nat) (x : Int), 0 ≤ x → x < st.d.length → get st.d x ≠ INF →
      chain st.e st.pre st.S k x →
      ∃ k', chain st.e (st.pre.set v.toNat i) st.S k' x
  | 0, x, _, _, _, h => ⟨0, h⟩
  | k + 1, x, hx0, hx1, hdx, h => by
    obtain ⟨hxS, hch⟩ := h
    by_cases hxv : x = v
    · rw [hxv]
      exact hv
    · obtain ⟨hp0, hp1, -, -, hpd, -, -⟩ := hI.pre_ok x hx0 hx1 hxS hdx
      obtain ⟨hu0, hu1, -, -⟩ := hw.e_range _ hp0 hp1
      obtain ⟨k', hk'⟩ := lab_chain_reroute st D P hw hI v i hv0 hv1 hv k _ hu0 hu1 hpd hch
      refine ⟨k' + 1, hxS, ?_⟩
      rw [get_set st.pre v x i hv0 (by rw [hw.len_pre]; exact hv1) hx0, if_neg hxv]
      exact hk'

/-- Along a predecessor chain the distance `d - D` to the final labels does not increase. -/
theorem lab_chain_gap (st : State) (D : Int → Int) (P : Int → Prop) (hw : Wf st)
    (hD : settled st.e D) (hI : Lab st D P)
    (hDd : ∀ x : Int, 0 ≤ x → x < st.d.length → D x ≤ get st.d x) :
    ∀ (k : Nat) (x : Int), 0 ≤ x → x < st.d.length → get st.d x ≠ INF →
      chain st.e st.pre st.S k x → get st.d st.S - D st.S ≤ get st.d x - D x
  | 0, x, _, _, _, h => by
    have hx : x = st.S := h
    rw [hx]
  | k + 1, x, hx0, hx1, hdx, h => by
    obtain ⟨hxS, hch⟩ := h
    obtain ⟨hp0, hp1, hpv, hpw, hpd, hple, -⟩ := hI.pre_ok x hx0 hx1 hxS hdx
    obtain ⟨hu0, hu1, -, -⟩ := hw.e_range _ hp0 hp1
    have hDu : D (edge st.e (get st.pre x)).u ≠ INF := by
      have h1 := hDd _ hu0 hu1
      have h2 := hI.d_le _ hu0 hu1
      omega
    have hred := hD _ hp0 hp1 hpw hDu
    rw [hpv] at hred
    have := lab_chain_gap st D P hw hD hI hDd k _ hu0 hu1 hpd hch
    omega

/-- One relaxation keeps the invariant of the labelling pass, on any arena. -/
theorem relaxed_lab (st : State) (D : Int → Int) (P P' : Int → Prop) (u i : Int)
    (hw : Wf st) (hD : settled st.e D) (hI : Lab st D P)
    (hu0 : 0 ≤ u) (hu1 : u < st.d.length) (hi0 : 2 ≤ i) (hi1 : i < st.e.length)
    (hiu : (edge st.e i).u = u) (hdu : get st.d u ≠ INF)
    (hP : ∀ j, P j → P' j ∨ j = i) :
    Lab (relaxed st u i) D P' := by
  by_cases h : (edge st.e i).w ≠ 0 ∧ get st.d u + (edge st.e i).c < get st.d (edge st.e i).v
  swap
  · rw [relaxed_noop st u i h]
    refine ⟨hI.d_le, hI.q_ok, hI.vis_q, hI.pre_ok, hI.inc_pos, hI.chain_ok, hI.src_ok, ?_⟩
    intro j hj0 hj1 hjw hjd hjq hjP
    by_cases hPj : P j
    · rcases hP j hPj with h' | rfl
      · exact absurd h' hjP
      · rw [hiu]
        by_contra hcon
        exact h ⟨hjw, by omega⟩
    · exact hI.relaxed_ok j hj0 hj1 hjw hjd hjq hPj
  · have hINF := INF_val
    obtain ⟨-, -, hv0, hv1⟩ := hw.e_range i hi0 hi1
    have hdv := hI.d_le _ hv0 hv1
    have hd : ∀ x : Int, 0 ≤ x → get (relaxed st u i).d x =
        if x = (edge st.e i).v then get st.d u + (edge st.e i).c else get st.d x := by
      intro x hx
      rw [relaxed_d st u i h, get_set _ _ _ _ hv0 hv1 hx]
    have hpre : ∀ x : Int, 0 ≤ x → get (relaxed st u i).pre x =
        if x = (edge st.e i).v then i else get st.pre x := by
      intro x hx
      rw [relaxed_pre st u i h, get_set _ _ _ _ hv0 (by rw [hw.len_pre]; exact hv1) hx]
    have hincf : ∀ x : Int, 0 ≤ x → get (relaxed st u i).incf x =
        if x = (edge st.e i).v then min (get st.incf u) (edge st.e i).w else get st.incf x := by
      intro x hx
      rw [relaxed_incf st u i h, get_set _ _ _ _ hv0 (by rw [hw.len_incf]; exact hv1) hx]
    have hvq : (edge st.e i).v ∈ (relaxed st u i).q := by
      rw [relaxed_q st u i h]
      split_ifs with h3
      · simp
      · exact hI.vis_q _ hv0 hv1 h3
    have hqsub := relaxed_q_sub st u i
    have hqcases : ∀ x ∈ (relaxed st u i).q, x ∈ st.q ∨ x = (edge st.e i).v := by
      intro x hx
      rw [relaxed_q st u i h] at hx
      split_ifs at hx with h3
      · simpa using hx
      · exact Or.inl hx
    have hlen := relaxed_d_length st u i
    have he := relaxed_e st u i
    have hS := relaxed_S st u i
    have hdle : ∀ x : Int, 0 ≤ x → get (relaxed st u i).d x ≤ get st.d x := by
      intro x hx
      rw [hd x hx]
      split_ifs with hxv
      · rw [hxv]
        omega
      · exact le_refl _
    have hdne : ∀ x : Int, 0 ≤ x → x < st.d.length → get st.d x ≠ INF →
        get (relaxed st u i).d x ≠ INF := by
      intro x hx hx1 hne
      rw [hd x hx]
      split_ifs with hxv
      · omega
      · exact hne
    refine ⟨?_, ?_, ?_, ?_, ?_, ?_, ?_, ?_⟩
    · intro x hx0 hx1
      rw [hlen] at hx1
      have := hdle x hx0
      have := hI.d_le x hx0 hx1
      omega
    · intro x hx
      rw [hlen]
      rcases hqcases x hx with hx' | rfl
      · obtain ⟨a, b, c⟩ := hI.q_ok x hx'
        exact ⟨a, b, hdne x a b c⟩
      · refine ⟨hv0, hv1, ?_⟩
        rw [hd _ hv0, if_pos rfl]
        omega
    · intro x hx0 hx1 hvis
      rw [hlen] at hx1
      by_cases hxv : x = (edge st.e i).v
      · rw [hxv]
        exact hvq
      · apply hqsub
        apply hI.vis_q x hx0 hx1
        rw [relaxed_vis st u i h] at hvis
        split_ifs at hvis with h3
        · rwa [get_set _ _ _ _ hv0 (by rw [hw.len_vis]; exact hv1) hx0, if_neg hxv] at hvis
        · exact hvis
    · intro x hx0 hx1 hxS hdx
      rw [hlen] at hx1
      rw [hS] at hxS
      rw [he, hpre x hx0]
      by_cases hxv : x = (edge st.e i).v
      · rw [if_pos hxv, hiu, hd x hx0, if_pos hxv, hincf x hx0, if_pos hxv]
        refine ⟨hi0, hi1, hxv.symm, h.1, hdne u hu0 hu1 hdu, ?_, ?_⟩
        · have := hdle u hu0
          omega
        · rw [hd u hu0, hincf u hu0]
          split_ifs with huv
          · intro heq
            have h2 := h.2
            rw [← huv] at h2
            omega
          · intro _
            rfl
      · rw [if_neg hxv]
        rw [hd x hx0, if_neg hxv] at hdx
        obtain ⟨a1, a2, a3, a4, a5, a6, a7⟩ := hI.pre_ok x hx0 hx1 hxS hdx
        obtain ⟨b0, b1, -, -⟩ := hw.e_range _ a1 a2
        refine ⟨a1, a2, a3, a4, hdne _ b0 b1 a5, ?_, ?_⟩
        · rw [hd x hx0, if_neg hxv]
          have := hdle _ b0
          omega
        · rw [hd x hx0, if_neg hxv, hincf x hx0, if_neg hxv, hd _ b0, hincf _ b0]
          split_ifs with hpv'
          · intro heq
            rw [hpv'] at a6
            omega
          · exact a7
    · intro hnn x hx0 hx1 hdx
      rw [he] at hnn
      rw [hlen] at hx1
      rw [hincf x hx0]
      split_ifs with hxv
      · have h1 := hI.inc_pos hnn u hu0 hu1 hdu
        have h2 := hnn i hi0 hi1
        have h3 := h.1
        exact lt_min h1 (by omega)
      · rw [hd x hx0, if_neg hxv] at hdx
        exact hI.inc_pos hnn x hx0 hx1 hdx
    · intro hDd x hx0 hx1 hdx
      rw [hlen] at hx1 hDd
      rw [he, hS, relaxed_pre st u i h]
      have hDd0 : ∀ y : Int, 0 ≤ y → y < st.d.length → D y ≤ get st.d y := by
        intro y hy0 hy1
        have := hDd y hy0 hy1
        have := hdle y hy0
        omega
      have hchv : ∃ kv,
          chain st.e (st.pre.set (edge st.e i).v.toNat i) st.S kv (edge st.e i).v := by
        by_cases hvS : (edge st.e i).v = st.S
        · exact ⟨0, hvS⟩
        · obtain ⟨ku, hku⟩ := hI.chain_ok hDd0 u hu0 hu1 hdu
          have hDu : D u ≠ INF := by
            have h1 := hDd0 u hu0 hu1
            have h2 := hI.d_le u hu0 hu1
            omega
          have hred := hD i hi0 hi1 h.1 (by rw [hiu]; exact hDu)
          rw [hiu] at hred
          have hDv := hDd _ hv0 hv1
          rw [hd _ hv0, if_pos rfl] at hDv
          refine ⟨ku + 1, hvS, ?_⟩
          rw [get_set _ _ _ _ hv0 (by rw [hw.len_pre]; exact hv1) hv0, if_pos rfl, hiu]
          exact lab_chain_avoid st D P hw hD hI hDd0 _ i
            (get st.d (edge st.e i).v - D (edge st.e i).v) hv0 hv1 (le_refl _) ku u hu0 hu1 hdu
            (by omega) hku
      by_cases hxv : x = (edge st.e i).v
      · rw [hxv]
        exact hchv
      · rw [hd x hx0, if_neg hxv] at hdx
        obtain ⟨k, hk⟩ := hI.chain_ok hDd0 x hx0 hx1 hdx
        exact lab_chain_reroute st D P hw hI _ i hv0 hv1 hchv k x hx0 hx1 hdx hk
    · intro hDd
      rw [hlen] at hDd
      rw [hS]
      have hDd0 : ∀ y : Int, 0 ≤ y → y < st.d.length → D y ≤ get st.d y := by
        intro y hy0 hy1
        have := hDd y hy0 hy1
        have := hdle y hy0
        omega
      obtain ⟨hS0, hS1⟩ := hw.S_range
      obtain ⟨hdS, hfS⟩ := hI.src_ok hDd0
      have hvS : st.S ≠ (edge st.e i).v := by
        intro hvS
        obtain ⟨ku, hku⟩ := hI.chain_ok hDd0 u hu0 hu1 hdu
        have hgap := lab_chain_gap st D P hw hD hI hDd0 ku u hu0 hu1 hdu hku
        have hDu : D u ≠ INF := by
          have h1 := hDd0 u hu0 hu1
          have h2 := hI.d_le u hu0 hu1
          omega
        have hred := hD i hi0 hi1 h.1 (by rw [hiu]; exact hDu)
        rw [hiu, ← hvS] at hred
        have h2 := h.2
        rw [← hvS] at h2
        omega
      rw [hd _ hS0, if_neg hvS, hincf _ hS0, if_neg hvS]
      exact ⟨hdS, hfS⟩
    · intro j hj0 hj1 hjw hjd hjq hjP
      rw [he] at hj1 hjw hjd hjq ⊢
      obtain ⟨b0, b1, b2, b3⟩ := hw.e_range j hj0 hj1
      have hjv : (edge st.e j).u ≠ (edge st.e i).v := by
        intro hjv
        rw [hjv] at hjq
        exact hjq hvq
      rw [hd _ b0, if_neg hjv] at hjd ⊢
      have hjq' : (edge st.e j).u ∉ st.q := fun hq => hjq (hqsub _ hq)
      by_cases hPj : P j
      · rcases hP j hPj with h' | rfl
        · exact absurd h' hjP
        · rw [hd _ hv0, if_pos rfl, hiu]
      · have := hI.relaxed_ok j hj0 hj1 hjw hjd hjq' hPj
        have := hdle _ b2
        omega


theorem Lab_mono (st : State) (D : Int → Int) (P P' : Int → Prop)
    (h : ∀ j, ¬ P' j → ¬ P j) (hI : Lab st D P) : Lab st D P' :=
  ⟨hI.d_le, hI.q_ok, hI.vis_q, hI.pre_ok, hI.inc_pos, hI.chain_ok, hI.src_ok,
    fun j a b c d e f => hI.relaxed_ok j a b c d e (h j f)⟩

/-- A relaxation lowers labels only. -/
theorem relaxed_d_le (st : State) (u i : Int) (hw : Wf st) (hi0 : 2 ≤ i) (hi1 : i < st.e.length)
    (x : Int) (hx : 0 ≤ x) : get (relaxed st u i).d x ≤ get st.d x := by
  by_cases h : (edge st.e i).w ≠ 0 ∧ get st.d u + (edge st.e i).c < get st.d (edge st.e i).v
  · obtain ⟨-, -, hv0, hv1⟩ := hw.e_range i hi0 hi1
    rw [relaxed_d st u i h, get_set _ _ _ _ hv0 hv1 hx]
    split_ifs with hxv
    · rw [hxv]
      omega
    · exact le_refl _
  · rw [relaxed_noop st u i h]

/-- The adjacency walk of `spfa`, when it returns, has kept the invariant and left no entry of
`u` pending. -/
theorem spfa_for_lab (D : Int → Int) (u : Int) :
    ∀ (fuel : Nat) (st : State) (h : Int) (st' : State), spfa_for fuel st u h = some st' →
      Wf st → settled st.e D → Lab st D (pending st.e u h) → 0 ≤ u → u < st.d.length →
      get st.d u ≠ INF →
      (h = 0 ∨ (2 ≤ h ∧ h < st.e.length ∧ (edge st.e h).u = u)) →
      Wf st' ∧ Lab st' D (fun _ => False) ∧ spfa_frame st st' ∧
        st'.d.length = st.d.length ∧ ∀ x : Int, 0 ≤ x → get st'.d x ≤ get st.d x
  | 0, _, _, _, hs, _, _, _, _, _, _, _ => by simp [spfa_for] at hs
  | fuel + 1, st, h, st', hs, hw, hD, hI, hu0, hu1, hdu, hh => by
    rcases hh with rfl | ⟨h0, h1, hhu⟩
    · simp only [spfa_for, if_true, Option.some.injEq] at hs
      subst hs
      exact ⟨hw, Lab_mono st D _ _ (fun j _ => pending_zero st.e u j) hI, spfa_frame_refl st,
        rfl, fun _ _ => le_refl _⟩
    · have hne : h ≠ 0 := by omega
      have hI1 := relaxed_lab st D _ (pending st.e u (edge st.e h).next) u h hw hD hI hu0 hu1
        h0 h1 hhu hdu (fun j hj => pending_step st.e u h j hj)
      have he := relaxed_e st u h
      have hlen := relaxed_d_length st u h
      rw [← he] at hI1
      have hnext : (edge (relaxed st u h).e h).next = 0 ∨
          (2 ≤ (edge (relaxed st u h).e h).next ∧
            (edge (relaxed st u h).e h).next < (relaxed st u h).e.length ∧
            (edge (relaxed st u h).e (edge (relaxed st u h).e h).next).u = u) := by
        rw [he]
        rcases hw.next_ok h h0 h1 with hn | ⟨a, b, c⟩
        · exact Or.inl hn
        · exact Or.inr ⟨a, by omega, by rw [c, hhu]⟩
      have hdu' : get (relaxed st u h).d u ≠ INF := by
        have h1' := relaxed_d_le st u h hw h0 h1 u hu0
        have h2' := hI.d_le u hu0 hu1
        omega
      simp only [spfa_for, if_neg hne, relax_eq st u h hw hu0 hu1 h0 h1, Option.bind_eq_bind,
        Option.some_bind] at hs
      rw [rd_edge _ h (by omega) (by rw [he]; exact h1)] at hs
      simp only [Option.some_bind] at hs
      obtain ⟨hw', hI', hfr, hl', hm'⟩ := spfa_for_lab D u fuel (relaxed st u h)
        (edge (relaxed st u h).e h).next st' hs (relaxed_Wf st u h hw) (by rw [he]; exact hD)
        hI1 hu0 (by rw [hlen]; exact hu1) hdu' hnext
      refine ⟨hw', hI', spfa_frame_trans _ _ _ (spfa_frame_relaxed st u h) hfr,
        by rw [hl', hlen], fun x hx => ?_⟩
      have := hm' x hx
      have := relaxed_d_le st u h hw h0 h1 x hx
      omega

/-- The queue loop of `spfa`, when it returns, has kept the invariant and emptied the queue. -/
theorem spfa_while_lab (D : Int → Int) :
    ∀ (fuel : Nat) (st st' : State), spfa_while fuel st = some st' → Wf st →
      settled st.e D → Lab st D (fun _ => False) →
      Wf st' ∧ Lab st' D (fun _ => False) ∧ st'.q = [] ∧ spfa_frame st st' ∧
        st'.d.length = st.d.length ∧ ∀ x : Int, 0 ≤ x → get st'.d x ≤ get st.d x
  | 0, _, _, hs, _, _, _ => by simp [spfa_while] at hs
  | fuel + 1, st, st', hs, hw, hD, hI => by
    cases hq : st.q with
    | nil =>
      simp only [spfa_while, hq, Option.some.injEq] at hs
      subst hs
      exact ⟨hw, hI, hq, spfa_frame_refl st, rfl, fun _ _ => le_refl _⟩
    | cons x rest =>
      obtain ⟨hx0, hx1, hdx⟩ := hI.q_ok x (by simp [hq])
      have hxv : x < st.vis.length := by rw [hw.len_vis]; exact hx1
      have hxh : x < st.head.length := by rw [hw.len_head]; exact hx1
      have hw1 : Wf { st with q := rest, vis := st.vis.set x.toNat 0 } :=
        ⟨hw.len_incf, hw.len_pre, hw.len_head, by simpa using hw.len_vis, hw.S_range,
          hw.T_range, hw.two_le, hw.even, hw.e_range, hw.next_ok, hw.head_ok, hw.pair,
          hw.complete⟩
      have hI1 : Lab { st with q := rest, vis := st.vis.set x.toNat 0 } D
          (pending st.e x (get st.head x)) := by
        refine ⟨hI.d_le, ?_, ?_, hI.pre_ok, hI.inc_pos, hI.chain_ok, hI.src_ok, ?_⟩
        · intro y hy
          exact hI.q_ok y (by rw [hq]; exact List.mem_cons_of_mem _ hy)
        · intro y hy0 hy1 hvis
          simp only at hvis ⊢
          rw [get_set _ _ _ _ hx0 hxv hy0] at hvis
          split_ifs at hvis with hyx
          · exact absurd rfl hvis
          · have := hI.vis_q y hy0 hy1 hvis
            rw [hq] at this
            rcases List.mem_cons.mp this with h' | h'
            · exact absurd h' hyx
            · exact h'
        · intro j hj0 hj1 hjw hjd hjq hjP
          simp only at hjq
          by_cases hjx : (edge st.e j).u = x
          · exact absurd ⟨hjx, st.e.length, by rw [← hjx]; exact hw.complete j hj0 hj1⟩ hjP
          · apply hI.relaxed_ok j hj0 hj1 hjw hjd _ (fun h => h)
            rw [hq]
            intro hmem
            rcases List.mem_cons.mp hmem with h' | h'
            · exact hjx h'
            · exact hjq h'
      have hhead : get st.head x = 0 ∨ (2 ≤ get st.head x ∧ get st.head x < st.e.length ∧
          (edge st.e (get st.head x)).u = x) := hw.head_ok x hx0 hx1
      simp only [spfa_while, hq, wr_eq_set st.vis x 0 hx0 hxv, rd_eq st.head x hx0 hxh,
        Option.bind_eq_bind, Option.some_bind, Option.bind_eq_some] at hs
      obtain ⟨st2, hs2, hs'⟩ := hs
      obtain ⟨hw2, hI2, hfr2, hl2, hm2⟩ := spfa_for_lab D x (fuel + 1)
        { st with q := rest, vis := st.vis.set x.toNat 0 } (get st.head x) st2 hs2 hw1 hD hI1
        hx0 hx1 hdx hhead
      have he2 : st2.e = st.e := spfa_frame_e _ _ hfr2
      obtain ⟨hw', hI', hq', hfr', hl', hm'⟩ := spfa_while_lab D fuel st2 st' hs' hw2
        (by rw [he2]; exact hD) hI2
      refine ⟨hw', hI', hq', ?_, by rw [hl', hl2], fun y hy => ?_⟩
      · refine spfa_frame_trans _ _ _ ?_ hfr'
        refine spfa_frame_trans _ _ _ ?_ hfr2
        rfl
      · have := hm' y hy
        have := hm2 y hy
        exact le_trans (hm' y hy) (hm2 y hy)

/-- The labelling pass `spfa()` on an arbitrary well-formed arena with an empty queue at
entry: when it returns, the queue is empty again, only the scratch arrays have changed, the
result says whether the sink is labelled, and the invariant holds. -/
theorem spfa_lab (fuel : Nat) (st st' : State) (b : Bool) (hw : Wf st) (hq : st.q = [])
    (hs : spfa fuel st = some (b, st')) :
    Wf st' ∧ st'.q = [] ∧ spfa_frame st st' ∧ st'.d.length = st.d.length ∧
      b = decide (get st'.d st'.T ≠ INF) ∧
      ∀ D : Int → Int, settled st.e D → Lab st' D (fun _ => False) := by
  have hINF := INF_val
  obtain ⟨hS0, hS1⟩ := hw.S_range
  have hSi : st.S < st.incf.length := by rw [hw.len_incf]; exact hS1
  have hSr : st.S < (List.replicate st.d.length INF).length := by simpa using hS1
  have hget : ∀ x : Int, 0 ≤ x → x < st.d.length →
      get ((List.replicate st.d.length INF).set st.S.toNat 0) x = if x = st.S then 0 else INF := by
    intro x hx0 hx1
    rw [get_set _ _ _ _ hS0 hSr hx0]
    split_ifs
    · rfl
    · exact get_replicate _ _ _ hx0 hx1
  have hw1 : Wf { st with vis := List.replicate st.vis.length (0 : Int),
                          d := (List.replicate st.d.length INF).set st.S.toNat 0,
                          incf := st.incf.set st.S.toNat 2000000000, q := st.q ++ [st.S] } :=
    ⟨by simpa using hw.len_incf, by simpa using hw.len_pre, by simpa using hw.len_head,
      by simpa using hw.len_vis, by simpa using hw.S_range, by simpa using hw.T_range,
      hw.two_le, hw.even, by simpa using hw.e_range, hw.next_ok, by simpa using hw.head_ok,
      hw.pair, hw.complete⟩
  have hI1 : ∀ D : Int → Int,
      Lab { st with vis := List.replicate st.vis.length (0 : Int),
                    d := (List.replicate st.d.length INF).set st.S.toNat 0,
                    incf := st.incf.set st.S.toNat 2000000000,
                    q := st.q ++ [st.S] } D (fun _ => False) := by
    intro D
    refine ⟨?_, ?_, ?_, ?_, ?_, ?_, ?_, ?_⟩
    · intro x hx0 hx1
      simp only [List.length_set, List.length_replicate] at hx1 ⊢
      rw [hget x hx0 hx1]
      split_ifs <;> omega
    · intro x hx
      simp only [hq, List.nil_append, List.mem_singleton] at hx
      simp only [List.length_set, List.length_replicate]
      rw [hx, hget _ hS0 hS1, if_pos rfl]
      exact ⟨hS0, hS1, by omega⟩
    · intro x hx0 hx1 hvis
      simp only [List.length_set, List.length_replicate] at hx1 hvis
      rw [get_replicate _ _ _ hx0 (by rw [hw.len_vis]; exact hx1)] at hvis
      exact absurd rfl hvis
    · intro x hx0 hx1 hxS hdx
      simp only [List.length_set, List.length_replicate] at hx1 hdx hxS
      rw [hget x hx0 hx1, if_neg hxS] at hdx
      exact absurd rfl hdx
    · intro _ x hx0 hx1 hdx
      simp only [List.length_set, List.length_replicate] at hx1 hdx ⊢
      rw [hget x hx0 hx1] at hdx
      split_ifs at hdx with hxS
      · rw [hxS, get_set _ _ _ _ hS0 hSi hS0, if_pos rfl]
        omega
      · exact absurd rfl hdx
    · intro _ x hx0 hx1 hdx
      simp only [List.length_set, List.length_replicate] at hx1 hdx ⊢
      rw [hget x hx0 hx1] at hdx
      split_ifs at hdx with hxS
      · exact ⟨0, hxS⟩
      · exact absurd rfl hdx
    · intro _
      simp only
      rw [hget _ hS0 hS1, if_pos rfl, get_set _ _ _ _ hS0 hSi hS0, if_pos rfl]
      exact ⟨rfl, rfl⟩
    · intro j hj0 hj1 hjw hjd hjq _
      simp only [hq, List.nil_append, List.mem_singleton] at hj1 hjw hjd hjq
      obtain ⟨a, b, -, -⟩ := hw.e_range j hj0 hj1
      rw [hget _ a b, if_neg hjq] at hjd
      exact absurd rfl hjd
  simp only [spfa, wr_eq_set _ st.S 0 hS0 hSr, wr_eq_set _ st.S 2000000000 hS0 hSi,
    Option.bind_eq_bind, Option.some_bind, Option.bind_eq_some] at hs
  obtain ⟨st2, hs2, dT, hdT, hpair⟩ := hs
  simp only [Option.pure_def, Option.some.injEq, Prod.mk.injEq] at hpair
  obtain ⟨hb, rfl⟩ := hpair
  obtain ⟨hw', -, hq', hfr', hl', -⟩ := spfa_while_lab (fun _ => INF) fuel _ st2 hs2 hw1
    (fun i _ _ _ h => absurd rfl h) (hI1 _)
  obtain ⟨-, -, rfl⟩ := rd_some_get _ _ _ hdT
  refine ⟨hw', hq', ?_, by rw [hl']; simp, hb.symm, fun D hD => ?_⟩
  · refine spfa_frame_trans _ _ _ ?_ hfr'
    rfl
  · exact (spfa_while_lab D fuel _ st2 hs2 hw1 hD (hI1 D)).2.1

end mcmf

/-! ## The state a labelling pass ends in -/

namespace mcmf

/-- A labelling pass that returns on a well-formed state with an empty queue leaves a labelled
state and reports whether the sink carries a label. -/
theorem spfa_final (fuel : Nat) (st st' : State) (b : Bool) (hw : Wf st) (hq : st.q = [])
    (hs : spfa fuel st = some (b, st')) :
    Labelled st' ∧ spfa_frame st st' ∧ st'.d.length = st.d.length ∧
      b = decide (get st'.d st'.T ≠ INF) := by
  obtain ⟨hw', hq', hfr, hl, hb, hall⟩ := spfa_lab fuel st st' b hw hq hs
  have h0 := hall (fun _ => INF) (fun i _ _ _ h => absurd rfl h)
  have he := spfa_frame_e _ _ hfr
  have hset : settled st.e (get st'.d) := by
    intro i hi0 hi1 hiw hid
    rw [← he] at hi1 hiw hid ⊢
    exact h0.relaxed_ok i hi0 hi1 hiw hid (by rw [hq']; simp) (fun h => h)
  exact ⟨⟨hw', hq', hall _ hset⟩, hfr, hl, hb⟩

theorem labelled_chain (st : State) (h : Labelled st) (x : Int) (hx0 : 0 ≤ x)
    (hx1 : x < st.d.length) (hdx : get st.d x ≠ INF) : ∃ k, chain st.e st.pre st.S k x :=
  h.2.2.chain_ok (fun _ _ _ => le_refl _) x hx0 hx1 hdx

/-- Along the predecessor chain of a labelled node every entry lies in the arena, has residual
capacity, is tight for the labels, bounds the bottleneck of the node, and is the predecessor
entry of its own head. -/
theorem labelled_facts (st : State) (h : Labelled st) :
    ∀ (k : Nat) (x : Int), 0 ≤ x → x < st.d.length → get st.d x ≠ INF →
      chain st.e st.pre st.S k x →
      path_ok st.e st.pre st.S st.d.length k x ∧
      (∀ j ∈ path st.e st.pre st.S k x, 2 ≤ j ∧ j < st.e.length ∧ (edge st.e j).w ≠ 0 ∧
        get st.incf x ≤ (edge st.e j).w ∧
        get st.d (edge st.e j).v = get st.d (edge st.e j).u + (edge st.e j).c ∧
        get st.d (edge st.e j).u ≠ INF ∧ get st.d (edge st.e j).v ≠ INF ∧
        (edge st.e j).v ≠ st.S ∧ get st.pre (edge st.e j).v = j ∧
        ∃ m, m < k ∧ chain st.e st.pre st.S (m + 1) (edge st.e j).v)
  | 0, x, _, _, _, hc => ⟨hc, by simp [path]⟩
  | k + 1, x, hx0, hx1, hdx, hc => by
    obtain ⟨hw, hq, hI⟩ := h
    obtain ⟨hxS, hch⟩ := hc
    obtain ⟨a1, a2, a3, a4, a5, a6, a7⟩ := hI.pre_ok x hx0 hx1 hxS hdx
    obtain ⟨b0, b1, -, -⟩ := hw.e_range _ a1 a2
    obtain ⟨ih1, ih3⟩ := labelled_facts st ⟨hw, hq, hI⟩ k _ b0 b1 a5 hch
    have hrel := hI.relaxed_ok _ a1 a2 a4 a5 (by rw [hq]; simp) (fun h => h)
    rw [a3] at hrel
    have heq : get st.d (edge st.e (get st.pre x)).u + (edge st.e (get st.pre x)).c
        = get st.d x := by omega
    have hinc := a7 heq
    refine ⟨⟨hxS, hx0, hx1, a1, a2, a3, ih1⟩, ?_⟩
    intro j hj
    simp only [path, if_neg hxS, List.mem_cons] at hj
    rcases hj with rfl | hj
    · refine ⟨a1, a2, a4, ?_, ?_, a5, ?_, ?_, ?_, k, by omega, ?_⟩
      · rw [hinc]; exact min_le_right _ _
      · rw [a3]; exact heq.symm
      · rw [a3]; exact hdx
      · rw [a3]; exact hxS
      · rw [a3]
      · rw [a3]; exact ⟨hxS, hch⟩
    · obtain ⟨c1, c2, c3, c4, c5, c6, c7, c8, c9, m, hm, c10⟩ := ih3 j hj
      refine ⟨c1, c2, c3, ?_, c5, c6, c7, c8, c9, m, by omega, c10⟩
      rw [hinc]
      exact le_trans (min_le_left _ _) c4

/-- No arena entry occurs twice on the predecessor chain of a labelled node. -/
theorem labelled_nodup (st : State) (h : Labelled st) :
    ∀ (k : Nat) (x : Int), 0 ≤ x → x < st.d.length → get st.d x ≠ INF →
      chain st.e st.pre st.S k x → (path st.e st.pre st.S k x).Nodup
  | 0, _, _, _, _, _ => by simp [path]
  | k + 1, x, hx0, hx1, hdx, hc => by
    obtain ⟨hxS, hch⟩ := hc
    obtain ⟨a1, a2, a3, a4, a5, a6, a7⟩ := h.2.2.pre_ok x hx0 hx1 hxS hdx
    obtain ⟨b0, b1, -, -⟩ := h.1.e_range _ a1 a2
    have ih := labelled_nodup st h k _ b0 b1 a5 hch
    obtain ⟨-, hf⟩ := labelled_facts st h k _ b0 b1 a5 hch
    simp only [path, if_neg hxS, List.nodup_cons]
    refine ⟨fun hmem => ?_, ih⟩
    obtain ⟨-, -, -, -, -, -, -, -, -, m, hm, hcm⟩ := hf _ hmem
    rw [a3] at hcm
    have := chain_unique _ _ _ _ _ _ hcm (show chain st.e st.pre st.S (k + 1) x from ⟨hxS, hch⟩)
    omega

/-- An entry and its paired entry never lie both on the predecessor chain of a labelled
node. -/
theorem labelled_unpaired (st : State) (h : Labelled st) (k : Nat) (x : Int) (hx0 : 0 ≤ x)
    (hx1 : x < st.d.length) (hdx : get st.d x ≠ INF) (hc : chain st.e st.pre st.S k x)
    (j : Int) (hj : j ∈ path st.e st.pre st.S k x) :
    xor1 j ∉ path st.e st.pre st.S k x := by
  intro hj'
  obtain ⟨-, hf⟩ := labelled_facts st h k x hx0 hx1 hdx hc
  obtain ⟨j0, j1, -, -, -, -, -, -, hpj, m, -, hm⟩ := hf j hj
  obtain ⟨-, -, -, -, -, -, -, -, hpj', m', -, hm'⟩ := hf _ hj'
  obtain ⟨p1, p2, -⟩ := h.1.pair j j0 j1
  rw [p2] at hpj' hm'
  have h1 : chain st.e st.pre st.S m (edge st.e j).u := by
    have := hm.2
    rwa [hpj] at this
  have h2 : chain st.e st.pre st.S m' (edge st.e j).v := by
    have := hm'.2
    rwa [hpj', p1] at this
  have e1 := chain_unique _ _ _ _ _ _ h1 hm'
  have e2 := chain_unique _ _ _ _ _ _ h2 hm
  omega

/-- With residual capacities that are not negative, the bottleneck of a labelled node is
positive. -/
theorem labelled_pos (st : State) (h : Labelled st)
    (hnn : ∀ i : Int, 2 ≤ i → i < st.e.length → 0 ≤ (edge st.e i).w) (x : Int) (hx0 : 0 ≤ x)
    (hx1 : x < st.d.length) (hdx : get st.d x ≠ INF) : 0 < get st.incf x :=
  h.2.2.inc_pos hnn x hx0 hx1 hdx

end mcmf

/-! ## One augmentation on an arbitrary arena -/

namespace mcmf

theorem E_eq (a b : E) (hu : a.u = b.u) (hn : a.next = b.next) (hv : a.v = b.v)
    (hw : a.w = b.w) (hc : a.c = b.c) : a = b := by
  cases a
  cases b
  simp only [E.mk.injEq]
  exact ⟨hu, hn, hv, hw, hc⟩

/-- Pushing along entries of the arena proper leaves the two dummy entries alone. -/
theorem edge_pushes_low (f : Int) (L : Nat) (hev : L % 2 = 0) :
    ∀ (P : List Int) (es : List E), es.length = L → (∀ i ∈ P, 2 ≤ i ∧ i < L) →
      ∀ j : Int, 0 ≤ j → j < 2 → edge (P.foldl (push f) es) j = edge es j
  | [], _, _, _, _, _, _ => rfl
  | i :: P, es, hlen, hP, j, hj0, hj1 => by
    obtain ⟨hi0, hi1⟩ := hP i (by simp)
    obtain ⟨a, -, -, -⟩ := xor1_range i L hev hi0 hi1
    simp only [List.foldl_cons]
    rw [edge_pushes_low f L hev P (push f es i) (by rw [length_push, hlen])
      (fun i' hi' => hP i' (List.mem_cons_of_mem _ hi')) j hj0 hj1,
      edge_push f es i j L hlen hev hi0 hi1 hj0, if_neg (by omega), if_neg (by omega)]

/-- The arena after `update()` on a labelled state whose sink carries a label, entry by
entry. -/
theorem labelled_augmented (st : State) (h : Labelled st) (hT : get st.d st.T ≠ INF) (k : Nat)
    (hk : chain st.e st.pre st.S k st.T) :
    same_arcs st.e (augmented st k).e ∧
    ∀ j : Int, 0 ≤ j → j < st.e.length →
      edge (augmented st k).e j =
        if j ∈ path st.e st.pre st.S k st.T then
          { edge st.e j with w := (edge st.e j).w - get st.incf st.T }
        else if xor1 j ∈ path st.e st.pre st.S k st.T then
          { edge st.e j with w := (edge st.e j).w + get st.incf st.T }
        else edge st.e j := by
  obtain ⟨hT0, hT1⟩ := h.1.T_range
  obtain ⟨-, hf⟩ := labelled_facts st h k st.T hT0 hT1 hT hk
  have hnd := labelled_nodup st h k st.T hT0 hT1 hT hk
  have hup := labelled_unpaired st h k st.T hT0 hT1 hT hk
  have hP : ∀ i ∈ path st.e st.pre st.S k st.T, 2 ≤ i ∧ i < st.e.length :=
    fun i hi => ⟨(hf i hi).1, (hf i hi).2.1⟩
  obtain ⟨hsame, hw⟩ := edge_pushes (get st.incf st.T) st.e.length h.1.even
    (path st.e st.pre st.S k st.T) st.e rfl hP
  have hlow := edge_pushes_low (get st.incf st.T) st.e.length h.1.even
    (path st.e st.pre st.S k st.T) st.e rfl hP
  refine ⟨hsame, fun j hj0 hj1 => ?_⟩
  by_cases hj2 : j < 2
  · have h1 : j ∉ path st.e st.pre st.S k st.T := fun hm => by
      have := (hP j hm).1
      omega
    have h2 : xor1 j ∉ path st.e st.pre st.S k st.T := fun hm => by
      have := (hP _ hm).1
      unfold xor1 at this
      split_ifs at this <;> omega
    rw [if_neg h1, if_neg h2]
    exact hlow j hj0 hj2
  · have hj2' : 2 ≤ j := by omega
    obtain ⟨s1, s2, s3, s4⟩ := hsame.2 j
    have hwj := hw j hj2' hj1
    by_cases h1 : j ∈ path st.e st.pre st.S k st.T
    · have h2 := hup j h1
      rw [if_pos h1]
      rw [List.count_eq_one_of_mem hnd h1, List.count_eq_zero_of_not_mem h2] at hwj
      refine E_eq _ _ s1 s3 s2 ?_ s4
      refine hwj.trans ?_
      push_cast
      ring
    · rw [if_neg h1]
      by_cases h2 : xor1 j ∈ path st.e st.pre st.S k st.T
      · rw [if_pos h2]
        rw [List.count_eq_zero_of_not_mem h1, List.count_eq_one_of_mem hnd h2] at hwj
        refine E_eq _ _ s1 s3 s2 ?_ s4
        refine hwj.trans ?_
        push_cast
        ring
      · rw [if_neg h2]
        rw [List.count_eq_zero_of_not_mem h1, List.count_eq_zero_of_not_mem h2] at hwj
        refine E_eq _ _ s1 s3 s2 ?_ s4
        refine hwj.trans ?_
        push_cast
        ring

end mcmf

/-! ## One augmentation step -/

namespace mcmf

theorem one_edge_net_eq :
    (network 2 1 2 [⟨1, 2, 0, 5, 3⟩]).map (fun st => { st with S := 1, T := 2 }) =
      some one_edge_net := by decide!

theorem one_edge_net_wf : Wf one_edge_net := by
  have hlen : one_edge_net.e.length = 4 := rfl
  have hd : one_edge_net.d.length = 5 := rfl
  have h23 : ∀ i : Int, 2 ≤ i → i < one_edge_net.e.length → i = 2 ∨ i = 3 := by
    intro i h0 h1
    rw [hlen] at h1
    omega
  have hnode : ∀ u : Int, 0 ≤ u → u < one_edge_net.d.length →
      u = 0 ∨ u = 1 ∨ u = 2 ∨ u = 3 ∨ u = 4 := by
    intro u h0 h1
    rw [hd] at h1
    omega
  refine ⟨rfl, rfl, rfl, rfl, by decide, by decide, by decide, by decide, ?_, ?_, ?_, ?_, ?_⟩
  · intro i h0 h1
    rcases h23 i h0 h1 with rfl | rfl <;> decide
  · intro i h0 h1
    rcases h23 i h0 h1 with rfl | rfl <;> exact Or.inl rfl
  · intro u h0 h1
    rcases hnode u h0 h1 with rfl | rfl | rfl | rfl | rfl
    · exact Or.inl rfl
    · exact Or.inr (by decide)
    · exact Or.inr (by decide)
    · exact Or.inl rfl
    · exact Or.inl rfl
  · intro i h0 h1
    rcases h23 i h0 h1 with rfl | rfl <;> decide
  · intro i h0 h1
    rcases h23 i h0 h1 with rfl | rfl
    · exact ⟨by decide, Or.inl rfl⟩
    · exact ⟨by decide, Or.inl rfl⟩

end mcmf

/-- C20 (amended): one augmentation step. On a well-formed state with an empty queue whose
residual capacities lie in `0 .. 2^30 - 1` and whose costs lie within `-10^9 .. 10^9`, when the
labelling pass `spfa()` has returned true with labels of at least `-10^9` (so that every sum
the pass and the step compute fits `int`), the predecessor entries lead from `T` back to `S`
through distinct arena entries, none of which is paired with another entry of the chain, each
with a residual capacity of at least the bottleneck `incf[T] > 0`, and `update()` returns: the
entries of the chain have lost `incf[T]` of residual capacity, their paired entries (position
XOR 1) have gained `incf[T]`, every other entry is unchanged, `maxflow` has grown by `incf[T]`
and `cost` by `d[T] * incf[T]` in 32-bit arithmetic, exactly so when the sum fits `int`, and
nothing else has changed. -/
theorem update_augments_along_chain (fuel : Nat) (st st1 : mcmf.State) (hw : mcmf.Wf st)
    (hq : st.q = []) (hcap : ∀ e ∈ st.e, 0 ≤ e.w ∧ e.w < 2 ^ 30)
    (hcost : ∀ e ∈ st.e, -1000000000 ≤ e.c ∧ e.c ≤ 1000000000)
    (hs : mcmf.spfa fuel st = some (true, st1)) (hlab : ∀ x ∈ st1.d, -1000000000 ≤ x) :
    ∃ k, mcmf.chain st1.e st1.pre st1.S k st1.T ∧
      (mcmf.path st1.e st1.pre st1.S k st1.T).Nodup ∧
      0 < mcmf.get st1.incf st1.T ∧
      (∀ j ∈ mcmf.path st1.e st1.pre st1.S k st1.T, 2 ≤ j ∧ j < st1.e.length ∧
        mcmf.xor1 j ∉ mcmf.path st1.e st1.pre st1.S k st1.T ∧
        mcmf.get st1.incf st1.T ≤ (mcmf.edge st1.e j).w) ∧
      ∀ fuel1, k < fuel1 → ∃ st2, mcmf.update fuel1 st1 = some st2 ∧
        st2 = { st1 with
                e := st2.e,
                maxflow := wrap32 (st1.maxflow + mcmf.get st1.incf st1.T),
                cost := wrap32 (st1.cost + mcmf.get st1.d st1.T * mcmf.get st1.incf st1.T) } ∧
        (-2 ^ 31 ≤ st1.maxflow + mcmf.get st1.incf st1.T →
          st1.maxflow + mcmf.get st1.incf st1.T < 2 ^ 31 →
          st2.maxflow = st1.maxflow + mcmf.get st1.incf st1.T) ∧
        (-2 ^ 31 ≤ st1.cost + mcmf.get st1.d st1.T * mcmf.get st1.incf st1.T →
          st1.cost + mcmf.get st1.d st1.T * mcmf.get st1.incf st1.T < 2 ^ 31 →
          st2.cost = st1.cost + mcmf.get st1.d st1.T * mcmf.get st1.incf st1.T) ∧
        st2.e.length = st1.e.length ∧
        ∀ j : Int, 0 ≤ j → j < st1.e.length →
          mcmf.edge st2.e j =
            if j ∈ mcmf.path st1.e st1.pre st1.S k st1.T then
              { mcmf.edge st1.e j with w := (mcmf.edge st1.e j).w - mcmf.get st1.incf st1.T }
            else if mcmf.xor1 j ∈ mcmf.path st1.e st1.pre st1.S k st1.T then
              { mcmf.edge st1.e j with w := (mcmf.edge st1.e j).w + mcmf.get st1.incf st1.T }
            else mcmf.edge st1.e j := by
  obtain ⟨hL, hfr, -, hb⟩ := mcmf.spfa_final fuel st st1 true hw hq hs
  have hT : mcmf.get st1.d st1.T ≠ mcmf.INF := of_decide_eq_true hb.symm
  obtain ⟨hT0, hT1⟩ := hL.1.T_range
  obtain ⟨k, hk⟩ := mcmf.labelled_chain st1 hL st1.T hT0 hT1 hT
  obtain ⟨hpo, hf⟩ := mcmf.labelled_facts st1 hL k st1.T hT0 hT1 hT hk
  obtain ⟨hsame, hall⟩ := mcmf.labelled_augmented st1 hL hT k hk
  have he := mcmf.spfa_frame_e _ _ hfr
  have hpos : 0 < mcmf.get st1.incf st1.T := by
    apply mcmf.labelled_pos st1 hL _ st1.T hT0 hT1 hT
    intro i hi0 hi1
    rw [he] at hi1 ⊢
    have hmem : mcmf.edge st.e i ∈ st.e := by
      unfold mcmf.edge
      rw [List.getD_eq_getElem?_getD, List.getElem?_eq_getElem (by omega)]
      exact List.getElem_mem _
    exact (hcap _ hmem).1
  refine ⟨k, hk, mcmf.labelled_nodup st1 hL k st1.T hT0 hT1 hT hk, hpos,
    fun j hj => ⟨(hf j hj).1, (hf j hj).2.1,
      mcmf.labelled_unpaired st1 hL k st1.T hT0 hT1 hT hk j hj, (hf j hj).2.2.2.1⟩,
    fun fuel1 hf1 => ⟨mcmf.augmented st1 k, mcmf.update_eq st1 k fuel1 hL.1 hf1 hpo, rfl,
      fun h0 h1 => mcmf.wrap32_of_range _ h0 h1, fun h0 h1 => mcmf.wrap32_of_range _ h0 h1,
      hsame.1, hall⟩⟩

/-- Witness of `update_augments_along_chain`: the network with the single edge
`addEdge(1, 2, 0, 5, 3)`, labelled from the source `1` to the sink `2`. -/
theorem update_augments_along_chain_witness :
    (mcmf.network 2 1 2 [⟨1, 2, 0, 5, 3⟩]).map (fun st => { st with S := 1, T := 2 }) =
      some mcmf.one_edge_net ∧
    mcmf.spfa 10 mcmf.one_edge_net = some (true, mcmf.one_edge_labelled) ∧
    ∃ k, mcmf.chain mcmf.one_edge_labelled.e mcmf.one_edge_labelled.pre
        mcmf.one_edge_labelled.S k mcmf.one_edge_labelled.T ∧
      (mcmf.path mcmf.one_edge_labelled.e mcmf.one_edge_labelled.pre
        mcmf.one_edge_labelled.S k mcmf.one_edge_labelled.T).Nodup ∧
      0 < mcmf.get mcmf.one_edge_labelled.incf mcmf.one_edge_labelled.T ∧
      (∀ j ∈ mcmf.path mcmf.one_edge_labelled.e mcmf.one_edge_labelled.pre
          mcmf.one_edge_labelled.S k mcmf.one_edge_labelled.T,
        2 ≤ j ∧ j < mcmf.one_edge_labelled.e.length ∧
        mcmf.xor1 j ∉ mcmf.path mcmf.one_edge_labelled.e mcmf.one_edge_labelled.pre
          mcmf.one_edge_labelled.S k mcmf.one_edge_labelled.T ∧
        mcmf.get mcmf.one_edge_labelled.incf mcmf.one_edge_labelled.T
          ≤ (mcmf.edge mcmf.one_edge_labelled.e j).w) ∧
      ∀ fuel1, k < fuel1 → ∃ st2, mcmf.update fuel1 mcmf.one_edge_labelled = some st2 ∧
        st2 = { mcmf.one_edge_labelled with
                e := st2.e,
                maxflow := wrap32 (mcmf.one_edge_labelled.maxflow +
                  mcmf.get mcmf.one_edge_labelled.incf mcmf.one_edge_labelled.T),
                cost := wrap32 (mcmf.one_edge_labelled.cost +
                  mcmf.get mcmf.one_edge_labelled.d mcmf.one_edge_labelled.T *
                    mcmf.get mcmf.one_edge_labelled.incf mcmf.one_edge_labelled.T) } ∧
        (-2 ^ 31 ≤ mcmf.one_edge_labelled.maxflow +
            mcmf.get mcmf.one_edge_labelled.incf mcmf.one_edge_labelled.T →
          mcmf.one_edge_labelled.maxflow +
            mcmf.get mcmf.one_edge_labelled.incf mcmf.one_edge_labelled.T < 2 ^ 31 →
          st2.maxflow = mcmf.one_edge_labelled.maxflow +
            mcmf.get mcmf.one_edge_labelled.incf mcmf.one_edge_labelled.T) ∧
        (-2 ^ 31 ≤ mcmf.one_edge_labelled.cost +
            mcmf.get mcmf.one_edge_labelled.d mcmf.one_edge_labelled.T *
              mcmf.get mcmf.one_edge_labelled.incf mcmf.one_edge_labelled.T →
          mcmf.one_edge_labelled.cost +
            mcmf.get mcmf.one_edge_labelled.d mcmf.one_edge_labelled.T *
              mcmf.get mcmf.one_edge_labelled.incf mcmf.one_edge_labelled.T < 2 ^ 31 →
          st2.cost = mcmf.one_edge_labelled.cost +
            mcmf.get mcmf.one_edge_labelled.d mcmf.one_edge_labelled.T *
              mcmf.get mcmf.one_edge_labelled.incf mcmf.one_edge_labelled.T) ∧
        st2.e.length = mcmf.one_edge_labelled.e.length ∧
        ∀ j : Int, 0 ≤ j → j < mcmf.one_edge_labelled.e.length →
          mcmf.edge st2.e j =
            if j ∈ mcmf.path mcmf.one_edge_labelled.e mcmf.one_edge_labelled.pre
                mcmf.one_edge_labelled.S k mcmf.one_edge_labelled.T then
              { mcmf.edge mcmf.one_edge_labelled.e j with
                w := (mcmf.edge mcmf.one_edge_labelled.e j).w -
                  mcmf.get mcmf.one_edge_labelled.incf mcmf.one_edge_labelled.T }
            else if mcmf.xor1 j ∈ mcmf.path mcmf.one_edge_labelled.e
                mcmf.one_edge_labelled.pre mcmf.one_edge_labelled.S k
                mcmf.one_edge_labelled.T then
              { mcmf.edge mcmf.one_edge_labelled.e j with
                w := (mcmf.edge mcmf.one_edge_labelled.e j).w +
                  mcmf.get mcmf.one_edge_labelled.incf mcmf.one_edge_labelled.T }
            else mcmf.edge mcmf.one_edge_labelled.e j :=
  ⟨mcmf.one_edge_net_eq, by decide!,
    update_augments_along_chain 10 mcmf.one_edge_net mcmf.one_edge_labelled
      mcmf.one_edge_net_wf rfl (by decide) (by decide) (by decide!) (by decide)⟩

/-- C20 as the specification states it fails: on the network with the single edge
`addEdge(1, 2, 0, 1000000000, 3)`, in the optimization phase of `solve()`, the labelling pass
returns true with `d[T] = 3` and `incf[T] = 1000000000`; `cost` is `0` before `update()` and
`-1294967296` after it, not `3 * 1000000000`: the product does not fit `int`. -/
theorem update_cost_wraps :
    (mcmf.network 2 1 2 [⟨1, 2, 0, 1000000000, 3⟩]).bind (fun st0 =>
      (mcmf.solve_feasibility 10 st0).bind (fun st4 =>
        (mcmf.optimize_init st4).bind (fun st7 =>
          (mcmf.spfa 10 st7).bind (fun r =>
            (mcmf.update 10 r.2).map (fun st2 =>
              (r.1, mcmf.get r.2.d r.2.T, mcmf.get r.2.incf r.2.T, r.2.cost, st2.cost)))))) =
      some (true, 3, 1000000000, 0, -1294967296) := by decide!

/-! ## What the solver functions do to the arena, whatever the state -/

namespace mcmf

/-- The relaxation test leaves the arena alone. -/
theorem relax_arena (st st1 : State) (u i : Int) (h : relax st u i = some st1) :
    st1.e = st.e := by
  unfold relax at h
  simp only [Option.bind_eq_bind, Option.pure_def] at h
  rcases hei : rd st.e i with _ | ei
  · rw [hei] at h
    exact absurd h (by simp)
  rw [hei, Option.some_bind] at h
  by_cases h1 : ei.w ≠ 0
  swap
  · rw [if_neg h1, Option.some.injEq] at h
    subst h
    rfl
  rw [if_pos h1] at h
  rcases hdu : rd st.d u with _ | du
  · rw [hdu] at h
    exact absurd h (by simp)
  rw [hdu, Option.some_bind] at h
  rcases hdv : rd st.d ei.v with _ | dv
  · rw [hdv] at h
    exact absurd h (by simp)
  rw [hdv, Option.some_bind] at h
  by_cases h2 : du + ei.c < dv
  swap
  · rw [if_neg h2, Option.some.injEq] at h
    subst h
    rfl
  rw [if_pos h2] at h
  rcases hd1 : wr st.d ei.v (du + ei.c) with _ | d1
  · rw [hd1] at h
    exact absurd h (by simp)
  rw [hd1, Option.some_bind] at h
  rcases hp : wr st.pre ei.v i with _ | pre1
  · rw [hp] at h
    exact absurd h (by simp)
  rw [hp, Option.some_bind] at h
  rcases hiu : rd st.incf u with _ | iu
  · rw [hiu] at h
    exact absurd h (by simp)
  rw [hiu, Option.some_bind] at h
  rcases hin : wr st.incf ei.v (min iu ei.w) with _ | incf1
  · rw [hin] at h
    exact absurd h (by simp)
  rw [hin, Option.some_bind] at h
  rcases hvv : rd st.vis ei.v with _ | visv
  · rw [hvv] at h
    exact absurd h (by simp)
  rw [hvv, Option.some_bind] at h
  by_cases h3 : visv = 0
  · rw [if_pos h3] at h
    rcases hv1 : wr st.vis ei.v 1 with _ | vis1
    · rw [hv1] at h
      exact absurd h (by simp)
    rw [hv1, Option.some_bind, Option.some.injEq] at h
    subst h
    rfl
  · rw [if_neg h3, Option.some.injEq] at h
    subst h
    rfl

theorem spfa_for_arena : ∀ (fuel : Nat) (st st' : State) (u i : Int),
    spfa_for fuel st u i = some st' → st'.e = st.e
  | 0, _, _, _, _, h => by simp [spfa_for] at h
  | fuel + 1, st, st', u, i, h => by
    unfold spfa_for at h
    split_ifs at h with hi
    · simp only [Option.some.injEq] at h
      subst h
      rfl
    · simp only [Option.bind_eq_bind, Option.bind_eq_some] at h
      obtain ⟨st1, h1, ei, -, h2⟩ := h
      rw [spfa_for_arena fuel st1 st' u _ h2, relax_arena _ _ _ _ h1]

theorem spfa_while_arena : ∀ (fuel : Nat) (st st' : State),
    spfa_while fuel st = some st' → st'.e = st.e
  | 0, _, _, h => by simp [spfa_while] at h
  | fuel + 1, st, st', h => by
    unfold spfa_while at h
    rcases hq : st.q with _ | ⟨u, rest⟩
    · rw [hq] at h
      simp only [Option.some.injEq] at h
      subst h
      rfl
    · rw [hq] at h
      simp only [Option.bind_eq_bind, Option.bind_eq_some] at h
      obtain ⟨vis1, -, hu, -, st2, h2, h3⟩ := h
      rw [spfa_while_arena fuel st2 st' h3, spfa_for_arena _ _ _ _ _ h2]

/-- The labelling pass leaves the arena alone. -/
theorem spfa_arena (fuel : Nat) (st st1 : State) (b : Bool)
    (h : spfa fuel st = some (b, st1)) : st1.e = st.e := by
  simp only [spfa, Option.bind_eq_bind, Option.bind_eq_some, Option.pure_def,
    Option.some.injEq, Prod.mk.injEq] at h
  obtain ⟨d1, -, incf1, -, st2, h2, dT, -, -, rfl⟩ := h
  rw [spfa_while_arena fuel _ _ h2]

/-- The predecessor walk of `update` changes residual capacities only. -/
theorem update_while_arcs : ∀ (fuel : Nat) (st st' : State) (x : Int),
    update_while fuel st x = some st' → same_arcs st.e st'.e
  | 0, _, _, _, h => by simp [update_while] at h
  | fuel + 1, st, st', x, h => by
    unfold update_while at h
    split_ifs at h with hx
    · simp only [Option.some.injEq] at h
      subst h
      exact same_arcs_refl _
    · simp only [Option.bind_eq_bind, Option.bind_eq_some] at h
      obtain ⟨i, -, fT, -, ei, h3, e1, h4, fT1, -, ej, h6, e2, h7, ek, -, h9⟩ := h
      obtain ⟨a0, a1, rfl⟩ := rd_some_edge _ _ _ h3
      obtain ⟨-, -, rfl⟩ := wr_some _ _ _ _ h4
      obtain ⟨b0, b1, rfl⟩ := rd_some_edge _ _ _ h6
      obtain ⟨-, -, rfl⟩ := wr_some _ _ _ _ h7
      have s1 := same_arcs_set_w st.e i ((edge st.e i).w - fT) a0 a1
      have s2 := same_arcs_set_w _ (xor1 i) ((edge (st.e.set i.toNat
        { edge st.e i with w := (edge st.e i).w - fT }) (xor1 i)).w + fT1) b0 b1
      exact same_arcs_trans _ _ _ (same_arcs_trans _ _ _ s1 s2)
        (update_while_arcs fuel _ st' _ h9)

/-- The function `update()` changes residual capacities only. -/
theorem update_arcs (fuel : Nat) (st st' : State) (h : update fuel st = some st') :
    same_arcs st.e st'.e := by
  simp only [update, Option.bind_eq_bind, Option.bind_eq_some, Option.pure_def,
    Option.some.injEq] at h
  obtain ⟨st1, h1, fT, -, dT, -, fT1, -, rfl⟩ := h
  exact update_while_arcs fuel st st1 _ h1

/-- The function `work()` changes residual capacities only. -/
theorem work_arcs : ∀ (fuel : Nat) (st st' : State), work fuel st = some st' →
    same_arcs st.e st'.e
  | 0, _, _, h => by simp [work] at h
  | fuel + 1, st, st', h => by
    unfold work at h
    simp only [Option.bind_eq_bind, Option.bind_eq_some] at h
    obtain ⟨⟨found, st1⟩, h1, h2⟩ := h
    have he := spfa_arena _ _ _ _ h1
    cases found with
    | false =>
      simp only [Bool.false_eq_true, if_false, Option.pure_def, Option.some.injEq] at h2
      subst h2
      rw [he]
      exact same_arcs_refl _
    | true =>
      simp only [if_true, Option.bind_eq_some] at h2
      obtain ⟨st2, h3, h4⟩ := h2
      have s1 := update_arcs _ _ _ h3
      rw [he] at s1
      exact same_arcs_trans _ _ _ s1 (work_arcs fuel st2 st' h4)

/-- The start of the optimization phase changes residual capacities only. -/
theorem optimize_init_arcs (st4 st7 : State) (h : optimize_init st4 = some st7) :
    same_arcs st4.e st7.e := by
  simp only [optimize_init, Option.bind_eq_bind, Option.bind_eq_some, Option.pure_def,
    Option.some.injEq] at h
  obtain ⟨el, h1, e1, h2, el2, h3, e2, h4, rfl⟩ := h
  obtain ⟨a0, a1, rfl⟩ := rd_some_edge _ _ _ h1
  obtain ⟨-, -, rfl⟩ := wr_some _ _ _ _ h2
  obtain ⟨b0, b1, rfl⟩ := rd_some_edge _ _ _ h3
  obtain ⟨-, -, rfl⟩ := wr_some _ _ _ _ h4
  exact same_arcs_trans _ _ _ (same_arcs_set_w st4.e _ 0 a0 a1) (same_arcs_set_w _ _ 0 b0 b1)

/-- Arenas with the same entries up to the residual capacities are paired together. -/
theorem paired_same (es es' : List E) (h : same_arcs es es') (hp : Paired es) : Paired es' := by
  obtain ⟨p1, p2, p3, p4⟩ := hp
  obtain ⟨hl, hf⟩ := h
  refine ⟨by omega, by omega, fun p h0 h1 => ?_, fun p h0 h1 hpar => ?_⟩
  · obtain ⟨a, b, c, d⟩ := hf p
    obtain ⟨x1, x2, x3, x4⟩ := p3 p h0 h1
    exact ⟨a.trans x1, c.trans x2, b.trans x3, d.trans x4⟩
  · rw [hl] at h1
    obtain ⟨a, b, -, d⟩ := hf p
    obtain ⟨a', b', -, d'⟩ := hf (p + 1)
    obtain ⟨x1, x2, x3⟩ := p4 p h0 h1 hpar
    exact ⟨by rw [a', b, x1], by rw [b', a, x2], by rw [d', d, x3]⟩

/-- The pair that `addEdge` appends keeps the arena paired. -/
theorem paired_added (st : State) (u v l d c : Int) (hp : Paired st.e) :
    Paired (added st u v l d c).e := by
  obtain ⟨p1, p2, p3, p4⟩ := hp
  have hlen := added_length st u v l d c
  refine ⟨by omega, by omega, fun p h0 h1 => ?_, fun p h0 h1 hpar => ?_⟩
  · rw [added_old st u v l d c p h0 (by omega)]
    exact p3 p h0 h1
  · rw [hlen] at h1
    push_cast at h1
    by_cases hlt : p < st.e.length
    · rw [added_old st u v l d c p (by omega) hlt,
        added_old st u v l d c (p + 1) (by omega) (by omega)]
      exact p4 p h0 hlt hpar
    · have hpe : p = st.e.length := by omega
      rw [hpe, added_fst, added_snd_raw]
      exact ⟨rfl, rfl, rfl⟩

theorem paired_addEdge (st st' : State) (u v l d c : Int) (hp : Paired st.e)
    (h : addEdge st u v l d c = some st') : Paired st'.e := by
  obtain ⟨rfl, -⟩ := addEdge_some _ _ _ _ _ _ _ h
  exact paired_added st u v l d c hp

theorem paired_ADD (st st' : State) (u v w c : Int) (hp : Paired st.e)
    (h : ADD st u v w c = some st') : Paired st'.e := by
  unfold ADD at h
  split_ifs at h with hc
  · exact paired_addEdge _ _ _ _ _ _ _ hp h
  · simp only [Option.bind_eq_bind, Option.bind_eq_some, Option.pure_def,
      Option.some.injEq] at h
    obtain ⟨av, -, a1, -, au, -, a2, -, st1, h5, rfl⟩ := h
    exact paired_addEdge { st with a := a2 } st1 _ _ _ _ _ hp h5

theorem paired_imbalance (st st' : State) (i : Int) (hp : Paired st.e)
    (h : solve_imbalance st i = some st') : Paired st'.e := by
  simp only [solve_imbalance, Option.bind_eq_bind, Option.bind_eq_some] at h
  obtain ⟨ai, -, h⟩ := h
  split_ifs at h
  · simp only [Option.pure_def, Option.some.injEq] at h
    rw [← h]
    exact hp
  · exact paired_addEdge _ _ _ _ _ _ _ hp h
  · simp only [Option.bind_eq_some] at h
    obtain ⟨_, -, h⟩ := h
    exact paired_addEdge _ _ _ _ _ _ _ hp h

theorem paired_feasibility_init (st st3 : State) (hp : Paired st.e)
    (h : feasibility_init st = some st3) : Paired st3.e := by
  simp only [feasibility_init, Option.bind_eq_bind, Option.bind_eq_some] at h
  obtain ⟨st2, h1, h2⟩ := h
  have hk := foldlM_keeps (fun s : State => Paired s.e)
    (fun acc (k : Nat) => solve_imbalance acc ((k : Int) + 1))
    (fun s x s' hs hI => paired_imbalance s s' _ hI hs) _ _ st2 h1 hp
  exact paired_addEdge _ _ _ _ _ _ _ hk h2

/-- The function `solve()` keeps the arena paired. -/
theorem paired_solve (fuel : Nat) (st fin : State) (hp : Paired st.e)
    (h : solve fuel st = some fin) : Paired fin.e := by
  simp only [solve, solve_optimize, Option.bind_eq_bind, Option.bind_eq_some,
    Option.pure_def, Option.some.injEq] at h
  obtain ⟨st4, h1, st7, h2, st8, h3, rfl⟩ := h
  rw [solve_feasibility_eq] at h1
  simp only [Option.bind_eq_some] at h1
  obtain ⟨st3, h4, h5⟩ := h1
  have p3 := paired_feasibility_init st st3 hp h4
  have p4 := paired_same _ _ (work_arcs _ _ _ h5) p3
  have p7 := paired_same _ _ (optimize_init_arcs _ _ h2) p4
  exact paired_same st7.e st8.e (work_arcs fuel st7 st8 h3) p7

theorem paired_call (st st' : State) (c : Call) (hp : Paired st.e)
    (h : call st c = some st') : Paired st'.e := by
  cases c with
  | addEdge u v l d c => exact paired_addEdge st st' u v l d c hp h
  | ADD u v w c => exact paired_ADD st st' u v w c hp h
  | solve fuel => exact paired_solve fuel st st' hp h

theorem paired_calls (st st' : State) (cs : List Call) (hp : Paired st.e)
    (h : calls st cs = some st') : Paired st'.e :=
  foldlM_keeps (fun s : State => Paired s.e) call (fun s c s' hstep hI => paired_call s s' c hI hstep)
    cs st st' h hp

/-- The arena that `init()` leaves, whatever `set_n` and the assignments to `n`, `s`, `t` do
afterwards, is paired. -/
theorem paired_start (st00 st0 : State) (n s t k : Int)
    (h : set_n { init st00 with n := n, s := s, t := t } k = some st0) : Paired st0.e := by
  unfold set_n at h
  split_ifs at h
  simp only [Option.some.injEq] at h
  have he : st0.e = [⟨0, 0, 0, 0, 0⟩, ⟨0, 0, 0, 0, 0⟩] := by
    rw [← h]
    simp [init]
  rw [he]
  refine ⟨by decide, by decide, fun p h0 h1 => ?_, fun p h0 h1 _ => ?_⟩
  · have : p = 0 ∨ p = 1 := by omega
    rcases this with rfl | rfl <;> exact ⟨rfl, rfl, rfl, rfl⟩
  · simp only [List.length_cons, List.length_nil] at h1
    omega

end mcmf

/-! ## The pairing of the arena entries -/

/-- C19 (amended): after `mcmf::init`, the sizing of the arrays, and any sequence of `addEdge`,
`ADD` and `solve` calls that run through, the arena has an even length of at least two, the
two dummy entries in front, and behind them every entry at an odd position `p + 1` is the
reverse of the entry at `p`: `e[p+1].u = e[p].v`, `e[p+1].v = e[p].u`, and `e[p+1].c` is
`-e[p].c` as an `int`, which is `-e[p].c` whenever `e[p].c` is not `-2^31`. A call of `addEdge`
that runs through appends one pair: the forward entry of capacity `d - l` as an `int` (`d - l`
itself when that fits) and cost `c`, and the backward entry of capacity `0`. -/
theorem arena_stays_paired (st00 st0 st : mcmf.State) (n s t k : Int) (cs : List mcmf.Call)
    (h0 : mcmf.set_n { mcmf.init st00 with n := n, s := s, t := t } k = some st0)
    (h : mcmf.calls st0 cs = some st) :
    (2 ≤ st.e.length ∧ st.e.length % 2 = 0 ∧
      (∀ p : Int, 0 ≤ p → p < 2 → (mcmf.edge st.e p).u = 0 ∧ (mcmf.edge st.e p).next = 0 ∧
        (mcmf.edge st.e p).v = 0 ∧ (mcmf.edge st.e p).c = 0) ∧
      ∀ p : Int, 2 ≤ p → p < st.e.length → p % 2 = 0 →
        (mcmf.edge st.e (p + 1)).u = (mcmf.edge st.e p).v ∧
        (mcmf.edge st.e (p + 1)).v = (mcmf.edge st.e p).u ∧
        (mcmf.edge st.e (p + 1)).c = wrap32 (-(mcmf.edge st.e p).c) ∧
        (-2 ^ 31 < (mcmf.edge st.e p).c → (mcmf.edge st.e p).c < 2 ^ 31 →
          (mcmf.edge st.e (p + 1)).c = -(mcmf.edge st.e p).c)) ∧
    ∀ (st' : mcmf.State) (u v l d c : Int), mcmf.addEdge st u v l d c = some st' →
      ∃ h1 h2, st'.e = st.e ++ [⟨u, h1, v, wrap32 (d - l), c⟩, ⟨v, h2, u, 0, wrap32 (-c)⟩] ∧
        (-2 ^ 31 ≤ d - l → d - l < 2 ^ 31 → wrap32 (d - l) = d - l) := by
  have hp := mcmf.paired_calls st0 st cs (mcmf.paired_start st00 st0 n s t k h0) h
  obtain ⟨p1, p2, p3, p4⟩ := hp
  refine ⟨⟨p1, p2, p3, fun p a b c => ?_⟩, fun st' u v l d c hadd => ?_⟩
  · obtain ⟨x1, x2, x3⟩ := p4 p a b c
    refine ⟨x1, x2, x3, fun c0 c1 => ?_⟩
    rw [x3]
    exact mcmf.wrap32_of_range _ (by omega) (by omega)
  · obtain ⟨rfl, -⟩ := mcmf.addEdge_some _ _ _ _ _ _ _ hadd
    exact ⟨_, _, by rw [mcmf.added_e, List.append_assoc]; rfl,
      fun a b => mcmf.wrap32_of_range _ a b⟩

/-- Witness of `arena_stays_paired`: on three nodes, `addEdge(1, 2, 0, 5, 3)`,
`ADD(2, 3, 4, -2)` and `solve()`. -/
theorem arena_stays_paired_witness :
    ∃ st0 st, mcmf.set_n { mcmf.init mcmf.start with n := 3, s := 1, t := 3 } 3 = some st0 ∧
      mcmf.calls st0 [mcmf.Call.addEdge 1 2 0 5 3, mcmf.Call.ADD 2 3 4 (-2),
        mcmf.Call.solve 20] = some st ∧
      (2 ≤ st.e.length ∧ st.e.length % 2 = 0 ∧
        (∀ p : Int, 0 ≤ p → p < 2 → (mcmf.edge st.e p).u = 0 ∧ (mcmf.edge st.e p).next = 0 ∧
          (mcmf.edge st.e p).v = 0 ∧ (mcmf.edge st.e p).c = 0) ∧
        ∀ p : Int, 2 ≤ p → p < st.e.length → p % 2 = 0 →
          (mcmf.edge st.e (p + 1)).u = (mcmf.edge st.e p).v ∧
          (mcmf.edge st.e (p + 1)).v = (mcmf.edge st.e p).u ∧
          (mcmf.edge st.e (p + 1)).c = wrap32 (-(mcmf.edge st.e p).c) ∧
          (-2 ^ 31 < (mcmf.edge st.e p).c → (mcmf.edge st.e p).c < 2 ^ 31 →
            (mcmf.edge st.e (p + 1)).c = -(mcmf.edge st.e p).c)) ∧
      ∀ (st' : mcmf.State) (u v l d c : Int), mcmf.addEdge st u v l d c = some st' →
        ∃ h1 h2, st'.e = st.e ++ [⟨u, h1, v, wrap32 (d - l), c⟩, ⟨v, h2, u, 0, wrap32 (-c)⟩] ∧
          (-2 ^ 31 ≤ d - l → d - l < 2 ^ 31 → wrap32 (d - l) = d - l) := by
  have hs0 : (mcmf.set_n { mcmf.init mcmf.start with n := 3, s := 1, t := 3 } 3).isSome
      = true := by decide
  obtain ⟨st0, h0⟩ := Option.isSome_iff_exists.mp hs0
  have hs1 : ((mcmf.set_n { mcmf.init mcmf.start with n := 3, s := 1, t := 3 } 3).bind
      (fun s => mcmf.calls s [mcmf.Call.addEdge 1 2 0 5 3, mcmf.Call.ADD 2 3 4 (-2),
        mcmf.Call.solve 20])).isSome = true := by decide!
  rw [h0, Option.some_bind] at hs1
  obtain ⟨st, h⟩ := Option.isSome_iff_exists.mp hs1
  exact ⟨st0, st, h0, h, arena_stays_paired mcmf.start st0 st 3 1 3 3 _ h0 h⟩

/-- C19 as the specification states it fails: after `mcmf::init`, `set_n(2)` and
`addEdge(1, 2, 0, 1, -2147483648)` the forward entry `e[2]` and the backward entry `e[3]` both
carry the cost `-2147483648`: the negation of `-2^31` does not fit `int`, and `e[3].c` is not
`-e[2].c`. -/
theorem backward_cost_wraps :
    (mcmf.network 2 1 2 [⟨1, 2, 0, 1, -2147483648⟩]).map
        (fun st => ((mcmf.edge st.e 2).c, (mcmf.edge st.e 3).c, -(mcmf.edge st.e 2).c)) =
      some (-2147483648, -2147483648, 2147483648) := by decide!

/-! ## An invariant of the solver state between calls -/

namespace mcmf

theorem wrap32_range (x : Int) : -2 ^ 31 ≤ wrap32 x ∧ wrap32 x < 2 ^ 31 := by
  unfold wrap32 toInt32
  have h := Int.emod_nonneg x (by norm_num : (2 : Int) ^ 32 ≠ 0)
  have h2 := Int.emod_lt_of_pos x (by norm_num : (0 : Int) < 2 ^ 32)
  split_ifs <;> omega

theorem get_mem_or_zero (l : List Int) (i : Int) : get l i ∈ l ∨ get l i = 0 := by
  unfold get
  rw [List.getD_eq_getElem?_getD]
  rcases hg : l[i.toNat]? with _ | y
  · exact Or.inr rfl
  · exact Or.inl (List.getElem?_mem hg)

theorem nonneg_edge (es : List E) (h : nonneg es) (i : Int) : 0 ≤ (edge es i).w := by
  unfold edge
  rw [List.getD_eq_getElem?_getD]
  cases hi : es[i.toNat]? with
  | none => simp
  | some x => exact h x (List.getElem?_mem hi)

theorem nonneg_of_edge (es : List E)
    (h : ∀ i : Int, 0 ≤ i → i < es.length → 0 ≤ (edge es i).w) : nonneg es := by
  intro x hx
  obtain ⟨n, hn, rfl⟩ := List.getElem_of_mem hx
  have := h n (by omega) (by omega)
  unfold edge at this
  rw [List.getD_eq_getElem?_getD] at this
  simpa [List.getElem?_eq_getElem hn] using this

/-- The invariant depends on the arena up to residual capacities, on `head`, on the sizes of
the other node arrays, and on the queue being empty. -/
theorem sound_transfer (st st' : State) (h : same_arcs st.e st'.e)
    (hd : st'.d.length = st.d.length) (hincf : st'.incf.length = st.incf.length)
    (hpre : st'.pre.length = st.pre.length) (hhead : st'.head = st.head)
    (hvis : st'.vis.length = st.vis.length) (hq : st'.q = []) (hs : Sound st) : Sound st' := by
  refine ⟨by rw [hhead, hd]; exact hs.len_head, hq, by rw [h.1]; exact hs.two_le,
    fun S T hS0 hS1 hT0 hT1 => ?_⟩
  rw [hd] at hS1 hT1
  have hw := hs.wf S T hS0 hS1 hT0 hT1
  exact Wf_transfer { st with S := S, T := T } { st' with S := S, T := T } hw hd
    (hincf.trans hw.len_incf) (hpre.trans hw.len_pre) (hvis.trans hw.len_vis) hhead
    ⟨hS0, hS1⟩ ⟨hT0, hT1⟩ h

/-- A sound state in which `S` and `T` lie inside the arrays is well-formed. -/
theorem sound_wf (st : State) (hs : Sound st) (hS0 : 0 ≤ st.S) (hS1 : st.S < st.d.length)
    (hT0 : 0 ≤ st.T) (hT1 : st.T < st.d.length) : Wf st :=
  hs.wf st.S st.T hS0 hS1 hT0 hT1

/-- The state after `init()`, assignments to `n`, `s`, `t` and `set_n(k)` is sound, and its
arena holds the two dummy entries only. -/
theorem sound_start (st00 st0 : State) (n s t k : Int)
    (h : set_n { init st00 with n := n, s := s, t := t } k = some st0) :
    Sound st0 ∧ st0.e = [⟨0, 0, 0, 0, 0⟩, ⟨0, 0, 0, 0, 0⟩] ∧ st0.n = n ∧ st0.s = s ∧
      st0.t = t ∧ st0.d.length = (k + 3).toNat ∧ st0.a = List.replicate (k + 3).toNat 0 := by
  unfold set_n at h
  split_ifs at h with hk
  simp only [Option.some.injEq] at h
  subst h
  have he : (init st00).e = [⟨0, 0, 0, 0, 0⟩, ⟨0, 0, 0, 0, 0⟩] := by simp [init]
  have hq : (init st00).q = [] := by simp [init, drain_eq_nil]
  have hd : (init st00).d = [] := by simp [init]
  have hincf : (init st00).incf = [] := by simp [init]
  have hpre : (init st00).pre = [] := by simp [init]
  have hhead : (init st00).head = [] := by simp [init]
  have hvis : (init st00).vis = [] := by simp [init]
  have ha : (init st00).a = [] := by simp [init]
  simp only [he, hq, hd, hincf, hpre, hhead, hvis, ha, resize_nil]
  refine ⟨⟨by simp, rfl, by simp,
    fun S T hS0 hS1 hT0 hT1 => ?_⟩, trivial, trivial, trivial, trivial,
    by first | trivial | simp, trivial⟩
  · simp only [List.length_replicate] at hS1 hT1
    constructor
    · simp
    · simp
    · simp
    · simp
    · refine ⟨hS0, ?_⟩
      simp only [List.length_replicate]
      exact hS1
    · refine ⟨hT0, ?_⟩
      simp only [List.length_replicate]
      exact hT1
    · simp
    · simp
    · intro i h0 h1
      simp at h1
      omega
    · intro i h0 h1
      simp at h1
      omega
    · intro u h0 h1
      simp only [List.length_replicate] at h1
      left
      exact get_replicate _ _ _ h0 h1
    · intro i h0 h1
      simp at h1
      omega
    · intro i h0 h1
      simp at h1
      omega

/-- A successful `addEdge` on an arena with room for two more positions keeps the invariant,
appends the forward entry of capacity `d - l` and the backward entry of capacity `0`, keeps the
capacities non-negative when `0 ≤ d - l < 2^31`, and stores `int` values in `a`. -/
theorem sound_added (st st' : State) (u v l d c : Int) (hs : Sound st)
    (hfit : st.e.length + 2 ≤ 2 ^ 31) (hc0 : -2 ^ 31 < c) (hc1 : c < 2 ^ 31)
    (h : addEdge st u v l d c = some st') :
    Sound st' ∧ (nonneg st.e → 0 ≤ d - l → d - l < 2 ^ 31 → nonneg st'.e) ∧
      st'.d.length = st.d.length ∧
      st'.S = st.S ∧ st'.T = st.T ∧ st'.n = st.n ∧ st'.s = st.s ∧ st'.t = st.t ∧
      st'.e.length = st.e.length + 2 ∧
      (∀ x ∈ st'.a, x ∈ st.a ∨ x = wrap32 (get st.a v + l) ∨
        ∃ y, (y ∈ st.a ∨ y = wrap32 (get st.a v + l) ∨ y = 0) ∧ x = wrap32 (y - l)) := by
  obtain ⟨rfl, hu0, hu1, hv0, hv1, -, -⟩ := addEdge_some _ _ _ _ _ _ _ h
  rw [hs.len_head] at hu1 hv1
  have hwf : ∀ S T : Int, 0 ≤ S → S < st.d.length → 0 ≤ T → T < st.d.length →
      Wf { added st u v l d c with S := S, T := T } := fun S T hS0 hS1 hT0 hT1 =>
    added_Wf { st with S := S, T := T } u v l d c (hs.wf S T hS0 hS1 hT0 hT1) hu0 hu1 hv0 hv1
      hfit hc0 hc1
  refine ⟨⟨?_, hs.q_nil, by rw [added_length]; omega, hwf⟩, ?_, rfl, rfl, rfl,
    rfl, rfl, rfl, added_length _ _ _ _ _ _, ?_⟩
  · simp only [added, List.length_set]
    exact hs.len_head
  · intro hnn h0 h1 x hx
    rw [added_e] at hx
    simp only [List.mem_append, List.mem_singleton] at hx
    rcases hx with (hx | rfl) | rfl
    · exact hnn x hx
    · simp only
      rw [wrap32_of_range _ (by omega) h1]
      exact h0
    · exact le_refl _
  · intro x hx
    have hx' : x ∈ (st.a.set v.toNat (wrap32 (get st.a v + l))).set u.toNat
        (wrap32 (get (st.a.set v.toNat (wrap32 (get st.a v + l))) u - l)) := hx
    rcases List.mem_or_eq_of_mem_set hx' with h1 | h1
    · rcases List.mem_or_eq_of_mem_set h1 with h2 | h2
      · exact Or.inl h2
      · exact Or.inr (Or.inl h2)
    · right
      right
      refine ⟨get (st.a.set v.toNat (wrap32 (get st.a v + l))) u, ?_, h1⟩
      rcases get_mem_or_zero (st.a.set v.toNat (wrap32 (get st.a v + l))) u with hg | hg
      · rcases List.mem_or_eq_of_mem_set hg with h2 | h2
        · exact Or.inl h2
        · exact Or.inr (Or.inl h2)
      · exact Or.inr (Or.inr hg)

end mcmf


/-! ## The labelling pass and the augmentation keep the invariant -/

namespace mcmf

theorem relax_some (st st1 : State) (u i : Int) (h : relax st u i = some st1) :
    st1.T = st.T ∧ st1.d.length = st.d.length := by
  unfold relax at h
  simp only [Option.bind_eq_bind, Option.pure_def] at h
  rcases hei : rd st.e i with _ | ei
  · rw [hei] at h
    exact absurd h (by simp)
  rw [hei, Option.some_bind] at h
  by_cases h1 : ei.w ≠ 0
  swap
  · rw [if_neg h1, Option.some.injEq] at h
    subst h
    exact ⟨rfl, rfl⟩
  rw [if_pos h1] at h
  rcases hdu : rd st.d u with _ | du
  · rw [hdu] at h
    exact absurd h (by simp)
  rw [hdu, Option.some_bind] at h
  rcases hdv : rd st.d ei.v with _ | dv
  · rw [hdv] at h
    exact absurd h (by simp)
  rw [hdv, Option.some_bind] at h
  by_cases h2 : du + ei.c < dv
  swap
  · rw [if_neg h2, Option.some.injEq] at h
    subst h
    exact ⟨rfl, rfl⟩
  rw [if_pos h2] at h
  rcases hd1 : wr st.d ei.v (du + ei.c) with _ | d1
  · rw [hd1] at h
    exact absurd h (by simp)
  rw [hd1, Option.some_bind] at h
  obtain ⟨-, -, rfl⟩ := wr_some _ _ _ _ hd1
  rcases hp : wr st.pre ei.v i with _ | pre1
  · rw [hp] at h
    exact absurd h (by simp)
  rw [hp, Option.some_bind] at h
  rcases hiu : rd st.incf u with _ | iu
  · rw [hiu] at h
    exact absurd h (by simp)
  rw [hiu, Option.some_bind] at h
  rcases hin : wr st.incf ei.v (min iu ei.w) with _ | incf1
  · rw [hin] at h
    exact absurd h (by simp)
  rw [hin, Option.some_bind] at h
  rcases hvv : rd st.vis ei.v with _ | visv
  · rw [hvv] at h
    exact absurd h (by simp)
  rw [hvv, Option.some_bind] at h
  by_cases h3 : visv = 0
  · rw [if_pos h3] at h
    rcases hv1 : wr st.vis ei.v 1 with _ | vis1
    · rw [hv1] at h
      exact absurd h (by simp)
    rw [hv1, Option.some_bind, Option.some.injEq] at h
    subst h
    exact ⟨rfl, by simp⟩
  · rw [if_neg h3, Option.some.injEq] at h
    subst h
    exact ⟨rfl, by simp⟩

theorem spfa_for_some : ∀ (fuel : Nat) (st st' : State) (u i : Int),
    spfa_for fuel st u i = some st' → st'.T = st.T ∧ st'.d.length = st.d.length
  | 0, _, _, _, _, h => by simp [spfa_for] at h
  | fuel + 1, st, st', u, i, h => by
    unfold spfa_for at h
    split_ifs at h with hi
    · simp only [Option.some.injEq] at h
      subst h
      exact ⟨rfl, rfl⟩
    · simp only [Option.bind_eq_bind, Option.bind_eq_some] at h
      obtain ⟨st1, h1, ei, -, h2⟩ := h
      obtain ⟨a, b⟩ := relax_some _ _ _ _ h1
      obtain ⟨c, d⟩ := spfa_for_some fuel st1 st' u _ h2
      exact ⟨c.trans a, d.trans b⟩

theorem spfa_while_some : ∀ (fuel : Nat) (st st' : State),
    spfa_while fuel st = some st' → st'.T = st.T ∧ st'.d.length = st.d.length
  | 0, _, _, h => by simp [spfa_while] at h
  | fuel + 1, st, st', h => by
    unfold spfa_while at h
    cases hq : st.q with
    | nil =>
      simp only [hq, Option.some.injEq] at h
      subst h
      exact ⟨rfl, rfl⟩
    | cons x rest =>
      simp only [hq, Option.bind_eq_bind, Option.bind_eq_some] at h
      obtain ⟨vis1, -, hu, -, st2, h2, h3⟩ := h
      obtain ⟨a, b⟩ := spfa_for_some _ _ _ _ _ h2
      obtain ⟨c, d⟩ := spfa_while_some fuel st2 st' h3
      exact ⟨c.trans a, d.trans b⟩

/-- A labelling pass that returns had `S` and `T` inside the arrays. -/
theorem spfa_some_range (fuel : Nat) (st : State) (r : Bool × State)
    (h : spfa fuel st = some r) :
    0 ≤ st.S ∧ st.S < st.d.length ∧ 0 ≤ st.T ∧ st.T < st.d.length := by
  simp only [spfa, Option.bind_eq_bind, Option.bind_eq_some, Option.pure_def,
    Option.some.injEq] at h
  obtain ⟨d1, hd1, incf1, -, st2, h2, dT, hdT, -⟩ := h
  obtain ⟨hS0, hS1, rfl⟩ := wr_some _ _ _ _ hd1
  obtain ⟨hT0, hT1, -⟩ := rd_some_get _ _ _ hdT
  obtain ⟨a, b⟩ := spfa_while_some _ _ _ h2
  simp only [List.length_replicate, List.length_set] at hS1 a b
  rw [a, b] at hT1
  rw [a] at hT0
  exact ⟨hS0, hS1, hT0, hT1⟩

/-- A labelling pass that returns on a sound state: the state was well-formed, the state
left is labelled and sound, and the arena is untouched. -/
theorem sound_spfa (fuel : Nat) (st st1 : State) (b : Bool) (hs : Sound st)
    (h : spfa fuel st = some (b, st1)) :
    Wf st ∧ Labelled st1 ∧ Sound st1 ∧ spfa_frame st st1 ∧
      b = decide (get st1.d st1.T ≠ INF) := by
  obtain ⟨hS0, hS1, hT0, hT1⟩ := spfa_some_range fuel st _ h
  have hw := sound_wf st hs hS0 hS1 hT0 hT1
  obtain ⟨hL, hfr, hl, hb⟩ := spfa_final fuel st st1 b hw hs.q_nil h
  have he := spfa_frame_e _ _ hfr
  have hhead : st1.head = st.head := by rw [hfr]
  refine ⟨hw, hL, ?_, hfr, hb⟩
  refine sound_transfer st st1 (by rw [he]; exact same_arcs_refl _) hl
    (by rw [hL.1.len_incf, hw.len_incf, hl]) (by rw [hL.1.len_pre, hw.len_pre, hl]) hhead
    (by rw [hL.1.len_vis, hw.len_vis, hl]) hL.2.1 hs

/-- An `update()` that returns on a labelled sound state whose sink carries a label: the
result is the augmented state, it is sound, the bottleneck is at most the residual capacity
of every entry of the chain, and non-negative residual capacities stay non-negative. -/
theorem sound_update (fuel : Nat) (st1 st2 : State) (hL : Labelled st1) (hs : Sound st1)
    (hT : get st1.d st1.T ≠ INF) (h : update fuel st1 = some st2) :
    ∃ k, chain st1.e st1.pre st1.S k st1.T ∧ st2 = augmented st1 k ∧ Sound st2 ∧
      (∀ j ∈ path st1.e st1.pre st1.S k st1.T,
        get st1.incf st1.T ≤ (edge st1.e j).w) ∧
      (nonneg st1.e → 0 < get st1.incf st1.T ∧ nonneg st2.e) := by
  obtain ⟨hT0, hT1⟩ := hL.1.T_range
  obtain ⟨k, hk⟩ := labelled_chain st1 hL st1.T hT0 hT1 hT
  obtain ⟨hpo, hf⟩ := labelled_facts st1 hL k st1.T hT0 hT1 hT hk
  obtain ⟨hsame, hall⟩ := labelled_augmented st1 hL hT k hk
  have h1 := update_mono fuel (max fuel (k + 1)) st1 st2 (le_max_left _ _) h
  have h2 := update_eq st1 k (max fuel (k + 1)) hL.1 (by omega) hpo
  have heq : st2 = augmented st1 k := by
    rw [h1] at h2
    exact Option.some.inj h2
  refine ⟨k, hk, heq, ?_, fun j hj => (hf j hj).2.2.2.1, fun hnn => ?_⟩
  · rw [heq]
    exact sound_transfer st1 (augmented st1 k) hsame rfl rfl rfl rfl rfl hs.q_nil hs
  · have hpos := labelled_pos st1 hL (fun i _ _ => nonneg_edge _ hnn i) st1.T hT0 hT1 hT
    refine ⟨hpos, ?_⟩
    rw [heq]
    apply nonneg_of_edge
    intro j hj0 hj1
    rw [hsame.1] at hj1
    rw [hall j hj0 hj1]
    have hwj := nonneg_edge _ hnn j
    split_ifs with m1 m2
    · have := (hf j m1).2.2.2.1
      simp only
      omega
    · simp only
      omega
    · exact hwj

/-- One iteration of `work()` keeps the invariant and non-negative residual capacities. -/
theorem sound_aug (st st' : State) (hs : Sound st) (h : aug_step st st') :
    Sound st' ∧ (nonneg st.e → nonneg st'.e) := by
  obtain ⟨fuel, st1, h1, h2⟩ := h
  obtain ⟨-, hL, hs1, hfr, hb⟩ := sound_spfa fuel st st1 true hs h1
  have hT : get st1.d st1.T ≠ INF := of_decide_eq_true hb.symm
  obtain ⟨k, -, -, hs2, -, hnn⟩ := sound_update fuel st1 st' hL hs1 hT h2
  refine ⟨hs2, fun h0 => (hnn ?_).2⟩
  rw [spfa_frame_e _ _ hfr]
  exact h0

theorem sound_reached (st st' : State) (hs : Sound st) (h : reached st st') :
    Sound st' ∧ (nonneg st.e → nonneg st'.e) := by
  induction h with
  | refl => exact ⟨hs, fun h => h⟩
  | tail _ hstep ih =>
    obtain ⟨a, b⟩ := sound_aug _ _ ih.1 hstep
    exact ⟨a, fun h => b (ih.2 h)⟩

/-- A `work()` that returns has gone through states at the head of its loop up to one on
which the labelling pass does not reach the sink. -/
theorem work_some : ∀ (fuel : Nat) (st st' : State), work fuel st = some st' →
    ∃ stA fuel1, reached st stA ∧ spfa fuel1 stA = some (false, st')
  | 0, _, _, h => by simp [work] at h
  | fuel + 1, st, st', h => by
    unfold work at h
    simp only [Option.bind_eq_bind, Option.bind_eq_some] at h
    obtain ⟨⟨found, st1⟩, h1, h2⟩ := h
    cases found with
    | false =>
      simp only [Bool.false_eq_true, if_false, Option.pure_def, Option.some.injEq] at h2
      subst h2
      exact ⟨st, fuel + 1, Relation.ReflTransGen.refl, h1⟩
    | true =>
      simp only [if_true, Option.bind_eq_some] at h2
      obtain ⟨st2, h3, h4⟩ := h2
      obtain ⟨stA, fuel1, hr, hsA⟩ := work_some fuel st2 st' h4
      exact ⟨stA, fuel1, Relation.ReflTransGen.head ⟨fuel + 1, st1, h1, h3⟩ hr, hsA⟩

/-- A `work()` that returns keeps the invariant and non-negative residual capacities. -/
theorem sound_work (fuel : Nat) (st st' : State) (hs : Sound st) (h : work fuel st = some st') :
    Sound st' ∧ (nonneg st.e → nonneg st'.e) := by
  obtain ⟨stA, fuel1, hr, hsA⟩ := work_some fuel st st' h
  obtain ⟨hsA', hnn⟩ := sound_reached st stA hs hr
  obtain ⟨-, -, hs', hfr, -⟩ := sound_spfa fuel1 stA st' false hsA' hsA
  refine ⟨hs', fun h0 => ?_⟩
  rw [spfa_frame_e _ _ hfr]
  exact hnn h0

end mcmf

/-! ## `solve()` keeps the invariant on an arena that fits `int` -/

namespace mcmf

/-- The invariant does not look at the scalars, at `a`, or at the contents of `d`, `incf`,
`pre` and `vis`. -/
theorem sound_fields (st st' : State) (he : st'.e = st.e) (hd : st'.d.length = st.d.length)
    (hincf : st'.incf.length = st.incf.length) (hpre : st'.pre.length = st.pre.length)
    (hhead : st'.head = st.head) (hvis : st'.vis.length = st.vis.length) (hq : st'.q = [])
    (hs : Sound st) : Sound st' :=
  sound_transfer st st' (by rw [he]; exact same_arcs_refl _) hd hincf hpre hhead hvis hq hs

/-- Setting the residual capacity of one entry to `0`. -/
theorem zero_w (es : List E) (k : Int) (h0 : 0 ≤ k) (h1 : k < es.length) :
    same_arcs es (es.set k.toNat { edge es k with w := 0 }) ∧
    (nonneg es → nonneg (es.set k.toNat { edge es k with w := 0 })) := by
  refine ⟨same_arcs_set_w es k 0 h0 h1, fun hnn => ?_⟩
  apply nonneg_of_edge
  intro j hj0 _
  rw [edge_set _ _ _ _ h0 h1 hj0]
  split_ifs
  · exact le_refl _
  · exact nonneg_edge es hnn j

/-- The start of the optimization phase keeps the invariant and non-negative residual
capacities. -/
theorem sound_optimize_init (st4 st7 : State) (hs : Sound st4)
    (h : optimize_init st4 = some st7) :
    Sound st7 ∧ (nonneg st4.e → nonneg st7.e) := by
  have h2 := hs.two_le
  rw [optimize_init_eq st4 h2, Option.some.injEq] at h
  subst h
  obtain ⟨a1, a3⟩ := zero_w st4.e ((st4.e.length : Int) - 1) (by omega) (by omega)
  obtain ⟨b1, b3⟩ := zero_w (st4.e.set ((st4.e.length : Int) - 1).toNat
    { edge st4.e ((st4.e.length : Int) - 1) with w := 0 }) ((st4.e.length : Int) - 2)
    (by omega) (by simp)
  have hsame : same_arcs st4.e (optimize_start st4).e := same_arcs_trans _ _ _ a1 b1
  exact ⟨sound_transfer st4 (optimize_start st4) hsame rfl rfl rfl rfl rfl hs.q_nil hs,
    fun hnn => b3 (a3 hnn)⟩

theorem addEdge_length (st st' : State) (u v l d c : Int)
    (h : addEdge st u v l d c = some st') : st'.e.length = st.e.length + 2 := by
  obtain ⟨rfl, -⟩ := addEdge_some _ _ _ _ _ _ _ h
  exact added_length _ _ _ _ _ _

theorem imbalance_length (st st' : State) (i : Int) (h : solve_imbalance st i = some st') :
    st.e.length ≤ st'.e.length := by
  simp only [solve_imbalance, Option.bind_eq_bind, Option.bind_eq_some] at h
  obtain ⟨ai, -, h⟩ := h
  split_ifs at h with h1 h2
  · simp only [Option.pure_def, Option.some.injEq] at h
    rw [← h]
  · rw [addEdge_length _ _ _ _ _ _ _ h]
    omega
  · simp only [Option.bind_eq_some] at h
    obtain ⟨ai1, -, h⟩ := h
    rw [addEdge_length _ _ _ _ _ _ _ h]
    omega

theorem feasibility_init_length (st st3 : State) (h : feasibility_init st = some st3) :
    st.e.length ≤ st3.e.length := by
  simp only [feasibility_init, Option.bind_eq_bind, Option.bind_eq_some] at h
  obtain ⟨st2, h2, h3⟩ := h
  have hI := foldlM_keeps (fun s => st.e.length ≤ s.e.length)
    (fun acc (k : Nat) => solve_imbalance acc ((k : Int) + 1))
    (fun s x s' hstep hI => le_trans hI (imbalance_length s s' _ hstep))
    _ _ st2 h2 (le_refl _)
  rw [addEdge_length _ _ _ _ _ _ _ h3]
  omega

theorem reached_length (st st' : State) (h : reached st st') : st'.e.length = st.e.length := by
  induction h with
  | refl => rfl
  | tail _ hstep ih =>
    obtain ⟨fuel, st1, h1, h2⟩ := hstep
    rw [(update_arcs _ _ _ h2).1, spfa_arena _ _ _ _ h1, ih]

theorem in_solve_length (st0 st : State) (h : in_solve st0 st) :
    st0.e.length ≤ st.e.length := by
  rcases h with ⟨st3, h3, hr⟩ | ⟨fuel, st3, st4, st7, h3, h4, h7, hr⟩
  · rw [reached_length _ _ hr]
    exact feasibility_init_length _ _ h3
  · rw [reached_length _ _ hr, (optimize_init_arcs _ _ h7).1, (work_arcs _ _ _ h4).1]
    exact feasibility_init_length _ _ h3

/-- An `addEdge` with lower bound `0` leaves imbalances that fit. -/
theorem imbalances_fit_added (st st' : State) (u v d c : Int) (ha : imbalances_fit st.a)
    (h : addEdge st u v 0 d c = some st') : imbalances_fit st'.a := by
  obtain ⟨rfl, -⟩ := addEdge_some _ _ _ _ _ _ _ h
  have hz : ∀ y, y ∈ st.a ∨ y = 0 → -2 ^ 31 < y ∧ y < 2 ^ 31 := by
    intro y hy
    rcases hy with hy | rfl
    · exact ha y hy
    · exact ⟨by norm_num, by norm_num⟩
  have hv : -2 ^ 31 < wrap32 (get st.a v + 0) ∧ wrap32 (get st.a v + 0) < 2 ^ 31 := by
    have hg := hz _ (get_mem_or_zero st.a v)
    rw [add_zero, wrap32_of_range _ (by omega) hg.2]
    exact hg
  intro x hx
  have hx' : x ∈ (st.a.set v.toNat (wrap32 (get st.a v + 0))).set u.toNat
      (wrap32 (get (st.a.set v.toNat (wrap32 (get st.a v + 0))) u - 0)) := hx
  have hmid : ∀ y ∈ st.a.set v.toNat (wrap32 (get st.a v + 0)), -2 ^ 31 < y ∧ y < 2 ^ 31 := by
    intro y hy
    rcases List.mem_or_eq_of_mem_set hy with h2 | h2
    · exact ha y h2
    · rw [h2]
      exact hv
  rcases List.mem_or_eq_of_mem_set hx' with h1 | h1
  · exact hmid x h1
  · have hg : -2 ^ 31 < get (st.a.set v.toNat (wrap32 (get st.a v + 0))) u ∧
        get (st.a.set v.toNat (wrap32 (get st.a v + 0))) u < 2 ^ 31 := by
      rcases get_mem_or_zero (st.a.set v.toNat (wrap32 (get st.a v + 0))) u with h2 | h2
      · exact hmid _ h2
      · rw [h2]
        exact ⟨by norm_num, by norm_num⟩
    rw [h1, sub_zero, wrap32_of_range _ (by omega) hg.2]
    exact hg

/-- One step of the imbalance loop of `solve_feasibility` keeps the invariant, non-negative
residual capacities and fitting imbalances, when the arena it leaves fits `int`. -/
theorem sound_imbalance (st st' : State) (i : Int) (hs : Sound st)
    (ha : imbalances_fit st.a) (hfit : st'.e.length ≤ 2 ^ 31)
    (h : solve_imbalance st i = some st') :
    Sound st' ∧ (nonneg st.e → nonneg st'.e) ∧ imbalances_fit st'.a := by
  have h' := h
  simp only [solve_imbalance, Option.bind_eq_bind, Option.bind_eq_some] at h
  obtain ⟨ai, hai, h⟩ := h
  obtain ⟨-, -, rfl⟩ := rd_some_get _ _ _ hai
  have hr := ha _ (by
    rcases get_mem_or_zero st.a i with hm | hm
    · exact hm
    · obtain ⟨i0, i1, -⟩ := rd_some_get _ _ _ hai
      unfold get
      rw [List.getD_eq_getElem?_getD, List.getElem?_eq_getElem (by omega)]
      exact List.getElem_mem _ : get st.a i ∈ st.a)
  split_ifs at h with h1 h2
  · simp only [Option.pure_def, Option.some.injEq] at h
    rw [← h]
    exact ⟨hs, fun hn => hn, ha⟩
  · have hl := addEdge_length _ _ _ _ _ _ _ h
    obtain ⟨a, b, -⟩ := sound_added _ _ _ _ _ _ _ hs (by omega) (by norm_num) (by norm_num) h
    exact ⟨a, fun hn => b hn (by omega) (by omega), imbalances_fit_added _ _ _ _ _ _ ha h⟩
  · simp only [Option.bind_eq_some] at h
    obtain ⟨ai1, hai1, h⟩ := h
    have heq : ai1 = get st.a i := by
      rw [hai] at hai1
      exact (Option.some.inj hai1).symm
    subst heq
    have hl := addEdge_length _ _ _ _ _ _ _ h
    have hw : wrap32 (-get st.a i) = -get st.a i := wrap32_of_range _ (by omega) (by omega)
    rw [hw] at h
    obtain ⟨a, b, -⟩ := sound_added _ _ _ _ _ _ _ hs (by omega) (by norm_num) (by norm_num) h
    exact ⟨a, fun hn => b hn (by omega) (by omega), imbalances_fit_added _ _ _ _ _ _ ha h⟩

/-- The preparation of the feasibility phase keeps the invariant and non-negative residual
capacities, when the imbalances fit and the arena it leaves fits `int`. -/
theorem sound_feasibility_init (st st3 : State) (hs : Sound st) (ha : imbalances_fit st.a)
    (hfit : st3.e.length ≤ 2 ^ 31) (h : feasibility_init st = some st3) :
    Sound st3 ∧ (nonneg st.e → nonneg st3.e) := by
  simp only [feasibility_init, Option.bind_eq_bind, Option.bind_eq_some] at h
  obtain ⟨st2, h2, h3⟩ := h
  have hs1 : Sound { st with S := st.n + 1, T := st.n + 2 } :=
    sound_fields st _ rfl rfl rfl rfl rfl rfl hs.q_nil hs
  have hl3 := addEdge_length _ _ _ _ _ _ _ h3
  have hI := foldlM_keeps
    (fun s => s.e.length ≤ 2 ^ 31 → Sound s ∧ (nonneg st.e → nonneg s.e) ∧ imbalances_fit s.a)
    (fun acc (k : Nat) => solve_imbalance acc ((k : Int) + 1))
    (fun s x s' hstep hI hb => by
      have hle := imbalance_length s s' _ hstep
      obtain ⟨i1, i2, i3⟩ := hI (le_trans hle hb)
      obtain ⟨a, b, c⟩ := sound_imbalance s s' _ i1 i3 hb hstep
      exact ⟨a, fun hn => b (i2 hn), c⟩)
    _ _ st2 h2 (fun _ => ⟨hs1, fun hn => hn, ha⟩)
  obtain ⟨i1, i2, -⟩ := hI (by omega)
  obtain ⟨a, b, -⟩ := sound_added _ _ _ _ _ _ _ i1 (by omega) (by norm_num) (by norm_num) h3
  exact ⟨a, fun hn => b (i2 hn) (by rw [INF_val]; omega) (by rw [INF_val]; norm_num)⟩

/-- The states at the head of the loop of `work()` during `solve()` are sound and keep
non-negative residual capacities, when the imbalances fit and the arena fits `int`. -/
theorem sound_in_solve (st0 st : State) (hs : Sound st0) (ha : imbalances_fit st0.a)
    (hfit : st.e.length ≤ 2 ^ 31) (h : in_solve st0 st) :
    Sound st ∧ (nonneg st0.e → nonneg st.e) := by
  rcases h with ⟨st3, h3, hr⟩ | ⟨fuel, st3, st4, st7, h3, h4, h7, hr⟩
  · have hl := reached_length _ _ hr
    obtain ⟨s3, n3⟩ := sound_feasibility_init st0 st3 hs ha (by omega) h3
    obtain ⟨a, b⟩ := sound_reached st3 st s3 hr
    exact ⟨a, fun hn => b (n3 hn)⟩
  · have hl := reached_length _ _ hr
    have hl7 := (optimize_init_arcs _ _ h7).1
    have hl4 := (work_arcs _ _ _ h4).1
    obtain ⟨s3, n3⟩ := sound_feasibility_init st0 st3 hs ha (by omega) h3
    obtain ⟨s4, n4⟩ := sound_work fuel st3 st4 s3 h4
    obtain ⟨s7, n7⟩ := sound_optimize_init st4 st7 s4 h7
    obtain ⟨a, b⟩ := sound_reached st7 st s7 hr
    exact ⟨a, fun hn => b (n7 (n4 (n3 hn)))⟩

theorem edges_length : ∀ (es : List BoundedEdge) (st1 st0 : State),
    es.foldlM (fun acc b => addEdge acc b.u b.v b.l b.d b.c) st1 = some st0 →
    st1.e.length ≤ st0.e.length
  | [], st1, st0, h => by
    simp only [List.foldlM, Option.pure_def, Option.some.injEq] at h
    rw [← h]
  | b :: es, st1, st0, h => by
    simp only [List.foldlM, Option.bind_eq_bind, Option.bind_eq_some] at h
    obtain ⟨st2, h3, h4⟩ := h
    have h5 := edges_length es st2 st0 h4
    rw [addEdge_length _ _ _ _ _ _ _ h3] at h5
    omega

/-- Inserting a list of edges whose costs fit `int` into an arena that still fits `int`
afterwards keeps the invariant, and non-negative residual capacities when every edge has
`0 ≤ d - l < 2^31`. -/
theorem sound_edges : ∀ (es : List BoundedEdge) (st1 st0 : State),
    es.foldlM (fun acc b => addEdge acc b.u b.v b.l b.d b.c) st1 = some st0 → Sound st1 →
    st0.e.length ≤ 2 ^ 31 → (∀ b ∈ es, -2 ^ 31 < b.c ∧ b.c < 2 ^ 31) →
    Sound st0 ∧ ((∀ b ∈ es, 0 ≤ b.d - b.l ∧ b.d - b.l < 2 ^ 31) → nonneg st1.e → nonneg st0.e)
  | [], st1, st0, h, hs, _, _ => by
    simp only [List.foldlM, Option.pure_def, Option.some.injEq] at h
    rw [← h]
    exact ⟨hs, fun _ hn => hn⟩
  | b :: es, st1, st0, h, hs, hfit, hc => by
    simp only [List.foldlM, Option.bind_eq_bind, Option.bind_eq_some] at h
    obtain ⟨st2, h3, h4⟩ := h
    have hl := addEdge_length _ _ _ _ _ _ _ h3
    have hle := edges_length es st2 st0 h4
    have hcb := hc b (List.mem_cons_self _ _)
    obtain ⟨s2, n2, -⟩ := sound_added _ _ _ _ _ _ _ hs (by omega) hcb.1 hcb.2 h3
    obtain ⟨a, c⟩ := sound_edges es st2 st0 h4 s2 hfit
      (fun b1 hb1 => hc b1 (List.mem_cons_of_mem _ hb1))
    exact ⟨a, fun hall hn => c (fun b1 hb1 => hall b1 (List.mem_cons_of_mem _ hb1))
      (n2 hn (hall b (List.mem_cons_self _ _)).1 (hall b (List.mem_cons_self _ _)).2)⟩

/-- The state that `network` builds from edges whose costs fit `int`, on an arena that fits
`int`, is sound, and its residual capacities are not negative when every edge has
`0 ≤ d - l < 2^31`. -/
theorem sound_network (n s t : Int) (es : List BoundedEdge) (st0 : State)
    (h : network n s t es = some st0) (hfit : st0.e.length ≤ 2 ^ 31)
    (hc : ∀ b ∈ es, -2 ^ 31 < b.c ∧ b.c < 2 ^ 31) :
    Sound st0 ∧ ((∀ b ∈ es, 0 ≤ b.d - b.l ∧ b.d - b.l < 2 ^ 31) → nonneg st0.e) := by
  simp only [network, Option.bind_eq_bind, Option.bind_eq_some] at h
  obtain ⟨st1, h1, h2⟩ := h
  obtain ⟨s1, e1, -⟩ := sound_start start st1 n s t n h1
  have hn1 : nonneg st1.e := by
    rw [e1]
    intro x hx
    simp only [List.mem_cons, List.mem_singleton, List.not_mem_nil, or_false, or_self] at hx
    rw [hx]
  obtain ⟨a, c⟩ := sound_edges es st1 st0 h2 s1 hfit hc
  exact ⟨a, fun hall => c hall hn1⟩

end mcmf

/-! ## Residual capacities during `solve()` -/

/-- C15 (amended): residual capacities are never negative while the sums of lower bounds fit
`int`. Let a network be built from `init` by `addEdge` calls with `0 ≤ l ≤ d < 2^31` and
costs `c ≥ 0` with `c * (n + 3) ≤ 10^9`, let every node's imbalance `a[i]` lie strictly
between `-2^31` and `2^31`, and let the arena of `solve()` have at most `2^31` positions. Then
at the head of every iteration of `work()` during `solve()`, in the feasibility phase and in
the optimization phase, every entry of the arena has `w ≥ 0`; and when the labelling pass
`spfa()` returns true there, the predecessor entries lead from `T` back to `S`, the bottleneck
`incf[T]` is positive and does not exceed the residual capacity of any entry of that chain,
`update()` returns, and every entry of the arena still has `w ≥ 0` afterwards. -/
theorem residual_capacities_stay_nonneg (n s t : Int) (es : List mcmf.BoundedEdge)
    (st0 st : mcmf.State) (hn : 0 ≤ n)
    (hes : ∀ b ∈ es, 0 ≤ b.l ∧ b.l ≤ b.d ∧ b.d < 2 ^ 31 ∧ 0 ≤ b.c ∧
      b.c * (n + 3) ≤ 1000000000)
    (hnet : mcmf.network n s t es = some st0) (ha : mcmf.imbalances_fit st0.a)
    (hin : mcmf.in_solve st0 st) (hfit : st.e.length ≤ 2 ^ 31) :
    (∀ e ∈ st.e, 0 ≤ e.w) ∧
    ∀ fuel st1, mcmf.spfa fuel st = some (true, st1) →
      ∃ k, mcmf.chain st1.e st1.pre st1.S k st1.T ∧
        0 < mcmf.get st1.incf st1.T ∧
        (∀ j ∈ mcmf.path st1.e st1.pre st1.S k st1.T,
          mcmf.get st1.incf st1.T ≤ (mcmf.edge st1.e j).w) ∧
        ∀ fuel1, k < fuel1 → ∃ st2, mcmf.update fuel1 st1 = some st2 ∧
          ∀ e ∈ st2.e, 0 ≤ e.w := by
  have hle := mcmf.in_solve_length st0 st hin
  have hc : ∀ b ∈ es, -2 ^ 31 < b.c ∧ b.c < 2 ^ 31 := by
    intro b hb
    obtain ⟨-, -, -, h4, h5⟩ := hes b hb
    have h6 : b.c ≤ b.c * (n + 3) := by nlinarith
    exact ⟨by omega, by omega⟩
  obtain ⟨hs0, hn0⟩ := mcmf.sound_network n s t es st0 hnet (by omega) hc
  have hnn0 : mcmf.nonneg st0.e := hn0 (fun b hb => by
    obtain ⟨h1, h2, h3, -⟩ := hes b hb
    exact ⟨by omega, by omega⟩)
  obtain ⟨hs, hnn⟩ := mcmf.sound_in_solve st0 st hs0 ha hfit hin
  have hnnst := hnn hnn0
  refine ⟨hnnst, fun fuel st1 hsp => ?_⟩
  obtain ⟨-, hL, hs1, hfr, hb⟩ := mcmf.sound_spfa fuel st st1 true hs hsp
  have hT : mcmf.get st1.d st1.T ≠ mcmf.INF := of_decide_eq_true hb.symm
  obtain ⟨hT0, hT1⟩ := hL.1.T_range
  obtain ⟨k, hk⟩ := mcmf.labelled_chain st1 hL st1.T hT0 hT1 hT
  obtain ⟨hpo, hf⟩ := mcmf.labelled_facts st1 hL k st1.T hT0 hT1 hT hk
  have hnn1 : mcmf.nonneg st1.e := by
    rw [mcmf.spfa_frame_e _ _ hfr]
    exact hnnst
  obtain ⟨-, -, -, -, -, hfin⟩ := mcmf.sound_update (k + 1) st1 _ hL hs1 hT
    (mcmf.update_eq st1 k (k + 1) hL.1 (by omega) hpo)
  obtain ⟨hpos, hnn2⟩ := hfin hnn1
  exact ⟨k, hk, hpos, fun j hj => (hf j hj).2.2.2.1,
    fun fuel1 hf1 => ⟨mcmf.augmented st1 k, mcmf.update_eq st1 k fuel1 hL.1 hf1 hpo, hnn2⟩⟩

/-- Witness of `residual_capacities_stay_nonneg`: the network of `addEdge(1, 2, 2, 5, 3)` and
`addEdge(2, 1, 0, 4, 1)` at the start of the feasibility phase, where the first labelling pass
returns true. -/
theorem residual_capacities_stay_nonneg_witness :
    mcmf.network 2 1 2 [⟨1, 2, 2, 5, 3⟩, ⟨2, 1, 0, 4, 1⟩] = some mcmf.two_edge_net ∧
    mcmf.feasibility_init mcmf.two_edge_net = some mcmf.two_edge_ready ∧
    (mcmf.spfa 10 mcmf.two_edge_ready).map (fun r => r.1) = some true ∧
    (∀ e ∈ mcmf.two_edge_ready.e, 0 ≤ e.w) ∧
    ∀ fuel st1, mcmf.spfa fuel mcmf.two_edge_ready = some (true, st1) →
      ∃ k, mcmf.chain st1.e st1.pre st1.S k st1.T ∧
        0 < mcmf.get st1.incf st1.T ∧
        (∀ j ∈ mcmf.path st1.e st1.pre st1.S k st1.T,
          mcmf.get st1.incf st1.T ≤ (mcmf.edge st1.e j).w) ∧
        ∀ fuel1, k < fuel1 → ∃ st2, mcmf.update fuel1 st1 = some st2 ∧
          ∀ e ∈ st2.e, 0 ≤ e.w :=
  ⟨by decide!, by decide!, by decide!,
    residual_capacities_stay_nonneg 2 1 2 [⟨1, 2, 2, 5, 3⟩, ⟨2, 1, 0, 4, 1⟩]
      mcmf.two_edge_net mcmf.two_edge_ready (by decide) (by decide) (by decide!) (by decide)
      (Or.inl ⟨mcmf.two_edge_ready, by decide!, Relation.ReflTransGen.refl⟩) (by decide)⟩

/-- C15 as the specification states it fails: on the network of `addEdge(1, 2, 2^30, 2^30, 0)`,
`addEdge(1, 3, 2^30, 2^30, 0)`, `addEdge(2, 4, 0, 5, 0)` and `addEdge(4, 3, 1, 1, 0)`, all with
`0 ≤ l ≤ d`, the imbalance of node `1` is `-2^31`, whose negation does not fit `int`: the
feasibility phase of `solve()` inserts the edge from node `1` to `T = 6` at position `10` with
capacity `-2^31`, the first labelling pass returns true, and after the augmentation by
`update()` the entry at position `10` still has `w = -2147483648`. -/
theorem residual_capacity_negative_after_update :
    ((mcmf.network 4 1 3 [⟨1, 2, 1073741824, 1073741824, 0⟩, ⟨1, 3, 1073741824, 1073741824, 0⟩,
        ⟨2, 4, 0, 5, 0⟩, ⟨4, 3, 1, 1, 0⟩]).bind mcmf.feasibility_init).bind (fun st3 =>
      (mcmf.spfa 20 st3).bind (fun r =>
        (mcmf.update 20 r.2).map (fun st2 =>
          (r.1, mcmf.get st3.a 1, st2.maxflow, mcmf.edge st2.e 10)))) =
      some (true, -2147483648, 1, ⟨1, 4, 6, -2147483648, 0⟩) := by decide!

/-! ## Walks in the residual graph -/

namespace mcmf

end mcmf

/-! ## The labelling pass finishes on a residual graph without negative-cost cycles -/

namespace mcmf

end mcmf

/-! ## What the labelling pass computes -/

namespace mcmf

end mcmf

